import Mathlib

/-!
# mbuf chains (sys/kern/uipc_mbuf.c)

A shallow embedding of the mbuf chain routines.  A chain is the list of its
nodes in `m_next` order (`[]` is the NULL pointer).  External storage is one
flat byte-addressed memory shared by all nodes; inline storage (`m_dat`)
belongs to its node.  `m_data` is an address of external memory when `M_EXT`
is set and an offset into the node's own `m_dat` array otherwise
(`m_pktdat` is the offset `MLEN - MHLEN`).
-/

namespace UipcMbuf

/-- Bytes are opaque values that are only ever copied. -/
abbrev Byte := Nat

/-- Byte-addressed storage. -/
abbrev Store := Nat → Byte

/-- Constants of sys/mbuf.h and sys/param.h and the tunables `max_protohdr` and
`max_linkhdr`, which the routines take as given.  `M_COPYALL` is the length
that stands for "copy to the end of the chain". -/
structure Consts where
  MLEN : Nat
  MHLEN : Nat
  MCLBYTES : Nat
  MINCLSIZE : Nat
  M_COPYALL : Nat
  sizeof_long : Nat
  max_protohdr : Nat
  max_linkhdr : Nat

/-- Modelled from the spec: the storage-kind tags `EXT_*` of sys/mbuf.h, which is
not among the sources.  This one is the "pool-cluster" kind, whose release
"returns the block to the Cluster Pool". -/
def EXT_CLUSTER : Nat := 1
/-- Modelled from the spec: a "custom" kind (sendfile buffers), whose release
"invokes caller-supplied callback". -/
def EXT_SFBUF : Nat := 2
/-- Modelled from the spec: the "combined" kind, which "binds a node and its
backing buffer as a single allocation unit". -/
def EXT_PACKET : Nat := 3
/-- Modelled from the spec: a "custom" kind (network driver buffers). -/
def EXT_NET_DRV : Nat := 100
/-- Modelled from the spec: a "custom" kind (module buffers). -/
def EXT_MOD_TYPE : Nat := 200
/-- Modelled from the spec: the kind whose counter is "already-owned-elsewhere"
and is not freed with the buffer. -/
def EXT_EXTREF : Nat := 400

/-- The flag word `m_flags` as the set of its bits; `proto` holds the
protocol-private and link-level bits, all of which are in `M_COPYFLAGS`. -/
structure Flags where
  M_EXT : Bool
  M_PKTHDR : Bool
  M_EOR : Bool
  M_RDONLY : Bool
  M_FREELIST : Bool
  proto : Nat
deriving DecidableEq

/-- The packet header block `struct pkthdr`. -/
structure pkthdr where
  rcvif : Nat
  len : Int
  header : Nat
  tags : List Nat
deriving DecidableEq

/-- The external storage descriptor `struct m_ext`; `ref_cnt = none` is the
NULL counter pointer. -/
structure m_ext where
  ext_buf : Nat
  ext_size : Nat
  ext_free : Nat
  ext_args : Nat
  ref_cnt : Option Nat
  ext_type : Nat
deriving DecidableEq

/-- One node, `struct mbuf`, without its `m_next` link (the list order).
`addr` is the address of the node itself. -/
structure mbuf where
  addr : Nat
  m_nextpkt : Nat
  m_data : Nat
  m_len : Nat
  m_flags : Flags
  m_type : Nat
  m_pkthdr : pkthdr
  m_ext : m_ext
  m_dat : Store

/-- A chain of nodes linked by `m_next`. -/
abbrev Chain := List mbuf

/-- Read `n` bytes of a store starting at `p`. -/
def rd (s : Store) (p n : Nat) : List Byte :=
  (List.range n).map (fun i => s (p + i))

/-- Store the bytes `bs` at `p` (the effect of `bcopy` on the destination). -/
def wr (s : Store) (p : Nat) (bs : List Byte) : Store :=
  fun a => if p ≤ a ∧ a < p + bs.length then bs.getD (a - p) 0 else s a

/-- The storage `mtod(m)` points into. -/
def storeOf (mem : Store) (m : mbuf) : Store :=
  if m.m_flags.M_EXT then mem else m.m_dat

/-- The valid bytes of one node: `m_len` bytes at `mtod(m)`. -/
def mbytes (mem : Store) (m : mbuf) : List Byte :=
  rd (storeOf mem m) m.m_data m.m_len

/-- The byte content of a chain: the nodes' valid bytes in order. -/
def chainBytes (mem : Store) : Chain → List Byte
  | [] => []
  | m :: ms => mbytes mem m ++ chainBytes mem ms

/-- The sum of the node lengths. -/
def totalLen : Chain → Nat
  | [] => 0
  | m :: ms => m.m_len + totalLen ms

/-- The first loop of `m_copydata`, `m_copym` and `m_apply`: skip whole nodes
while `off > 0`; the result is the node reached and the offset left.  `none`
is the KASSERT `m != NULL`. -/
def seek : Chain → Nat → Option (Chain × Nat)
  | c, 0 => some (c, 0)
  | [], _ + 1 => none
  | m :: ms, off + 1 =>
      if off + 1 < m.m_len then some (m :: ms, off + 1)
      else seek ms (off + 1 - m.m_len)

/-- The second loop of `m_copydata`: the bytes stored through `cp`, in order.
At this point `off` is `0` or below `m_len`, so `m_len - off` does not wrap. -/
def m_copydata_loop (mem : Store) : Chain → Nat → Nat → Option (List Byte)
  | _, _, 0 => some []
  | [], _, _ + 1 => none
  | m :: ms, off, len + 1 =>
      let count := min (m.m_len - off) (len + 1)
      match m_copydata_loop mem ms 0 (len + 1 - count) with
      | none => none
      | some r => some (rd (storeOf mem m) (m.m_data + off) count ++ r)

/-- `m_copydata(m, off, len, cp)`: the `len` bytes written to `cp`, or `none`
when a KASSERT fires.  The chain is `const` and is not returned. -/
def m_copydata (mem : Store) (m : Chain) (off len : Nat) : Option (List Byte) :=
  match seek m off with
  | none => none
  | some (m1, off1) => m_copydata_loop mem m1 off1 len


/-! ## The node allocator -/

/-- The outcomes of the successive node allocations of a run: `none` is a
failed allocation, `some (a, d)` a node at address `a` whose `m_dat` array
initially holds `d`.  An exhausted list fails. -/
abbrev Pool := List (Option (Nat × Store))

/-- The header block of a freshly allocated node. -/
def pkthdr0 : pkthdr := { rcvif := 0, len := 0, header := 0, tags := [] }

/-- The descriptor of a node that has no external storage. -/
def m_ext0 : m_ext :=
  { ext_buf := 0, ext_size := 0, ext_free := 0, ext_args := 0, ref_cnt := none, ext_type := 0 }

/-- No flag set. -/
def flags0 : Flags :=
  { M_EXT := false, M_PKTHDR := false, M_EOR := false, M_RDONLY := false,
    M_FREELIST := false, proto := 0 }

/-- A node as the allocator hands it out: no flags, no links, length 0,
`m_data = m_dat`. -/
def newNode (a : Nat) (d : Store) (type : Nat) : mbuf :=
  { addr := a, m_nextpkt := 0, m_data := 0, m_len := 0, m_flags := flags0,
    m_type := type, m_pkthdr := pkthdr0, m_ext := m_ext0, m_dat := d }

/-- A header node as the allocator hands it out: `M_PKTHDR`, `m_data = m_pktdat`
and an empty header block. -/
def newHdrNode (K : Consts) (a : Nat) (d : Store) (type : Nat) : mbuf :=
  { newNode a d type with
    m_data := K.MLEN - K.MHLEN, m_flags := { flags0 with M_PKTHDR := true } }

/-- Modelled from the spec: the Node Pool's `alloc(wait_mode, kind, want_header)`
for `want_header = false`, that is `MGET`/`m_get` of sys/mbuf.h, which is not
among the sources.  The allocation fails when the pool says so. -/
def m_get (pool : Pool) (type : Nat) : Option mbuf × Pool :=
  match pool with
  | [] => (none, [])
  | none :: p => (none, p)
  | some (a, d) :: p => (some (newNode a d type), p)

/-- Modelled from the spec: the Node Pool's `alloc` for `want_header = true`,
that is `MGETHDR`/`m_gethdr` of sys/mbuf.h, which is not among the sources. -/
def m_gethdr (K : Consts) (pool : Pool) (type : Nat) : Option mbuf × Pool :=
  match pool with
  | [] => (none, [])
  | none :: p => (none, p)
  | some (a, d) :: p => (some (newHdrNode K a d type), p)

/-! ## m_copyback -/

/-- The state of the walk of `m_copyback` when it leaves the loops: the nodes
from the current one on, external memory, the pool and `totlen`. -/
structure CopybackOut where
  chain : Chain
  mem : Store
  pool : Pool
  totlen : Nat

/-- One `bcopy(cp, off + mtod(m), mlen)` of `m_copyback`: the bytes land in
external memory when the node has `M_EXT`, in the node's own array otherwise. -/
def storeInto (mem : Store) (m : mbuf) (p : Nat) (bs : List Byte) : mbuf × Store :=
  if m.m_flags.M_EXT then (m, wr mem p bs)
  else ({ m with m_dat := wr m.m_dat p bs }, mem)

/-- The body of the second loop of `m_copyback` on the node `m`, up to the test
`len == 0`: the node and memory after the `bcopy`, then `cp`, `len`, `totlen`. -/
def m_copyback_body (mem : Store) (m : mbuf) (off len totlen : Nat) (cp : List Byte) :
    mbuf × Store × List Byte × Nat × Nat :=
  let mlen := min (m.m_len - off) len
  let r := storeInto mem m (off + m.m_data) (cp.take mlen)
  (r.1, r.2, cp.drop mlen, len - mlen, totlen + (mlen + off))

/-- The second loop of `m_copyback` from the point where `m->m_next == NULL`
and bytes remain: `m_get` a node of length `min(MLEN, len)`, link it, run the
loop body on it, and go on while bytes remain.  A failed `m_get` is `break`. -/
def m_copyback_grow2 (K : Consts) (type : Nat) :
    Pool → Store → Nat → Nat → List Byte → CopybackOut
  | [], mem, _, totlen, _ => { chain := [], mem := mem, pool := [], totlen := totlen }
  | none :: p, mem, _, totlen, _ => { chain := [], mem := mem, pool := p, totlen := totlen }
  | some (a, d) :: p, mem, len, totlen, cp =>
      let n := { newNode a d type with m_len := min K.MLEN len }
      let b := m_copyback_body mem n 0 len totlen cp
      if b.2.2.2.1 = 0 then
        { chain := [b.1], mem := b.2.1, pool := p, totlen := b.2.2.2.2 }
      else
        let r := m_copyback_grow2 K type p b.2.1 b.2.2.2.1 b.2.2.2.2 b.2.2.1
        { r with chain := b.1 :: r.chain }

/-- The second loop of `m_copyback`, `while (len > 0)`, entered at the first
node of the given chain. -/
def m_copyback_loop2 (K : Consts) :
    Chain → Store → Pool → Nat → Nat → Nat → List Byte → CopybackOut
  | [], mem, pool, _, _, totlen, _ =>
      { chain := [], mem := mem, pool := pool, totlen := totlen }
  | m :: ms, mem, pool, off, len, totlen, cp =>
      if len = 0 then { chain := m :: ms, mem := mem, pool := pool, totlen := totlen }
      else
        let b := m_copyback_body mem m off len totlen cp
        if b.2.2.2.1 = 0 then
          { chain := b.1 :: ms, mem := b.2.1, pool := pool, totlen := b.2.2.2.2 }
        else
          match ms with
          | [] =>
              let r := m_copyback_grow2 K m.m_type pool b.2.1 b.2.2.2.1 b.2.2.2.2 b.2.2.1
              { r with chain := b.1 :: r.chain }
          | m1 :: ms1 =>
              let r := m_copyback_loop2 K (m1 :: ms1) b.2.1 pool 0 b.2.2.2.1 b.2.2.2.2 b.2.2.1
              { r with chain := b.1 :: r.chain }

/-- The first loop of `m_copyback` from the point where `m->m_next == NULL`
and `off` is still beyond the node: `m_get` a zeroed node of length
`min(MLEN, len + off)`, link it and go on; a failed `m_get` is `goto out`.
When `off` no longer exceeds the node the second loop takes over. -/
def m_copyback_grow1 (K : Consts) (type : Nat) :
    Pool → Store → Nat → Nat → Nat → List Byte → CopybackOut
  | [], mem, _, _, totlen, _ => { chain := [], mem := mem, pool := [], totlen := totlen }
  | none :: p, mem, _, _, totlen, _ => { chain := [], mem := mem, pool := p, totlen := totlen }
  | some (a, d) :: p, mem, off, len, totlen, cp =>
      let n0 := newNode a d type
      let n := { n0 with m_dat := wr n0.m_dat n0.m_data (List.replicate K.MLEN 0),
                         m_len := min K.MLEN (len + off) }
      if off > n.m_len then
        let r := m_copyback_grow1 K type p mem (off - n.m_len) len (totlen + n.m_len) cp
        { r with chain := n :: r.chain }
      else m_copyback_loop2 K [n] mem p off len totlen cp

/-- The first loop of `m_copyback`, `while (off > (mlen = m->m_len))`. -/
def m_copyback_loop1 (K : Consts) :
    Chain → Store → Pool → Nat → Nat → Nat → List Byte → CopybackOut
  | [], mem, pool, _, _, totlen, _ =>
      { chain := [], mem := mem, pool := pool, totlen := totlen }
  | m :: ms, mem, pool, off, len, totlen, cp =>
      if off > m.m_len then
        match ms with
        | [] =>
            let r := m_copyback_grow1 K m.m_type pool mem (off - m.m_len) len
              (totlen + m.m_len) cp
            { r with chain := m :: r.chain }
        | m1 :: ms1 =>
            let r := m_copyback_loop1 K (m1 :: ms1) mem pool (off - m.m_len) len
              (totlen + m.m_len) cp
            { r with chain := m :: r.chain }
      else m_copyback_loop2 K (m :: ms) mem pool off len totlen cp

/-- The statement at `out:` of `m_copyback`: raise the header length of the
first node to `totlen`. -/
def m_copyback_out (c : Chain) (totlen : Nat) : Chain :=
  match c with
  | [] => []
  | m :: ms =>
      if m.m_flags.M_PKTHDR ∧ m.m_pkthdr.len < (totlen : Int) then
        { m with m_pkthdr := { m.m_pkthdr with len := (totlen : Int) } } :: ms
      else m :: ms

/-- `m_copyback(m0, off, len, cp)`: the chain, external memory and pool
afterwards.  `cp` holds at least `len` bytes. -/
def m_copyback (K : Consts) (m0 : Chain) (mem : Store) (pool : Pool) (off len : Nat)
    (cp : List Byte) : Chain × Store × Pool :=
  match m0 with
  | [] => ([], mem, pool)
  | m :: ms =>
      let r := m_copyback_loop1 K (m :: ms) mem pool off len 0 cp
      (m_copyback_out r.chain r.totlen, r.mem, r.pool)

/-! ## External storage: attach, share, release -/

/-- The reference counters, by address. -/
abbrev Refs := Nat → Nat

/-- What a release hands back to its owner, in program order. -/
inductive Event where
  | zfree_mbuf (addr : Nat)
  | zfree_pack (addr : Nat)
  | zfree_clust (buf : Nat)
  | ext_free (fn buf args : Nat)
  | free_cnt (cnt : Nat)
deriving DecidableEq

/-- The storage teardowns among the events: the packet-zone free, the cluster
free and the `ext_free` callback. -/
def Event.isTeardown : Event → Bool
  | .zfree_pack _ => true
  | .zfree_clust _ => true
  | .ext_free _ _ _ => true
  | _ => false

/-- The number of storage teardowns in a log. -/
def teardowns (log : List Event) : Nat := (log.filter Event.isTeardown).length

/-- Set one counter. -/
def setRef (refs : Refs) (r v : Nat) : Refs := fun a => if a = r then v else refs a

/-- The flag word `m_flags | fl`. -/
def Flags.or (a b : Flags) : Flags :=
  { M_EXT := a.M_EXT || b.M_EXT, M_PKTHDR := a.M_PKTHDR || b.M_PKTHDR,
    M_EOR := a.M_EOR || b.M_EOR, M_RDONLY := a.M_RDONLY || b.M_RDONLY,
    M_FREELIST := a.M_FREELIST || b.M_FREELIST, proto := a.proto ||| b.proto }

/-- The flag word `fl & M_COPYFLAGS`: every bit but `M_EXT` and `M_FREELIST`. -/
def copyflags (a : Flags) : Flags := { a with M_EXT := false, M_FREELIST := false }

/-- `m_extadd(mb, buf, size, freef, args, flags, type)`.  `find` is
`uma_find_refcnt(zone_clust, ·)` and `malloc` the outcome of the counter
allocation (`none` when it fails). -/
def m_extadd (find : Nat → Nat) (malloc : Option Nat) (refs : Refs) (mb : mbuf)
    (buf size freef args : Nat) (flags : Flags) (type : Nat) : mbuf × Refs :=
  let ref_cnt : Option Nat :=
    if type = EXT_CLUSTER then some (find mb.m_ext.ext_buf)
    else if type = EXT_EXTREF then mb.m_ext.ref_cnt
    else none
  let rc : Option Nat := match ref_cnt with
    | none => malloc
    | some r => some r
  match rc with
  | none => ({ mb with m_ext := { mb.m_ext with ref_cnt := none } }, refs)
  | some r =>
      ({ mb with
          m_flags := mb.m_flags.or ({ flags with M_EXT := true }),
          m_data := buf,
          m_ext := { ext_buf := buf, ext_size := size, ext_free := freef, ext_args := args,
                     ref_cnt := some r, ext_type := type } },
        setRef refs r 1)

/-- The subtraction `cnt - 1` on `u_int`. -/
def u_int_dec (cnt : Nat) : Nat := (cnt + 4294967296 - 1) % 4294967296

/-- `mb_free_ext(m)` run on its own: the compare-and-swap succeeds at the first
attempt, storing `cnt - 1` (an unsigned subtraction).  The result is the
counters and the log afterwards. -/
def mb_free_ext (m : mbuf) (refs : Refs) (log : List Event) : Refs × List Event :=
  let dofree0 : Bool := m.m_ext.ref_cnt.isNone
  let st : Refs × Bool := match m.m_ext.ref_cnt with
    | none => (refs, dofree0)
    | some r =>
        let cnt := refs r
        (setRef refs r (u_int_dec cnt), decide (cnt = 1))
  if st.2 then
    if m.m_ext.ext_type = EXT_PACKET then
      (st.1, log ++ [Event.zfree_pack m.addr])
    else if m.m_ext.ext_type = EXT_CLUSTER then
      (st.1, log ++ [Event.zfree_clust m.m_ext.ext_buf, Event.zfree_mbuf m.addr])
    else
      let l1 := log ++ [Event.ext_free m.m_ext.ext_free m.m_ext.ext_buf m.m_ext.ext_args]
      let l2 := if m.m_ext.ext_type ≠ EXT_EXTREF then
          match m.m_ext.ref_cnt with
          | none => l1
          | some r => l1 ++ [Event.free_cnt r]
        else l1
      (st.1, l2 ++ [Event.zfree_mbuf m.addr])
  else (st.1, log ++ [Event.zfree_mbuf m.addr])

/-- Modelled from the spec: `m_free` of sys/mbuf.h, which is not among the
sources: release of one node, which "decrements the shared reference count and
frees the external buffer only when it reaches zero, then always returns the
node itself to its pool".  A node with `M_EXT` goes through `mb_free_ext`. -/
def m_free (m : mbuf) (refs : Refs) (log : List Event) : Refs × List Event :=
  if m.m_flags.M_EXT then mb_free_ext m refs log
  else (refs, log ++ [Event.zfree_mbuf m.addr])

/-- `m_freem(mb)`: `m_free` every node of the chain, first to last. -/
def m_freem : Chain → Refs → List Event → Refs × List Event
  | [], refs, log => (refs, log)
  | m :: ms, refs, log =>
      let r := m_free m refs log
      m_freem ms r.1 r.2

/-- The counter a node's external buffer is counted by: its own `ref_cnt`, or
the slot embedded with the buffer when none has been assigned yet. -/
def slotOf (find : Nat → Nat) (m : mbuf) : Nat :=
  match m.m_ext.ref_cnt with
  | some r => r
  | none => find m.m_ext.ext_buf

/-- Modelled from the spec: `MEXT_ADD_REF` of sys/mbuf.h, which is not among
the sources.  "The external buffer's reference count increases by exactly 1 per
new reference created"; a buffer with no counter assigned yet ("storage
effectively unshared") takes the counter slot embedded with it ("an existing
embedded counter slot is reused"), which then holds 2. -/
def MEXT_ADD_REF (find : Nat → Nat) (m : mbuf) (refs : Refs) : mbuf × Refs :=
  match m.m_ext.ref_cnt with
  | none =>
      let r := find m.m_ext.ext_buf
      ({ m with m_ext := { m.m_ext with ref_cnt := some r } }, setRef refs r 2)
  | some r => (m, setRef refs r (refs r + 1))

/-! ## Packet header duplication -/

/-- `m_dup_pkthdr(to, from, how)` without MAC; `tags_ok` is the outcome of
`m_tag_copy_chain`, which leaves `to` with a copy of the tags of `from` or,
when it fails, with none. -/
def m_dup_pkthdr (K : Consts) (to_ from_ : mbuf) (tags_ok : Bool) : mbuf × Bool :=
  let fl : Flags := { copyflags from_.m_flags with M_EXT := to_.m_flags.M_EXT }
  let data := if fl.M_EXT = false then K.MLEN - K.MHLEN else to_.m_data
  let hdr : pkthdr := from_.m_pkthdr
  let to1 : mbuf :=
    { to_ with m_flags := fl, m_data := data, m_pkthdr := { hdr with tags := [] } }
  if tags_ok then ({ to1 with m_pkthdr := hdr }, true)
  else (to1, false)

/-! ## m_copym -/

/-- What `m_copym` leaves: the chain returned (`[]` is NULL), the source chain,
the counters, the pool and the release log. -/
structure CopymOut where
  top : Chain
  src : Chain
  refs : Refs
  pool : Pool
  log : List Event

/-- The label `nospace` of `m_copym`: free what was built and return NULL. -/
def m_copym_nospace (top src : Chain) (refs : Refs) (pool : Pool) (log : List Event) :
    CopymOut :=
  let r := m_freem top refs log
  { top := [], src := src, refs := r.1, pool := pool, log := r.2 }

/-- The part of the body of the copy loop of `m_copym` after the header has
been dealt with: set the length of the new node `n`, then share the external
buffer of `m` or copy its bytes.  The result is the new node, the source node
and the counters; `none` is a `bcopy` past the end of the array `m_dat`. -/
def m_copym_fill (K : Consts) (find : Nat → Nat) (m n : mbuf) (off len : Nat) (refs : Refs) :
    Option (mbuf × mbuf × Refs) :=
  let n1 : mbuf := { n with m_len := min len (m.m_len - off) }
  if m.m_flags.M_EXT then
    let n2 : mbuf :=
      { n1 with m_data := m.m_data + off, m_ext := m.m_ext,
                m_flags := { n1.m_flags with M_EXT := true } }
    let a := MEXT_ADD_REF find m refs
    some ({ n2 with m_ext := { n2.m_ext with ref_cnt := a.1.m_ext.ref_cnt } }, a.1, a.2)
  else if n1.m_data + n1.m_len ≤ K.MLEN then
    some ({ n1 with m_dat := wr n1.m_dat n1.m_data (rd m.m_dat (m.m_data + off) n1.m_len) },
      m, refs)
  else none

/-- The copy loop `while (len > 0)` of `m_copym`.  `top` is the chain built so
far, `done` the source nodes already passed; `none` is a KASSERT or a store
outside a node. -/
def m_copym_loop (K : Consts) (find : Nat → Nat) (tags_ok : Bool) (off0 : Nat) :
    Chain → Nat → Nat → Bool → Chain → Chain → Refs → Pool → List Event → Option CopymOut
  | [], _, len, _, top, done, refs, pool, log =>
      if len = 0 ∨ len = K.M_COPYALL then
        some { top := top, src := done, refs := refs, pool := pool, log := log }
      else none
  | m :: ms, off, len, copyhdr, top, done, refs, pool, log =>
      if len = 0 then
        some { top := top, src := done ++ m :: ms, refs := refs, pool := pool, log := log }
      else
        let g := if copyhdr then m_gethdr K pool m.m_type else m_get pool m.m_type
        match g.1 with
        | none => some (m_copym_nospace top (done ++ m :: ms) refs g.2 log)
        | some n =>
          let d := if copyhdr then m_dup_pkthdr K n m tags_ok else (n, true)
          if d.2 = false then
            some (m_copym_nospace (top ++ [d.1]) (done ++ m :: ms) refs g.2 log)
          else
            let n1 : mbuf :=
              if copyhdr then
                { d.1 with m_pkthdr :=
                    { d.1.m_pkthdr with
                      len := if len = K.M_COPYALL then d.1.m_pkthdr.len - (off0 : Int)
                             else (len : Int) } }
              else d.1
            match m_copym_fill K find m n1 off len refs with
            | none => none
            | some (n2, m1, refs1) =>
              m_copym_loop K find tags_ok off0 ms 0
                (if len ≠ K.M_COPYALL then len - n2.m_len else len) false
                (top ++ [n2]) (done ++ [m1]) refs1 g.2 log

/-- The test `off == 0 && m->m_flags & M_PKTHDR` at the head of `m_copym`. -/
def m_copym_copyhdr (m : Chain) (off0 : Nat) : Bool :=
  match m with
  | [] => false
  | m0 :: _ => decide (off0 = 0) && m0.m_flags.M_PKTHDR

/-- `m_copym(m, off0, len, wait)`.  `find` is `uma_find_refcnt(zone_clust, ·)`
and `tags_ok` the outcome of the tag copy of `m_dup_pkthdr`.  On NULL the call
does not return: with `off0 = 0` the test at its head reads `m->m_flags`, and
with `off0 > 0` the KASSERT `m != NULL` of the first loop fails. -/
def m_copym (K : Consts) (find : Nat → Nat) (tags_ok : Bool) (m : Chain) (off0 len : Nat)
    (refs : Refs) (pool : Pool) (log : List Event) : Option CopymOut :=
  match m with
  | [] => none
  | m0 :: ms =>
    match seek (m0 :: ms) off0 with
    | none => none
    | some (m1, off) =>
        m_copym_loop K find tags_ok off0 m1 off len (m_copym_copyhdr (m0 :: ms) off0) []
          ((m0 :: ms).take ((m0 :: ms).length - m1.length)) refs pool log

/-! ## Well-formed nodes and successful runs -/

/-- The data range of a node lies within its storage: the three pointer checks
at the head of the loop of `m_sanity`. -/
def Fits (K : Consts) (m : mbuf) : Prop :=
  if m.m_flags.M_EXT then
    m.m_ext.ext_buf ≤ m.m_data ∧ m.m_data + m.m_len ≤ m.m_ext.ext_buf + m.m_ext.ext_size
  else if m.m_flags.M_PKTHDR then
    K.MLEN - K.MHLEN ≤ m.m_data ∧ m.m_data + m.m_len ≤ K.MLEN
  else m.m_data + m.m_len ≤ K.MLEN

instance (K : Consts) (m : mbuf) : Decidable (Fits K m) := by
  unfold Fits; infer_instance

/-- Every node of the chain lies within its storage. -/
def ChainFits (K : Consts) : Chain → Prop
  | [] => True
  | m :: ms => Fits K m ∧ ChainFits K ms

instance ChainFits.dec (K : Consts) : (c : Chain) → Decidable (ChainFits K c)
  | [] => isTrue trivial
  | m :: ms =>
      match (inferInstance : Decidable (Fits K m)), ChainFits.dec K ms with
      | isTrue h1, isTrue h2 => isTrue ⟨h1, h2⟩
      | isFalse h1, _ => isFalse (fun h => h1 h.1)
      | _, isFalse h2 => isFalse (fun h => h2 h.2)

/-- The next `n` node allocations succeed. -/
def allocOK : Pool → Nat → Bool
  | _, 0 => true
  | some _ :: p, n + 1 => allocOK p n
  | _, _ + 1 => false

/-! ## A sample configuration -/

/-- The constants of an amd64 kernel with `MSIZE = 256`. -/
def K0 : Consts :=
  { MLEN := 216, MHLEN := 176, MCLBYTES := 2048, MINCLSIZE := 177,
    M_COPYALL := 1000000000, sizeof_long := 8,
    max_protohdr := 60, max_linkhdr := 16 }

/-- External memory holding the byte `a % 251` at address `a`. -/
def mem0 : Store := fun a => a % 251

/-- Counters all holding 1. -/
def refs0 : Refs := fun _ => 1

/-- The counter slot embedded with the cluster at `buf`. -/
def find0 : Nat → Nat := fun buf => buf + 1

/-- A pool of three nodes whose arrays hold 7, 8 and 9. -/
def pool0 : Pool := [some (200, fun _ => 7), some (300, fun _ => 8), some (400, fun _ => 9)]

/-- A header node with four bytes of inline data and header length 4. -/
def hd0 : mbuf :=
  { newHdrNode K0 100 (fun i => 50 + i) 1 with
    m_len := 4, m_pkthdr := { pkthdr0 with len := 4, rcvif := 9 } }

/-- A header node with one byte of data whose header length says 5. -/
def hd1 : mbuf :=
  { newHdrNode K0 100 (fun i => 50 + i) 1 with
    m_len := 1, m_pkthdr := { pkthdr0 with len := 5 } }

/-- A node with three bytes in a custom external buffer of capacity 100 at
address 1000, counted by the counter at 7. -/
def ex0 : mbuf :=
  { newNode 500 (fun _ => 0) 1 with
    m_len := 3, m_data := 1000, m_flags := { flags0 with M_EXT := true },
    m_ext := { ext_buf := 1000, ext_size := 100, ext_free := 77, ext_args := 0,
               ref_cnt := some 7, ext_type := EXT_NET_DRV } }

/-- A cluster node as the packet zone hands it out, its counter not assigned
yet, with three bytes in the cluster at address 3000. -/
def cl3 : mbuf :=
  { newNode 600 (fun _ => 0) 1 with
    m_len := 3, m_data := 3000, m_flags := { flags0 with M_EXT := true },
    m_ext := { ext_buf := 3000, ext_size := 2048, ext_free := 0, ext_args := 0,
               ref_cnt := none, ext_type := EXT_PACKET } }

/-! ## Reference counting across m_copym -/

/-- The new node `n` refers to the external buffer of the source node `m`, at
`off` bytes into its data and through its counter; a source node without
external storage gives a node without. -/
def Shares (find : Nat → Nat) (off : Nat) (m n : mbuf) : Prop :=
  if m.m_flags.M_EXT then
    n.m_flags.M_EXT = true ∧
    n.m_ext = { m.m_ext with ref_cnt := some (slotOf find m) } ∧
    n.m_data = m.m_data + off
  else n.m_flags.M_EXT = false

/-- Node by node, the chain `ns` refers to the buffers of the chain `ms`; the
first node starts `off` bytes into the data of its source. -/
def SharesAll (find : Nat → Nat) : Nat → Chain → Chain → Prop
  | _, [], [] => True
  | off, m :: ms, n :: ns => Shares find off m n ∧ SharesAll find 0 ms ns
  | _, _, _ => False

/-- Node by node, the chain `ns` holds consecutive pieces of the chain `ms`: the
first node of `ns` starts `off` bytes into the first node of `ms`, every node
of `ns` lies within its source node, and every node of `ns` but the last runs
to the end of its source node. -/
def Pieces : Nat → Chain → Chain → Prop
  | _, [], [] => True
  | off, m :: ms, n :: ns =>
      off + n.m_len ≤ m.m_len ∧ (ns ≠ [] → off + n.m_len = m.m_len) ∧ Pieces 0 ms ns
  | _, _, _ => False

instance decNeNilImp (ns : Chain) (p : Prop) [Decidable p] : Decidable (ns ≠ [] → p) :=
  match ns with
  | [] => isTrue (fun h => absurd rfl h)
  | _ :: _ =>
      if h : p then isTrue (fun _ => h)
      else isFalse (fun g => h (g (List.cons_ne_nil _ _)))

instance Pieces.dec : (off : Nat) → (ms ns : Chain) → Decidable (Pieces off ms ns)
  | _, [], [] => isTrue trivial
  | off, m :: ms, n :: ns =>
      match (inferInstance : Decidable (off + n.m_len ≤ m.m_len)),
        (inferInstance : Decidable (ns ≠ [] → off + n.m_len = m.m_len)),
        Pieces.dec 0 ms ns with
      | isTrue h1, isTrue h2, isTrue h3 => isTrue ⟨h1, h2, h3⟩
      | isFalse h1, _, _ => isFalse (fun h => h1 h.1)
      | _, isFalse h2, _ => isFalse (fun h => h2 h.2.1)
      | _, _, isFalse h3 => isFalse (fun h => h3 h.2.2)
  | _, [], _ :: _ => isFalse (fun h => h)
  | _, _ :: _, [] => isFalse (fun h => h)

/-- An external node whose buffer has no counter assigned yet. -/
def isLazy (m : mbuf) : Bool := m.m_flags.M_EXT && m.m_ext.ref_cnt.isNone

/-- The reference count kept at the counter `a` for the buffers of the chain:
1 when `a` is the embedded slot of a buffer that has no counter assigned yet
(the buffer is unshared and the slot not yet written), the stored value
otherwise. -/
def effRef (find : Nat → Nat) (c : Chain) (refs : Refs) (a : Nat) : Nat :=
  if c.any (fun m => isLazy m && decide (find m.m_ext.ext_buf = a)) then 1 else refs a

/-- The number of nodes of the chain whose external buffer is counted by `a`. -/
def extCount (find : Nat → Nat) (a : Nat) : Chain → Nat
  | [] => 0
  | m :: ms =>
      (if m.m_flags.M_EXT = true ∧ slotOf find m = a then 1 else 0) + extCount find a ms

/-- A buffer that has no counter assigned yet is not referenced by an earlier
node of the chain. -/
def LazyUnshared (find : Nat → Nat) : Chain → Prop
  | [] => True
  | m :: ms =>
      (m.m_flags.M_EXT = true →
        ∀ m1, m1 ∈ ms → isLazy m1 = true → find m1.m_ext.ext_buf ≠ slotOf find m) ∧
      LazyUnshared find ms

instance LazyUnshared.dec (find : Nat → Nat) : (c : Chain) → Decidable (LazyUnshared find c)
  | [] => isTrue trivial
  | m :: ms =>
      match (inferInstance : Decidable (m.m_flags.M_EXT = true →
          ∀ m1, m1 ∈ ms → isLazy m1 = true → find m1.m_ext.ext_buf ≠ slotOf find m)),
        LazyUnshared.dec find ms with
      | isTrue h1, isTrue h2 => isTrue ⟨h1, h2⟩
      | isFalse h1, _ => isFalse (fun h => h1 h.1)
      | _, isFalse h2 => isFalse (fun h => h2 h.2)

/-- The counters after one `MEXT_ADD_REF` on each external node of the chain. -/
def addRefs (find : Nat → Nat) : Chain → Refs → Refs
  | [], refs => refs
  | m :: ms, refs =>
      addRefs find ms (if m.m_flags.M_EXT then (MEXT_ADD_REF find m refs).2 else refs)

/-! ## Releasing the nodes that share a buffer -/

/-- Release the nodes one after another with `mb_free_ext`, first to last. -/
def mb_free_ext_seq : List mbuf → Refs → List Event → Refs × List Event
  | [], refs, log => (refs, log)
  | m :: ms, refs, log =>
      let r := mb_free_ext m refs log
      mb_free_ext_seq ms r.1 r.2

/-- The scenario of the specification: node A with a custom buffer of capacity
100 attached by `m_extadd` (the callback is number 77, the counter comes from
`malloc` at address 7). -/
def scenA : mbuf × Refs :=
  m_extadd find0 (some 7) refs0 (newNode 500 (fun _ => 0) 1) 1000 100 77 0 flags0 EXT_NET_DRV

/-- The scenario of the specification: A with three bytes of data and its
`m_copym` copy A2, with the counters after the copy. -/
def scenPair : List mbuf × Refs :=
  match m_copym K0 find0 true [{ scenA.1 with m_len := 3 }] 0 3 scenA.2 pool0 [] with
  | some r => (r.src ++ r.top, r.refs)
  | none => ([], scenA.2)

/-- The source node as `MEXT_ADD_REF` leaves it: an external node whose buffer
had no counter now points at the counter embedded with the buffer. -/
def resolved (find : Nat → Nat) (m : mbuf) : mbuf :=
  if m.m_flags.M_EXT then (MEXT_ADD_REF find m (fun _ => 0)).1 else m

/-- The addresses of the nodes a stretch of the pool hands out. -/
def poolAddrs : Pool → List Nat
  | [] => []
  | none :: p => poolAddrs p
  | some (a, _) :: p => a :: poolAddrs p

/-! ## m_split -/

/-- Modelled from the spec: `M_ALIGN` of sys/mbuf.h, which is not among the
sources: place an object of `len` bytes at the end of the array `m_dat` of a
node obtained by `MGET`, on a long-word boundary (for a later prepend). -/
def M_ALIGN (K : Consts) (m : mbuf) (len : Nat) : mbuf :=
  { m with m_data := m.m_data + (K.MLEN - len) / K.sizeof_long * K.sizeof_long }

/-- Modelled from the spec: `MH_ALIGN` of sys/mbuf.h, which is not among the
sources: as `M_ALIGN` for a node obtained by `MGETHDR`, whose data area is the
`MHLEN` bytes of `m_pktdat`. -/
def MH_ALIGN (K : Consts) (m : mbuf) (len : Nat) : mbuf :=
  { m with m_data := m.m_data + (K.MHLEN - len) / K.sizeof_long * K.sizeof_long }

/-- What `m_split` leaves: the chain returned (`[]` is NULL), the chain at `m0`,
the counters, the pool and the release log. -/
structure SplitOut where
  tail : Chain
  head : Chain
  refs : Refs
  pool : Pool
  log : List Event

/-- The loop at the head of `m_split`: the nodes walked past, the node `m`
holding the split point, the nodes after it and the offset `len` left.  `none`
is `m == NULL`. -/
def m_split_seek : Chain → Nat → Option (Chain × mbuf × Chain × Nat)
  | [], _ => none
  | m :: ms, len =>
      if len > m.m_len then
        match m_split_seek ms (len - m.m_len) with
        | none => none
        | some (pre, x, rest, l) => some (m :: pre, x, rest, l)
      else some ([], m, ms, len)

/-- The statements of `m_split` from the label `extpacket` on, for the new node
`n` and the node `m` being cut: the two nodes and the counters afterwards.
`none` is a `bcopy` past the end of the array `m_dat` of `n`. -/
def m_split_extpacket (K : Consts) (find : Nat → Nat) (m n : mbuf) (len remain : Nat)
    (refs : Refs) : Option (mbuf × mbuf × Refs) :=
  if m.m_flags.M_EXT then
    let a := MEXT_ADD_REF find m refs
    some ({ n with m_flags := { n.m_flags with M_EXT := true },
                   m_ext := { m.m_ext with ref_cnt := a.1.m_ext.ref_cnt },
                   m_data := m.m_data + len, m_len := remain },
      { a.1 with m_len := len }, a.2)
  else if n.m_data + remain ≤ K.MLEN then
    some ({ n with m_dat := wr n.m_dat n.m_data (rd m.m_dat (m.m_data + len) remain),
                   m_len := remain },
      { m with m_len := len }, refs)
  else none

/-- The assignment `m0->m_pkthdr.len = len0`. -/
def set_pkthdr_len (m : mbuf) (len0 : Nat) : mbuf :=
  { m with m_pkthdr := { m.m_pkthdr with len := (len0 : Int) } }

/-- The header branch of `m_split` once the new header node `n` has its
`rcvif` and `len` and `m0` its new length: `pre1` are the nodes before the
node `m1` being cut, `rest` those after it, `p` the pool left. -/
def m_split_pkthdr (K : Consts) (find : Nat → Nat)
    (self : Chain → Nat → Refs → List Event → Option SplitOut)
    (p : Pool) (n : mbuf) (pre1 : Chain) (m1 : mbuf) (rest : Chain) (len : Nat)
    (refs : Refs) (log : List Event) : Option SplitOut :=
  let remain := m1.m_len - len
  if m1.m_flags.M_EXT then
    match m_split_extpacket K find m1 n len remain refs with
    | none => none
    | some (n2, m2, refs2) =>
      some { tail := n2 :: rest, head := pre1 ++ [m2], refs := refs2, pool := p, log := log }
  else if remain > K.MHLEN then
    let n1 := MH_ALIGN K n 0
    match self (m1 :: rest) len refs log with
    | none => none
    | some r =>
      if r.tail.isEmpty then
        let f := m_free n1 r.refs r.log
        some { tail := [], head := pre1 ++ r.head, refs := f.1, pool := r.pool, log := f.2 }
      else
        some { tail := { n1 with m_len := 0 } :: r.tail, head := pre1 ++ r.head,
               refs := r.refs, pool := r.pool, log := r.log }
  else
    match m_split_extpacket K find m1 (MH_ALIGN K n remain) len remain refs with
    | none => none
    | some (n2, m2, refs2) =>
      some { tail := n2 :: rest, head := pre1 ++ [m2], refs := refs2, pool := p, log := log }

/-- The new header node of `m_split` after `n->m_pkthdr.rcvif = m0->m_pkthdr.rcvif`
and `n->m_pkthdr.len = m0->m_pkthdr.len - len0`. -/
def m_split_newhdr (n0 m0 : mbuf) (len0 : Nat) : mbuf :=
  { n0 with m_pkthdr := { n0.m_pkthdr with rcvif := m0.m_pkthdr.rcvif,
                                           len := m0.m_pkthdr.len - (len0 : Int) } }

/-- One activation of `m_split(m0, len0, wait)`; `self` stands for the
recursive call, which is made with the pool that `MGETHDR` has left. -/
def m_split_body (K : Consts) (find : Nat → Nat)
    (self : Chain → Nat → Refs → List Event → Option SplitOut)
    (pool : Pool) (m0s : Chain) (len0 : Nat) (refs : Refs) (log : List Event) :
    Option SplitOut :=
  match m0s with
  | [] => some { tail := [], head := [], refs := refs, pool := pool, log := log }
  | m0 :: _ =>
    match m_split_seek m0s len0 with
    | none => some { tail := [], head := m0s, refs := refs, pool := pool, log := log }
    | some (pre, m, rest, len) =>
      let remain := m.m_len - len
      if m0.m_flags.M_PKTHDR then
        match m_gethdr K pool m0.m_type with
        | (none, p) => some { tail := [], head := m0s, refs := refs, pool := p, log := log }
        | (some n0, p) =>
          let n : mbuf := m_split_newhdr n0 m0 len0
          let pre1 : Chain := match pre with
            | [] => []
            | p0 :: ps => set_pkthdr_len p0 len0 :: ps
          let m1 : mbuf := match pre with
            | [] => set_pkthdr_len m len0
            | _ :: _ => m
          m_split_pkthdr K find self p n pre1 m1 rest len refs log
      else if remain = 0 then
        some { tail := rest, head := pre ++ [m], refs := refs, pool := pool, log := log }
      else
        match m_get pool m.m_type with
        | (none, p) => some { tail := [], head := m0s, refs := refs, pool := p, log := log }
        | (some n0, p) =>
          match m_split_extpacket K find m (M_ALIGN K n0 remain) len remain refs with
          | none => none
          | some (n2, m2, refs2) =>
            some { tail := n2 :: rest, head := pre ++ [m2], refs := refs2, pool := p,
                   log := log }

/-- `m_split(m0, len0, wait)`.  The recursive call follows a successful
`MGETHDR`, so it runs with a shorter pool; when the allocation fails no
recursive call is made. -/
def m_split (K : Consts) (find : Nat → Nat) :
    Pool → Chain → Nat → Refs → List Event → Option SplitOut
  | [], m0, len0, refs, log =>
      m_split_body K find (fun _ _ _ _ => none) [] m0 len0 refs log
  | none :: p, m0, len0, refs, log =>
      m_split_body K find (fun _ _ _ _ => none) (none :: p) m0 len0 refs log
  | some x :: p, m0, len0, refs, log =>
      m_split_body K find (m_split K find p) (some x :: p) m0 len0 refs log

/-! ## m_cat -/

/-- The second loop of `m_cat`, with `m` the last node of the first chain:
the nodes from `m` on, the counters and the log afterwards. -/
def m_cat_loop (K : Consts) (mem : Store) : mbuf → Chain → Refs → List Event →
    Chain × Refs × List Event
  | m, [], refs, log => ([m], refs, log)
  | m, n :: ns, refs, log =>
      if m.m_flags.M_EXT = true ∨ m.m_data + m.m_len + n.m_len ≥ K.MLEN then
        (m :: n :: ns, refs, log)
      else
        let f := m_free n refs log
        m_cat_loop K mem
          { m with m_dat := wr m.m_dat (m.m_data + m.m_len) (mbytes mem n),
                   m_len := m.m_len + n.m_len }
          ns f.1 f.2

/-- `m_cat(m, n)`: the chain at `m`, the counters and the log afterwards.
`none` is `m == NULL`. -/
def m_cat (K : Consts) (mem : Store) : Chain → Chain → Refs → List Event →
    Option (Chain × Refs × List Event)
  | [], _, _, _ => none
  | [m], n, refs, log => some (m_cat_loop K mem m n refs log)
  | m :: m1 :: ms, n, refs, log =>
      match m_cat K mem (m1 :: ms) n refs log with
      | none => none
      | some r => some (m :: r.1, r.2)

/-- An inline node holding 200 bytes from offset 8 of its array. -/
def big0 : mbuf :=
  { newNode 600 (fun i => 100 + i) 1 with m_len := 200, m_data := 8 }

/-- The header node `hd0` with header length 204, the length of the chain
`[hd204, big0]`. -/
def hd204 : mbuf := { hd0 with m_pkthdr := { hd0.m_pkthdr with len := 204 } }

/-- `m_move_pkthdr(to, from)` without MAC: the nodes `to` and `from` afterwards. -/
def m_move_pkthdr (K : Consts) (to_ from_ : mbuf) : mbuf × mbuf :=
  let fl : Flags := { copyflags from_.m_flags with M_EXT := to_.m_flags.M_EXT }
  let data := if fl.M_EXT = false then K.MLEN - K.MHLEN else to_.m_data
  let hdr : pkthdr := from_.m_pkthdr
  ({ to_ with m_flags := fl, m_data := data, m_pkthdr := hdr },
   { from_ with m_pkthdr := { hdr with tags := [] },
                m_flags := { from_.m_flags with M_PKTHDR := false } })

/-! ## m_adj -/

/-- The head-trimming loop of `m_adj`: the chain afterwards and what is left
of `len`. -/
def m_adj_head : Chain → Nat → Chain × Nat
  | [], len => ([], len)
  | m :: ms, len =>
      if len = 0 then (m :: ms, 0)
      else if m.m_len ≤ len then
        let r := m_adj_head ms (len - m.m_len)
        ({ m with m_len := 0 } :: r.1, r.2)
      else ({ m with m_len := m.m_len - len, m_data := m.m_data + len } :: ms, 0)

/-- The update `mp->m_pkthdr.len = f (mp->m_pkthdr.len)` under the test
`mp->m_flags & M_PKTHDR`. -/
def adj_pkthdr (f : Int → Int) : Chain → Chain
  | [] => []
  | m :: ms =>
      if m.m_flags.M_PKTHDR then
        { m with m_pkthdr := { m.m_pkthdr with len := f m.m_pkthdr.len } } :: ms
      else m :: ms

/-- The last node of the chain `m :: ms`. -/
def m_last : mbuf → Chain → mbuf
  | m, [] => m
  | _, m1 :: ms => m_last m1 ms

/-- The chain with `f` applied to its last node. -/
def mapLast (f : mbuf → mbuf) : Chain → Chain
  | [] => []
  | [m] => [f m]
  | m :: m1 :: ms => m :: mapLast f (m1 :: ms)

/-- The truncating loop at the end of `m_adj`: the node that reaches `count`
is cut to it and the nodes after it are freed. -/
def m_adj_tail : Chain → Nat → Refs → List Event → Chain × Refs × List Event
  | [], _, refs, log => ([], refs, log)
  | m :: ms, count, refs, log =>
      if m.m_len ≥ count then
        let f := m_freem ms refs log
        ([{ m with m_len := count }], f.1, f.2)
      else
        let r := m_adj_tail ms (count - m.m_len) refs log
        (m :: r.1, r.2)

/-- The value of `-len` for an `int` `len`; `none` when it is not an `int`,
which is the signed overflow of `-INT_MIN`. -/
def int_neg (len : Int) : Option Int :=
  if -len ≤ 2147483647 then some (-len) else none

/-- `m_adj(mp, req_len)`: the chain at `mp`, the counters and the log
afterwards.  `none` is the tail trim by `INT_MIN`, where `len = -len`
overflows: as compiled `len` stays `INT_MIN`, the last node passes the test
`m->m_len >= len` and is left with the length `m_len - INT_MIN`, which wraps
to a negative number, and nothing is freed. -/
def m_adj (mp : Chain) (req_len : Int) (refs : Refs) (log : List Event) :
    Option (Chain × Refs × List Event) :=
  match mp with
  | [] => some ([], refs, log)
  | m0 :: ms =>
      if 0 ≤ req_len then
        let r := m_adj_head (m0 :: ms) req_len.toNat
        some (adj_pkthdr (fun l => l - (req_len - (r.2 : Int))) r.1, refs, log)
      else
        match int_neg req_len with
        | none => none
        | some l =>
          let len := l.toNat
          let count := totalLen (m0 :: ms)
          if (m_last m0 ms).m_len ≥ len then
            some (adj_pkthdr (fun l => l - (len : Int))
              (mapLast (fun m => { m with m_len := m.m_len - len }) (m0 :: ms)), refs, log)
          else
            let count1 := count - len
            some (m_adj_tail (adj_pkthdr (fun _ => (count1 : Int)) (m0 :: ms)) count1 refs log)

/-! ## m_getm -/

/-- A node of the packet zone at address `a`, bound to the cluster at `buf`:
`M_EXT` set, `m_data` at the start of the cluster, type `EXT_PACKET`, no
counter assigned yet. -/
def clNode (K : Consts) (a buf : Nat) (d : Store) (type : Nat) (hdr : Bool) : mbuf :=
  { newNode a d type with
    m_data := buf,
    m_flags := { flags0 with M_EXT := true, M_PKTHDR := hdr },
    m_ext := { ext_buf := buf, ext_size := K.MCLBYTES, ext_free := 0, ext_args := 0,
               ref_cnt := none, ext_type := EXT_PACKET } }

/-- Modelled from the spec: `m_getcl(how, type, flags)` of sys/mbuf.h, which is
not among the sources: the Node Pool's "third combined kind", which "binds a
node and its backing buffer as a single allocation unit".  `cl a` is the
cluster bound to the node at `a`, and `hdr` says whether `flags` has
`M_PKTHDR`.  One allocation, which fails when the pool says so. -/
def m_getcl (K : Consts) (cl : Nat → Nat) (pool : Pool) (type : Nat) (hdr : Bool) :
    Option mbuf × Pool :=
  match pool with
  | [] => (none, [])
  | none :: p => (none, p)
  | some (a, d) :: p => (some (clNode K a (cl a) d type hdr), p)

/-- The `for` loop of `m_getm`, `n` iterations to go: whether every
allocation succeeded, the nodes linked after `cur` in order, the pool left. -/
def m_getm_loop (K : Consts) (cl : Nat → Nat) (type : Nat) : Nat → Pool → Bool × Chain × Pool
  | 0, pool => (true, [], pool)
  | n + 1, pool =>
      match m_getcl K cl pool type false with
      | (none, p) => (false, [], p)
      | (some mb, p) =>
          let r := m_getm_loop K cl type n p
          (r.1, { mb with m_len := 0 } :: r.2.1, r.2.2)

/-- What `m_getm` leaves: the chain it returns (`[]` is NULL), the chain at `m`,
the pool, the counters and the log. -/
structure GetmOut where
  top : Chain
  chain : Chain
  pool : Pool
  refs : Refs
  log : List Event

/-- The exit of `m_getm` at `failed:` with the nodes `top` linked so far. -/
def m_getm_failed (m top : Chain) (p : Pool) (refs : Refs) (log : List Event) : GetmOut :=
  let f := m_freem top refs log
  { top := [], chain := m, pool := p, refs := f.1, log := f.2 }

/-- The normal exit of `m_getm`: `top` is linked after the last node of `m`
when `m` is not NULL, and returned. -/
def m_getm_done (m top : Chain) (p : Pool) (refs : Refs) (log : List Event) : GetmOut :=
  { top := top, chain := (match m with | [] => [] | _ :: _ => m ++ top),
    pool := p, refs := refs, log := log }

/-- `m_getm(m, len, how, type)`. -/
def m_getm (K : Consts) (cl : Nat → Nat) (pool : Pool) (m : Chain) (len : Nat) (type : Nat)
    (refs : Refs) (log : List Event) : GetmOut :=
  let num := len / K.MCLBYTES
  let rem := len % K.MCLBYTES
  let first : Bool × Chain × Pool :=
    if num > 0 then
      match m_getcl K cl pool type false with
      | (none, p) => (false, [], p)
      | (some t, p) => (true, [{ t with m_len := 0 }], p)
    else (true, [], pool)
  if first.1 = false then m_getm_failed m [] first.2.2 refs log
  else
    let r := m_getm_loop K cl type (num - 1) first.2.2
    let top := first.2.1 ++ r.2.1
    if r.1 = false then m_getm_failed m top r.2.2 refs log
    else if rem > 0 then
      let a := if rem > K.MINCLSIZE then m_getcl K cl r.2.2 type false else m_get r.2.2 type
      match a.1 with
      | none => m_getm_failed m top a.2 refs log
      | some mb => m_getm_done m (top ++ [{ mb with m_len := 0 }]) a.2 refs log
    else m_getm_done m top r.2.2 refs log

/-- The cluster bound to the node at `a` in the examples. -/
def cl0 : Nat → Nat := fun a => 100000 + 4096 * a

/-- A chain of three nodes holding 20, 24 and 6 bytes, with header length 50. -/
def chain50 : Chain :=
  [{ hd0 with m_len := 20, m_pkthdr := { hd0.m_pkthdr with len := 50 } },
   { newNode 610 (fun i => 3 * i) 1 with m_len := 24, m_data := 2 },
   { newNode 620 (fun i => 5 * i) 1 with m_len := 6 }]

/-! ## m_dup -/

/-- What `m_dup` leaves: the chain it returns (`[]` is NULL), the cluster
memory, the pool, the counters and the log. -/
structure DupOut where
  top : Chain
  mem : Store
  pool : Pool
  refs : Refs
  log : List Event

/-- The `bcopy` of `m_dup` into the new node `n`, at `n->m_data + n->m_len`: into
the cluster when `n` has one, else into the array of `n`. -/
def m_dup_bcopy (n : mbuf) (mem : Store) (bs : List Byte) : mbuf × Store :=
  if n.m_flags.M_EXT then
    ({ n with m_len := n.m_len + bs.length }, wr mem (n.m_data + n.m_len) bs)
  else
    ({ n with m_dat := wr n.m_dat (n.m_data + n.m_len) bs, m_len := n.m_len + bs.length }, mem)

/-- The inner loop of `m_dup`, `while (n->m_len < nsize && m != NULL)`: the new
node, the memory, the source position `(m, moff)` and `remain` afterwards.
When a chunk does not use up the source node it is `nsize - n->m_len` long, so
`n` is full and the loop ends. -/
def m_dup_fill (nsize : Nat) : Chain → Nat → mbuf → Store → Int →
    mbuf × Store × Chain × Nat × Int
  | [], moff, n, mem, remain => (n, mem, [], moff, remain)
  | m :: ms, moff, n, mem, remain =>
      if n.m_len < nsize then
        let chunk := min (nsize - n.m_len) (m.m_len - moff)
        let c := m_dup_bcopy n mem (rd (storeOf mem m) (m.m_data + moff) chunk)
        if moff + chunk = m.m_len then
          m_dup_fill nsize ms 0 c.1 c.2 (remain - (chunk : Int))
        else (c.1, c.2, m :: ms, moff + chunk, remain - (chunk : Int))
      else (n, mem, m :: ms, moff, remain)

/-- The exit of `m_dup` at `nospace:`. -/
def m_dup_nospace (top : Chain) (mem : Store) (pool : Pool) (refs : Refs) (log : List Event) :
    DupOut :=
  let f := m_freem top refs log
  { top := [], mem := mem, pool := pool, refs := f.1, log := f.2 }

/-- One test of the condition of the outer loop of `m_dup` and, when it holds,
one pass of its body; `self` stands for the rest of the loop, which runs with
the pool the allocation has left.  `top` is the new chain so far, `(src, moff)`
the source position.  `none` is a failed `KASSERT` or the use of `m` when it is
NULL. -/
def m_dup_body (K : Consts) (cl : Nat → Nat) (tags_ok : Bool)
    (self : Chain → Nat → Int → Chain → Store → Refs → List Event → Option DupOut)
    (pool : Pool) (src : Chain) (moff : Nat) (remain : Int) (top : Chain) (mem : Store)
    (refs : Refs) (log : List Event) : Option DupOut :=
  if remain > 0 ∨ top.isEmpty = true then
    match src with
    | [] => none
    | m :: _ =>
      let a := if remain ≥ (K.MINCLSIZE : Int) then m_getcl K cl pool m.m_type false
               else m_get pool m.m_type
      let nsize0 := if remain ≥ (K.MINCLSIZE : Int) then K.MCLBYTES else K.MLEN
      match a.1 with
      | none => some (m_dup_nospace top mem a.2 refs log)
      | some n0 =>
        let hd : mbuf × Bool := if top.isEmpty = true then m_dup_pkthdr K n0 m tags_ok else (n0, true)
        if hd.2 = false then
          let f := m_free hd.1 refs log
          some (m_dup_nospace top mem a.2 f.1 f.2)
        else
          let nsize := if top.isEmpty = true then K.MHLEN else nsize0
          let r := m_dup_fill nsize src moff { hd.1 with m_len := 0 } mem remain
          if (r.2.2.2.2 > 0 ∧ r.2.2.1.isEmpty = false) ∨ (r.2.2.2.2 = 0 ∧ r.2.2.1.isEmpty = true) then
            self r.2.2.1 r.2.2.2.1 r.2.2.2.2 (top ++ [r.1]) r.2.1 refs log
          else none
  else some { top := top, mem := mem, pool := pool, refs := refs, log := log }

/-- The outer loop of `m_dup`.  Every pass allocates, so the loop is followed
along the pool; a failed allocation leaves by `nospace:`. -/
def m_dup_loop (K : Consts) (cl : Nat → Nat) (tags_ok : Bool) :
    Pool → Chain → Nat → Int → Chain → Store → Refs → List Event → Option DupOut
  | [], src, moff, remain, top, mem, refs, log =>
      m_dup_body K cl tags_ok (fun _ _ _ _ _ _ _ => none) [] src moff remain top mem refs log
  | x :: p, src, moff, remain, top, mem, refs, log =>
      m_dup_body K cl tags_ok (m_dup_loop K cl tags_ok p) (x :: p) src moff remain top mem
        refs log

/-- `m_dup(m, how)`; `tags_ok` is the outcome of `m_tag_copy_chain`.  `none` is
a failed assertion. -/
def m_dup (K : Consts) (cl : Nat → Nat) (tags_ok : Bool) (pool : Pool) (m : Chain)
    (mem : Store) (refs : Refs) (log : List Event) : Option DupOut :=
  match m with
  | [] => some { top := [], mem := mem, pool := pool, refs := refs, log := log }
  | m0 :: _ =>
      if m0.m_flags.M_PKTHDR = false then none
      else m_dup_loop K cl tags_ok pool m 0 m0.m_pkthdr.len [] mem refs log

/-- A header node whose `MHLEN` bytes of inline data fill it. -/
def hdfull : mbuf :=
  { newHdrNode K0 100 (fun i => 50 + i) 1 with
    m_len := 176, m_pkthdr := { pkthdr0 with len := 176, rcvif := 9 } }

/-- A node holding no data. -/
def empty0 : mbuf := newNode 110 (fun _ => 0) 1

/-! ## m_apply -/

/-- A function `f` handed to `m_apply`, called as `f(arg, mtod(m) + off, count)`:
from its state, the node `m`, the position `mtod(m) + off` in the storage of
`m`, `count` and the cluster memory, to its return value, its state, the node
and the memory afterwards. -/
abbrev Visitor (σ : Type) := σ → mbuf → Nat → Nat → Store → Int × σ × mbuf × Store

/-- The second loop of `m_apply`, `while (len > 0)`: the return value, the
state of `f`, the chain and the memory afterwards.  `none` is the failed
`KASSERT(m != NULL)`. -/
def m_apply_loop {σ : Type} (f : Visitor σ) :
    Chain → Nat → Nat → σ → Store → Option (Int × σ × Chain × Store)
  | c, _, 0, s, mem => some (0, s, c, mem)
  | [], _, _ + 1, _, _ => none
  | m :: ms, off, len + 1, s, mem =>
      let count := min (m.m_len - off) (len + 1)
      let r := f s m (m.m_data + off) count mem
      if r.1 ≠ 0 then some (r.1, r.2.1, r.2.2.1 :: ms, r.2.2.2)
      else
        match m_apply_loop f ms 0 (len + 1 - count) r.2.1 r.2.2.2 with
        | none => none
        | some q => some (q.1, q.2.1, r.2.2.1 :: q.2.2.1, q.2.2.2)

/-- `m_apply(m, off, len, f, arg)`, with `arg` kept in `f` and its state. -/
def m_apply {σ : Type} (f : Visitor σ) :
    Chain → Nat → Nat → σ → Store → Option (Int × σ × Chain × Store)
  | c, 0, len, s, mem => m_apply_loop f c 0 len s mem
  | [], _ + 1, _, _, _ => none
  | m :: ms, off + 1, len, s, mem =>
      if off + 1 < m.m_len then m_apply_loop f (m :: ms) (off + 1) len s mem
      else
        match m_apply f ms (off + 1 - m.m_len) len s mem with
        | none => none
        | some q => some (q.1, q.2.1, m :: q.2.2.1, q.2.2.2)

/-! ## m_copymdata -/

/-- Modelled from the spec: `MEXT_IS_REF` of sys/mbuf.h, which is not among the
sources: the external buffer is shared, its counter assigned and above 1. -/
def MEXT_IS_REF (refs : Refs) (m : mbuf) : Bool :=
  match m.m_ext.ref_cnt with
  | none => false
  | some r => decide (refs r > 1)

/-- Modelled from the spec: `M_WRITABLE` of sys/mbuf.h, which is not among the
sources: the node is not marked read-only and its storage is not shared. -/
def M_WRITABLE (refs : Refs) (m : mbuf) : Bool :=
  !m.m_flags.M_RDONLY && (!m.m_flags.M_EXT || !MEXT_IS_REF refs m)

/-- Modelled from the spec: `M_LEADINGSPACE` of sys/mbuf.h, which is not among
the sources: the "leading slack" of a node, the bytes between the start of its
storage and `m_data`, none when the storage is external and not writable. -/
def M_LEADINGSPACE (K : Consts) (refs : Refs) (m : mbuf) : Nat :=
  if m.m_flags.M_EXT then
    if M_WRITABLE refs m then m.m_data - m.m_ext.ext_buf else 0
  else if m.m_flags.M_PKTHDR then m.m_data - (K.MLEN - K.MHLEN)
  else m.m_data

/-- Modelled from the spec: `M_TRAILINGSPACE` of sys/mbuf.h, which is not among
the sources: the "trailing slack" of a node, the bytes between the end of its
data and the end of its storage, none when the storage is external and not
writable. -/
def M_TRAILINGSPACE (K : Consts) (refs : Refs) (m : mbuf) : Nat :=
  if m.m_flags.M_EXT then
    if M_WRITABLE refs m then m.m_ext.ext_buf + m.m_ext.ext_size - (m.m_data + m.m_len) else 0
  else K.MLEN - (m.m_data + m.m_len)

/-- `m_bcopyxxx(s, t, len)`, that is `bcopy(s, t, len)`, as the function handed
to `m_apply`: `s` is `arg`, the position `pos` in the storage of the
destination node (the cluster memory when `ext`, else its array `dat`), and
`t` the position in the chain that `m_apply` walks.  It copies `len` bytes
from `s` to `t` and returns 0. -/
def m_bcopyxxx (ext : Bool) (dat : Store) (pos : Nat) : Visitor Unit :=
  fun _ m t len mem =>
    let bs := rd (if ext then mem else dat) pos len
    if m.m_flags.M_EXT then (0, (), m, wr mem t bs)
    else (0, (), { m with m_dat := wr m.m_dat t bs }, mem)

/-- What `m_copymdata` leaves: the chain it returns (`[]` is NULL), the chains
at `m` and at `n`, the cluster memory, the pool, the counters and the log. -/
structure CopymdataOut where
  ret : Chain
  dst : Chain
  src : Chain
  mem : Store
  pool : Pool
  refs : Refs
  log : List Event

/-- Modelled from the spec: the node kind `MT_DATA` of sys/mbuf.h, which is not
among the sources: the "data" kind of the Node Pool's `alloc`. -/
def MT_DATA : Nat := 1

/-- Modelled from the spec: `MEXT_REM_REF` of sys/mbuf.h, which is not among the
sources: the counter of the external buffer goes down by 1. -/
def MEXT_REM_REF (m : mbuf) (refs : Refs) : Refs :=
  match m.m_ext.ref_cnt with
  | none => refs
  | some r => setRef refs r (u_int_dec (refs r))

/-- The first loop of `m_copymdata`, "Make sure environment is sane", from the
node `z` on: whether it ran to the end (`false` is `return NULL`), the nodes,
the pool, the cluster memory, the counters and the log afterwards.  A node
that is not writable and not `M_RDONLY` has its `m_data` moved into a new
cluster, filled from `ext_buf`, and takes one reference off its buffer; the
node `x` of that cluster is freed without it.  The sum `mlen` is not used. -/
def m_copymdata_sane (K : Consts) (cl : Nat → Nat) :
    Chain → Pool → Store → Refs → List Event →
      Bool × Chain × Pool × Store × Refs × List Event
  | [], pool, mem, refs, log => (true, [], pool, mem, refs, log)
  | z :: zs, pool, mem, refs, log =>
      if M_WRITABLE refs z then
        let r := m_copymdata_sane K cl zs pool mem refs log
        (r.1, z :: r.2.1, r.2.2)
      else if z.m_flags.M_RDONLY then (false, z :: zs, pool, mem, refs, log)
      else
        match m_getcl K cl pool MT_DATA false with
        | (none, p) => (false, z :: zs, p, mem, refs, log)
        | (some x, p) =>
            let mem1 := wr mem x.m_ext.ext_buf (rd mem z.m_ext.ext_buf x.m_ext.ext_size)
            let pp := x.m_ext.ext_buf + (z.m_data - z.m_ext.ext_buf)
            let refs1 := MEXT_REM_REF z refs
            let f := m_free { x with m_flags := { x.m_flags with M_EXT := false } } refs1 log
            let r := m_copymdata_sane K cl zs p mem1 f.1 f.2
            (r.1, { z with m_data := pp } :: r.2.1, r.2.2)

/-- The prepending shortcut of `m_copymdata`, taken when the first node `mm`
has `len` bytes of leading space: `m_data` moves back by `len`, `m_apply` runs
`m_bcopyxxx` over `n` from `off` for `len` bytes with `arg = mtod(mm)`, then
`m_len` and `m_pkthdr.len` grow by `len` and `mm` is returned.  The store
`mm->m_pkthdr.len += len` is made whatever the flags of `mm`; in a node without
`M_PKTHDR` and without cluster the header block shares its storage with the
data array, so the store changes bytes of the data, which is no state of this
development, where the two are kept apart: that is `none` too. -/
def m_copymdata_prepend (mm : mbuf) (ms n : Chain) (off len : Nat) (pool : Pool)
    (mem : Store) (refs : Refs) (log : List Event) : Option CopymdataOut :=
  let mm1 : mbuf := { mm with m_data := mm.m_data - len }
  match m_apply (m_bcopyxxx mm1.m_flags.M_EXT mm1.m_dat mm1.m_data) n off len () mem with
  | none => none
  | some q =>
      if mm1.m_flags.M_PKTHDR = false ∧ mm1.m_flags.M_EXT = false then none
      else
        let mm2 : mbuf :=
          { mm1 with m_len := mm1.m_len + len,
                     m_pkthdr := { mm1.m_pkthdr with len := mm1.m_pkthdr.len + (len : Int) } }
        some { ret := mm2 :: ms, dst := mm2 :: ms, src := q.2.2.1, mem := q.2.2.2,
               pool := pool, refs := refs, log := log }

/-- `m_copymdata(m, n, off, len, prep, how)` as far as its two shortcuts; `rest`
stands for the statements after them, from "Expand first/last mbuf to cluster
if possible" on, with `mm` the first node of `m`.  `none` is a failed
`KASSERT` or the use of a NULL pointer: the first loop ends with `z == NULL`,
and `mm = prep ? m : z` is that NULL when `prep` is 0. -/
def m_copymdata (K : Consts) (cl : Nat → Nat)
    (rest : mbuf → Chain → Chain → Nat → Nat → Pool → Store → Refs → List Event →
      Option CopymdataOut)
    (pool : Pool) (m n : Chain) (off len : Nat) (prep : Bool) (mem : Store) (refs : Refs)
    (log : List Event) : Option CopymdataOut :=
  if m.isEmpty = true ∨ n.isEmpty = true then none
  else
    let s := m_copymdata_sane K cl m pool mem refs log
    if s.1 = false then
      some { ret := [], dst := s.2.1, src := n, mem := s.2.2.2.1, pool := s.2.2.1,
             refs := s.2.2.2.2.1, log := s.2.2.2.2.2 }
    else
      let mm : Chain := if prep then s.2.1 else []
      let nlen := totalLen n
      let len1 := if len = K.M_COPYALL then nlen - off else len
      if off + len1 > nlen ∨ len1 < 1 then
        some { ret := [], dst := s.2.1, src := n, mem := s.2.2.2.1, pool := s.2.2.1,
               refs := s.2.2.2.2.1, log := s.2.2.2.2.2 }
      else
        match mm with
        | [] => none
        | mm0 :: ms =>
            if M_LEADINGSPACE K s.2.2.2.2.1 mm0 ≥ len1 then
              m_copymdata_prepend mm0 ms n off len1 s.2.2.1 s.2.2.2.1 s.2.2.2.2.1 s.2.2.2.2.2
            else rest mm0 ms n off len1 s.2.2.1 s.2.2.2.1 s.2.2.2.2.1 s.2.2.2.2.2

/-- A header node holding four bytes from offset 60 of its array, 20 bytes after
the start of its data area. -/
def hdlead : mbuf :=
  { newHdrNode K0 100 (fun i => 50 + i) 1 with
    m_data := 60, m_len := 4, m_pkthdr := { pkthdr0 with len := 4, rcvif := 9 } }

/-- An inline node holding the eight bytes 100, ..., 107. -/
def src8 : mbuf := { newNode 600 (fun i => 100 + i) 1 with m_len := 8 }

/-- The two-node chain of `hdfull` and ten more bytes, with header length 186. -/
def chain186 : Chain :=
  [{ hdfull with m_pkthdr := { hdfull.m_pkthdr with len := 186 } },
   { newNode 110 (fun i => 2 * i) 1 with m_len := 10 }]

/-- A chain of three nodes holding 20, 20 and 10 bytes, with header length 50. -/
def chain2010 : Chain :=
  [{ hd0 with m_len := 20, m_pkthdr := { hd0.m_pkthdr with len := 50 } },
   { newNode 610 (fun i => 3 * i) 1 with m_len := 20, m_data := 2 },
   { newNode 620 (fun i => 5 * i) 1 with m_len := 10 }]

/-! ## m_sanity -/

/-- Modelled from the spec: the node kind `MT_HEADER` of sys/mbuf.h, which is not
among the sources: the "header" kind of a node. -/
def MT_HEADER : Nat := 2

/-- The pointer value `0xDEADC0DE` that `m_sanity` stores in `m_nextpkt`. -/
def DEADC0DE : Nat := 3735929054

/-- One repairable check of `m_sanity`, `if (cond) { if (sanitize) fix; else
M_SANITY_ACTION(..); }`: the state afterwards, `none` when the check returns
0. -/
def sanity_step {α : Type} (cond sanitize : Bool) (fix keep : α) : Option α :=
  if cond then (if sanitize then some fix else none) else some keep

/-- The start `a` of the data range of a node as `m_sanity` computes it:
`ext_buf`, `m_pktdat` or `m_dat`. -/
def sanity_a (K : Consts) (m : mbuf) : Nat :=
  if m.m_flags.M_EXT then m.m_ext.ext_buf
  else if m.m_flags.M_PKTHDR then K.MLEN - K.MHLEN else 0

/-- The end `b` of the data range of a node as `m_sanity` computes it. -/
def sanity_b (K : Consts) (m : mbuf) : Nat :=
  sanity_a K m +
    (if m.m_flags.M_EXT then m.m_ext.ext_size
     else if m.m_flags.M_PKTHDR then K.MHLEN else K.MLEN)

/-- The "basic pointer checks" of `m_sanity` on one node, none of which can be
repaired; `m_pkthdr.header` is a pointer of the same kind as `m_data`. -/
def sanity_range (K : Consts) (m : mbuf) : Bool :=
  if m.m_data < sanity_a K m then false
  else if m.m_data > sanity_b K m then false
  else if m.m_data + m.m_len > sanity_b K m then false
  else if m.m_flags.M_PKTHDR = true ∧ m.m_pkthdr.header ≠ 0 ∧
      (m.m_pkthdr.header < sanity_a K m ∨ m.m_pkthdr.header > sanity_b K m) then false
  else true

/-- One pass of the loop of `m_sanity` over the node `m`, `first` telling
whether `m == m0`: the node, the counters and the log afterwards, `none` when
the pass returns 0.  `pkt a` is the packet chain at the address `a`, which a
repair of `m_nextpkt` frees. -/
def m_sanity_node (K : Consts) (pkt : Nat → Chain) (sanitize first : Bool) (m : mbuf)
    (refs : Refs) (log : List Event) : Option (mbuf × Refs × List Event) :=
  if sanity_range K m = false then none
  else
    match sanity_step (!first && decide (m.m_nextpkt ≠ 0)) sanitize
        (let f := m_freem (pkt m.m_nextpkt) refs log
         ({ m with m_nextpkt := DEADC0DE }, f.1, f.2))
        (m, refs, log) with
    | none => none
    | some (m1, refs1, log1) =>
      match sanity_step (decide (m1.m_type = MT_HEADER) && !m1.m_flags.M_PKTHDR) sanitize
          { m1 with m_type := MT_DATA } m1 with
      | none => none
      | some m2 =>
        match sanity_step (!first && m2.m_flags.M_PKTHDR && !m2.m_pkthdr.tags.isEmpty) sanitize
            { m2 with m_pkthdr := { m2.m_pkthdr with tags := [] } } m2 with
        | none => none
        | some m3 =>
          match sanity_step (!first && m3.m_flags.M_PKTHDR) sanitize
              { m3 with m_pkthdr := pkthdr0,
                        m_flags := { m3.m_flags with M_PKTHDR := false } } m3 with
          | none => none
          | some m4 => some (m4, refs1, log1)

/-- The loop of `m_sanity` from the node `m` on: whether it ran to the end
(`false` is `return 0`), the nodes, `pktlen`, the counters and the log.
`hdr0` is `m0->m_flags & M_PKTHDR`. -/
def m_sanity_loop (K : Consts) (pkt : Nat → Chain) (sanitize hdr0 : Bool) :
    Bool → Chain → Nat → Refs → List Event → Bool × Chain × Nat × Refs × List Event
  | _, [], pktlen, refs, log => (true, [], pktlen, refs, log)
  | first, m :: ms, pktlen, refs, log =>
      match m_sanity_node K pkt sanitize first m refs log with
      | none => (false, m :: ms, pktlen, refs, log)
      | some (m1, refs1, log1) =>
          let q := m_sanity_loop K pkt sanitize hdr0 false ms
            (pktlen + (if hdr0 then m.m_len else 0)) refs1 log1
          (q.1, m1 :: q.2.1, q.2.2)

/-- What `m_sanity` leaves: its return value, the chain, the counters and the
log. -/
structure SanityOut where
  ret : Bool
  chain : Chain
  refs : Refs
  log : List Event

/-- `m_sanity(m0, sanitize)`. -/
def m_sanity (K : Consts) (pkt : Nat → Chain) (m0 : Chain) (sanitize : Bool) (refs : Refs)
    (log : List Event) : SanityOut :=
  let hdr0 : Bool := match m0 with
    | [] => false
    | h :: _ => h.m_flags.M_PKTHDR
  let r := m_sanity_loop K pkt sanitize hdr0 true m0 0 refs log
  if r.1 = false then { ret := false, chain := r.2.1, refs := r.2.2.2.1, log := r.2.2.2.2 }
  else
    match r.2.1 with
    | [] => { ret := true, chain := [], refs := r.2.2.2.1, log := r.2.2.2.2 }
    | h :: t =>
        if r.2.2.1 ≠ 0 ∧ (r.2.2.1 : Int) ≠ h.m_pkthdr.len then
          if sanitize then
            { ret := true, chain := { h with m_pkthdr := { h.m_pkthdr with len := 0 } } :: t,
              refs := r.2.2.2.1, log := r.2.2.2.2 }
          else { ret := false, chain := h :: t, refs := r.2.2.2.1, log := r.2.2.2.2 }
        else { ret := true, chain := h :: t, refs := r.2.2.2.1, log := r.2.2.2.2 }

/-- No packet chain is linked anywhere. -/
def pkt0 : Nat → Chain := fun _ => []

/-- A header node without data whose header length says 4. -/
def hdempty : mbuf := { hd0 with m_len := 0 }

/-- The node `m` as the repairs of one pass of `m_sanity(m0, 1)` leave it: a
node after the first has a set `m_nextpkt` replaced by `0xDEADC0DE`; a kind
`MT_HEADER` without `M_PKTHDR` becomes `MT_DATA`; then a node after the first
that has `M_PKTHDR` loses it, with its header block zeroed. -/
def sanity_fix (first : Bool) (m : mbuf) : mbuf :=
  let m1 : mbuf := if first = false ∧ m.m_nextpkt ≠ 0 then { m with m_nextpkt := DEADC0DE } else m
  let m2 : mbuf :=
    if m1.m_type = MT_HEADER ∧ m1.m_flags.M_PKTHDR = false then { m1 with m_type := MT_DATA }
    else m1
  if first = false ∧ m2.m_flags.M_PKTHDR = true then
    { m2 with m_pkthdr := pkthdr0, m_flags := { m2.m_flags with M_PKTHDR := false } }
  else m2

/-- A header node of kind `MT_HEADER` with three bytes of data. -/
def hdkind : mbuf :=
  { newHdrNode K0 130 (fun i => 7 * i) MT_HEADER with
    m_len := 3, m_pkthdr := { pkthdr0 with len := 3, tags := [5] } }

/-- A node with two bytes of data and a packet linked at `m_nextpkt`. -/
def nextpkt0 : mbuf := { newNode 140 (fun i => i) 1 with m_len := 2, m_nextpkt := 900 }

/-- A function for `m_apply` that only reads: from its state, the node, the
position, the count and the cluster memory to its return value and its state
afterwards. -/
abbrev Reader (σ : Type) := σ → mbuf → Nat → Nat → Store → Int × σ

/-- A reading function as a function handed to `m_apply`: node and memory are
left as they are. -/
def readOnly {σ : Type} (g : Reader σ) : Visitor σ :=
  fun s m p c mem => ((g s m p c mem).1, (g s m p c mem).2, m, mem)

/-- The calls `g(arg, p, c)` made one after the other on the spans `(m, p, c)`
of a list, up to and including the first that returns a value other than 0:
that value, or 0 when there is none, and the state of `g` afterwards. -/
def runCalls {σ : Type} (g : Reader σ) (mem : Store) : List (mbuf × Nat × Nat) → σ → Int × σ
  | [], s => (0, s)
  | x :: rest, s =>
      if (g s x.1 x.2.1 x.2.2 mem).1 ≠ 0 then g s x.1 x.2.1 x.2.2 mem
      else runCalls g mem rest (g s x.1 x.2.1 x.2.2 mem).2

/-- The calls `f(arg, p, c)` made one after the other on the spans `(m, p, c)`
of a list, in the memory the calls before have left, up to and including the
first that returns a value other than 0: that value, or 0 when there is none,
the state of `f`, the nodes called on as the calls left them, and the memory
afterwards. -/
def runVisits {σ : Type} (f : Visitor σ) :
    List (mbuf × Nat × Nat) → σ → Store → Int × σ × Chain × Store
  | [], s, mem => (0, s, [], mem)
  | x :: rest, s, mem =>
      let r := f s x.1 x.2.1 x.2.2 mem
      if r.1 ≠ 0 then (r.1, r.2.1, [r.2.2.1], r.2.2.2)
      else
        let q := runVisits f rest r.2.1 r.2.2.2
        (q.1, q.2.1, r.2.2.1 :: q.2.2.1, q.2.2.2)

/-! ## m_pullup -/

/-- What `m_pullup` leaves: the chain it returns (`[]` is NULL), the pool, the
counters and the log. -/
structure PullupOut where
  ret : Chain
  pool : Pool
  refs : Refs
  log : List Event

/-- The exit of `m_pullup` at `bad:` with `n` the chain still to free. -/
def m_pullup_bad (n : Chain) (pool : Pool) (refs : Refs) (log : List Event) : PullupOut :=
  let f := m_freem n refs log
  { ret := [], pool := pool, refs := f.1, log := f.2 }

/-- The `do ... while (len > 0 && n)` loop of `m_pullup`, entered with `n` not
NULL: the node `m`, the chain `n`, `len`, the counters and the log afterwards.
`m` has no cluster on either path to the loop, so the `bcopy` goes into its
array.  `len` is kept at 0 once it is used up.  When a pass leaves bytes in
`n` and `len > 0`, the pass has used up `space`, every later pass moves 0
bytes, and the loop does not end: that is `none`. -/
def m_pullup_loop (K : Consts) (mem : Store) :
    mbuf → Chain → Nat → Nat → Refs → List Event →
      Option (mbuf × Chain × Nat × Refs × List Event)
  | m, [], len, _, refs, log => some (m, [], len, refs, log)
  | m, n :: ns, len, space, refs, log =>
      let count := min (min (max len K.max_protohdr) space) n.m_len
      let m1 : mbuf :=
        { m with m_dat := wr m.m_dat (m.m_data + m.m_len) (rd (storeOf mem n) n.m_data count),
                 m_len := m.m_len + count }
      if n.m_len - count ≠ 0 then
        if len - count > 0 then none
        else some (m1, { n with m_len := n.m_len - count, m_data := n.m_data + count } :: ns,
                   len - count, refs, log)
      else
        let f := m_free n refs log
        if len - count > 0 then m_pullup_loop K mem m1 ns (len - count) (space - count) f.1 f.2
        else some (m1, ns, len - count, f.1, f.2)

/-- The end of `m_pullup` after the loop: with `len > 0` left, `m` is freed and
the exit is `bad:`; otherwise `n` is linked after `m`, which is returned. -/
def m_pullup_fin (r : Option (mbuf × Chain × Nat × Refs × List Event)) (pool : Pool) :
    Option PullupOut :=
  match r with
  | none => none
  | some (m, n, len, refs, log) =>
      if len > 0 then
        let f := m_free m refs log
        some (m_pullup_bad n pool f.1 f.2)
      else some { ret := m :: n, pool := pool, refs := refs, log := log }

/-- `m_pullup(n, len)`.  `none` is the use of `n` when it is NULL, or a loop
that does not end. -/
def m_pullup (K : Consts) (mem : Store) (pool : Pool) (n : Chain) (len : Nat) (refs : Refs)
    (log : List Event) : Option PullupOut :=
  match n with
  | [] => none
  | n0 :: ns =>
      if n0.m_flags.M_EXT = false ∧ n0.m_data + len < K.MLEN ∧ ns.isEmpty = false then
        if n0.m_len ≥ len then some { ret := n0 :: ns, pool := pool, refs := refs, log := log }
        else
          m_pullup_fin
            (m_pullup_loop K mem n0 ns (len - n0.m_len) (K.MLEN - (n0.m_data + n0.m_len))
              refs log) pool
      else if len > K.MHLEN then some (m_pullup_bad (n0 :: ns) pool refs log)
      else
        match m_get pool n0.m_type with
        | (none, p) => some (m_pullup_bad (n0 :: ns) p refs log)
        | (some m, p) =>
            let mv : mbuf × mbuf :=
              if n0.m_flags.M_PKTHDR then m_move_pkthdr K { m with m_len := 0 } n0
              else ({ m with m_len := 0 }, n0)
            m_pullup_fin
              (m_pullup_loop K mem mv.1 (mv.2 :: ns) len
                (K.MLEN - (mv.1.m_data + mv.1.m_len)) refs log) p

/-- The addresses of the nodes handed back to the node pool or to the packet
zone, in the order of a log. -/
def released : List Event → List Nat
  | [] => []
  | Event.zfree_mbuf a :: l => a :: released l
  | Event.zfree_pack a :: l => a :: released l
  | _ :: l => released l

/-! ## m_length, m_fixhdr, m_defrag -/

/-- `m_length(m0, NULL)`: the sum of the node lengths. -/
def m_length (m0 : Chain) : Nat := totalLen m0

/-- `m_fixhdr(m0)`: the chain with `m0->m_pkthdr.len` set to `m_length(m0)`, and
that length.  It is not called with NULL. -/
def m_fixhdr (m0 : Chain) : Chain × Nat :=
  match m0 with
  | [] => ([], 0)
  | h :: t => (set_pkthdr_len h (m_length (h :: t)) :: t, m_length (h :: t))

/-- What `m_defrag` leaves: the chain it returns (`[]` is NULL), the nodes of
the chain at `m0` (which have been freed when the call succeeds), the cluster
memory, the pool, the counters and the log. -/
structure DefragOut where
  ret : Chain
  src : Chain
  mem : Store
  pool : Pool
  refs : Refs
  log : List Event

/-- The statements `m_copydata(m0, progress, length, mtod(m_new))` and
`m_new->m_len = length` of `m_defrag`: the node and the cluster memory
afterwards, `none` when `m_copydata` fails an assertion. -/
def m_defrag_fill (mem : Store) (m0 : Chain) (progress length : Nat) (m_new : mbuf) :
    Option (mbuf × Store) :=
  match m_copydata mem m0 progress length with
  | none => none
  | some bs =>
      if m_new.m_flags.M_EXT then
        some ({ m_new with m_len := length }, wr mem m_new.m_data bs)
      else
        some ({ m_new with m_dat := wr m_new.m_dat m_new.m_data bs, m_len := length }, mem)

/-- The exit of `m_defrag` at `nospace:` with `m_final` the new chain so far
(`[]` when `m_final` is NULL). -/
def m_defrag_nospace (m0 m_final : Chain) (mem : Store) (pool : Pool) (refs : Refs)
    (log : List Event) : DefragOut :=
  let f := m_freem m_final refs log
  { ret := [], src := m0, mem := mem, pool := pool, refs := f.1, log := f.2 }

/-- One test of the condition of the loop of `m_defrag` and, when it holds, one
pass of its body with `m_new == NULL`; `self` stands for the rest of the loop,
which runs with the pool the allocation has left.  `total` is
`m0->m_pkthdr.len`.  When the loop is over `m0` is freed and `m_final`
returned. -/
def m_defrag_body (K : Consts) (cl : Nat → Nat)
    (self : Nat → Chain → Store → Refs → List Event → Option DefragOut)
    (pool : Pool) (m0 : Chain) (total progress : Nat) (m_final : Chain) (mem : Store)
    (refs : Refs) (log : List Event) : Option DefragOut :=
  if progress < total then
    let length := min (total - progress) K.MCLBYTES
    let a := if length > K.MLEN then m_getcl K cl pool MT_DATA false else m_get pool MT_DATA
    match a.1 with
    | none => some (m_defrag_nospace m0 m_final mem a.2 refs log)
    | some m_new =>
        match m_defrag_fill mem m0 progress length m_new with
        | none => none
        | some (n, mem1) =>
            match m_cat K mem1 m_final [n] refs log with
            | none => none
            | some c => self (progress + length) c.1 mem1 c.2.1 c.2.2
  else
    let f := m_freem m0 refs log
    some { ret := m_final, src := m0, mem := mem, pool := pool, refs := f.1, log := f.2 }

/-- The loop of `m_defrag` after its first pass.  Every further pass allocates,
so the loop is followed along the pool. -/
def m_defrag_loop (K : Consts) (cl : Nat → Nat) (m0 : Chain) (total : Nat) :
    Pool → Nat → Chain → Store → Refs → List Event → Option DefragOut
  | [], progress, m_final, mem, refs, log =>
      m_defrag_body K cl (fun _ _ _ _ _ => none) [] m0 total progress m_final mem refs log
  | x :: p, progress, m_final, mem, refs, log =>
      m_defrag_body K cl (m_defrag_loop K cl m0 total p) (x :: p) m0 total progress m_final
        mem refs log

/-- `m_defrag(m0, how)` without `MBUF_STRESS_TEST`; `tags_ok` is the outcome of
`m_tag_copy_chain`.  The first pass of the loop fills `m_final` itself.
`none` is the use of `m0` when it is NULL, or a failed assertion. -/
def m_defrag (K : Consts) (cl : Nat → Nat) (tags_ok : Bool) (pool : Pool) (m0 : Chain)
    (mem : Store) (refs : Refs) (log : List Event) : Option DefragOut :=
  match m0 with
  | [] => none
  | h :: t =>
      if h.m_flags.M_PKTHDR = false then
        some { ret := h :: t, src := h :: t, mem := mem, pool := pool, refs := refs, log := log }
      else
        let h1 := set_pkthdr_len h (m_fixhdr (h :: t)).2
        let a := if h1.m_pkthdr.len > (K.MHLEN : Int) then m_getcl K cl pool MT_DATA true
                 else m_gethdr K pool MT_DATA
        match a.1 with
        | none => some (m_defrag_nospace (h1 :: t) [] mem a.2 refs log)
        | some mf =>
            let d := m_dup_pkthdr K mf h1 tags_ok
            if d.2 = false then some (m_defrag_nospace (h1 :: t) [d.1] mem a.2 refs log)
            else
              let total := h1.m_pkthdr.len.toNat
              if 0 < total then
                match m_defrag_fill mem (h1 :: t) 0 (min total K.MCLBYTES) d.1 with
                | none => none
                | some (n, mem1) =>
                    m_defrag_loop K cl (h1 :: t) total a.2 (min total K.MCLBYTES) [n] mem1
                      refs log
              else m_defrag_loop K cl (h1 :: t) total a.2 0 [d.1] mem refs log

/-- The byte ranges of cluster memory that hold data of a chain, as pairs of a
start address and a length. -/
def extRanges : Chain → List (Nat × Nat)
  | [] => []
  | m :: ms => if m.m_flags.M_EXT then (m.m_data, m.m_len) :: extRanges ms else extRanges ms

/-- The `l` bytes at `s` do not meet any of the ranges `busy`. -/
def Apart (s l : Nat) (busy : List (Nat × Nat)) : Prop :=
  ∀ r, r ∈ busy → s + l ≤ r.1 ∨ r.1 + r.2 ≤ s

instance (s l : Nat) (busy : List (Nat × Nat)) : Decidable (Apart s l busy) := by
  unfold Apart; infer_instance

/-- The clusters that come with the nodes of the pool are fresh: each is apart
from the ranges `busy` and from the clusters of the nodes before it. -/
def FreshPool (K : Consts) (cl : Nat → Nat) : List (Nat × Nat) → Pool → Prop
  | _, [] => True
  | busy, none :: p => FreshPool K cl busy p
  | busy, some x :: p =>
      Apart (cl x.1) K.MCLBYTES busy ∧ FreshPool K cl ((cl x.1, K.MCLBYTES) :: busy) p

instance FreshPool.dec (K : Consts) (cl : Nat → Nat) :
    (busy : List (Nat × Nat)) → (p : Pool) → Decidable (FreshPool K cl busy p)
  | _, [] => isTrue trivial
  | busy, none :: p => FreshPool.dec K cl busy p
  | busy, some x :: p =>
      match (inferInstance : Decidable (Apart (cl x.1) K.MCLBYTES busy)),
        FreshPool.dec K cl ((cl x.1, K.MCLBYTES) :: busy) p with
      | isTrue h1, isTrue h2 => isTrue ⟨h1, h2⟩
      | isFalse h1, _ => isFalse (fun h => h1 h.1)
      | _, isFalse h2 => isFalse (fun h => h2 h.2)

/-- The cluster data of every node of the chain lies within one of the ranges
`busy`. -/
def Covered (busy : List (Nat × Nat)) (c : Chain) : Prop :=
  ∀ m, m ∈ c → m.m_flags.M_EXT = true →
    ∃ b, b ∈ busy ∧ b.1 ≤ m.m_data ∧ m.m_data + m.m_len ≤ b.1 + b.2

/-- A header node whose 2049 bytes of data lie in a custom external buffer of
capacity 4096 at address 20000, counted by the counter at 7. -/
def jumbo : mbuf :=
  { newHdrNode K0 100 (fun _ => 0) 1 with
    m_data := 20000, m_len := 2049,
    m_flags := { flags0 with M_EXT := true, M_PKTHDR := true },
    m_pkthdr := { pkthdr0 with len := 2049 },
    m_ext := { ext_buf := 20000, ext_size := 4096, ext_free := 77, ext_args := 0,
               ref_cnt := some 7, ext_type := EXT_NET_DRV } }

/-! ## m_uiotombuf -/

/-- Modelled from the spec: the scatter-gather source `struct uio` of sys/uio.h,
which is not among the sources: it "tracks remaining length".  `data` are the
bytes still to be moved (`uio_resid` is their number) and `errs` says for each
coming move whether it fails. -/
structure Uio where
  data : List Byte
  errs : List Bool

/-- Modelled from the spec: `uiomove(cp, n, uio)` of kern_subr.c, which is not
among the sources: "`move(dst_region, length) -> bytes_moved | Failure`".  The
result is the bytes moved, `none` for an error, and the source afterwards. -/
def uiomove (n : Nat) (uio : Uio) : Option (List Byte) × Uio :=
  match uio.errs with
  | true :: e => (none, { uio with errs := e })
  | _ :: e => (some (uio.data.take n), { data := uio.data.drop n, errs := e })
  | [] => (some (uio.data.take n), { data := uio.data.drop n, errs := [] })

/-- What `m_uiotombuf` leaves: the chain it returns (`[]` is NULL), the cluster
memory, the source, the pool, the counters and the log. -/
structure UiotombufOut where
  ret : Chain
  mem : Store
  uio : Uio
  pool : Pool
  refs : Refs
  log : List Event

/-- The value of `total` in `m_uiotombuf`. -/
def m_uiotombuf_total (uio : Uio) (len : Int) : Nat :=
  if len > 0 then min uio.data.length len.toNat else uio.data.length

/-- The exit of `m_uiotombuf` at `nospace:`: `m_free(m_new)` when `m_new` is not
NULL, then `m_freem(m_final)` when `m_final` is not NULL (`[]`). -/
def m_uiotombuf_nospace (m_new : Option mbuf) (m_final : Chain) (mem : Store) (uio : Uio)
    (pool : Pool) (refs : Refs) (log : List Event) : UiotombufOut :=
  let r1 := match m_new with
    | none => (refs, log)
    | some n => m_free n refs log
  let r2 := m_freem m_final r1.1 r1.2
  { ret := [], mem := mem, uio := uio, pool := pool, refs := r2.1, log := r2.2 }

/-- The statements `error = uiomove(mtod(m_new), length, uio)` and, when there
is no error, `m_new->m_len = length` of `m_uiotombuf`: the node and the cluster
memory afterwards, `none` for an error, and the source afterwards. -/
def m_uiotombuf_move (mem : Store) (m_new : mbuf) (length : Nat) (uio : Uio) :
    Option (mbuf × Store) × Uio :=
  match uiomove length uio with
  | (none, u) => (none, u)
  | (some bs, u) =>
      if m_new.m_flags.M_EXT then
        (some ({ m_new with m_len := length }, wr mem m_new.m_data bs), u)
      else
        (some ({ m_new with m_dat := wr m_new.m_dat m_new.m_data bs, m_len := length }, mem), u)

/-- One test of the condition of the loop of `m_uiotombuf` and, when it holds,
one pass of its body with `m_new == NULL`; `self` stands for the rest of the
loop, which runs with the pool the allocation has left.  When the loop is over
`m_fixhdr(m_final)` sets the header length and `m_final` is returned. -/
def m_uiotombuf_body (K : Consts) (cl : Nat → Nat)
    (self : Nat → Chain → Store → Uio → Refs → List Event → Option UiotombufOut)
    (pool : Pool) (total progress : Nat) (m_final : Chain) (mem : Store) (uio : Uio)
    (refs : Refs) (log : List Event) : Option UiotombufOut :=
  if progress < total then
    let length := min (total - progress) K.MCLBYTES
    let a := if length > K.MLEN then m_getcl K cl pool MT_DATA false else m_get pool MT_DATA
    match a.1 with
    | none => some (m_uiotombuf_nospace none m_final mem uio a.2 refs log)
    | some m_new =>
        match m_uiotombuf_move mem m_new length uio with
        | (none, u) => some (m_uiotombuf_nospace (some m_new) m_final mem u a.2 refs log)
        | (some (n, mem1), u) =>
            match m_cat K mem1 m_final [n] refs log with
            | none => none
            | some c => self (progress + length) c.1 mem1 u c.2.1 c.2.2
  else
    some { ret := (m_fixhdr m_final).1, mem := mem, uio := uio, pool := pool, refs := refs,
           log := log }

/-- The loop of `m_uiotombuf` after its first pass.  Every further pass
allocates, so the loop is followed along the pool. -/
def m_uiotombuf_loop (K : Consts) (cl : Nat → Nat) (total : Nat) :
    Pool → Nat → Chain → Store → Uio → Refs → List Event → Option UiotombufOut
  | [], progress, m_final, mem, uio, refs, log =>
      m_uiotombuf_body K cl (fun _ _ _ _ _ _ => none) [] total progress m_final mem uio refs log
  | x :: p, progress, m_final, mem, uio, refs, log =>
      m_uiotombuf_body K cl (m_uiotombuf_loop K cl total p) (x :: p) total progress m_final
        mem uio refs log

/-- `m_uiotombuf(uio, how, len, align)` for `align >= 0`.  The first pass of the
loop fills `m_final` itself, where `m_new == m_final`. -/
def m_uiotombuf (K : Consts) (cl : Nat → Nat) (pool : Pool) (mem : Store) (uio : Uio)
    (len : Int) (align : Nat) (refs : Refs) (log : List Event) : Option UiotombufOut :=
  let total := m_uiotombuf_total uio len
  if align ≥ K.MHLEN then some (m_uiotombuf_nospace none [] mem uio pool refs log)
  else
    let a := if total + align > K.MHLEN then m_getcl K cl pool MT_DATA true
             else m_gethdr K pool MT_DATA
    match a.1 with
    | none => some (m_uiotombuf_nospace none [] mem uio a.2 refs log)
    | some mf =>
        let m_final : mbuf := { mf with m_data := mf.m_data + align }
        if 0 < total then
          match m_uiotombuf_move mem m_final (min total K.MCLBYTES) uio with
          | (none, u) =>
              some (m_uiotombuf_nospace (some m_final) [m_final] mem u a.2 refs log)
          | (some (n, mem1), u) =>
              m_uiotombuf_loop K cl total a.2 (min total K.MCLBYTES) [n] mem1 u refs log
        else m_uiotombuf_loop K cl total a.2 0 [m_final] mem uio refs log

/-- A source with 2048 bytes to move, every move succeeding. -/
def uio2048 : Uio := { data := List.replicate 2048 7, errs := [] }

/-- A source with three bytes to move whose first move fails. -/
def uiofail : Uio := { data := [1, 2, 3], errs := [true] }

/-! ## The header is on the first node only -/

/-- What a node that is not the first of its chain must be, as `m_sanity`
checks it: no `M_PKTHDR`, no `m_nextpkt`, no tags. -/
def InChain (x : mbuf) : Prop :=
  x.m_flags.M_PKTHDR = false ∧ x.m_nextpkt = 0 ∧
    ¬ (x.m_flags.M_PKTHDR = true ∧ x.m_pkthdr.tags ≠ [])

instance (x : mbuf) : Decidable (InChain x) := by
  unfold InChain; infer_instance

/-- The storage capacity of a node: the size of the data range `m_sanity`
computes for it, that is `ext_size`, `MHLEN` or `MLEN`. -/
def m_capacity (K : Consts) (m : mbuf) : Nat := sanity_b K m - sanity_a K m

/-! ## m_copypacket -/

/-- The label `nospace` of `m_copypacket`: free what was built and return
NULL. -/
def m_copypacket_nospace (top src : Chain) (refs : Refs) (pool : Pool) (log : List Event) :
    CopymOut :=
  let r := m_freem top refs log
  { top := [], src := src, refs := r.1, pool := pool, log := r.2 }

/-- The statements of `m_copypacket` that fill the new node `n` from the source
node `m`: `n->m_len = m->m_len`, then share the external buffer of `m` or copy
its bytes; for the first node the copy is preceded by
`n->m_data = n->m_pktdat + (m->m_data - m->m_pktdat)`, the offset of the data
of `m` (the difference is signed).  The result is the new node, the source
node and the counters; `none` is a `bcopy` past the end of the array `m_dat`. -/
def m_copypacket_fill (K : Consts) (find : Nat → Nat) (m n : mbuf) (first : Bool)
    (refs : Refs) : Option (mbuf × mbuf × Refs) :=
  let n1 : mbuf := { n with m_len := m.m_len }
  if m.m_flags.M_EXT then
    let n2 : mbuf :=
      { n1 with m_data := m.m_data, m_ext := m.m_ext,
                m_flags := { n1.m_flags with M_EXT := true } }
    let a := MEXT_ADD_REF find m refs
    some ({ n2 with m_ext := { n2.m_ext with ref_cnt := a.1.m_ext.ref_cnt } }, a.1, a.2)
  else
    let n2 : mbuf :=
      if first then { n1 with m_data := K.MLEN - K.MHLEN + m.m_data - (K.MLEN - K.MHLEN) }
      else n1
    if n2.m_data + n2.m_len ≤ K.MLEN then
      some ({ n2 with m_dat := wr n2.m_dat n2.m_data (rd m.m_dat m.m_data n2.m_len) }, m, refs)
    else none

/-- The loop `while (m)` of `m_copypacket`.  `top` is the chain built so far,
`done` the source nodes already passed. -/
def m_copypacket_loop (K : Consts) (find : Nat → Nat) :
    Chain → Chain → Chain → Refs → Pool → List Event → Option CopymOut
  | [], top, done, refs, pool, log =>
      some { top := top, src := done, refs := refs, pool := pool, log := log }
  | m :: ms, top, done, refs, pool, log =>
      let g := m_get pool m.m_type
      match g.1 with
      | none => some (m_copypacket_nospace top (done ++ m :: ms) refs g.2 log)
      | some o =>
          match m_copypacket_fill K find m o false refs with
          | none => none
          | some (n2, m1, refs1) =>
              m_copypacket_loop K find ms (top ++ [n2]) (done ++ [m1]) refs1 g.2 log

/-- `m_copypacket(m, how)`.  `find` is `uma_find_refcnt(zone_clust, ·)` and
`tags_ok` the outcome of the tag copy of `m_dup_pkthdr`; `none` is the use of
`m` when it is NULL, or a store outside a node. -/
def m_copypacket (K : Consts) (find : Nat → Nat) (tags_ok : Bool) (m : Chain)
    (refs : Refs) (pool : Pool) (log : List Event) : Option CopymOut :=
  match m with
  | [] => none
  | m0 :: ms =>
      let g := m_get pool m0.m_type
      match g.1 with
      | none => some (m_copypacket_nospace [] (m0 :: ms) refs g.2 log)
      | some n =>
          let d := m_dup_pkthdr K n m0 tags_ok
          if d.2 = false then some (m_copypacket_nospace [d.1] (m0 :: ms) refs g.2 log)
          else
            match m_copypacket_fill K find m0 d.1 true refs with
            | none => none
            | some (n2, m1, refs1) =>
                m_copypacket_loop K find ms [n2] [m1] refs1 g.2 log

/-! ## m_devget -/

/-- Modelled from the spec: `min` of sys/libkern.h, which is not among the
sources: the smaller of two lengths (a chain is "sized to `min(limit, source
remaining)`").  Its arguments are `u_int`, so a negative `int` counts as a
large number. -/
def u_int_min (a b : Int) : Int := min (a % 4294967296) (b % 4294967296)

/-- What `m_devget` leaves: the chain it returns (`[]` is NULL), the cluster
memory, the pool, the counters and the log. -/
structure DevgetOut where
  ret : Chain
  mem : Store
  pool : Pool
  refs : Refs
  log : List Event

/-- The allocation of one pass of the loop of `m_devget`: the node, the pool
left and `len`, the room the node offers.  For the first node of a small
packet the data is moved `max_linkhdr` bytes into the node when
`totlen + off + max_linkhdr <= MLEN`. -/
def m_devget_alloc (K : Consts) (cl : Nat → Nat) (pool : Pool) (first : Bool)
    (totlen off : Int) : Option mbuf × Pool × Int :=
  if first then
    if totlen + off ≥ (K.MINCLSIZE : Int) then
      ((m_getcl K cl pool MT_DATA true).1, (m_getcl K cl pool MT_DATA true).2,
        (K.MCLBYTES : Int))
    else
      match m_gethdr K pool MT_DATA with
      | (some m, p) =>
          if totlen + off + (K.max_linkhdr : Int) ≤ (K.MLEN : Int) then
            (some { m with m_data := m.m_data + K.max_linkhdr }, p,
              (K.MHLEN : Int) - (K.max_linkhdr : Int))
          else (some m, p, (K.MHLEN : Int))
      | (none, p) => (none, p, (K.MHLEN : Int))
  else if totlen + off ≥ (K.MINCLSIZE : Int) then
    ((m_getcl K cl pool MT_DATA false).1, (m_getcl K cl pool MT_DATA false).2,
      (K.MCLBYTES : Int))
  else ((m_get pool MT_DATA).1, (m_get pool MT_DATA).2, (K.MLEN : Int))

/-- One test of the condition of the loop of `m_devget` and, when it holds, one
pass of its body; `self` stands for the rest of the loop, which runs with the
pool the allocation has left.  `pos` is how far `buf` has advanced and `top`
the chain built so far.  The bytes go to `mtod(m)` by `bcopy` or by the
function `copy`. -/
def m_devget_body (K : Consts) (cl : Nat → Nat)
    (self : Int → Nat → Chain → Store → Option DevgetOut)
    (pool : Pool) (buf : List Byte) (ifp : Nat) (totlen off : Int) (pos : Nat) (top : Chain)
    (mem : Store) (refs : Refs) (log : List Event) : Option DevgetOut :=
  if totlen > 0 then
    let a := m_devget_alloc K cl pool top.isEmpty totlen off
    match a.1 with
    | none =>
        if top.isEmpty then
          some { ret := [], mem := mem, pool := a.2.1, refs := refs, log := log }
        else
          let f := m_freem top refs log
          some { ret := [], mem := mem, pool := a.2.1, refs := f.1, log := f.2 }
    | some m =>
        let m1 : mbuf :=
          if top.isEmpty then { m with m_pkthdr := { m.m_pkthdr with rcvif := ifp, len := totlen } }
          else m
        let m2 : mbuf := if off ≠ 0 then { m1 with m_data := m1.m_data + off.toNat } else m1
        let len : Int := u_int_min totlen (if off ≠ 0 then a.2.2 - off else a.2.2)
        let bs := (buf.drop pos).take len.toNat
        let m3 : mbuf :=
          if m2.m_flags.M_EXT then { m2 with m_len := len.toNat }
          else { m2 with m_len := len.toNat, m_dat := wr m2.m_dat m2.m_data bs }
        let mem1 : Store := if m2.m_flags.M_EXT then wr mem m2.m_data bs else mem
        self (totlen - len) (pos + len.toNat) (top ++ [m3]) mem1
  else some { ret := top, mem := mem, pool := pool, refs := refs, log := log }

/-- The loop of `m_devget`.  Every pass allocates, so the loop is followed along
the pool; `off` is 0 after the first pass. -/
def m_devget_loop (K : Consts) (cl : Nat → Nat) (buf : List Byte) (ifp : Nat) (refs : Refs)
    (log : List Event) : Pool → Int → Int → Nat → Chain → Store → Option DevgetOut
  | [], totlen, off, pos, top, mem =>
      m_devget_body K cl (fun _ _ _ _ => none) [] buf ifp totlen off pos top mem refs log
  | x :: p, totlen, off, pos, top, mem =>
      m_devget_body K cl (fun t ps tp me => m_devget_loop K cl buf ifp refs log p t 0 ps tp me)
        (x :: p) buf ifp totlen off pos top mem refs log

/-- `m_devget(buf, totlen, off, ifp, copy)`: `buf` holds the bytes of the device
memory, `ifp` is the address of the interface. -/
def m_devget (K : Consts) (cl : Nat → Nat) (pool : Pool) (mem : Store) (buf : List Byte)
    (totlen off : Int) (ifp : Nat) (refs : Refs) (log : List Event) : Option DevgetOut :=
  if off < 0 ∨ off > (K.MHLEN : Int) then
    some { ret := [], mem := mem, pool := pool, refs := refs, log := log }
  else m_devget_loop K cl buf ifp refs log pool totlen off 0 [] mem

/-- Five bytes of device memory. -/
def buf5 : List Byte := [11, 12, 13, 14, 15]

/-! ## Concurrent mb_free_ext -/

/-- Where one call of `mb_free_ext` stands: at the head of the loop
`while (dofree == 0)` with `dofree == 0`; between the read `cnt = *ref_cnt` and
the `atomic_cmpset_int`; after the loop, before `if (dofree)`; returned. -/
inductive FreePc where
  | loop
  | cmpset (cnt : Nat)
  | free (dofree : Bool)
  | done
deriving DecidableEq

/-- One call of `mb_free_ext`: its node `m` and where it stands. -/
structure FreeThread where
  m : mbuf
  pc : FreePc

/-- The entry of `mb_free_ext(m)`: `dofree` is 1 when the counter pointer is
NULL, and the loop is not entered. -/
def mb_free_ext_enter (m : mbuf) : FreeThread :=
  { m := m, pc := if m.m_ext.ref_cnt.isNone then FreePc.free true else FreePc.loop }

/-- The part of `mb_free_ext(m)` after the loop: the storage teardown when
`dofree`, then the return of the node. -/
def mb_free_ext_exit (m : mbuf) (dofree : Bool) (log : List Event) : List Event :=
  if dofree then
    if m.m_ext.ext_type = EXT_PACKET then
      log ++ [Event.zfree_pack m.addr]
    else if m.m_ext.ext_type = EXT_CLUSTER then
      log ++ [Event.zfree_clust m.m_ext.ext_buf, Event.zfree_mbuf m.addr]
    else
      let l1 := log ++ [Event.ext_free m.m_ext.ext_free m.m_ext.ext_buf m.m_ext.ext_args]
      let l2 := if m.m_ext.ext_type ≠ EXT_EXTREF then
          match m.m_ext.ref_cnt with
          | none => l1
          | some r => l1 ++ [Event.free_cnt r]
        else l1
      l2 ++ [Event.zfree_mbuf m.addr]
  else log ++ [Event.zfree_mbuf m.addr]

/-- One atomic step of a call of `mb_free_ext` on the shared counters and log:
the read of the counter; the compare-and-swap, which stores `cnt - 1` and
leaves the loop when the counter still holds `cnt` and goes round the loop
otherwise; the part after the loop.  `none`: the call has returned. -/
def mb_free_ext_step (t : FreeThread) (refs : Refs) (log : List Event) :
    Option (FreeThread × Refs × List Event) :=
  match t.pc with
  | FreePc.loop =>
      match t.m.m_ext.ref_cnt with
      | none => none
      | some r => some ({ t with pc := FreePc.cmpset (refs r) }, refs, log)
  | FreePc.cmpset cnt =>
      match t.m.m_ext.ref_cnt with
      | none => none
      | some r =>
          if refs r = cnt then
            some ({ t with pc := FreePc.free (decide (cnt = 1)) },
              setRef refs r (u_int_dec cnt), log)
          else some ({ t with pc := FreePc.loop }, refs, log)
  | FreePc.free dofree =>
      some ({ t with pc := FreePc.done }, refs, mb_free_ext_exit t.m dofree log)
  | FreePc.done => none

/-- Calls of `mb_free_ext` running at the same time, with the counters and the
log they share. -/
structure FreeSys where
  threads : List FreeThread
  refs : Refs
  log : List Event

/-- The calls `mb_free_ext(m)` for the nodes `m` of the list, all entered. -/
def sys_init (nodes : List mbuf) (refs : Refs) : FreeSys :=
  { threads := nodes.map mb_free_ext_enter, refs := refs, log := [] }

/-- The call number `i` takes its next step; `none` when there is no such call
or it has returned. -/
def sys_step (i : Nat) (s : FreeSys) : Option FreeSys :=
  match s.threads[i]? with
  | none => none
  | some t =>
      match mb_free_ext_step t s.refs s.log with
      | none => none
      | some r => some { threads := s.threads.set i r.1, refs := r.2.1, log := r.2.2 }

/-- An interleaving: the calls take steps in the order of the schedule. -/
def sys_run : List Nat → FreeSys → Option FreeSys
  | [], s => some s
  | i :: sch, s =>
      match sys_step i s with
      | none => none
      | some s1 => sys_run sch s1

/-- The calls that have not yet decremented the counter. -/
def pendingOf (t : FreeThread) : Nat :=
  match t.pc with
  | FreePc.loop => 1
  | FreePc.cmpset _ => 1
  | _ => 0

/-- The calls that have left the loop with `dofree` set and not yet freed. -/
def freeingOf (t : FreeThread) : Nat :=
  match t.pc with
  | FreePc.free true => 1
  | _ => 0

/-- A bound on the steps a call has yet to take before another call changes
the counter, which holds `c`: a call about to compare-and-swap a value other
than `c` will fail and start again. -/
def weightOf (c : Nat) (t : FreeThread) : Nat :=
  match t.pc with
  | FreePc.loop => 2
  | FreePc.cmpset x => if x = c then 1 else 3
  | FreePc.free _ => 1
  | FreePc.done => 0

/-- A bound on the steps the calls have yet to take, the counter at `r`
holding the number of calls still to decrement it. -/
def sys_measure (r : Nat) (s : FreeSys) : Nat :=
  (2 * s.threads.length + 1) * s.refs r + (s.threads.map (weightOf (s.refs r))).sum

/-- What holds of the calls at every moment, for nodes that share the counter
at `r`: the counter holds the number of calls that have not yet decremented
it, and a call has left the loop with `dofree` set, or the teardown has run,
exactly when the counter is 0. -/
def FreeInv (r N : Nat) (s : FreeSys) : Prop :=
  s.threads.length = N ∧ (∀ t, t ∈ s.threads → t.m.m_ext.ref_cnt = some r) ∧
    s.refs r = (s.threads.map pendingOf).sum ∧
    (s.threads.map freeingOf).sum + teardowns s.log = (if s.refs r = 0 then 1 else 0)

/-! ## Basic facts about stores and chains -/

theorem rd_length (s : Store) (p n : Nat) : (rd s p n).length = n := by
  simp [rd]

theorem mbytes_length (mem : Store) (m : mbuf) : (mbytes mem m).length = m.m_len := by
  simp [mbytes, rd_length]

theorem chainBytes_length (mem : Store) (c : Chain) :
    (chainBytes mem c).length = totalLen c := by
  induction c with
  | nil => rfl
  | cons m ms ih => simp [chainBytes, totalLen, mbytes_length, ih]

theorem rd_add (s : Store) (p a b : Nat) :
    rd s p (a + b) = rd s p a ++ rd s (p + a) b := by
  simp only [rd, List.range_add, List.map_append, List.map_map]
  congr 1
  apply List.map_congr_left
  intro i _
  simp [Nat.add_assoc]

theorem rd_drop (s : Store) (p n k : Nat) :
    (rd s p n).drop k = rd s (p + k) (n - k) := by
  by_cases h : k ≤ n
  · obtain ⟨d, rfl⟩ := Nat.exists_eq_add_of_le h
    rw [rd_add, List.drop_left' (rd_length _ _ _)]
    simp
  · have h1 : n - k = 0 := by omega
    rw [h1, List.drop_eq_nil_of_le (by rw [rd_length]; omega)]
    simp [rd]

theorem rd_take (s : Store) (p n k : Nat) :
    (rd s p n).take k = rd s p (min k n) := by
  by_cases h : k ≤ n
  · obtain ⟨d, rfl⟩ := Nat.exists_eq_add_of_le h
    rw [rd_add, List.take_left' (rd_length _ _ _)]
    simp
  · have h1 : min k n = n := by omega
    rw [h1, List.take_of_length_le (by rw [rd_length]; omega)]

/-! ## m_copydata -/

theorem seek_zero (c : Chain) : seek c 0 = some (c, 0) := by
  cases c <;> rfl

theorem chainBytes_drop_cons (mem : Store) (m : mbuf) (ms : Chain) (off : Nat)
    (h : off ≤ m.m_len) :
    (chainBytes mem (m :: ms)).drop off =
      rd (storeOf mem m) (m.m_data + off) (m.m_len - off) ++ chainBytes mem ms := by
  simp only [chainBytes, mbytes]
  rw [List.drop_append_eq_append_drop, rd_drop, rd_length]
  have : off - m.m_len = 0 := by omega
  simp [this]

/-- The seek loop reaches the byte at `off`: it succeeds when `off` is within
the chain, and the bytes from `off` on are those of the node reached from the
offset left. -/
theorem seek_spec (mem : Store) (c : Chain) (off : Nat) (h : off ≤ totalLen c) :
    ∃ c1 off1, seek c off = some (c1, off1) ∧
      (chainBytes mem c).drop off = (chainBytes mem c1).drop off1 ∧
      totalLen c - off = totalLen c1 - off1 ∧ off1 ≤ totalLen c1 ∧
      (off1 = 0 ∨ ∃ m ms, c1 = m :: ms ∧ off1 < m.m_len) := by
  induction c generalizing off with
  | nil =>
    have : off = 0 := by simpa [totalLen] using h
    subst this
    exact ⟨[], 0, rfl, rfl, rfl, Nat.le_refl _, Or.inl rfl⟩
  | cons m ms ih =>
    cases off with
    | zero => exact ⟨m :: ms, 0, rfl, rfl, rfl, Nat.zero_le _, Or.inl rfl⟩
    | succ k =>
      by_cases hk : k + 1 < m.m_len
      · refine ⟨m :: ms, k + 1, by simp [seek, hk], rfl, rfl, h, Or.inr ⟨m, ms, rfl, hk⟩⟩
      · have hle : m.m_len ≤ k + 1 := by omega
        have h2 : k + 1 - m.m_len ≤ totalLen ms := by
          simp only [totalLen] at h; omega
        obtain ⟨c1, off1, hs, hb, ht, hl, hd⟩ := ih (k + 1 - m.m_len) h2
        refine ⟨c1, off1, by simp [seek, hk, hs], ?_, ?_, hl, hd⟩
        · clear hd
          rw [← hb]
          simp only [chainBytes]
          rw [List.drop_append_eq_append_drop, mbytes_length,
            List.drop_eq_nil_of_le (by rw [mbytes_length]; exact hle)]
          simp
        · clear hd
          simp only [totalLen] at h ⊢; omega

theorem m_copydata_loop_spec (mem : Store) (c : Chain) (off len : Nat)
    (hoff : off = 0 ∨ ∃ m ms, c = m :: ms ∧ off < m.m_len)
    (h : off + len ≤ totalLen c) :
    m_copydata_loop mem c off len = some (((chainBytes mem c).drop off).take len) := by
  induction c generalizing off len with
  | nil =>
    have : len = 0 := by simp only [totalLen] at h; omega
    subst this
    simp [m_copydata_loop]
  | cons m ms ih =>
    cases len with
    | zero => simp [m_copydata_loop]
    | succ k =>
      have hle : off ≤ m.m_len := by
        rcases hoff with h0 | ⟨m1, ms1, he, hlt⟩
        · omega
        · cases he; omega
      simp only [totalLen] at h
      have hrec := ih 0 (k + 1 - min (m.m_len - off) (k + 1)) (Or.inl rfl) (by omega)
      simp only [m_copydata_loop, hrec, List.drop_zero]
      rw [chainBytes_drop_cons mem m ms off hle, List.take_append_eq_append_take,
        rd_take, rd_length]
      congr 3
      · exact Nat.min_comm _ _
      · omega

theorem m_copydata_eq (mem : Store) (c : Chain) (off len : Nat)
    (h : off + len ≤ totalLen c) :
    m_copydata mem c off len = some (((chainBytes mem c).drop off).take len) := by
  obtain ⟨c1, off1, hs, hb, ht, hl, hd⟩ := seek_spec mem c off (by omega)
  simp only [m_copydata, hs]
  rw [hb]
  exact m_copydata_loop_spec mem c1 off1 len hd (by omega)

/-- C1: for every chain and every off, len with off + len not beyond the total
length, m_copydata returns (completes without tripping a KASSERT) and the bytes
it stores through cp are exactly the len bytes at positions off .. off+len of
the concatenation of the nodes' valid byte ranges, in order.  The routine takes
the chain read-only: the model has no way to alter a node. -/
theorem m_copydata_reads_range (mem : Store) (c : Chain) (off len : Nat)
    (h : off + len ≤ totalLen c) :
    m_copydata mem c off len = some (((chainBytes mem c).drop off).take len) :=
  m_copydata_eq mem c off len h

/-! ## m_copyback after m_copydata -/

theorem rd_getD (s : Store) (p n i : Nat) (h : i < n) : (rd s p n).getD i 0 = s (p + i) := by
  simp [rd, List.getD_eq_getElem?_getD, List.getElem?_map, List.getElem?_range h]

theorem wr_rd_self (s : Store) (p n : Nat) : wr s p (rd s p n) = s := by
  funext a
  simp only [wr, rd_length]
  split
  · rename_i h
    rw [rd_getD s p n (a - p) (by omega)]
    congr 1; omega
  · rfl

theorem storeInto_self (mem : Store) (m : mbuf) (off n : Nat) :
    storeInto mem m (off + m.m_data) (rd (storeOf mem m) (m.m_data + off) n) = (m, mem) := by
  unfold storeInto storeOf
  rw [Nat.add_comm off]
  split <;> simp [wr_rd_self]

theorem m_copyback_body_same (mem : Store) (m : mbuf) (ms : Chain) (off len totlen : Nat)
    (hle : off ≤ m.m_len) :
    m_copyback_body mem m off len totlen (((chainBytes mem (m :: ms)).drop off).take len) =
      (m, mem, (chainBytes mem ms).take (len - (m.m_len - off)),
        len - min (m.m_len - off) len, totlen + (min (m.m_len - off) len + off)) := by
  have hcp : ((chainBytes mem (m :: ms)).drop off).take len =
      rd (storeOf mem m) (m.m_data + off) (min (m.m_len - off) len) ++
        (chainBytes mem ms).take (len - (m.m_len - off)) := by
    rw [chainBytes_drop_cons mem m ms off hle, List.take_append_eq_append_take,
      rd_take, rd_length, Nat.min_comm]
  unfold m_copyback_body
  dsimp only
  rw [hcp, List.take_left' (rd_length _ _ _), List.drop_left' (rd_length _ _ _),
    storeInto_self]

theorem m_copyback_loop2_cons (K : Consts) (m : mbuf) (ms : Chain) (mem : Store)
    (pool : Pool) (off len totlen : Nat) (cp : List Byte) (b : mbuf × Store × List Byte × Nat × Nat)
    (hb : m_copyback_body mem m off len totlen cp = b) (hl : len ≠ 0) :
    m_copyback_loop2 K (m :: ms) mem pool off len totlen cp =
      if b.2.2.2.1 = 0 then
        { chain := b.1 :: ms, mem := b.2.1, pool := pool, totlen := b.2.2.2.2 }
      else
        match ms with
        | [] =>
            let r := m_copyback_grow2 K m.m_type pool b.2.1 b.2.2.2.1 b.2.2.2.2 b.2.2.1
            { r with chain := b.1 :: r.chain }
        | m1 :: ms1 =>
            let r := m_copyback_loop2 K (m1 :: ms1) b.2.1 pool 0 b.2.2.2.1 b.2.2.2.2 b.2.2.1
            { r with chain := b.1 :: r.chain } := by
  subst hb
  rw [m_copyback_loop2, if_neg hl]
  rfl

theorem m_copyback_loop2_same (K : Consts) (mem : Store) (pool : Pool) (c : Chain)
    (off len totlen : Nat)
    (hoff : ∀ m ms, c = m :: ms → off ≤ m.m_len)
    (h : off + len ≤ totalLen c) :
    ∃ t, m_copyback_loop2 K c mem pool off len totlen
        (((chainBytes mem c).drop off).take len) =
      { chain := c, mem := mem, pool := pool, totlen := t } := by
  induction c generalizing off len totlen with
  | nil => exact ⟨totlen, rfl⟩
  | cons m ms ih =>
    have hle := hoff m ms rfl
    by_cases hl : len = 0
    · exact ⟨totlen, by rw [m_copyback_loop2, if_pos hl]⟩
    · simp only [totalLen] at h
      rw [m_copyback_loop2_cons K m ms mem pool off len totlen _ _
        (m_copyback_body_same mem m ms off len totlen hle) hl]
      by_cases h1 : len - min (m.m_len - off) len = 0
      · exact ⟨_, by rw [if_pos h1]⟩
      · rw [if_neg h1]
        have hlt : m.m_len - off < len := by omega
        have hmin : min (m.m_len - off) len = m.m_len - off := by omega
        cases ms with
        | nil => simp only [totalLen] at h; omega
        | cons m1 ms1 =>
          simp only [totalLen] at h
          obtain ⟨t, ht⟩ := ih 0 (len - (m.m_len - off))
            (totlen + (min (m.m_len - off) len + off)) (fun _ _ _ => Nat.zero_le _)
            (by simp only [totalLen]; omega)
          simp only [List.drop_zero] at ht
          simp only [hmin] at ht ⊢
          rw [ht]
          exact ⟨_, rfl⟩

theorem m_copyback_loop1_same (K : Consts) (mem : Store) (pool : Pool) (c : Chain)
    (off len totlen : Nat) (h : off + len ≤ totalLen c) :
    ∃ t, m_copyback_loop1 K c mem pool off len totlen
        (((chainBytes mem c).drop off).take len) =
      { chain := c, mem := mem, pool := pool, totlen := t } := by
  induction c generalizing off totlen with
  | nil => exact ⟨_, rfl⟩
  | cons m ms ih =>
    by_cases hgt : off > m.m_len
    · simp only [totalLen] at h
      cases ms with
      | nil => simp only [totalLen] at h; omega
      | cons m1 ms1 =>
        have hb : (chainBytes mem (m :: m1 :: ms1)).drop off =
            (chainBytes mem (m1 :: ms1)).drop (off - m.m_len) := by
          rw [chainBytes, List.drop_append_eq_append_drop, mbytes_length,
            List.drop_eq_nil_of_le (by rw [mbytes_length]; omega)]
          simp
        obtain ⟨t, ht⟩ := ih (off - m.m_len) (totlen + m.m_len) (by omega)
        simp only [m_copyback_loop1, hgt, if_true, hb, ht]
        exact ⟨_, rfl⟩
    · have key := m_copyback_loop2_same K mem pool (m :: ms) off len totlen
        (fun m' ms' he => by cases he; omega) h
      cases ms <;> simp only [m_copyback_loop1, hgt, if_false] <;> exact key

theorem m_copyback_out_lens (c : Chain) (t : Nat) :
    (m_copyback_out c t).map (fun m => m.m_len) = c.map (fun m => m.m_len) := by
  cases c with
  | nil => rfl
  | cons m ms => simp only [m_copyback_out]; split <;> rfl

theorem m_copyback_out_bytes (mem : Store) (c : Chain) (t : Nat) :
    chainBytes mem (m_copyback_out c t) = chainBytes mem c := by
  cases c with
  | nil => rfl
  | cons m ms => simp only [m_copyback_out]; split <;> rfl

/-- C2: reading buf with m_copydata at (off, len) within the chain and writing
it back with m_copyback at the same (off, len) leaves external memory, the byte
content of the chain and every node length as they were, keeps the number of
nodes, and takes nothing from the allocator. -/
theorem m_copyback_after_m_copydata (K : Consts) (mem : Store) (pool : Pool) (c : Chain)
    (off len : Nat) (h : off + len ≤ totalLen c) :
    ∃ buf, m_copydata mem c off len = some buf ∧
      (m_copyback K c mem pool off len buf).2.1 = mem ∧
      (m_copyback K c mem pool off len buf).2.2 = pool ∧
      chainBytes mem (m_copyback K c mem pool off len buf).1 = chainBytes mem c ∧
      (m_copyback K c mem pool off len buf).1.map (fun m => m.m_len) =
        c.map (fun m => m.m_len) ∧
      (m_copyback K c mem pool off len buf).1.length = c.length := by
  refine ⟨_, m_copydata_eq mem c off len h, ?_⟩
  cases c with
  | nil => simp [m_copyback]
  | cons m ms =>
    obtain ⟨t, ht⟩ := m_copyback_loop1_same K mem pool (m :: ms) off len 0 h
    have hlen := congrArg List.length (m_copyback_out_lens (m :: ms) t)
    simp only [List.length_map] at hlen
    simp only [m_copyback, ht, m_copyback_out_bytes, m_copyback_out_lens, hlen, and_self]

/-! ## m_copym -/

theorem rd_wr_self (s : Store) (p : Nat) (bs : List Byte) :
    rd (wr s p bs) p bs.length = bs := by
  apply List.ext_getElem
  · simp [rd]
  · intro i h1 h2
    simp only [rd, List.getElem_map, List.getElem_range, wr]
    have : p ≤ p + i ∧ p + i < p + bs.length := ⟨by omega, by omega⟩
    simp only [this, and_self, if_true, Nat.add_sub_cancel_left]
    simp [List.getD_eq_getElem?_getD, List.getElem?_eq_getElem h2]

theorem allocOK_succ (pool : Pool) (n : Nat) (h : allocOK pool (n + 1) = true) :
    ∃ a d p, pool = some (a, d) :: p ∧ allocOK p n = true := by
  match pool, h with
  | some (a, d) :: p, h => exact ⟨a, d, p, rfl, by simpa [allocOK] using h⟩

theorem m_copym_fill_spec (K : Consts) (find : Nat → Nat) (mem : Store) (m n : mbuf)
    (off len : Nat) (refs : Refs) (hn : n.m_flags.M_EXT = false)
    (hcap : m.m_flags.M_EXT = false → n.m_data + (m.m_len - off) ≤ K.MLEN) :
    ∃ n2 m1 refs1, m_copym_fill K find m n off len refs = some (n2, m1, refs1) ∧
      mbytes mem n2 = rd (storeOf mem m) (m.m_data + off) (min len (m.m_len - off)) ∧
      n2.m_len = min len (m.m_len - off) ∧
      mbytes mem m1 = mbytes mem m ∧ m1.m_len = m.m_len ∧
      n2.m_pkthdr = n.m_pkthdr ∧ n2.m_flags.M_PKTHDR = n.m_flags.M_PKTHDR := by
  unfold m_copym_fill
  by_cases he : m.m_flags.M_EXT = true
  · simp only [he, if_true]
    refine ⟨_, _, _, rfl, ?_, rfl, ?_, ?_, rfl, rfl⟩
    · simp [mbytes, storeOf, he]
    · unfold MEXT_ADD_REF
      cases hr : m.m_ext.ref_cnt <;> simp [mbytes, storeOf, he]
    · unfold MEXT_ADD_REF
      cases hr : m.m_ext.ref_cnt <;> rfl
  · have he' : m.m_flags.M_EXT = false := by simpa using he
    have hc := hcap he'
    have hle : n.m_data + min len (m.m_len - off) ≤ K.MLEN := by omega
    simp only [he', Bool.false_eq_true, if_false, hle, if_true]
    refine ⟨_, _, _, rfl, ?_, rfl, rfl, rfl, rfl, rfl⟩
    simp only [mbytes, storeOf, hn, he', Bool.false_eq_true, if_false]
    have := rd_wr_self n.m_dat n.m_data (rd m.m_dat (m.m_data + off) (min len (m.m_len - off)))
    rw [rd_length] at this
    exact this

theorem chainBytes_append (mem : Store) (a b : Chain) :
    chainBytes mem (a ++ b) = chainBytes mem a ++ chainBytes mem b := by
  induction a with
  | nil => rfl
  | cons m ms ih => simp [chainBytes, ih]

theorem totalLen_append (a b : Chain) : totalLen (a ++ b) = totalLen a + totalLen b := by
  induction a with
  | nil => simp [totalLen]
  | cons m ms ih => simp [totalLen, ih, Nat.add_assoc]

theorem m_dup_pkthdr_ok (K : Consts) (n m : mbuf) (hn : n.m_flags.M_EXT = false) :
    (m_dup_pkthdr K n m true).2 = true ∧
    (m_dup_pkthdr K n m true).1.m_flags.M_EXT = false ∧
    (m_dup_pkthdr K n m true).1.m_flags.M_PKTHDR = m.m_flags.M_PKTHDR ∧
    (m_dup_pkthdr K n m true).1.m_data = K.MLEN - K.MHLEN ∧
    (m_dup_pkthdr K n m true).1.m_pkthdr = m.m_pkthdr := by
  simp [m_dup_pkthdr, hn, copyflags]

theorem take_drop_cons_bytes (mem : Store) (m : mbuf) (ms : Chain) (off len : Nat)
    (hle : off ≤ m.m_len) :
    ((chainBytes mem (m :: ms)).drop off).take len =
      rd (storeOf mem m) (m.m_data + off) (min len (m.m_len - off)) ++
        (chainBytes mem ms).take (len - (m.m_len - off)) := by
  rw [chainBytes_drop_cons mem m ms off hle, List.take_append_eq_append_take,
    rd_take, rd_length]

/-- One pass of the copy loop when the allocation succeeds and the tag copy
succeeds: the loop goes on from the filled node. -/
theorem m_copym_loop_step (K : Consts) (find : Nat → Nat) (tags_ok : Bool) (off0 : Nat)
    (m : mbuf) (ms : Chain)
    (off len : Nat) (copyhdr : Bool) (top done : Chain) (refs : Refs) (a : Nat) (d : Store)
    (p : Pool) (log : List Event)
    (hfm : Fits K m) (hle : off ≤ m.m_len)
    (hhdr : copyhdr = true → m.m_flags.M_PKTHDR = true) (hl0 : ¬ len = 0)
    (htags : copyhdr = true → tags_ok = true) :
    ∃ n1 : mbuf, n1.addr = a ∧ n1.m_flags.M_EXT = false ∧
      (m.m_flags.M_EXT = false → n1.m_data + (m.m_len - off) ≤ K.MLEN) ∧
      (copyhdr = true → n1.m_flags.M_PKTHDR = true ∧
        n1.m_pkthdr.len = if len = K.M_COPYALL then m.m_pkthdr.len - (off0 : Int)
          else (len : Int)) ∧
      m_copym_loop K find tags_ok off0 (m :: ms) off len copyhdr top done refs
          (some (a, d) :: p) log =
        match m_copym_fill K find m n1 off len refs with
        | none => none
        | some (n2, m1, refs1) =>
          m_copym_loop K find tags_ok off0 ms 0
            (if len ≠ K.M_COPYALL then len - n2.m_len else len) false
            (top ++ [n2]) (done ++ [m1]) refs1 p log := by
  cases copyhdr with
  | true =>
    have hm := hhdr rfl
    have ht := htags rfl
    subst ht
    obtain ⟨h1, h2, h3, h4, h5⟩ :=
      m_dup_pkthdr_ok K (newHdrNode K a d m.m_type) m (by rfl)
    refine ⟨{ (m_dup_pkthdr K (newHdrNode K a d m.m_type) m true).1 with
        m_pkthdr := { (m_dup_pkthdr K (newHdrNode K a d m.m_type) m true).1.m_pkthdr with
          len := if len = K.M_COPYALL then
              (m_dup_pkthdr K (newHdrNode K a d m.m_type) m true).1.m_pkthdr.len - (off0 : Int)
            else (len : Int) } }, ?_, h2, ?_, ?_, ?_⟩
    · simp [m_dup_pkthdr, newHdrNode, newNode]
    · intro he
      simp only [h4]
      simp only [Fits, he, hm, Bool.false_eq_true, if_false, if_true] at hfm
      omega
    · intro _
      refine ⟨by simp only [h3, hm], ?_⟩
      simp only [h5]
    · rw [m_copym_loop]
      simp only [hl0, if_false, if_true, m_gethdr, h1]
      rfl
  | false =>
    refine ⟨newNode a d m.m_type, rfl, rfl, ?_, ?_, ?_⟩
    · intro he
      have : (newNode a d m.m_type).m_data = 0 := rfl
      rw [this]
      simp only [Fits, he, Bool.false_eq_true, if_false] at hfm
      split at hfm <;> omega
    · intro h; cases h
    · rw [m_copym_loop]
      simp only [hl0, if_false, m_get]
      rfl

theorem m_copym_loop_ok (K : Consts) (find : Nat → Nat) (mem : Store) (off0 : Nat) (c : Chain) :
    ∀ (off len : Nat) (copyhdr : Bool) (top done : Chain) (refs : Refs) (pool : Pool)
      (log : List Event),
      ChainFits K c →
      (∀ m ms, c = m :: ms → off ≤ m.m_len) →
      (copyhdr = true → ∀ m ms, c = m :: ms → m.m_flags.M_PKTHDR = true) →
      allocOK pool c.length = true →
      totalLen c < K.M_COPYALL →
      (len = K.M_COPYALL ∨ off + len ≤ totalLen c) →
      ∃ r new, m_copym_loop K find true off0 c off len copyhdr top done refs pool log = some r ∧
        r.top = top ++ new ∧
        chainBytes mem new = ((chainBytes mem c).drop off).take len ∧
        chainBytes mem r.src = chainBytes mem done ++ chainBytes mem c ∧
        r.src.map (fun m => m.m_len) = (done ++ c).map (fun m => m.m_len) ∧
        r.log = log ∧
        (copyhdr = true → 0 < len → ∀ m ms, c = m :: ms →
          ∃ n ns, new = n :: ns ∧ n.m_flags.M_PKTHDR = true ∧
            n.m_pkthdr.len = if len = K.M_COPYALL then m.m_pkthdr.len - (off0 : Int)
              else (len : Int)) := by
  induction c with
  | nil =>
    intro off len copyhdr top done refs pool log _ _ _ _ _ hlen
    have h0 : len = 0 ∨ len = K.M_COPYALL := by
      rcases hlen with h | h
      · exact Or.inr h
      · simp only [totalLen] at h; left; omega
    refine ⟨{ top := top, src := done, refs := refs, pool := pool, log := log }, [],
      by simp only [m_copym_loop, h0, if_true], by simp, by simp [chainBytes],
      by simp [chainBytes], by simp, rfl, ?_⟩
    intro _ _ m ms he; cases he
  | cons m ms ih =>
    intro off len copyhdr top done refs pool log hfit hoff hhdr hpool htot hlen
    have hle := hoff m ms rfl
    obtain ⟨hfm, hfms⟩ := hfit
    simp only [totalLen] at htot hlen
    by_cases hl0 : len = 0
    · subst hl0
      refine ⟨{ top := top, src := done ++ m :: ms, refs := refs, pool := pool, log := log }, [],
        by simp only [m_copym_loop, if_true], by simp, by simp [chainBytes],
        by simp [chainBytes_append], by simp, rfl, ?_⟩
      intro _ h; omega
    · obtain ⟨a, d, p, hp, hpok⟩ := allocOK_succ pool ms.length hpool
      subst hp
      obtain ⟨n1, -, hn1e, hn1cap, hn1hdr, hstep⟩ :=
        m_copym_loop_step K find true off0 m ms off len copyhdr top done refs a d p log
          hfm hle (fun h => hhdr h m ms rfl) hl0 (fun _ => rfl)
      obtain ⟨n2, m1, refs1, hfill, hb2, hl2, hbm1, hlm1, hp2, hf2⟩ :=
        m_copym_fill_spec K find mem m n1 off len refs hn1e hn1cap
      rw [hfill] at hstep
      have hlen' : (if len ≠ K.M_COPYALL then len - n2.m_len else len) = K.M_COPYALL ∨
          0 + (if len ≠ K.M_COPYALL then len - n2.m_len else len) ≤ totalLen ms := by
        by_cases hc : len = K.M_COPYALL
        · left; simp [hc]
        · right
          simp only [hc, ne_eq, not_false_eq_true, if_true]
          rcases hlen with h | h
          · exact absurd h hc
          · omega
      obtain ⟨r, new, hr, htop, hbytes, hsrc, hlens, hlog, _⟩ :=
        ih 0 (if len ≠ K.M_COPYALL then len - n2.m_len else len) false (top ++ [n2])
          (done ++ [m1]) refs1 p log hfms (fun _ _ _ => Nat.zero_le _)
          (by intro h; cases h) hpok (by omega) hlen'
      have htake : (chainBytes mem ms).take (if len ≠ K.M_COPYALL then len - n2.m_len else len) =
          (chainBytes mem ms).take (len - (m.m_len - off)) := by
        by_cases hc : len = K.M_COPYALL
        · rw [List.take_of_length_le, List.take_of_length_le]
          · rw [chainBytes_length]; omega
          · rw [chainBytes_length]; simp only [hc, ne_eq, not_true_eq_false, if_false]; omega
        · simp only [hc, ne_eq, not_false_eq_true, if_true]
          congr 1; omega
      refine ⟨r, n2 :: new, by rw [hstep]; exact hr, by simp [htop], ?_, ?_, ?_, hlog, ?_⟩
      · rw [List.drop_zero] at hbytes
        rw [take_drop_cons_bytes mem m ms off len hle, ← htake, ← hbytes]
        simp only [chainBytes, hb2]
      · rw [hsrc]
        simp only [chainBytes_append, chainBytes, hbm1, List.append_nil, List.append_assoc]
      · rw [hlens]
        simp [hlm1]
      · intro hc _ m' ms' he
        cases he
        obtain ⟨hh1, hh2⟩ := hn1hdr hc
        exact ⟨n2, new, rfl, by rw [hf2, hh1], by rw [hp2, hh2]⟩

theorem seek_suffix (c : Chain) (off : Nat) (c1 : Chain) (off1 : Nat)
    (h : seek c off = some (c1, off1)) : ∃ pre, c = pre ++ c1 := by
  induction c generalizing off with
  | nil =>
    cases off with
    | zero => simp only [seek, Option.some.injEq, Prod.mk.injEq] at h; exact ⟨[], by simp [h.1]⟩
    | succ k => simp [seek] at h
  | cons m ms ih =>
    cases off with
    | zero => simp only [seek, Option.some.injEq, Prod.mk.injEq] at h; exact ⟨[], by simp [h.1]⟩
    | succ k =>
      simp only [seek] at h
      split at h
      · simp only [Option.some.injEq, Prod.mk.injEq] at h; exact ⟨[], by simp [h.1]⟩
      · obtain ⟨pre, hp⟩ := ih _ h
        exact ⟨m :: pre, by simp [hp]⟩

theorem allocOK_zero (pool : Pool) : allocOK pool 0 = true := by
  cases pool with
  | nil => rfl
  | cons x p => cases x <;> rfl

theorem allocOK_mono (pool : Pool) (n k : Nat) (hk : k ≤ n) (h : allocOK pool n = true) :
    allocOK pool k = true := by
  induction n generalizing pool k with
  | zero =>
    have : k = 0 := by omega
    subst this; exact allocOK_zero pool
  | succ n ih =>
    cases k with
    | zero => exact allocOK_zero pool
    | succ k =>
      obtain ⟨a, d, p, hp, hpok⟩ := allocOK_succ pool n h
      subst hp
      simp only [allocOK]
      exact ih p k (by omega) hpok

theorem ChainFits_append (K : Consts) (a b : Chain) :
    ChainFits K (a ++ b) ↔ ChainFits K a ∧ ChainFits K b := by
  induction a with
  | nil => simp [ChainFits]
  | cons m ms ih => simp [ChainFits, ih, and_assoc]

/-- On a chain that is not NULL `m_copym` finds the node holding byte `off0`
and runs the copy loop from there. -/
theorem m_copym_eq (K : Consts) (find : Nat → Nat) (tags_ok : Bool) (c : Chain)
    (off0 len : Nat) (refs : Refs) (pool : Pool) (log : List Event) (hne : c ≠ []) :
    m_copym K find tags_ok c off0 len refs pool log =
      match seek c off0 with
      | none => none
      | some (m1, off) =>
          m_copym_loop K find tags_ok off0 m1 off len (m_copym_copyhdr c off0) []
            (c.take (c.length - m1.length)) refs pool log := by
  cases c with
  | nil => exact absurd rfl hne
  | cons m0 ms => rfl

theorem m_copym_nil (K : Consts) (find : Nat → Nat) (tags_ok : Bool)
    (off0 len : Nat) (refs : Refs) (pool : Pool) (log : List Event) :
    m_copym K find tags_ok [] off0 len refs pool log = none := rfl

theorem m_copym_ne_nil (K : Consts) (find : Nat → Nat) (tags_ok : Bool) (c : Chain)
    (off0 len : Nat) (refs : Refs) (pool : Pool) (log : List Event) (r : CopymOut)
    (h : m_copym K find tags_ok c off0 len refs pool log = some r) : c ≠ [] := by
  intro hc
  subst hc
  cases h

theorem m_copym_bytes_hdr (K : Consts) (find : Nat → Nat) (mem : Store) (c : Chain)
    (off len : Nat) (refs : Refs) (pool : Pool) (log : List Event) (hne : c ≠ [])
    (hfit : ChainFits K c) (htot : totalLen c < K.M_COPYALL)
    (hpool : allocOK pool c.length = true) (hpos : 0 < len)
    (hin : (len = K.M_COPYALL ∧ off ≤ totalLen c) ∨ off + len ≤ totalLen c) :
    ∃ r, m_copym K find true c off len refs pool log = some r ∧
      chainBytes mem r.top =
        (if len = K.M_COPYALL then (chainBytes mem c).drop off
         else ((chainBytes mem c).drop off).take len) ∧
      chainBytes mem r.src = chainBytes mem c ∧
      r.src.map (fun m => m.m_len) = c.map (fun m => m.m_len) ∧
      (off = 0 → ∀ m0 ms, c = m0 :: ms → m0.m_flags.M_PKTHDR = true →
        (len = K.M_COPYALL → m0.m_pkthdr.len = (totalLen c : Int)) →
        ∃ n ns, r.top = n :: ns ∧ n.m_flags.M_PKTHDR = true ∧
          n.m_pkthdr.len = (totalLen r.top : Int)) := by
  have hoffle : off ≤ totalLen c := by rcases hin with h | h <;> omega
  obtain ⟨c1, off1, hs, hb, ht, hl, hd⟩ := seek_spec mem c off hoffle
  obtain ⟨pre, hpre⟩ := seek_suffix c off c1 off1 hs
  have hdone : c.take (c.length - c1.length) = pre := by
    rw [hpre]; simp
  have hfit1 : ChainFits K c1 := by
    rw [hpre, ChainFits_append] at hfit; exact hfit.2
  have htot1 : totalLen c1 ≤ totalLen c := by
    rw [hpre, totalLen_append]; omega
  have hlen1 : c1.length ≤ c.length := by rw [hpre]; simp
  have hoff1 : ∀ m ms, c1 = m :: ms → off1 ≤ m.m_len := by
    intro m ms he
    rcases hd with h0 | ⟨m', ms', he', hlt⟩
    · omega
    · rw [he] at he'; cases he'; omega
  obtain ⟨r, new, hr, htop, hbytes, hsrc, hlens, -, hhdr⟩ :=
    m_copym_loop_ok K find mem off c1 off1 len
      (m_copym_copyhdr c off)
      [] pre refs pool log hfit1 hoff1
      (by
        intro hc m ms he
        cases c with
        | nil => cases hc
        | cons m0 ms0 =>
          simp only [m_copym_copyhdr, Bool.and_eq_true, decide_eq_true_eq] at hc
          obtain ⟨h0, hm0⟩ := hc
          subst h0
          rw [seek_zero] at hs
          cases hs
          cases he
          exact hm0)
      (allocOK_mono pool _ _ hlen1 hpool) (by omega)
      (by rcases hin with h | h
          · exact Or.inl h.1
          · right; omega)
  have htopnew : r.top = new := by simpa using htop
  have hbytes' : chainBytes mem r.top =
      (if len = K.M_COPYALL then (chainBytes mem c).drop off
       else ((chainBytes mem c).drop off).take len) := by
    rw [htopnew, hbytes, ← hb]
    split
    · rename_i hc
      rw [List.take_of_length_le]
      rw [List.length_drop, chainBytes_length, hc]; omega
    · rfl
  refine ⟨r, ?_, hbytes', ?_, ?_, ?_⟩
  · rw [m_copym_eq K find true c off len refs pool log hne]
    simp only [hs, hdone]; exact hr
  · rw [hsrc, hpre, chainBytes_append]
  · rw [hlens, hpre]
  · intro h0 m0 ms he hm0 hcons
    subst h0
    rw [seek_zero] at hs
    cases hs
    subst he
    obtain ⟨n, ns, hn, hnf, hnl⟩ := hhdr (by simp [m_copym_copyhdr, hm0]) hpos m0 ms rfl
    refine ⟨n, ns, by rw [htopnew, hn], hnf, ?_⟩
    have hlenb := congrArg List.length hbytes'
    rw [chainBytes_length] at hlenb
    rw [hnl, hlenb]
    split
    · rename_i hc
      rw [hcons hc]; simp [chainBytes_length]
    · rename_i hc
      have : 0 + len ≤ totalLen (m0 :: ms) := by
        rcases hin with h | h
        · exact absurd h.1 hc
        · exact h
      simp [chainBytes_length]; omega

/-- C4 (as amended): for a chain that is not NULL, whose nodes lie within their
storage and whose total length is below M_COPYALL, and for off, len > 0 with an
explicit length in
bounds (off + len within the chain) or len = M_COPYALL with off within the
chain, when the node allocations and the tag copy succeed m_copym returns the
chain whose bytes are bytes off .. off+len of the source (off .. total for
M_COPYALL); the bytes and node lengths of the source are unchanged; and when
off = 0 and the source has a header, the first node of the result has a header
whose length is the sum of the result's node lengths, provided that, for
M_COPYALL, the source header length is the sum of the source node lengths. -/
theorem m_copym_content (K : Consts) (find : Nat → Nat) (mem : Store) (c : Chain)
    (off len : Nat) (refs : Refs) (pool : Pool) (log : List Event) (hne : c ≠ [])
    (hfit : ChainFits K c) (htot : totalLen c < K.M_COPYALL)
    (hpool : allocOK pool c.length = true) (hpos : 0 < len)
    (hin : (len = K.M_COPYALL ∧ off ≤ totalLen c) ∨ off + len ≤ totalLen c) :
    ∃ r, m_copym K find true c off len refs pool log = some r ∧
      chainBytes mem r.top =
        (if len = K.M_COPYALL then (chainBytes mem c).drop off
         else ((chainBytes mem c).drop off).take len) ∧
      chainBytes mem r.src = chainBytes mem c ∧
      r.src.map (fun m => m.m_len) = c.map (fun m => m.m_len) ∧
      (off = 0 → ∀ m0 ms, c = m0 :: ms → m0.m_flags.M_PKTHDR = true →
        (len = K.M_COPYALL → m0.m_pkthdr.len = (totalLen c : Int)) →
        ∃ n ns, r.top = n :: ns ∧ n.m_flags.M_PKTHDR = true ∧
          n.m_pkthdr.len = (totalLen r.top : Int)) :=
  m_copym_bytes_hdr K find mem c off len refs pool log hne hfit htot hpool hpos hin

/-! ## m_copym: reference counts -/

theorem m_copym_fill_share (K : Consts) (find : Nat → Nat) (m n n2 m1 : mbuf)
    (off len : Nat) (refs refs1 : Refs) (hn : n.m_flags.M_EXT = false)
    (h : m_copym_fill K find m n off len refs = some (n2, m1, refs1)) :
    Shares find off m n2 ∧
      refs1 = (if m.m_flags.M_EXT then (MEXT_ADD_REF find m refs).2 else refs) := by
  unfold m_copym_fill at h
  by_cases he : m.m_flags.M_EXT = true
  · simp only [he, if_true, Option.some.injEq, Prod.mk.injEq] at h
    obtain ⟨h1, -, h3⟩ := h
    subst h1 h3
    refine ⟨?_, by simp [he]⟩
    simp only [Shares, he, if_true, true_and]
    unfold MEXT_ADD_REF slotOf
    cases hr : m.m_ext.ref_cnt <;> simp [hr]
  · have he' : m.m_flags.M_EXT = false := by simpa using he
    simp only [he', Bool.false_eq_true, if_false] at h
    split at h
    · simp only [Option.some.injEq, Prod.mk.injEq] at h
      obtain ⟨h1, -, h3⟩ := h
      subst h1 h3
      exact ⟨by simp [Shares, he', hn], by simp [he']⟩
    · cases h

theorem m_copym_loop_refs (K : Consts) (find : Nat → Nat) (off0 : Nat) (c : Chain) :
    ∀ (off len : Nat) (copyhdr : Bool) (top done : Chain) (refs : Refs) (pool : Pool)
      (log : List Event),
      ChainFits K c →
      (∀ m ms, c = m :: ms → off ≤ m.m_len) →
      (copyhdr = true → ∀ m ms, c = m :: ms → m.m_flags.M_PKTHDR = true) →
      allocOK pool c.length = true →
      totalLen c < K.M_COPYALL →
      ∀ r, m_copym_loop K find true off0 c off len copyhdr top done refs pool log = some r →
      ∃ new cov rest, r.top = top ++ new ∧ c = cov ++ rest ∧
        SharesAll find off cov new ∧ r.refs = addRefs find cov refs ∧
        Pieces off cov new ∧ (len = 0 → new = []) := by
  induction c with
  | nil =>
    intro off len copyhdr top done refs pool log _ _ _ _ _ r hr
    simp only [m_copym_loop] at hr
    split at hr
    · cases hr
      exact ⟨[], [], [], by simp, rfl, trivial, rfl, trivial, fun _ => rfl⟩
    · cases hr
  | cons m ms ih =>
    intro off len copyhdr top done refs pool log hfit hoff hhdr hpool htot r hr
    have hle := hoff m ms rfl
    obtain ⟨hfm, hfms⟩ := hfit
    simp only [totalLen] at htot
    by_cases hl0 : len = 0
    · subst hl0
      simp only [m_copym_loop, if_true, Option.some.injEq] at hr
      subst hr
      exact ⟨[], [], m :: ms, by simp, rfl, trivial, rfl, trivial, fun _ => rfl⟩
    · obtain ⟨a, d, p, hp, hpok⟩ := allocOK_succ pool ms.length hpool
      subst hp
      obtain ⟨n1, -, hn1e, hn1cap, hn1hdr, hstep⟩ :=
        m_copym_loop_step K find true off0 m ms off len copyhdr top done refs a d p log
          hfm hle (fun h => hhdr h m ms rfl) hl0 (fun _ => rfl)
      rw [hstep] at hr
      cases hfill : m_copym_fill K find m n1 off len refs with
      | none => rw [hfill] at hr; cases hr
      | some v =>
        obtain ⟨n2, m1, refs1⟩ := v
        rw [hfill] at hr
        obtain ⟨hsh, hrefs1⟩ := m_copym_fill_share K find m n1 n2 m1 off len refs refs1 hn1e hfill
        obtain ⟨n2', m1', refs1', hfill', -, hl2, -⟩ :=
          m_copym_fill_spec K find (fun _ => 0) m n1 off len refs hn1e hn1cap
        rw [hfill] at hfill'
        simp only [Option.some.injEq, Prod.mk.injEq] at hfill'
        obtain ⟨e1, -, -⟩ := hfill'
        subst e1
        obtain ⟨new, cov, rest, htop, hc, hall, hrf, hpc, hzero⟩ :=
          ih 0 _ false (top ++ [n2]) (done ++ [m1]) refs1 p log hfms
            (fun _ _ _ => Nat.zero_le _) (by intro h; cases h) hpok (by omega) r hr
        refine ⟨n2 :: new, m :: cov, rest, by simp [htop], by simp [hc], ⟨hsh, hall⟩, ?_,
          ⟨by omega, ?_, hpc⟩, fun h => absurd h hl0⟩
        · rw [hrf, hrefs1]
          rfl
        · intro hnew
          by_cases hc2 : len = K.M_COPYALL
          · rw [hl2, hc2]; omega
          · have hz : ¬ len - n2.m_len = 0 := by
              intro hz
              apply hnew
              apply hzero
              simp only [hc2, ne_eq, not_false_eq_true, if_true]
              exact hz
            rw [hl2] at hz ⊢
            omega

theorem extCount_shares (find : Nat → Nat) (a : Nat) (cov new : Chain) (off : Nat)
    (h : SharesAll find off cov new) : extCount find a new = extCount find a cov := by
  induction cov generalizing new off with
  | nil =>
    cases new with
    | nil => rfl
    | cons n ns => exact absurd h (by simp [SharesAll])
  | cons m ms ih =>
    cases new with
    | nil => exact absurd h (by simp [SharesAll])
    | cons n ns =>
      obtain ⟨h1, h2⟩ := h
      simp only [extCount, ih ns 0 h2]
      congr 1
      unfold Shares at h1
      by_cases he : m.m_flags.M_EXT = true
      · simp only [he, if_true] at h1
        obtain ⟨hn, hx, -⟩ := h1
        have : slotOf find n = slotOf find m := by
          simp [slotOf, hx]
        simp [hn, he, this]
      · have he' : m.m_flags.M_EXT = false := by simpa using he
        simp only [he', Bool.false_eq_true, if_false] at h1
        simp [h1, he']

theorem effRef_setRef_ne (find : Nat → Nat) (c : Chain) (refs : Refs) (s v a : Nat)
    (h : a ≠ s) : effRef find c (setRef refs s v) a = effRef find c refs a := by
  simp [effRef, setRef, h]

theorem effRef_not_lazy (find : Nat → Nat) (c : Chain) (refs : Refs) (a : Nat)
    (h : ∀ m1, m1 ∈ c → isLazy m1 = true → find m1.m_ext.ext_buf ≠ a) :
    effRef find c refs a = refs a := by
  unfold effRef
  rw [if_neg]
  simp only [List.any_eq_true, Bool.and_eq_true, decide_eq_true_eq, not_exists, not_and]
  intro m hm hl
  exact h m hm hl

theorem addRefs_count (find : Nat → Nat) (c : Chain) (refs : Refs) (a : Nat)
    (hu : LazyUnshared find c) :
    addRefs find c refs a = effRef find c refs a + extCount find a c := by
  induction c generalizing refs with
  | nil => simp [addRefs, effRef, extCount]
  | cons m ms ih =>
    obtain ⟨hm, hms⟩ := hu
    simp only [addRefs, extCount]
    rw [ih _ hms]
    by_cases he : m.m_flags.M_EXT = true
    · have hnl := hm he
      simp only [he, if_true, true_and]
      cases hr : m.m_ext.ref_cnt with
      | some s =>
        have hs : slotOf find m = s := by simp [slotOf, hr]
        rw [hs] at hnl
        have hlz : isLazy m = false := by simp [isLazy, hr]
        have heff : ∀ rf b, effRef find (m :: ms) rf b = effRef find ms rf b := by
          intro rf b; simp [effRef, hlz]
        simp only [MEXT_ADD_REF, hr, hs, heff]
        by_cases hsa : a = s
        · subst hsa
          rw [effRef_not_lazy find ms _ a hnl, effRef_not_lazy find ms _ a hnl]
          simp [setRef]; omega
        · rw [effRef_setRef_ne find ms refs s _ a hsa]
          have : ¬ s = a := fun h => hsa h.symm
          simp [this]
      | none =>
        have hs : slotOf find m = find m.m_ext.ext_buf := by simp [slotOf, hr]
        rw [hs] at hnl
        have hlz : isLazy m = true := by simp [isLazy, hr, he]
        simp only [MEXT_ADD_REF, hr, hs]
        by_cases hsa : a = find m.m_ext.ext_buf
        · subst hsa
          rw [effRef_not_lazy find ms _ _ hnl]
          simp [setRef, effRef, hlz]
          omega
        · rw [effRef_setRef_ne find ms refs _ _ a hsa]
          have h2 : ¬ find m.m_ext.ext_buf = a := fun h => hsa h.symm
          simp [effRef, hlz, h2]
    · have he' : m.m_flags.M_EXT = false := by simpa using he
      have hlz : isLazy m = false := by simp [isLazy, he']
      simp [he', effRef, hlz]

theorem LazyUnshared_suffix (find : Nat → Nat) (a b : Chain)
    (h : LazyUnshared find (a ++ b)) : LazyUnshared find b := by
  induction a with
  | nil => exact h
  | cons m ms ih => exact ih h.2

theorem LazyUnshared_prefix (find : Nat → Nat) (a b : Chain)
    (h : LazyUnshared find (a ++ b)) : LazyUnshared find a := by
  induction a with
  | nil => trivial
  | cons m ms ih =>
    refine ⟨fun he m1 hm1 hl => h.1 he m1 (List.mem_append_left b hm1) hl, ih h.2⟩

theorem m_copym_shares_counts (K : Consts) (find : Nat → Nat) (c : Chain)
    (off len : Nat) (refs : Refs) (pool : Pool) (log : List Event)
    (hfit : ChainFits K c) (htot : totalLen c < K.M_COPYALL) (hu : LazyUnshared find c)
    (hpool : allocOK pool c.length = true) (hin : off ≤ totalLen c)
    (r : CopymOut) (hr : m_copym K find true c off len refs pool log = some r) :
    ∃ pre cov rest, c = pre ++ cov ++ rest ∧ totalLen pre ≤ off ∧
      Pieces (off - totalLen pre) cov r.top ∧
      SharesAll find (off - totalLen pre) cov r.top ∧
      ∀ a, r.refs a = effRef find cov refs a + extCount find a r.top := by
  obtain ⟨c1, off1, hs, -, ht, hl, hd⟩ := seek_spec (fun _ => 0) c off hin
  obtain ⟨pre, hpre⟩ := seek_suffix c off c1 off1 hs
  have hdone : c.take (c.length - c1.length) = pre := by
    rw [hpre]; simp
  have hfit1 : ChainFits K c1 := by
    rw [hpre, ChainFits_append] at hfit; exact hfit.2
  have hlen1 : c1.length ≤ c.length := by rw [hpre]; simp
  have htot1 : totalLen c1 ≤ totalLen c := by
    rw [hpre, totalLen_append]; omega
  have hoff1 : ∀ m ms, c1 = m :: ms → off1 ≤ m.m_len := by
    intro m ms he
    rcases hd with h0 | ⟨m', ms', he', hlt⟩
    · omega
    · rw [he] at he'; cases he'; omega
  have hoffeq : off - totalLen pre = off1 ∧ totalLen pre ≤ off := by
    clear hd
    have : totalLen c = totalLen pre + totalLen c1 := by rw [hpre, totalLen_append]
    constructor <;> omega
  rw [m_copym_eq K find true c off len refs pool log
    (m_copym_ne_nil K find true c off len refs pool log r hr)] at hr
  simp only [hs, hdone] at hr
  obtain ⟨new, cov, rest, htop, hc, hall, hrf, hpc, -⟩ :=
    m_copym_loop_refs K find off c1 off1 len (m_copym_copyhdr c off) [] pre refs pool log
      hfit1 hoff1
      (by
        intro hc m ms he
        cases c with
        | nil => cases hc
        | cons m0 ms0 =>
          simp only [m_copym_copyhdr, Bool.and_eq_true, decide_eq_true_eq] at hc
          obtain ⟨h0, hm0⟩ := hc
          subst h0
          rw [seek_zero] at hs
          cases hs
          cases he
          exact hm0)
      (allocOK_mono pool _ _ hlen1 hpool) (by omega) r hr
  have htopnew : r.top = new := by simpa using htop
  have hucov : LazyUnshared find cov := by
    rw [hpre, hc] at hu
    exact LazyUnshared_prefix find cov rest (LazyUnshared_suffix find pre _ hu)
  refine ⟨pre, cov, rest, by rw [hpre, hc, List.append_assoc], hoffeq.2, ?_, ?_, ?_⟩
  · rw [hoffeq.1, htopnew]; exact hpc
  · rw [hoffeq.1, htopnew]; exact hall
  · intro a
    rw [hrf, addRefs_count find cov refs a hucov, htopnew,
      extCount_shares find a cov new off1 hall]

/-- C5: an in-bounds m_copym on a chain that is not NULL succeeds, and it shares
and counts, it does not copy external storage.  The result holds `len` bytes
(what is left of the chain from `off` on for M_COPYALL), so it is not empty
when there is a byte to copy.  Its nodes are, one to one and in order, pieces
of the block `cov` of consecutive source nodes that follows the nodes `pre`
skipped before byte `off`: the first piece starts at byte `off`, that is
`off` less the lengths of the skipped nodes into its source node, every piece
lies within its source node and every piece but the last runs to the end of
its source node, so together the pieces are bytes `off` to `off + len` of the
chain.  The copy of an external source node refers to the same buffer, with
the same size, callback and kind, through the same counter, with data pointer
= source data pointer + offset into the node; the copy of an inline node is
inline.  Every counter ends at its count before the call plus the number of
result nodes counted by it, so a counter no result node uses is unchanged.  A
buffer that has no counter assigned yet counts as 1 and must not be referenced
by an earlier node. -/
theorem m_copym_refcounts (K : Consts) (find : Nat → Nat) (c : Chain)
    (off len : Nat) (refs : Refs) (pool : Pool) (log : List Event) (hne : c ≠ [])
    (hfit : ChainFits K c) (htot : totalLen c < K.M_COPYALL) (hu : LazyUnshared find c)
    (hpool : allocOK pool c.length = true) (hpos : 0 < len)
    (hin : (len = K.M_COPYALL ∧ off ≤ totalLen c) ∨ off + len ≤ totalLen c) :
    ∃ r, m_copym K find true c off len refs pool log = some r ∧
      totalLen r.top = (if len = K.M_COPYALL then totalLen c - off else len) ∧
      (off < totalLen c → r.top ≠ []) ∧
      ∃ pre cov rest, c = pre ++ cov ++ rest ∧ totalLen pre ≤ off ∧
        Pieces (off - totalLen pre) cov r.top ∧
        SharesAll find (off - totalLen pre) cov r.top ∧
        ∀ a, r.refs a = effRef find cov refs a + extCount find a r.top := by
  obtain ⟨r, hr, hb, -⟩ :=
    m_copym_bytes_hdr K find (fun _ => 0) c off len refs pool log hne hfit htot hpool hpos hin
  have hlen : totalLen r.top = (if len = K.M_COPYALL then totalLen c - off else len) := by
    have h := congrArg List.length hb
    rw [chainBytes_length] at h
    rw [h]
    split
    · rw [List.length_drop, chainBytes_length]
    · rw [List.length_take, List.length_drop, chainBytes_length]
      rcases hin with h1 | h1
      · rename_i hc; exact absurd h1.1 hc
      · omega
  refine ⟨r, hr, hlen, ?_, m_copym_shares_counts K find c off len refs pool log hfit htot hu
    hpool (by rcases hin with h | h <;> omega) r hr⟩
  intro hlt hnil
  rw [hnil] at hlen
  simp only [totalLen] at hlen
  split at hlen <;> omega

/-! ## mb_free_ext: the teardown runs once, on the last release -/

theorem teardowns_append (a b : List Event) : teardowns (a ++ b) = teardowns a + teardowns b := by
  simp [teardowns]

theorem dec_mod (N c : Nat) (h : c + 2 < N) : (c + 2 + N - 1) % N = c + 1 := by
  have : c + 2 + N - 1 = c + 1 + N := by omega
  rw [this, Nat.add_mod_right, Nat.mod_eq_of_lt (by omega)]

theorem mb_free_ext_not_last (m : mbuf) (refs : Refs) (log : List Event) (r cnt : Nat)
    (hr : m.m_ext.ref_cnt = some r) (hc : refs r = cnt + 2) (hb : cnt + 2 < 4294967296) :
    teardowns (mb_free_ext m refs log).2 = teardowns log ∧
      (mb_free_ext m refs log).1 r = cnt + 1 ∧
      ∀ a, a ≠ r → (mb_free_ext m refs log).1 a = refs a := by
  have h1 : u_int_dec (cnt + 2) = cnt + 1 := dec_mod _ _ hb
  have h2 : ¬ (cnt + 2 = 1) := by omega
  refine ⟨?_, ?_, ?_⟩
  · simp [mb_free_ext, hr, hc, h2, teardowns_append, teardowns, Event.isTeardown]
  · simp only [mb_free_ext, hr, hc, h2, setRef, decide_False, Bool.false_eq_true, if_false,
      if_true, h1]
  · intro a ha
    simp [mb_free_ext, hr, hc, h2, setRef, ha]

theorem mb_free_ext_last (m : mbuf) (refs : Refs) (log : List Event) (r : Nat)
    (hr : m.m_ext.ref_cnt = some r) (hc : refs r = 1) :
    teardowns (mb_free_ext m refs log).2 = teardowns log + 1 := by
  unfold mb_free_ext
  simp only [hr, hc, decide_True, if_true]
  split
  · simp [teardowns_append, teardowns, Event.isTeardown]
  · split
    · simp [teardowns_append, teardowns, Event.isTeardown]
    · split <;> simp [teardowns_append, teardowns, Event.isTeardown]

theorem mb_free_ext_seq_append (a b : List mbuf) (refs : Refs) (log : List Event) :
    mb_free_ext_seq (a ++ b) refs log =
      mb_free_ext_seq b (mb_free_ext_seq a refs log).1 (mb_free_ext_seq a refs log).2 := by
  induction a generalizing refs log with
  | nil => rfl
  | cons m ms ih =>
    simp only [List.cons_append, mb_free_ext_seq]
    exact ih _ _

theorem mb_free_ext_seq_not_last (nodes : List mbuf) (refs : Refs) (log : List Event)
    (r extra : Nat) (hn : ∀ n, n ∈ nodes → n.m_ext.ref_cnt = some r)
    (hc : refs r = nodes.length + (extra + 1)) (hb : nodes.length + (extra + 1) < 4294967296) :
    teardowns (mb_free_ext_seq nodes refs log).2 = teardowns log ∧
      (mb_free_ext_seq nodes refs log).1 r = extra + 1 := by
  induction nodes generalizing refs log with
  | nil => exact ⟨rfl, by simpa using hc⟩
  | cons m ms ih =>
    simp only [List.length_cons] at hc hb
    obtain ⟨h1, h2, -⟩ := mb_free_ext_not_last m refs log r (ms.length + extra)
      (hn m (List.mem_cons_self _ _)) (by omega) (by omega)
    simp only [mb_free_ext_seq]
    obtain ⟨h3, h4⟩ := ih (mb_free_ext m refs log).1 (mb_free_ext m refs log).2
      (fun n hn' => hn n (List.mem_cons_of_mem _ hn')) (by omega) (by omega)
    exact ⟨by rw [h3, h1], h4⟩

/-- C6: k >= 1 nodes share one external buffer through one counter that holds
k.  Released one after another with mb_free_ext, in whatever order the list
gives, the storage teardown (ext_free callback, cluster free, or the return of
a combined node to the packet zone) has run zero times after each of the first
k-1 releases and exactly once after the k-th. -/
theorem mb_free_ext_teardown_once (nodes : List mbuf) (refs : Refs) (r : Nat)
    (hk : 1 ≤ nodes.length) (hn : ∀ n, n ∈ nodes → n.m_ext.ref_cnt = some r)
    (hc : refs r = nodes.length) (hb : nodes.length < 4294967296) :
    (∀ j, j < nodes.length → teardowns (mb_free_ext_seq (nodes.take j) refs []).2 = 0) ∧
      teardowns (mb_free_ext_seq nodes refs []).2 = 1 := by
  constructor
  · intro j hj
    have hlen : (nodes.take j).length = j := by simp; omega
    obtain ⟨h1, -⟩ := mb_free_ext_seq_not_last (nodes.take j) refs [] r
      (nodes.length - j - 1) (fun n hn' => hn n (List.mem_of_mem_take hn'))
      (by rw [hlen]; omega) (by rw [hlen]; omega)
    rw [h1]; rfl
  · obtain ⟨m, hm⟩ : ∃ m, nodes.getLast? = some m := by
      cases h : nodes.getLast? with
      | none => rw [List.getLast?_eq_none_iff] at h; subst h; simp at hk
      | some m => exact ⟨m, rfl⟩
    have hsplit : nodes = nodes.dropLast ++ [m] := by
      have := List.dropLast_append_getLast? m hm
      exact this.symm
    have hlen : nodes.dropLast.length = nodes.length - 1 := by simp
    obtain ⟨h1, h2⟩ := mb_free_ext_seq_not_last nodes.dropLast refs [] r 0
      (fun n hn' => hn n (List.mem_of_mem_dropLast hn'))
      (by rw [hlen]; omega) (by rw [hlen]; omega)
    rw [hsplit, mb_free_ext_seq_append]
    simp only [mb_free_ext_seq]
    rw [mb_free_ext_last m _ _ r (hn m (by rw [hsplit]; simp)) h2, h1]
    rfl

/-! ## m_copym: failure -/

theorem m_copym_fill_more (K : Consts) (find : Nat → Nat) (m n n2 m1 : mbuf)
    (off len : Nat) (refs refs1 : Refs)
    (h : m_copym_fill K find m n off len refs = some (n2, m1, refs1)) :
    n2.addr = n.addr ∧ m1 = resolved find m := by
  unfold m_copym_fill at h
  by_cases he : m.m_flags.M_EXT = true
  · simp only [he, if_true, Option.some.injEq, Prod.mk.injEq] at h
    obtain ⟨h1, h2, -⟩ := h
    subst h1 h2
    refine ⟨rfl, ?_⟩
    simp only [resolved, he, if_true, MEXT_ADD_REF]
    cases m.m_ext.ref_cnt <;> rfl
  · have he' : m.m_flags.M_EXT = false := by simpa using he
    simp only [he', Bool.false_eq_true, if_false] at h
    split at h
    · simp only [Option.some.injEq, Prod.mk.injEq] at h
      obtain ⟨h1, h2, -⟩ := h
      subst h1 h2
      exact ⟨rfl, by simp [resolved, he']⟩
    · cases h

theorem m_copym_loop_any (K : Consts) (find : Nat → Nat) (tags_ok : Bool) (off0 : Nat)
    (c : Chain) :
    ∀ (off len : Nat) (copyhdr : Bool) (top done : Chain) (refs : Refs) (pool : Pool)
      (log : List Event),
      ChainFits K c →
      (∀ m ms, c = m :: ms → off ≤ m.m_len) →
      (copyhdr = true → ∀ m ms, c = m :: ms → m.m_flags.M_PKTHDR = true) →
      (len = K.M_COPYALL ∨ off + len ≤ totalLen c) →
      ∃ r new cov rest used extra,
        m_copym_loop K find tags_ok off0 c off len copyhdr top done refs pool log = some r ∧
        c = cov ++ rest ∧ SharesAll find off cov new ∧ pool = used ++ r.pool ∧
        poolAddrs used = (new ++ extra).map (fun n => n.addr) ∧
        r.src = done ++ cov.map (resolved find) ++ rest ∧
        ((r.top = top ++ new ∧ extra = [] ∧ r.refs = addRefs find cov refs ∧ r.log = log ∧
            used.all Option.isSome = true ∧
            (copyhdr = true → new ≠ [] → tags_ok = true)) ∨
         (r.top = [] ∧ (∀ e, e ∈ extra → e.m_flags.M_EXT = false) ∧
            r.refs = (m_freem (top ++ new ++ extra) (addRefs find cov refs) log).1 ∧
            r.log = (m_freem (top ++ new ++ extra) (addRefs find cov refs) log).2)) := by
  induction c with
  | nil =>
    intro off len copyhdr top done refs pool log _ _ _ hlen
    have h0 : len = 0 ∨ len = K.M_COPYALL := by
      rcases hlen with h | h
      · exact Or.inr h
      · simp only [totalLen] at h; left; omega
    refine ⟨{ top := top, src := done, refs := refs, pool := pool, log := log }, [], [], [], [],
      [], by simp only [m_copym_loop, h0, if_true], rfl, trivial, rfl, rfl, by simp, ?_⟩
    left
    exact ⟨by simp, rfl, rfl, rfl, rfl, fun _ h => absurd rfl h⟩
  | cons m ms ih =>
    intro off len copyhdr top done refs pool log hfit hoff hhdr hlen
    have hle := hoff m ms rfl
    obtain ⟨hfm, hfms⟩ := hfit
    simp only [totalLen] at hlen
    by_cases hl0 : len = 0
    · subst hl0
      refine ⟨{ top := top, src := done ++ m :: ms, refs := refs, pool := pool, log := log },
        [], [], m :: ms, [], [], by simp only [m_copym_loop, if_true], rfl, trivial, rfl, rfl,
        by simp, ?_⟩
      left
      exact ⟨by simp, rfl, rfl, rfl, rfl, fun _ h => absurd rfl h⟩
    · have hnospace : ∀ (p : Pool) (used : Pool), pool = used ++ p → poolAddrs used = [] →
          m_copym_loop K find tags_ok off0 (m :: ms) off len copyhdr top done refs pool log =
            some (m_copym_nospace top (done ++ m :: ms) refs p log) →
          ∃ r new cov rest used extra,
            m_copym_loop K find tags_ok off0 (m :: ms) off len copyhdr top done refs pool log =
              some r ∧
            m :: ms = cov ++ rest ∧ SharesAll find off cov new ∧ pool = used ++ r.pool ∧
            poolAddrs used = (new ++ extra).map (fun n => n.addr) ∧
            r.src = done ++ cov.map (resolved find) ++ rest ∧
            ((r.top = top ++ new ∧ extra = [] ∧ r.refs = addRefs find cov refs ∧ r.log = log ∧
                used.all Option.isSome = true ∧
                (copyhdr = true → new ≠ [] → tags_ok = true)) ∨
             (r.top = [] ∧ (∀ e, e ∈ extra → e.m_flags.M_EXT = false) ∧
                r.refs = (m_freem (top ++ new ++ extra) (addRefs find cov refs) log).1 ∧
                r.log = (m_freem (top ++ new ++ extra) (addRefs find cov refs) log).2)) := by
        intro p used hp hu hrun
        refine ⟨_, [], [], m :: ms, used, [], hrun, rfl, trivial, hp, by simpa using hu,
          by simp [m_copym_nospace], Or.inr ⟨rfl, ?_, ?_, ?_⟩⟩
        · intro e he; cases he
        · simp [m_copym_nospace, addRefs]
        · simp [m_copym_nospace, addRefs]
      match pool with
      | [] =>
        apply hnospace [] [] rfl rfl
        rw [m_copym_loop]
        cases copyhdr <;> simp [hl0, m_gethdr, m_get]
      | none :: p =>
        apply hnospace p [none] rfl rfl
        rw [m_copym_loop]
        cases copyhdr <;> simp [hl0, m_gethdr, m_get]
      | some (a, d) :: p =>
        by_cases hbad : copyhdr = true ∧ tags_ok = false
        · obtain ⟨hc, ht⟩ := hbad
          subst hc ht
          refine ⟨m_copym_nospace (top ++ [(m_dup_pkthdr K (newHdrNode K a d m.m_type) m false).1])
            (done ++ m :: ms) refs p log, [], [], m :: ms, [some (a, d)],
            [(m_dup_pkthdr K (newHdrNode K a d m.m_type) m false).1], ?_, rfl, trivial, rfl,
            ?_, by simp [m_copym_nospace], Or.inr ⟨rfl, ?_, ?_, ?_⟩⟩
          · rw [m_copym_loop]
            simp [hl0, m_gethdr, m_dup_pkthdr]
          · simp [poolAddrs, m_dup_pkthdr, newHdrNode, newNode]
          · intro e he
            simp only [List.mem_singleton] at he
            subst he
            simp [m_dup_pkthdr, newHdrNode, newNode, flags0, copyflags]
          · simp [m_copym_nospace, addRefs]
          · simp [m_copym_nospace, addRefs]
        · have htags : copyhdr = true → tags_ok = true := by
            intro hc
            cases ht : tags_ok with
            | true => rfl
            | false => exact absurd ⟨hc, ht⟩ hbad
          obtain ⟨n1, hn1a, hn1e, hn1cap, -, hstep⟩ :=
            m_copym_loop_step K find tags_ok off0 m ms off len copyhdr top done refs a d p log
              hfm hle (fun h => hhdr h m ms rfl) hl0 htags
          obtain ⟨n2, m1, refs1, hfill, -, hl2, -, -, -, -⟩ :=
            m_copym_fill_spec K find (fun _ => 0) m n1 off len refs hn1e hn1cap
          obtain ⟨hsh, hrefs1⟩ :=
            m_copym_fill_share K find m n1 n2 m1 off len refs refs1 hn1e hfill
          obtain ⟨hn2a, hm1⟩ := m_copym_fill_more K find m n1 n2 m1 off len refs refs1 hfill
          rw [hfill] at hstep
          have hlen' : (if len ≠ K.M_COPYALL then len - n2.m_len else len) = K.M_COPYALL ∨
              0 + (if len ≠ K.M_COPYALL then len - n2.m_len else len) ≤ totalLen ms := by
            by_cases hc : len = K.M_COPYALL
            · left; simp [hc]
            · right
              simp only [hc, ne_eq, not_false_eq_true, if_true]
              rcases hlen with h | h
              · exact absurd h hc
              · omega
          obtain ⟨r, new, cov, rest, used, extra, hr, hc, hall, hpool, haddr, hsrc, hres⟩ :=
            ih 0 (if len ≠ K.M_COPYALL then len - n2.m_len else len) false (top ++ [n2])
              (done ++ [m1]) refs1 p log hfms (fun _ _ _ => Nat.zero_le _)
              (by intro h; cases h) hlen'
          refine ⟨r, n2 :: new, m :: cov, rest, some (a, d) :: used, extra,
            by rw [hstep]; exact hr, by simp [hc], ⟨hsh, hall⟩, by simp [hpool], ?_, ?_, ?_⟩
          · simp [poolAddrs, haddr, hn2a, hn1a]
          · rw [hsrc, hm1]; simp
          · have hadd : addRefs find (m :: cov) refs = addRefs find cov refs1 := by
              rw [hrefs1]; rfl
            rcases hres with ⟨h1, h0, h2, h3, h4, -⟩ | ⟨h1, h2, h3, h4⟩
            · left
              refine ⟨by simp [h1], h0, by rw [h2, hadd], h3, by simpa using h4, ?_⟩
              intro hcp _
              exact htags hcp
            · right
              refine ⟨h1, h2, ?_, ?_⟩
              · rw [h3, hadd]; simp
              · rw [h4, hadd]; simp

theorem mb_free_ext_shared (m : mbuf) (refs : Refs) (log : List Event) (r cnt : Nat)
    (hr : m.m_ext.ref_cnt = some r) (hc : refs r = cnt + 2) :
    (mb_free_ext m refs log).2 = log ++ [Event.zfree_mbuf m.addr] := by
  have h2 : ¬ (cnt + 2 = 1) := by omega
  simp [mb_free_ext, hr, hc, h2]

theorem extCount_append (find : Nat → Nat) (a : Nat) (x y : Chain) :
    extCount find a (x ++ y) = extCount find a x + extCount find a y := by
  induction x with
  | nil => simp [extCount]
  | cons m ms ih => simp [extCount, ih, Nat.add_assoc]

theorem extCount_no_ext (find : Nat → Nat) (a : Nat) (x : Chain)
    (h : ∀ e, e ∈ x → e.m_flags.M_EXT = false) : extCount find a x = 0 := by
  induction x with
  | nil => rfl
  | cons m ms ih =>
    have hm := h m (List.mem_cons_self _ _)
    simp [extCount, hm, ih (fun e he => h e (List.mem_cons_of_mem _ he))]

theorem extCount_le (find : Nat → Nat) (a : Nat) (x : Chain) :
    extCount find a x ≤ x.length := by
  induction x with
  | nil => simp [extCount]
  | cons m ms ih =>
    simp only [extCount, List.length_cons]
    split <;> omega

theorem m_freem_copies (find : Nat → Nat) (top : Chain) (refs base : Refs) (log : List Event)
    (hext : ∀ n, n ∈ top → n.m_flags.M_EXT = true →
      ∃ s, n.m_ext.ref_cnt = some s ∧ 1 ≤ base s)
    (hb : ∀ a, base a + extCount find a top < 4294967296)
    (hr : ∀ a, refs a = base a + extCount find a top) :
    (m_freem top refs log).2 = log ++ top.map (fun n => Event.zfree_mbuf n.addr) ∧
      ∀ a, (m_freem top refs log).1 a = base a := by
  induction top generalizing refs log with
  | nil => exact ⟨by simp [m_freem], fun a => by simpa [m_freem, extCount] using hr a⟩
  | cons n ns ih =>
    by_cases he : n.m_flags.M_EXT = true
    · obtain ⟨s, hs, hbs⟩ := hext n (List.mem_cons_self _ _) he
      have hslot : slotOf find n = s := by simp [slotOf, hs]
      have hrs := hr s
      have hbs2 := hb s
      simp only [extCount, he, hslot, true_and, if_true] at hrs hbs2
      have hcnt : refs s = (base s - 1 + extCount find s ns) + 2 := by omega
      obtain ⟨-, h2, h3⟩ := mb_free_ext_not_last n refs log s _ hs hcnt (by omega)
      have h4 := mb_free_ext_shared n refs log s _ hs hcnt
      obtain ⟨i1, i2⟩ := ih (mb_free_ext n refs log).1 (mb_free_ext n refs log).2
        (fun n' hn' he' => hext n' (List.mem_cons_of_mem _ hn') he')
        (fun a => by
          have := hb a
          simp only [extCount] at this
          omega)
        (fun a => by
          by_cases has : a = s
          · subst has; rw [h2]; omega
          · rw [h3 a has, hr a]
            have : ¬ (n.m_flags.M_EXT = true ∧ slotOf find n = a) := by
              rw [hslot]; intro h; exact has h.2.symm
            simp [extCount, this])
      simp only [m_freem, m_free, he, if_true]
      exact ⟨by rw [i1, h4]; simp, i2⟩
    · have he' : n.m_flags.M_EXT = false := by simpa using he
      obtain ⟨i1, i2⟩ := ih refs (log ++ [Event.zfree_mbuf n.addr])
        (fun n' hn' he'' => hext n' (List.mem_cons_of_mem _ hn') he'')
        (fun a => by
          have := hb a
          simp only [extCount] at this
          omega)
        (fun a => by
          rw [hr a]; simp [extCount, he'])
      simp only [m_freem, m_free, he', Bool.false_eq_true, if_false]
      exact ⟨by rw [i1]; simp, i2⟩

theorem SharesAll_length (find : Nat → Nat) (off : Nat) (cov new : Chain)
    (h : SharesAll find off cov new) : new.length = cov.length := by
  induction cov generalizing new off with
  | nil =>
    cases new with
    | nil => rfl
    | cons n ns => exact absurd h (by simp [SharesAll])
  | cons m ms ih =>
    cases new with
    | nil => exact absurd h (by simp [SharesAll])
    | cons n ns => simp [ih 0 ns h.2]

theorem SharesAll_ext (find : Nat → Nat) (off : Nat) (cov new : Chain)
    (h : SharesAll find off cov new) (n : mbuf) (hn : n ∈ new)
    (he : n.m_flags.M_EXT = true) :
    ∃ m, m ∈ cov ∧ m.m_flags.M_EXT = true ∧ n.m_ext.ref_cnt = some (slotOf find m) := by
  induction cov generalizing new off with
  | nil =>
    cases new with
    | nil => cases hn
    | cons n ns => exact absurd h (by simp [SharesAll])
  | cons m ms ih =>
    cases new with
    | nil => cases hn
    | cons n' ns =>
      obtain ⟨h1, h2⟩ := h
      rcases List.mem_cons.mp hn with rfl | hn'
      · unfold Shares at h1
        by_cases hm : m.m_flags.M_EXT = true
        · simp only [hm, if_true] at h1
          exact ⟨m, List.mem_cons_self _ _, hm, by rw [h1.2.1]⟩
        · have hm' : m.m_flags.M_EXT = false := by simpa using hm
          simp only [hm', Bool.false_eq_true, if_false] at h1
          rw [h1] at he; cases he
      · obtain ⟨m', hm', hx⟩ := ih 0 ns h2 hn'
        exact ⟨m', List.mem_cons_of_mem _ hm', hx⟩

theorem effRef_pos (find : Nat → Nat) (cov : Chain) (refs : Refs) (m : mbuf)
    (hm : m ∈ cov) (he : m.m_flags.M_EXT = true)
    (hv : ∀ s, m.m_ext.ref_cnt = some s → 1 ≤ refs s) :
    1 ≤ effRef find cov refs (slotOf find m) := by
  unfold effRef
  split
  · exact Nat.le_refl _
  · rename_i hany
    cases hr : m.m_ext.ref_cnt with
    | some s => simp only [slotOf, hr]; exact hv s hr
    | none =>
      exfalso
      apply hany
      simp only [List.any_eq_true, Bool.and_eq_true, decide_eq_true_eq]
      exact ⟨m, hm, by simp [isLazy, he, hr], by simp [slotOf, hr]⟩

theorem effRef_le (find : Nat → Nat) (cov : Chain) (refs : Refs) (a : Nat) :
    effRef find cov refs a ≤ refs a + 1 := by
  unfold effRef
  split <;> omega

theorem teardowns_zfree (l : List Nat) :
    teardowns (l.map Event.zfree_mbuf) = 0 := by
  induction l with
  | nil => rfl
  | cons a l ih => simp [teardowns, Event.isTeardown]

theorem resolved_not_lazy (find : Nat → Nat) (m : mbuf) (h : isLazy m = false) :
    resolved find m = m := by
  unfold resolved
  by_cases he : m.m_flags.M_EXT = true
  · simp only [he, if_true, MEXT_ADD_REF]
    cases hr : m.m_ext.ref_cnt with
    | some s => rfl
    | none => simp [isLazy, he, hr] at h
  · have he' : m.m_flags.M_EXT = false := by simpa using he
    simp [he']

theorem m_copym_nospace_spec (K : Consts) (find : Nat → Nat) (tags_ok : Bool) (c : Chain)
    (off len : Nat) (refs : Refs) (pool : Pool) (log : List Event) (hne : c ≠ [])
    (hfit : ChainFits K c) (hu : LazyUnshared find c)
    (hvalid : ∀ m, m ∈ c → m.m_flags.M_EXT = true →
      ∀ s, m.m_ext.ref_cnt = some s → 1 ≤ refs s)
    (hbound : ∀ a, refs a + c.length + 1 < 4294967296)
    (hin : (len = K.M_COPYALL ∧ off ≤ totalLen c) ∨ off + len ≤ totalLen c) :
    ∃ r pre cov rest used, m_copym K find tags_ok c off len refs pool log = some r ∧
      c = pre ++ cov ++ rest ∧ pool = used ++ r.pool ∧
      r.src = pre ++ cov.map (resolved find) ++ rest ∧
      (r.top ≠ [] → used.all Option.isSome = true ∧
        (m_copym_copyhdr c off = true → tags_ok = true)) ∧
      (r.top = [] →
        r.log = log ++ (poolAddrs used).map Event.zfree_mbuf ∧
        teardowns r.log = teardowns log ∧
        ∀ a, r.refs a = effRef find cov refs a) := by
  have hoffle : off ≤ totalLen c := by rcases hin with h | h <;> omega
  obtain ⟨c1, off1, hs, -, ht, hl, hd⟩ := seek_spec (fun _ => 0) c off hoffle
  obtain ⟨pre, hpre⟩ := seek_suffix c off c1 off1 hs
  have hdone : c.take (c.length - c1.length) = pre := by
    rw [hpre]; simp
  have hfit1 : ChainFits K c1 := by
    rw [hpre, ChainFits_append] at hfit; exact hfit.2
  have hoff1 : ∀ m ms, c1 = m :: ms → off1 ≤ m.m_len := by
    intro m ms he
    rcases hd with h0 | ⟨m', ms', he', hlt⟩
    · omega
    · rw [he] at he'; cases he'; omega
  have hlen1 : len = K.M_COPYALL ∨ off1 + len ≤ totalLen c1 := by
    clear hd
    have : totalLen c = totalLen pre + totalLen c1 := by rw [hpre, totalLen_append]
    rcases hin with h | h
    · exact Or.inl h.1
    · right; omega
  obtain ⟨r, new, cov, rest, used, extra, hr, hc, hall, hpool, haddr, hsrc, hres⟩ :=
    m_copym_loop_any K find tags_ok off c1 off1 len (m_copym_copyhdr c off) [] pre refs pool
      log hfit1 hoff1
      (by
        intro hc m ms he
        cases c with
        | nil => cases hc
        | cons m0 ms0 =>
          simp only [m_copym_copyhdr, Bool.and_eq_true, decide_eq_true_eq] at hc
          obtain ⟨h0, hm0⟩ := hc
          subst h0
          rw [seek_zero] at hs
          cases hs
          cases he
          exact hm0)
      hlen1
  have hcdec : c = pre ++ cov ++ rest := by rw [hpre, hc, List.append_assoc]
  have hnewlen := SharesAll_length find off1 cov new hall
  have hcovlen : cov.length ≤ c.length := by rw [hcdec]; simp; omega
  have hucov : LazyUnshared find cov := by
    rw [hpre, hc] at hu
    exact LazyUnshared_prefix find cov rest (LazyUnshared_suffix find pre _ hu)
  refine ⟨r, pre, cov, rest, used,
    by rw [m_copym_eq K find tags_ok c off len refs pool log hne]; simp only [hs, hdone]; exact hr,
    hcdec, hpool, hsrc, ?_, ?_⟩
  · intro hne
    rcases hres with ⟨h1, -, -, -, h4, h5⟩ | ⟨h1, -⟩
    · refine ⟨h4, fun hcp => h5 hcp ?_⟩
      intro hn; apply hne; rw [h1, hn]; rfl
    · exact absurd h1 hne
  · intro hnil
    rcases hres with ⟨h1, h0, h2, h3, -, -⟩ | ⟨-, hex, h2, h3⟩
    · have hn : new = [] := by simpa [hnil] using h1.symm
      subst hn h0
      have hcov : cov = [] := by
        have := hnewlen; simp at this
        exact List.length_eq_zero.mp this.symm
      subst hcov
      simp only [List.append_nil, List.map_nil] at haddr
      refine ⟨by rw [h3, haddr]; simp, by rw [h3], fun a => ?_⟩
      rw [h2]; simp [addRefs, effRef]
    · have hcount : ∀ a, extCount find a (new ++ extra) = extCount find a cov := by
        intro a
        rw [extCount_append, extCount_no_ext find a extra hex,
          extCount_shares find a cov new off1 hall]
        rfl
      obtain ⟨i1, i2⟩ := m_freem_copies find (new ++ extra) (addRefs find cov refs)
        (effRef find cov refs) log
        (by
          intro n hn he
          rcases List.mem_append.mp hn with hn' | hn'
          · obtain ⟨m, hm, hme, hrc⟩ := SharesAll_ext find off1 cov new hall n hn' he
            refine ⟨slotOf find m, hrc, effRef_pos find cov refs m hm hme ?_⟩
            exact hvalid m (by rw [hcdec]; simp [hm]) hme
          · rw [hex n hn'] at he; cases he)
        (by
          intro a
          rw [hcount a]
          have h1 := effRef_le find cov refs a
          have h2 := extCount_le find a cov
          have h3 := hbound a
          omega)
        (by
          intro a
          rw [hcount a]
          exact addRefs_count find cov refs a hucov)
      simp only [List.nil_append] at h2 h3
      have hlog : r.log = log ++ (poolAddrs used).map Event.zfree_mbuf := by
        rw [h3, i1, haddr, List.map_map]; rfl
      refine ⟨hlog, ?_, fun a => by rw [h2]; exact i2 a⟩
      rw [hlog, teardowns_append, teardowns_zfree]; rfl

theorem resolved_lazy (find : Nat → Nat) (m : mbuf) (h : isLazy m = true) :
    resolved find m
      = { m with m_ext := { m.m_ext with ref_cnt := some (find m.m_ext.ext_buf) } } := by
  simp only [isLazy, Bool.and_eq_true, Option.isNone_iff_eq_none] at h
  simp [resolved, MEXT_ADD_REF, h.1, h.2]

theorem forall2_resolved (find : Nat → Nat) (cov : Chain) :
    List.Forall₂ (fun m m' => m' = m ∨ (isLazy m = true ∧
      m' = { m with m_ext := { m.m_ext with ref_cnt := some (find m.m_ext.ext_buf) } }))
      cov (cov.map (resolved find)) := by
  induction cov with
  | nil => exact List.Forall₂.nil
  | cons m ms ih =>
    refine List.Forall₂.cons ?_ ih
    cases hl : isLazy m with
    | false => exact Or.inl (resolved_not_lazy find m hl)
    | true => exact Or.inr ⟨rfl, resolved_lazy find m hl⟩

theorem forall2_same_left (R : mbuf → mbuf → Prop) (l : Chain) (h : ∀ m, R m m) :
    List.Forall₂ R l l := by
  induction l with
  | nil => exact List.Forall₂.nil
  | cons m ms ih => exact List.Forall₂.cons (h m) ih

theorem forall2_append (R : mbuf → mbuf → Prop) (a b x y : Chain)
    (h1 : List.Forall₂ R a x) (h2 : List.Forall₂ R b y) : List.Forall₂ R (a ++ b) (x ++ y) := by
  induction h1 with
  | nil => exact h2
  | cons h _ ih => exact List.Forall₂.cons h ih

/-- C7 (as amended): m_copym on failure.  For a chain that is not NULL, whose
nodes lie within their storage and whose counters are sound (each counter of an
external node holds at least 1, a buffer without counter is referenced by no
earlier node), for in-bounds (off, len), every pool and either outcome of the
tag copy, the call returns.  It returns a chain only if every allocation it
made and the tag copy succeeded; so when one fails the result is NULL, and then
the log has grown by exactly one node free for each node the pool handed out,
in order, and no storage teardown has run.  The source chain is node for node
as before, except that an external node whose buffer had no counter assigned
may now name the counter embedded with that buffer; and every counter holds
the value it held before the call, except that the embedded counter of such a
buffer holds 1, the count the buffer had.  When every external node has its
counter assigned, the chain and the counters are equal to what they were. -/
theorem m_copym_failure_atomic (K : Consts) (find : Nat → Nat) (tags_ok : Bool) (c : Chain)
    (off len : Nat) (refs : Refs) (pool : Pool) (log : List Event) (hne : c ≠ [])
    (hfit : ChainFits K c) (hu : LazyUnshared find c)
    (hvalid : ∀ m, m ∈ c → m.m_flags.M_EXT = true →
      ∀ s, m.m_ext.ref_cnt = some s → 1 ≤ refs s)
    (hbound : ∀ a, refs a + c.length + 1 < 4294967296)
    (hin : (len = K.M_COPYALL ∧ off ≤ totalLen c) ∨ off + len ≤ totalLen c) :
    ∃ r used, m_copym K find tags_ok c off len refs pool log = some r ∧
      pool = used ++ r.pool ∧
      (r.top ≠ [] → used.all Option.isSome = true ∧
        (m_copym_copyhdr c off = true → tags_ok = true)) ∧
      List.Forall₂ (fun m m' => m' = m ∨ (isLazy m = true ∧
        m' = { m with m_ext := { m.m_ext with ref_cnt := some (find m.m_ext.ext_buf) } }))
        c r.src ∧
      (r.top = [] →
        r.log = log ++ (poolAddrs used).map Event.zfree_mbuf ∧
        teardowns r.log = teardowns log ∧
        ∀ a, r.refs a = refs a ∨
          (r.refs a = 1 ∧ ∃ m, m ∈ c ∧ isLazy m = true ∧ find m.m_ext.ext_buf = a)) ∧
      ((∀ m, m ∈ c → isLazy m = false) →
        r.src = c ∧ (r.top = [] → ∀ a, r.refs a = refs a)) := by
  obtain ⟨r, pre, cov, rest, used, h1, h2, h3, h4, h5, h6⟩ :=
    m_copym_nospace_spec K find tags_ok c off len refs pool log hne hfit hu hvalid hbound hin
  refine ⟨r, used, h1, h3, h5, ?_, ?_, ?_⟩
  · rw [h4]
    conv_lhs => rw [h2]
    exact forall2_append _ _ _ _ _
      (forall2_append _ _ _ _ _ (forall2_same_left _ pre (fun m => Or.inl rfl))
        (forall2_resolved find cov))
      (forall2_same_left _ rest (fun m => Or.inl rfl))
  · intro hnil
    obtain ⟨g1, g2, g3⟩ := h6 hnil
    refine ⟨g1, g2, fun a => ?_⟩
    rw [g3 a]
    unfold effRef
    split
    · rename_i hany
      right
      simp only [List.any_eq_true, Bool.and_eq_true, decide_eq_true_eq] at hany
      obtain ⟨m, hm, hl, hf⟩ := hany
      exact ⟨rfl, m, by rw [h2]; simp [hm], hl, hf⟩
    · exact Or.inl rfl
  · intro hnl
    have hcov : ∀ m, m ∈ cov → isLazy m = false := fun m hm => hnl m (by rw [h2]; simp [hm])
    have hmap : cov.map (resolved find) = cov := by
      conv_rhs => rw [← List.map_id cov]
      apply List.map_congr_left
      intro m hm
      simp [resolved_not_lazy find m (hcov m hm)]
    refine ⟨by rw [h4, hmap, h2], fun hnil a => ?_⟩
    rw [(h6 hnil).2.2 a]
    apply effRef_not_lazy
    intro m1 hm1 hl
    rw [hcov m1 hm1] at hl; cases hl

/-! ## m_split -/

theorem m_split_seek_spec (c : Chain) (k : Nat) (hne : c ≠ []) (hk : k ≤ totalLen c) :
    ∃ pre m rest len, m_split_seek c k = some (pre, m, rest, len) ∧
      c = pre ++ m :: rest ∧ len ≤ m.m_len ∧ k = totalLen pre + len := by
  induction c generalizing k with
  | nil => exact absurd rfl hne
  | cons m ms ih =>
    by_cases hgt : k > m.m_len
    · simp only [totalLen] at hk
      have hms : ms ≠ [] := by
        intro h; subst h; simp only [totalLen] at hk; omega
      obtain ⟨pre, x, rest, len, hs, hc, hl, hkk⟩ := ih (k - m.m_len) hms (by omega)
      refine ⟨m :: pre, x, rest, len, by simp [m_split_seek, hgt, hs], by simp [hc], hl, ?_⟩
      simp only [totalLen]; omega
    · exact ⟨[], m, ms, k, by simp [m_split_seek, hgt], rfl, by omega, by simp [totalLen]⟩

theorem m_split_seek_none (c : Chain) (k : Nat) (h : m_split_seek c k = none) :
    totalLen c < k ∨ c = [] := by
  induction c generalizing k with
  | nil => exact Or.inr rfl
  | cons m ms ih =>
    left
    simp only [m_split_seek] at h
    split at h
    · rename_i hgt
      cases hs : m_split_seek ms (k - m.m_len) with
      | none =>
        rcases ih _ hs with h1 | h1
        · simp only [totalLen]; omega
        · subst h1; simp only [totalLen]; omega
      | some v => rw [hs] at h; cases h
    · cases h

theorem m_split_seek_some (c : Chain) (k : Nat) (pre : Chain) (m : mbuf) (rest : Chain)
    (len : Nat) (h : m_split_seek c k = some (pre, m, rest, len)) :
    c = pre ++ m :: rest ∧ len ≤ m.m_len ∧ k = totalLen pre + len := by
  induction c generalizing k pre with
  | nil => simp [m_split_seek] at h
  | cons x xs ih =>
    simp only [m_split_seek] at h
    split at h
    · rename_i hgt
      cases hs : m_split_seek xs (k - x.m_len) with
      | none => rw [hs] at h; cases h
      | some v =>
        obtain ⟨pre', m', rest', len'⟩ := v
        rw [hs] at h
        simp only [Option.some.injEq, Prod.mk.injEq] at h
        obtain ⟨h1, h2, h3, h4⟩ := h
        subst h1 h2 h3 h4
        obtain ⟨i1, i2, i3⟩ := ih _ _ hs
        exact ⟨by simp [i1], i2, by simp only [totalLen]; omega⟩
    · rename_i hgt
      simp only [Option.some.injEq, Prod.mk.injEq] at h
      obtain ⟨h1, h2, h3, h4⟩ := h
      subst h1 h2 h3 h4
      exact ⟨rfl, by omega, by simp [totalLen]⟩

theorem mbytes_take (mem : Store) (m : mbuf) (len : Nat) (h : len ≤ m.m_len) :
    (mbytes mem m).take len = rd (storeOf mem m) m.m_data len := by
  simp only [mbytes, rd_take]
  congr 1; omega

theorem m_split_extpacket_spec (K : Consts) (find : Nat → Nat) (mem : Store) (m n : mbuf)
    (len : Nat) (refs : Refs) (hle : len ≤ m.m_len) (hn : n.m_flags.M_EXT = false)
    (hcap : m.m_flags.M_EXT = false → n.m_data + (m.m_len - len) ≤ K.MLEN) :
    ∃ n2 m2 refs2, m_split_extpacket K find m n len (m.m_len - len) refs = some (n2, m2, refs2) ∧
      mbytes mem m2 = (mbytes mem m).take len ∧
      mbytes mem n2 = (mbytes mem m).drop len ∧
      m2.m_len = len ∧ n2.m_len = m.m_len - len ∧
      m2.m_pkthdr = m.m_pkthdr ∧ m2.m_flags = m.m_flags ∧
      n2.m_pkthdr = n.m_pkthdr ∧ n2.m_flags.M_PKTHDR = n.m_flags.M_PKTHDR := by
  unfold m_split_extpacket
  by_cases he : m.m_flags.M_EXT = true
  · simp only [he, if_true]
    refine ⟨_, _, _, rfl, ?_, ?_, rfl, rfl, ?_, ?_, rfl, rfl⟩
    · rw [mbytes_take mem m len hle]
      unfold MEXT_ADD_REF
      cases hr : m.m_ext.ref_cnt <;> simp [mbytes, storeOf, he]
    · simp [mbytes, storeOf, he, rd_drop]
    · unfold MEXT_ADD_REF
      cases hr : m.m_ext.ref_cnt <;> rfl
    · unfold MEXT_ADD_REF
      cases hr : m.m_ext.ref_cnt <;> rfl
  · have he' : m.m_flags.M_EXT = false := by simpa using he
    have hc := hcap he'
    simp only [he', Bool.false_eq_true, if_false, hc, if_true]
    refine ⟨_, _, _, rfl, ?_, ?_, rfl, rfl, rfl, rfl, rfl, rfl⟩
    · rw [mbytes_take mem m len hle]
      simp [mbytes, storeOf, he']
    · simp only [mbytes, storeOf, hn, he', Bool.false_eq_true, if_false, rd_drop]
      have := rd_wr_self n.m_dat n.m_data (rd m.m_dat (m.m_data + len) (m.m_len - len))
      rw [rd_length] at this
      exact this

theorem chainBytes_snoc (mem : Store) (pre : Chain) (m : mbuf) :
    chainBytes mem (pre ++ [m]) = chainBytes mem pre ++ mbytes mem m := by
  simp [chainBytes_append, chainBytes]

theorem totalLen_snoc (pre : Chain) (m : mbuf) :
    totalLen (pre ++ [m]) = totalLen pre + m.m_len := by
  simp [totalLen_append, totalLen]

theorem m_split_body_nohdr (K : Consts) (find : Nat → Nat) (mem : Store)
    (self : Chain → Nat → Refs → List Event → Option SplitOut) (pool : Pool)
    (m0 : mbuf) (ms : Chain) (k : Nat) (refs : Refs) (log : List Event)
    (hh : m0.m_flags.M_PKTHDR = false) (hfit : ChainFits K (m0 :: ms)) :
    ∃ r, m_split_body K find self pool (m0 :: ms) k refs log = some r ∧ r.log = log ∧
      chainBytes mem r.head ++ chainBytes mem r.tail = chainBytes mem (m0 :: ms) ∧
      totalLen r.head + totalLen r.tail = totalLen (m0 :: ms) ∧
      (r.tail ≠ [] → totalLen r.head = k) ∧
      (r.tail = [] → r.head = m0 :: ms) ∧
      (∀ a d p, pool = some (a, d) :: p → k < totalLen (m0 :: ms) → r.tail ≠ []) ∧
      r.head ≠ [] := by
  unfold m_split_body
  cases hs : m_split_seek (m0 :: ms) k with
  | none =>
    refine ⟨_, rfl, rfl, by simp [chainBytes], by simp [totalLen], fun h => absurd rfl h,
      fun _ => rfl, ?_, List.cons_ne_nil _ _⟩
    intro a d p _ hk
    rcases m_split_seek_none _ _ hs with h | h
    · omega
    · cases h
  | some v =>
    obtain ⟨pre, m, rest, len⟩ := v
    obtain ⟨hc, hle, hk⟩ := m_split_seek_some _ _ _ _ _ _ hs
    have hfm : Fits K m := by
      rw [hc, ChainFits_append] at hfit
      exact hfit.2.1
    have hbytes : chainBytes mem (m0 :: ms) =
        chainBytes mem pre ++ (mbytes mem m ++ chainBytes mem rest) := by
      rw [hc, chainBytes_append]; rfl
    have htotal : totalLen (m0 :: ms) = totalLen pre + (m.m_len + totalLen rest) := by
      rw [hc, totalLen_append]; rfl
    simp only [hh, Bool.false_eq_true, if_false]
    by_cases hr0 : m.m_len - len = 0
    · simp only [hr0, if_true]
      refine ⟨_, rfl, rfl, ?_, ?_, ?_, ?_, ?_, by simp⟩
      · show chainBytes mem (pre ++ [m]) ++ chainBytes mem rest = _
        rw [hbytes, chainBytes_snoc, List.append_assoc]
      · show totalLen (pre ++ [m]) + totalLen rest = _
        rw [htotal, totalLen_snoc]; omega
      · intro _
        show totalLen (pre ++ [m]) = k
        rw [totalLen_snoc]; omega
      · intro h; simp only at h; subst h; rw [hc]
      · intro a d p _ hlt h
        have hrest : rest = [] := h
        subst hrest
        have h0 : totalLen ([] : Chain) = 0 := rfl
        rw [h0] at htotal
        omega
    · simp only [hr0, if_false]
      match pool with
      | [] =>
        simp only [m_get]
        exact ⟨_, rfl, rfl, by simp [chainBytes], by simp [totalLen], fun h => absurd rfl h,
          fun _ => rfl, (fun a d p h => by cases h), List.cons_ne_nil _ _⟩
      | none :: p =>
        simp only [m_get]
        exact ⟨_, rfl, rfl, by simp [chainBytes], by simp [totalLen], fun h => absurd rfl h,
          fun _ => rfl, (fun a d p h => by cases h), List.cons_ne_nil _ _⟩
      | some (a, d) :: p =>
        simp only [m_get]
        obtain ⟨n2, m2, refs2, he, hb1, hb2, hl1, hl2, -⟩ :=
          m_split_extpacket_spec K find mem m (M_ALIGN K (newNode a d m.m_type) (m.m_len - len))
            len refs hle rfl
            (by
              intro hext
              have hml : m.m_len ≤ K.MLEN := by
                simp only [Fits, hext, Bool.false_eq_true, if_false] at hfm
                split at hfm <;> omega
              have hdiv := Nat.div_mul_le_self (K.MLEN - (m.m_len - len)) K.sizeof_long
              simp only [M_ALIGN, newNode]
              omega)
        rw [he]
        refine ⟨_, rfl, rfl, ?_, ?_, ?_, ?_, ?_, by simp⟩
        · show chainBytes mem (pre ++ [m2]) ++ chainBytes mem (n2 :: rest) = _
          rw [hbytes, chainBytes_snoc, hb1]
          simp only [chainBytes, hb2, List.append_assoc]
          rw [← List.append_assoc (List.take len (mbytes mem m)), List.take_append_drop]
        · show totalLen (pre ++ [m2]) + totalLen (n2 :: rest) = _
          rw [totalLen_snoc, hl1, htotal]
          show totalLen pre + len + (n2.m_len + totalLen rest) = _
          rw [hl2]; omega
        · intro _
          show totalLen (pre ++ [m2]) = k
          rw [totalLen_snoc, hl1]; omega
        · intro h; cases h
        · intro _ _ _ _ _ h; cases h

theorem m_split_nohdr (K : Consts) (find : Nat → Nat) (mem : Store) (pool : Pool)
    (m0 : mbuf) (ms : Chain) (k : Nat) (refs : Refs) (log : List Event)
    (hh : m0.m_flags.M_PKTHDR = false) (hfit : ChainFits K (m0 :: ms)) :
    ∃ r, m_split K find pool (m0 :: ms) k refs log = some r ∧ r.log = log ∧
      chainBytes mem r.head ++ chainBytes mem r.tail = chainBytes mem (m0 :: ms) ∧
      totalLen r.head + totalLen r.tail = totalLen (m0 :: ms) ∧
      (r.tail ≠ [] → totalLen r.head = k) ∧
      (r.tail = [] → r.head = m0 :: ms) ∧
      (∀ a d p, pool = some (a, d) :: p → k < totalLen (m0 :: ms) → r.tail ≠ []) ∧
      r.head ≠ [] := by
  match pool with
  | [] => exact m_split_body_nohdr K find mem _ [] m0 ms k refs log hh hfit
  | none :: p => exact m_split_body_nohdr K find mem _ (none :: p) m0 ms k refs log hh hfit
  | some x :: p => exact m_split_body_nohdr K find mem _ (some x :: p) m0 ms k refs log hh hfit

theorem m_split_body_hdr_fail (K : Consts) (find : Nat → Nat)
    (self : Chain → Nat → Refs → List Event → Option SplitOut) (pool : Pool)
    (m0 : mbuf) (ms : Chain) (k : Nat) (refs : Refs) (log : List Event)
    (hh : m0.m_flags.M_PKTHDR = true) (hp : (m_gethdr K pool m0.m_type).1 = none) :
    ∃ r, m_split_body K find self pool (m0 :: ms) k refs log = some r ∧
      r.tail = [] ∧ r.head = m0 :: ms := by
  unfold m_split_body
  cases hs : m_split_seek (m0 :: ms) k with
  | none => exact ⟨_, rfl, rfl, rfl⟩
  | some v =>
    obtain ⟨pre, m, rest, len⟩ := v
    simp only [hh, if_true]
    match pool, hp with
    | [], _ => exact ⟨_, rfl, rfl, rfl⟩
    | none :: p, _ => exact ⟨_, rfl, rfl, rfl⟩

theorem Fits_hdr_len (K : Consts) (m : mbuf) (hK : K.MHLEN ≤ K.MLEN) (hf : Fits K m)
    (he : m.m_flags.M_EXT = false) (hh : m.m_flags.M_PKTHDR = true) : m.m_len ≤ K.MHLEN := by
  simp only [Fits, he, hh, Bool.false_eq_true, if_false, if_true] at hf
  omega

theorem Fits_len (K : Consts) (m : mbuf) (hf : Fits K m)
    (he : m.m_flags.M_EXT = false) : m.m_len ≤ K.MLEN := by
  simp only [Fits, he, Bool.false_eq_true, if_false] at hf
  split at hf <;> omega

theorem head_snoc_same (pre1 : Chain) (m1 m2 : mbuf) (xs : Chain)
    (h1 : m2.m_pkthdr = m1.m_pkthdr) (h2 : m2.m_flags = m1.m_flags) :
    ∃ h hs, pre1 ++ m2 :: xs = h :: hs ∧
      ∀ h0 hs0, pre1 ++ [m1] = h0 :: hs0 →
        h.m_pkthdr = h0.m_pkthdr ∧ h.m_flags = h0.m_flags := by
  cases pre1 with
  | nil =>
    refine ⟨m2, xs, rfl, ?_⟩
    intro h0 hs0 he
    simp only [List.nil_append, List.cons.injEq] at he
    rw [← he.1]; exact ⟨h1, h2⟩
  | cons p0 ps =>
    refine ⟨p0, ps ++ m2 :: xs, rfl, ?_⟩
    intro h0 hs0 he
    simp only [List.cons_append, List.cons.injEq] at he
    rw [← he.1]; exact ⟨rfl, rfl⟩

theorem m_split_pkthdr_spec (K : Consts) (find : Nat → Nat) (mem : Store) (p : Pool)
    (n : mbuf) (pre1 : Chain) (m1 : mbuf) (rest : Chain) (len : Nat) (refs : Refs)
    (log : List Event)
    (hK : K.MHLEN ≤ K.MLEN) (hfm : Fits K m1) (hfr : ChainFits K rest) (hle : len ≤ m1.m_len)
    (hn1 : n.m_flags.M_EXT = false) (hn2 : n.m_data = K.MLEN - K.MHLEN)
    (hn3 : n.m_flags.M_PKTHDR = true)
    (hpre : pre1 = [] → m1.m_flags.M_PKTHDR = true) :
    ∃ r, m_split_pkthdr K find (m_split K find p) p n pre1 m1 rest len refs log = some r ∧
      chainBytes mem r.head ++ chainBytes mem r.tail =
        chainBytes mem pre1 ++ chainBytes mem (m1 :: rest) ∧
      totalLen r.head + totalLen r.tail = totalLen pre1 + totalLen (m1 :: rest) ∧
      (r.tail ≠ [] → totalLen r.head = totalLen pre1 + len ∧
        (∃ h hs, r.head = h :: hs ∧
          ∀ h0 hs0, pre1 ++ [m1] = h0 :: hs0 →
            h.m_pkthdr = h0.m_pkthdr ∧ h.m_flags = h0.m_flags) ∧
        (∃ t ts, r.tail = t :: ts ∧ t.m_flags.M_PKTHDR = true ∧ t.m_pkthdr = n.m_pkthdr)) ∧
      (r.tail = [] → r.head = pre1 ++ m1 :: rest) ∧
      (allocOK p 1 = true → r.tail ≠ []) := by
  unfold m_split_pkthdr
  have hsplit : ∀ (n' : mbuf), n'.m_flags.M_EXT = false → n'.m_flags.M_PKTHDR = true →
      n'.m_pkthdr = n.m_pkthdr →
      (m1.m_flags.M_EXT = false → n'.m_data + (m1.m_len - len) ≤ K.MLEN) →
      ∃ r, (match m_split_extpacket K find m1 n' len (m1.m_len - len) refs with
          | none => none
          | some (n2, m2, refs2) =>
            some ({ tail := n2 :: rest, head := pre1 ++ [m2], refs := refs2, pool := p,
                    log := log } : SplitOut)) = some r ∧
        chainBytes mem r.head ++ chainBytes mem r.tail =
          chainBytes mem pre1 ++ chainBytes mem (m1 :: rest) ∧
        totalLen r.head + totalLen r.tail = totalLen pre1 + totalLen (m1 :: rest) ∧
        (r.tail ≠ [] → totalLen r.head = totalLen pre1 + len ∧
          (∃ h hs, r.head = h :: hs ∧
            ∀ h0 hs0, pre1 ++ [m1] = h0 :: hs0 →
              h.m_pkthdr = h0.m_pkthdr ∧ h.m_flags = h0.m_flags) ∧
          (∃ t ts, r.tail = t :: ts ∧ t.m_flags.M_PKTHDR = true ∧ t.m_pkthdr = n.m_pkthdr)) ∧
        (r.tail = [] → r.head = pre1 ++ m1 :: rest) ∧
        (allocOK p 1 = true → r.tail ≠ []) := by
    intro n' hn'1 hn'3 hn'p hcap
    obtain ⟨n2, m2, refs2, he, hb1, hb2, hl1, hl2, hp1, hf1, hp2, hf2⟩ :=
      m_split_extpacket_spec K find mem m1 n' len refs hle hn'1 hcap
    rw [he]
    refine ⟨_, rfl, ?_, ?_, ?_, ?_, ?_⟩
    · show chainBytes mem (pre1 ++ [m2]) ++ chainBytes mem (n2 :: rest) = _
      rw [chainBytes_snoc, hb1]
      simp only [chainBytes, hb2, List.append_assoc]
      rw [← List.append_assoc (List.take len (mbytes mem m1)), List.take_append_drop]
    · show totalLen (pre1 ++ [m2]) + totalLen (n2 :: rest) = _
      rw [totalLen_snoc, hl1]
      show totalLen pre1 + len + (n2.m_len + totalLen rest) =
        totalLen pre1 + (m1.m_len + totalLen rest)
      rw [hl2]; omega
    · intro _
      refine ⟨?_, head_snoc_same pre1 m1 m2 [] hp1 hf1, n2, rest, rfl, ?_, ?_⟩
      · show totalLen (pre1 ++ [m2]) = _
        rw [totalLen_snoc, hl1]
      · rw [hf2, hn'3]
      · rw [hp2, hn'p]
    · intro h; cases h
    · intro _ h; cases h
  by_cases he : m1.m_flags.M_EXT = true
  · simp only [he, if_true]
    exact hsplit n hn1 hn3 rfl (fun h => by rw [he] at h; cases h)
  · have he' : m1.m_flags.M_EXT = false := by simpa using he
    simp only [he', Bool.false_eq_true, if_false]
    by_cases hrem : m1.m_len - len > K.MHLEN
    · simp only [hrem, if_true]
      have hnh : m1.m_flags.M_PKTHDR = false := by
        cases hh : m1.m_flags.M_PKTHDR with
        | false => rfl
        | true =>
          have := Fits_hdr_len K m1 hK hfm he' hh
          omega
      have hpne : pre1 ≠ [] := by
        intro h; rw [hpre h] at hnh; cases hnh
      obtain ⟨r', hr', -, hb, ht, hks, hnil, hok, -⟩ :=
        m_split_nohdr K find mem p m1 rest len refs log hnh ⟨hfm, hfr⟩
      rw [hr']
      by_cases hemp : r'.tail = []
      · have hie : r'.tail.isEmpty = true := by rw [hemp]; rfl
        simp only [hie, if_true]
        refine ⟨_, rfl, ?_, ?_, fun h => absurd rfl h, ?_, ?_⟩
        · show chainBytes mem (pre1 ++ r'.head) ++ chainBytes mem [] = _
          rw [hnil hemp]; simp [chainBytes_append, chainBytes]
        · show totalLen (pre1 ++ r'.head) + totalLen [] = _
          rw [hnil hemp]; simp [totalLen_append, totalLen]
        · intro _
          show pre1 ++ r'.head = _
          rw [hnil hemp]
        · intro hp
          exfalso
          obtain ⟨a, d, p', hpp, -⟩ := allocOK_succ p 0 hp
          exact hok a d p' hpp (by simp only [totalLen]; omega) hemp
      · have hie : r'.tail.isEmpty = false := by
          cases ht' : r'.tail with
          | nil => exact absurd ht' hemp
          | cons _ _ => rfl
        simp only [hie, Bool.false_eq_true, if_false]
        refine ⟨_, rfl, ?_, ?_, ?_, ?_, ?_⟩
        · show chainBytes mem (pre1 ++ r'.head) ++
            chainBytes mem ({ MH_ALIGN K n 0 with m_len := 0 } :: r'.tail) = _
          rw [chainBytes_append, List.append_assoc, ← hb]
          simp [chainBytes, mbytes, rd]
        · show totalLen (pre1 ++ r'.head) +
            totalLen ({ MH_ALIGN K n 0 with m_len := 0 } :: r'.tail) = _
          rw [totalLen_append, ← ht]
          simp only [totalLen]; omega
        · intro _
          refine ⟨?_, ?_, _, _, rfl, ?_, rfl⟩
          · show totalLen (pre1 ++ r'.head) = _
            rw [totalLen_append, hks hemp]
          · cases pre1 with
            | nil => exact absurd rfl hpne
            | cons p0 ps =>
              refine ⟨p0, ps ++ r'.head, rfl, ?_⟩
              intro h0 hs0 heq
              simp only [List.cons_append, List.cons.injEq] at heq
              rw [← heq.1]; exact ⟨rfl, rfl⟩
          · exact hn3
        · intro h; cases h
        · intro _ h; cases h
    · simp only [hrem, if_false]
      apply hsplit (MH_ALIGN K n (m1.m_len - len)) hn1 hn3 rfl
      intro _
      have hdiv := Nat.div_mul_le_self (K.MHLEN - (m1.m_len - len)) K.sizeof_long
      simp only [MH_ALIGN, hn2]
      omega

theorem Fits_set_pkthdr_len (K : Consts) (m : mbuf) (k : Nat) (h : Fits K m) :
    Fits K (set_pkthdr_len m k) := h

theorem m_split_hdr (K : Consts) (find : Nat → Nat) (mem : Store) (pool : Pool)
    (m0 : mbuf) (ms : Chain) (k : Nat) (refs : Refs) (log : List Event)
    (hh : m0.m_flags.M_PKTHDR = true) (hfit : ChainFits K (m0 :: ms))
    (hK : K.MHLEN ≤ K.MLEN) :
    ∃ r, m_split K find pool (m0 :: ms) k refs log = some r ∧
      chainBytes mem r.head ++ chainBytes mem r.tail = chainBytes mem (m0 :: ms) ∧
      totalLen r.head + totalLen r.tail = totalLen (m0 :: ms) ∧
      (r.tail ≠ [] → totalLen r.head = k ∧
        (∃ h hs, r.head = h :: hs ∧ h.m_flags.M_PKTHDR = true ∧ h.m_pkthdr.len = (k : Int)) ∧
        (∃ t ts, r.tail = t :: ts ∧ t.m_flags.M_PKTHDR = true ∧
          t.m_pkthdr.len = m0.m_pkthdr.len - (k : Int) ∧
          t.m_pkthdr.rcvif = m0.m_pkthdr.rcvif)) ∧
      (allocOK pool 2 = true → k ≤ totalLen (m0 :: ms) → r.tail ≠ []) := by
  have hfail : ∀ pl self, (m_gethdr K pl m0.m_type).1 = none → allocOK pl 2 = false →
      ∃ r, m_split_body K find self pl (m0 :: ms) k refs log = some r ∧
      chainBytes mem r.head ++ chainBytes mem r.tail = chainBytes mem (m0 :: ms) ∧
      totalLen r.head + totalLen r.tail = totalLen (m0 :: ms) ∧
      (r.tail ≠ [] → totalLen r.head = k ∧
        (∃ h hs, r.head = h :: hs ∧ h.m_flags.M_PKTHDR = true ∧ h.m_pkthdr.len = (k : Int)) ∧
        (∃ t ts, r.tail = t :: ts ∧ t.m_flags.M_PKTHDR = true ∧
          t.m_pkthdr.len = m0.m_pkthdr.len - (k : Int) ∧
          t.m_pkthdr.rcvif = m0.m_pkthdr.rcvif)) ∧
      (allocOK pl 2 = true → k ≤ totalLen (m0 :: ms) → r.tail ≠ []) := by
    intro pl self hp hno
    obtain ⟨r, hr, h1, h2⟩ := m_split_body_hdr_fail K find self pl m0 ms k refs log hh hp
    refine ⟨r, hr, by rw [h1, h2]; simp [chainBytes], by rw [h1, h2]; simp [totalLen],
      fun h => absurd h1 h, fun h => by rw [hno] at h; cases h⟩
  match pool with
  | [] => exact hfail [] _ rfl rfl
  | none :: p => exact hfail (none :: p) _ rfl rfl
  | some (a, d) :: p =>
    show ∃ r, m_split_body K find (m_split K find p) (some (a, d) :: p) (m0 :: ms) k refs log
      = some r ∧ _
    unfold m_split_body
    cases hs : m_split_seek (m0 :: ms) k with
    | none =>
      refine ⟨_, rfl, by simp [chainBytes], by simp [totalLen], fun h => absurd rfl h, ?_⟩
      intro _ hk
      rcases m_split_seek_none _ _ hs with h | h
      · omega
      · cases h
    | some v =>
      obtain ⟨pre, m, rest, len⟩ := v
      obtain ⟨hc, hle, hk⟩ := m_split_seek_some _ _ _ _ _ _ hs
      have hfm : Fits K m := by
        rw [hc, ChainFits_append] at hfit; exact hfit.2.1
      have hfr : ChainFits K rest := by
        rw [hc, ChainFits_append] at hfit; exact hfit.2.2
      simp only [hh, if_true, m_gethdr]
      cases pre with
      | nil =>
        simp only [List.nil_append, List.cons.injEq] at hc
        obtain ⟨hm, hms⟩ := hc
        subst hm hms
        obtain ⟨r, hr, hb, ht, hsucc, -, hok⟩ :=
          m_split_pkthdr_spec K find mem p (m_split_newhdr (newHdrNode K a d m0.m_type) m0 k) []
            (set_pkthdr_len m0 k) ms len refs log hK
            (Fits_set_pkthdr_len K m0 k hfm) hfr hle
            (by rfl) (by rfl) (by rfl) (fun _ => hh)
        refine ⟨r, hr, by rw [hb]; rfl, by rw [ht]; simp [totalLen, set_pkthdr_len], ?_, ?_⟩
        · intro hne
          obtain ⟨i1, ⟨h, hs', i2, i3⟩, ⟨t, ts, i4, i5, i6⟩⟩ := hsucc hne
          obtain ⟨j1, j2⟩ := i3 _ _ rfl
          refine ⟨by rw [i1, hk], ⟨h, hs', i2, by rw [j2]; exact hh, by rw [j1]; rfl⟩,
            t, ts, i4, i5, by rw [i6]; rfl, by rw [i6]; rfl⟩
        · intro hp _
          exact hok (by simpa [allocOK] using hp)
      | cons p0 ps =>
        simp only [List.cons_append, List.cons.injEq] at hc
        obtain ⟨hp0, hms⟩ := hc
        subst hp0
        obtain ⟨r, hr, hb, ht, hsucc, -, hok⟩ :=
          m_split_pkthdr_spec K find mem p (m_split_newhdr (newHdrNode K a d m0.m_type) m0 k)
            (set_pkthdr_len m0 k :: ps) m rest len refs log
            hK hfm hfr hle (by rfl) (by rfl) (by rfl) (fun h => by cases h)
        have hbb : chainBytes mem (m0 :: ms) =
            chainBytes mem (set_pkthdr_len m0 k :: ps) ++ chainBytes mem (m :: rest) := by
          rw [hms, ← chainBytes_append]; rfl
        have htt : totalLen (m0 :: ms) =
            totalLen (set_pkthdr_len m0 k :: ps) + totalLen (m :: rest) := by
          rw [hms, ← totalLen_append]; rfl
        refine ⟨r, hr, by rw [hb, hbb], by rw [ht, htt], ?_, ?_⟩
        · intro hne
          obtain ⟨i1, ⟨h, hs', i2, i3⟩, ⟨t, ts, i4, i5, i6⟩⟩ := hsucc hne
          obtain ⟨j1, j2⟩ := i3 _ _ rfl
          refine ⟨by rw [i1, hk]; rfl, ⟨h, hs', i2, by rw [j2]; exact hh, by rw [j1]; rfl⟩,
            t, ts, i4, i5, by rw [i6]; rfl, by rw [i6]; rfl⟩
        · intro hp _
          exact hok (by simpa [allocOK] using hp)

theorem take_drop_of_append {α : Type} (a b l : List α) (k : Nat) (h : a ++ b = l)
    (hk : a.length = k) : a = l.take k ∧ b = l.drop k := by
  subst h hk
  simp

/-- C8: for a header-bearing chain whose nodes lie within their storage and
whose header length is the sum of the node lengths, and every k from 0 to the
total length, when the (at most two) allocations succeed m_split returns a
non-NULL tail T; afterwards the bytes of C are the first k bytes of the
original and the bytes of T the rest, in order; the header of C has length k,
which is the sum of its node lengths; the first node of T carries a header
whose length is the original header length less k, which is the sum of the
node lengths of T, and whose receive interface is that of C. -/
theorem m_split_partitions (K : Consts) (find : Nat → Nat) (mem : Store) (pool : Pool)
    (m0 : mbuf) (ms : Chain) (k : Nat) (refs : Refs) (log : List Event)
    (hK : K.MHLEN ≤ K.MLEN)
    (hh : m0.m_flags.M_PKTHDR = true) (hfit : ChainFits K (m0 :: ms))
    (hlen : m0.m_pkthdr.len = (totalLen (m0 :: ms) : Int))
    (hk : k ≤ totalLen (m0 :: ms)) (hpool : allocOK pool 2 = true) :
    ∃ r h hs t ts, m_split K find pool (m0 :: ms) k refs log = some r ∧
      r.head = h :: hs ∧ r.tail = t :: ts ∧
      chainBytes mem r.head = (chainBytes mem (m0 :: ms)).take k ∧
      chainBytes mem r.tail = (chainBytes mem (m0 :: ms)).drop k ∧
      h.m_flags.M_PKTHDR = true ∧ h.m_pkthdr.len = (k : Int) ∧
      h.m_pkthdr.len = (totalLen r.head : Int) ∧
      t.m_flags.M_PKTHDR = true ∧ t.m_pkthdr.len = m0.m_pkthdr.len - (k : Int) ∧
      t.m_pkthdr.len = (totalLen r.tail : Int) ∧
      t.m_pkthdr.rcvif = m0.m_pkthdr.rcvif := by
  obtain ⟨r, hr, hb, ht, hsucc, hok⟩ := m_split_hdr K find mem pool m0 ms k refs log hh hfit hK
  obtain ⟨i1, ⟨h, hs, i2, i3, i4⟩, ⟨t, ts, i5, i6, i7, i8⟩⟩ := hsucc (hok hpool hk)
  obtain ⟨j1, j2⟩ := take_drop_of_append _ _ _ k hb (by rw [chainBytes_length, i1])
  refine ⟨r, h, hs, t, ts, hr, i2, i5, j1, j2, i3, i4, by rw [i4, i1], i6, i7, ?_, i8⟩
  rw [i7, hlen]
  omega

/-! ## m_cat after m_split -/

theorem rd_wr_before (s : Store) (q : Nat) (bs : List Byte) (p l : Nat) (h : p + l ≤ q) :
    rd (wr s q bs) p l = rd s p l := by
  simp only [rd]
  apply List.map_congr_left
  intro i hi
  have hi' : i < l := List.mem_range.mp hi
  have : ¬ (q ≤ p + i ∧ p + i < q + bs.length) := by omega
  simp [wr, this]

theorem rd_wr_after (s : Store) (p l : Nat) (bs : List Byte) :
    rd (wr s (p + l) bs) p (l + bs.length) = rd s p l ++ bs := by
  rw [rd_add, rd_wr_before s (p + l) bs p l (Nat.le_refl _), rd_wr_self]

theorem m_cat_loop_spec (K : Consts) (mem : Store) (m : mbuf) (ns : Chain) (refs : Refs)
    (log : List Event) :
    chainBytes mem (m_cat_loop K mem m ns refs log).1 = mbytes mem m ++ chainBytes mem ns ∧
      totalLen (m_cat_loop K mem m ns refs log).1 = m.m_len + totalLen ns := by
  induction ns generalizing m refs log with
  | nil => simp [m_cat_loop, chainBytes, totalLen]
  | cons n ns ih =>
    simp only [m_cat_loop]
    split
    · simp [chainBytes, totalLen]
    · rename_i hg
      have he : m.m_flags.M_EXT = false := by
        cases h : m.m_flags.M_EXT with
        | false => rfl
        | true => exact absurd (Or.inl h) hg
      obtain ⟨h1, h2⟩ := ih
        { m with m_dat := wr m.m_dat (m.m_data + m.m_len) (mbytes mem n),
                 m_len := m.m_len + n.m_len } (m_free n refs log).1 (m_free n refs log).2
      rw [h1, h2]
      constructor
      · simp only [chainBytes, ← List.append_assoc]
        congr 1
        simp only [mbytes, storeOf, he, Bool.false_eq_true, if_false]
        have := rd_wr_after m.m_dat m.m_data m.m_len (mbytes mem n)
        rw [mbytes_length] at this
        exact this
      · simp only [totalLen]; omega

theorem m_cat_spec (K : Consts) (mem : Store) (a b : Chain) (refs : Refs) (log : List Event)
    (ha : a ≠ []) :
    ∃ r, m_cat K mem a b refs log = some r ∧
      chainBytes mem r.1 = chainBytes mem a ++ chainBytes mem b ∧
      totalLen r.1 = totalLen a + totalLen b := by
  induction a with
  | nil => exact absurd rfl ha
  | cons m ms ih =>
    cases ms with
    | nil =>
      obtain ⟨h1, h2⟩ := m_cat_loop_spec K mem m b refs log
      exact ⟨_, rfl, by rw [h1]; simp [chainBytes], by rw [h2]; simp [totalLen]⟩
    | cons m1 ms1 =>
      obtain ⟨r, hr, h1, h2⟩ := ih (List.cons_ne_nil _ _)
      refine ⟨(m :: r.1, r.2), by simp only [m_cat, hr], ?_, ?_⟩
      · show chainBytes mem (m :: r.1) = _
        simp only [chainBytes] at h1 ⊢
        rw [h1]; simp
      · show totalLen (m :: r.1) = _
        simp only [totalLen] at h2 ⊢
        rw [h2]; omega

theorem m_split_nil (K : Consts) (find : Nat → Nat) (pool : Pool) (k : Nat) (refs : Refs)
    (log : List Event) :
    ∃ r, m_split K find pool [] k refs log = some r ∧ r.tail = [] := by
  match pool with
  | [] => exact ⟨_, rfl, rfl⟩
  | none :: p => exact ⟨_, rfl, rfl⟩
  | some x :: p => exact ⟨_, rfl, rfl⟩

/-- C10: for every chain whose nodes lie within their storage, every k and
every pool, m_split returns; if it returns a non-NULL tail T then right after
the split the node lengths of the head and of T add up to the original total,
and m_cat(C, T) gives a chain headed by C with the same sum of node lengths and
the same byte content as the original C. -/
theorem m_split_then_m_cat (K : Consts) (find : Nat → Nat) (mem : Store) (pool : Pool)
    (c : Chain) (k : Nat) (refs : Refs) (log : List Event)
    (hK : K.MHLEN ≤ K.MLEN) (hfit : ChainFits K c) :
    ∃ r, m_split K find pool c k refs log = some r ∧
      (r.tail ≠ [] →
        totalLen r.head + totalLen r.tail = totalLen c ∧
        ∃ r2, m_cat K mem r.head r.tail r.refs r.log = some r2 ∧
          chainBytes mem r2.1 = chainBytes mem c ∧ totalLen r2.1 = totalLen c) := by
  cases c with
  | nil =>
    obtain ⟨r, hr, ht⟩ := m_split_nil K find pool k refs log
    exact ⟨r, hr, fun h => absurd ht h⟩
  | cons m0 ms =>
    have key : ∃ r, m_split K find pool (m0 :: ms) k refs log = some r ∧
        chainBytes mem r.head ++ chainBytes mem r.tail = chainBytes mem (m0 :: ms) ∧
        totalLen r.head + totalLen r.tail = totalLen (m0 :: ms) ∧
        (r.tail ≠ [] → r.head ≠ []) := by
      cases hh : m0.m_flags.M_PKTHDR with
      | true =>
        obtain ⟨r, hr, hb, ht, hsucc, -⟩ :=
          m_split_hdr K find mem pool m0 ms k refs log hh hfit hK
        refine ⟨r, hr, hb, ht, fun hne => ?_⟩
        obtain ⟨-, ⟨h, hs, i2, -⟩, -⟩ := hsucc hne
        rw [i2]; exact List.cons_ne_nil _ _
      | false =>
        obtain ⟨r, hr, -, hb, ht, -, -, -, hne⟩ :=
          m_split_nohdr K find mem pool m0 ms k refs log hh hfit
        exact ⟨r, hr, hb, ht, fun _ => hne⟩
    obtain ⟨r, hr, hb, ht, hne⟩ := key
    refine ⟨r, hr, fun h => ⟨ht, ?_⟩⟩
    obtain ⟨r2, h2, hb2, ht2⟩ := m_cat_spec K mem r.head r.tail r.refs r.log (hne h)
    exact ⟨r2, h2, by rw [hb2, hb], by rw [ht2, ht]⟩

/-! ## m_cat: content and header -/

/-- The loop of `m_cat` changes the array and the length of its node `m` only:
the result starts with a node that has the flags and the header block of `m`. -/
theorem m_cat_loop_head (K : Consts) (mem : Store) (m : mbuf) (ns : Chain) (refs : Refs)
    (log : List Event) :
    ∃ h hs, (m_cat_loop K mem m ns refs log).1 = h :: hs ∧ h.m_pkthdr = m.m_pkthdr ∧
      h.m_flags = m.m_flags ∧ h.addr = m.addr := by
  induction ns generalizing m refs log with
  | nil => exact ⟨m, [], rfl, rfl, rfl, rfl⟩
  | cons n ns ih =>
    simp only [m_cat_loop]
    split
    · exact ⟨m, n :: ns, rfl, rfl, rfl, rfl⟩
    · obtain ⟨h, hs, e, h1, h2, h3⟩ := ih
        { m with m_dat := wr m.m_dat (m.m_data + m.m_len) (mbytes mem n),
                 m_len := m.m_len + n.m_len } (m_free n refs log).1 (m_free n refs log).2
      exact ⟨h, hs, e, h1, h2, h3⟩

/-- The first node after `m_cat` has the header block and the flags of the first
node before. -/
theorem m_cat_head (K : Consts) (mem : Store) (a0 : mbuf) (as b : Chain) (refs : Refs)
    (log : List Event) :
    ∃ r h hs, m_cat K mem (a0 :: as) b refs log = some r ∧ r.1 = h :: hs ∧
      h.m_pkthdr = a0.m_pkthdr ∧ h.m_flags = a0.m_flags ∧ h.addr = a0.addr := by
  cases as with
  | nil =>
    obtain ⟨h, hs, e, h1, h2, h3⟩ := m_cat_loop_head K mem a0 b refs log
    exact ⟨_, h, hs, rfl, e, h1, h2, h3⟩
  | cons a1 as1 =>
    obtain ⟨r, hr, _, _⟩ := m_cat_spec K mem (a1 :: as1) b refs log (List.cons_ne_nil _ _)
    exact ⟨(a0 :: r.1, r.2), a0, r.1, by simp only [m_cat, hr], rfl, rfl, rfl, rfl⟩

/-- C11: for every non-empty chain `a` and every chain `b`, `m_cat(a, b)` returns
with the chain at `a` holding the bytes of `a` followed by the bytes of `b`,
whether the nodes of `b` were copied into the last node of `a` and freed or
linked, and the first node keeps its header block (so its total length) and
its flags. -/
theorem m_cat_preserves_content (K : Consts) (mem : Store) (a0 : mbuf) (as b : Chain)
    (refs : Refs) (log : List Event) :
    ∃ r h hs, m_cat K mem (a0 :: as) b refs log = some r ∧
      chainBytes mem r.1 = chainBytes mem (a0 :: as) ++ chainBytes mem b ∧
      r.1 = h :: hs ∧ h.m_pkthdr.len = a0.m_pkthdr.len ∧ h.m_pkthdr = a0.m_pkthdr ∧
      h.m_flags = a0.m_flags := by
  obtain ⟨r, hr, hb, _⟩ := m_cat_spec K mem (a0 :: as) b refs log (List.cons_ne_nil _ _)
  obtain ⟨r2, h, hs, hr2, e, h1, h2, _⟩ := m_cat_head K mem a0 as b refs log
  rw [hr] at hr2
  cases hr2
  exact ⟨r, h, hs, hr, hb, e, by rw [h1], h1, h2⟩

/-! ## m_extadd, m_move_pkthdr, m_dup_pkthdr -/

/-- The counter `m_extadd` ends up with: the one found for a cluster, the one
the node already has for `EXT_EXTREF`, else the one `malloc` gives. -/
theorem m_extadd_cases (find : Nat → Nat) (malloc : Option Nat) (refs : Refs) (mb : mbuf)
    (buf size freef args : Nat) (flags : Flags) (type : Nat) :
    (type ≠ EXT_CLUSTER → (type = EXT_EXTREF → mb.m_ext.ref_cnt = none) → malloc = none →
      m_extadd find malloc refs mb buf size freef args flags type =
        ({ mb with m_ext := { mb.m_ext with ref_cnt := none } }, refs)) ∧
    ((type = EXT_CLUSTER ∨ (type = EXT_EXTREF ∧ mb.m_ext.ref_cnt.isSome) ∨ malloc.isSome) →
      ∃ r, m_extadd find malloc refs mb buf size freef args flags type =
        ({ mb with
            m_flags := mb.m_flags.or ({ flags with M_EXT := true }),
            m_data := buf,
            m_ext := { ext_buf := buf, ext_size := size, ext_free := freef,
                       ext_args := args, ref_cnt := some r, ext_type := type } },
          setRef refs r 1)) := by
  constructor
  · intro h1 h2 h3
    subst h3
    have hne : ¬ (EXT_EXTREF = EXT_CLUSTER) := by decide
    by_cases h4 : type = EXT_EXTREF
    · subst h4
      simp [m_extadd, hne, h2 rfl]
    · simp [m_extadd, h1, h4]
  · intro h
    by_cases h1 : type = EXT_CLUSTER
    · exact ⟨find mb.m_ext.ext_buf, by simp [m_extadd, h1]⟩
    · have hne : ¬ (EXT_EXTREF = EXT_CLUSTER) := by decide
      by_cases h4 : type = EXT_EXTREF
      · subst h4
        cases hr : mb.m_ext.ref_cnt with
        | some r => exact ⟨r, by simp [m_extadd, hne, hr]⟩
        | none =>
          cases hm : malloc with
          | some r => exact ⟨r, by simp [m_extadd, hne, hr]⟩
          | none => simp [h1, hr, hm] at h
      · cases hm : malloc with
        | some r => exact ⟨r, by simp [m_extadd, h1, h4]⟩
        | none => simp [h1, h4, hm] at h

/-- C14: when no counter is found or reused and the counter allocation fails,
`m_extadd` leaves the flags and the data pointer of the node as they were, so
`M_EXT` is not set on a node that did not have it, and no counter changes; in
every other case `M_EXT` and the extra flags are set, the counter holds 1,
`m_data` and `ext_buf` are the buffer, and `ext_size`, `ext_free`, `ext_args`
and `ext_type` are the arguments. -/
theorem m_extadd_sets_ext_iff_counter (find : Nat → Nat) (malloc : Option Nat) (refs : Refs)
    (mb : mbuf) (buf size freef args : Nat) (flags : Flags) (type : Nat) :
    (type ≠ EXT_CLUSTER → (type = EXT_EXTREF → mb.m_ext.ref_cnt = none) → malloc = none →
      (m_extadd find malloc refs mb buf size freef args flags type).1.m_flags = mb.m_flags ∧
      (m_extadd find malloc refs mb buf size freef args flags type).1.m_data = mb.m_data ∧
      (m_extadd find malloc refs mb buf size freef args flags type).2 = refs ∧
      (mb.m_flags.M_EXT = false →
        (m_extadd find malloc refs mb buf size freef args flags type).1.m_flags.M_EXT
          = false)) ∧
    ((type = EXT_CLUSTER ∨ (type = EXT_EXTREF ∧ mb.m_ext.ref_cnt.isSome) ∨ malloc.isSome) →
      ∃ r, (m_extadd find malloc refs mb buf size freef args flags type).1.m_ext.ref_cnt
          = some r ∧
        (m_extadd find malloc refs mb buf size freef args flags type).2 r = 1 ∧
        (m_extadd find malloc refs mb buf size freef args flags type).1.m_flags
          = mb.m_flags.or ({ flags with M_EXT := true }) ∧
        (m_extadd find malloc refs mb buf size freef args flags type).1.m_flags.M_EXT
          = true ∧
        (m_extadd find malloc refs mb buf size freef args flags type).1.m_data = buf ∧
        (m_extadd find malloc refs mb buf size freef args flags type).1.m_ext.ext_buf
          = buf ∧
        (m_extadd find malloc refs mb buf size freef args flags type).1.m_ext.ext_size
          = size ∧
        (m_extadd find malloc refs mb buf size freef args flags type).1.m_ext.ext_free
          = freef ∧
        (m_extadd find malloc refs mb buf size freef args flags type).1.m_ext.ext_args
          = args ∧
        (m_extadd find malloc refs mb buf size freef args flags type).1.m_ext.ext_type
          = type) := by
  obtain ⟨hf, hs⟩ := m_extadd_cases find malloc refs mb buf size freef args flags type
  constructor
  · intro h1 h2 h3
    rw [hf h1 h2 h3]
    exact ⟨rfl, rfl, rfl, fun h => h⟩
  · intro h
    obtain ⟨r, hr⟩ := hs h
    rw [hr]
    exact ⟨r, rfl, by simp [setRef], rfl, by simp [Flags.or], rfl, rfl, rfl, rfl, rfl, rfl⟩

/-- C15: for a node `from` with `M_PKTHDR` and any node `to`, after
`m_move_pkthdr(to, from)` the header block of `to` (total length, receive
interface, tags) is the one `from` had, the flags of `to` are the flags of
`from` restricted to `M_COPYFLAGS` with the old `M_EXT` bit of `to`, `from` has
lost `M_PKTHDR` and its tags, and nothing else of `from` has changed: its
length, its data pointer, its storage and so its bytes are as before. -/
theorem m_move_pkthdr_transfers (K : Consts) (mem : Store) (to_ from_ : mbuf)
    (h : from_.m_flags.M_PKTHDR = true) :
    (m_move_pkthdr K to_ from_).1.m_pkthdr = from_.m_pkthdr ∧
      (m_move_pkthdr K to_ from_).1.m_flags
        = { copyflags from_.m_flags with M_EXT := to_.m_flags.M_EXT } ∧
      (m_move_pkthdr K to_ from_).1.m_flags.M_PKTHDR = true ∧
      (m_move_pkthdr K to_ from_).2.m_flags.M_PKTHDR = false ∧
      (m_move_pkthdr K to_ from_).2.m_pkthdr.tags = [] ∧
      (m_move_pkthdr K to_ from_).2
        = { from_ with m_pkthdr := { from_.m_pkthdr with tags := [] },
                       m_flags := { from_.m_flags with M_PKTHDR := false } } ∧
      (m_move_pkthdr K to_ from_).2.m_len = from_.m_len ∧
      (m_move_pkthdr K to_ from_).2.m_data = from_.m_data ∧
      (m_move_pkthdr K to_ from_).2.m_dat = from_.m_dat ∧
      mbytes mem (m_move_pkthdr K to_ from_).2 = mbytes mem from_ := by
  refine ⟨rfl, rfl, ?_, rfl, rfl, rfl, rfl, rfl, rfl, rfl⟩
  simp [m_move_pkthdr, copyflags, h]

/-- C16, as the code has it: when the copy of the tags fails, `m_dup_pkthdr`
returns 0 and leaves `to` with `M_PKTHDR` set (the flags of `from` restricted
to `M_COPYFLAGS`, with the old `M_EXT` bit of `to`), carrying the header block
of `from` with an empty tag list. -/
theorem m_dup_pkthdr_failure (K : Consts) (to_ from_ : mbuf)
    (h : from_.m_flags.M_PKTHDR = true) :
    (m_dup_pkthdr K to_ from_ false).2 = false ∧
      (m_dup_pkthdr K to_ from_ false).1.m_flags.M_PKTHDR = true ∧
      (m_dup_pkthdr K to_ from_ false).1.m_flags
        = { copyflags from_.m_flags with M_EXT := to_.m_flags.M_EXT } ∧
      (m_dup_pkthdr K to_ from_ false).1.m_pkthdr = { from_.m_pkthdr with tags := [] } := by
  refine ⟨rfl, ?_, rfl, rfl⟩
  simp [m_dup_pkthdr, copyflags, h]

/-! ## m_adj: trimming at the head -/

theorem chainBytes_adj_pkthdr (mem : Store) (f : Int → Int) (c : Chain) :
    chainBytes mem (adj_pkthdr f c) = chainBytes mem c ∧
      totalLen (adj_pkthdr f c) = totalLen c := by
  cases c with
  | nil => exact ⟨rfl, rfl⟩
  | cons m ms =>
    simp only [adj_pkthdr]
    split <;> exact ⟨rfl, rfl⟩

theorem adj_pkthdr_cons_false (f : Int → Int) (m : mbuf) (ms : Chain)
    (h : m.m_flags.M_PKTHDR = false) : adj_pkthdr f (m :: ms) = m :: ms := by
  simp [adj_pkthdr, h]

theorem adj_pkthdr_cons_true (f : Int → Int) (m : mbuf) (ms : Chain)
    (h : m.m_flags.M_PKTHDR = true) :
    adj_pkthdr f (m :: ms)
      = { m with m_pkthdr := { m.m_pkthdr with len := f m.m_pkthdr.len } } :: ms := by
  simp [adj_pkthdr, h]

/-- The head loop removes the first `len` bytes, as far as the chain goes, and
leaves in `len` what it could not remove. -/
theorem m_adj_head_spec (mem : Store) (c : Chain) (len : Nat) :
    chainBytes mem (m_adj_head c len).1 = (chainBytes mem c).drop len ∧
      totalLen (m_adj_head c len).1 = totalLen c - len ∧
      (m_adj_head c len).2 = len - totalLen c := by
  induction c generalizing len with
  | nil => simp [m_adj_head, chainBytes, totalLen]
  | cons m ms ih =>
    simp only [m_adj_head]
    split
    · rename_i h0
      subst h0
      simp
    · split
      · rename_i h0 hle
        obtain ⟨h1, h2, h3⟩ := ih (len - m.m_len)
        refine ⟨?_, ?_, ?_⟩
        · show mbytes mem { m with m_len := 0 } ++ chainBytes mem (m_adj_head ms _).1 = _
          rw [h1]
          show _ = (mbytes mem m ++ chainBytes mem ms).drop len
          have hm : (mbytes mem m).drop len = [] :=
            List.drop_of_length_le (by rw [mbytes_length]; exact hle)
          rw [List.drop_append_eq_append_drop, hm, mbytes_length]
          simp [mbytes, rd]
        · show 0 + totalLen (m_adj_head ms _).1 = (m.m_len + totalLen ms) - len
          rw [h2]; omega
        · show (m_adj_head ms _).2 = len - (m.m_len + totalLen ms)
          rw [h3]; omega
      · rename_i h0 hgt
        refine ⟨?_, ?_, ?_⟩
        · show rd (storeOf mem m) (m.m_data + len) (m.m_len - len) ++ chainBytes mem ms = _
          rw [chainBytes_drop_cons mem m ms len (by omega)]
        · show (m.m_len - len) + totalLen ms = (m.m_len + totalLen ms) - len
          omega
        · show 0 = len - (m.m_len + totalLen ms)
          omega

/-- The head loop keeps the flags and the header block of the first node. -/
theorem m_adj_head_first (m : mbuf) (ms : Chain) (len : Nat) :
    ∃ h hs, (m_adj_head (m :: ms) len).1 = h :: hs ∧ h.m_flags = m.m_flags ∧
      h.m_pkthdr = m.m_pkthdr := by
  simp only [m_adj_head]
  split
  · exact ⟨m, ms, rfl, rfl, rfl⟩
  · split
    · exact ⟨_, _, rfl, rfl, rfl⟩
    · exact ⟨_, _, rfl, rfl, rfl⟩

/-- C19: for every chain `C` and every `k ≥ 0`, `m_adj(C, k)` returns and the chain
holds the bytes it held without the first `min(k, total length)` of them, the
sum of the node lengths has gone down by as much, and when the first node has
a header its total length has gone down by exactly `min(k, total length)`;
without a header the header block is left alone.  Nothing is freed. -/
theorem m_adj_head_trim (mem : Store) (C : Chain) (k : Nat) (refs : Refs)
    (log : List Event) :
    ∃ r, m_adj C (k : Int) refs log = some r ∧
      chainBytes mem r.1 = (chainBytes mem C).drop (min k (totalLen C)) ∧
      totalLen r.1 = totalLen C - min k (totalLen C) ∧
      r.2 = (refs, log) ∧
      ∀ m0 ms, C = m0 :: ms → ∃ h hs, r.1 = h :: hs ∧
        h.m_flags = m0.m_flags ∧
        (m0.m_flags.M_PKTHDR = true →
          h.m_pkthdr.len = m0.m_pkthdr.len - ((min k (totalLen C) : Nat) : Int)) ∧
        (m0.m_flags.M_PKTHDR = false → h.m_pkthdr = m0.m_pkthdr) := by
  cases C with
  | nil => exact ⟨_, rfl, by simp [chainBytes, totalLen]⟩
  | cons m0 ms =>
    have hk : (0 : Int) ≤ (k : Int) := Int.ofNat_nonneg k
    obtain ⟨h1, h2, h3⟩ := m_adj_head_spec mem (m0 :: ms) k
    obtain ⟨h, hs, e, hf, hp⟩ := m_adj_head_first m0 ms k
    have hd : (chainBytes mem (m0 :: ms)).drop (min k (totalLen (m0 :: ms)))
        = (chainBytes mem (m0 :: ms)).drop k := by
      by_cases hle : k ≤ totalLen (m0 :: ms)
      · rw [Nat.min_eq_left hle]
      · rw [Nat.min_eq_right (by omega), List.drop_of_length_le (by rw [chainBytes_length]),
          List.drop_of_length_le (by rw [chainBytes_length]; omega)]
    have hm : m_adj (m0 :: ms) (k : Int) refs log
        = some (adj_pkthdr (fun l => l - ((k : Int) - ((m_adj_head (m0 :: ms) k).2 : Int)))
            (m_adj_head (m0 :: ms) k).1, refs, log) := by
      simp [m_adj]
    rw [hm]
    refine ⟨_, rfl, ?_, ?_, rfl, ?_⟩
    · rw [(chainBytes_adj_pkthdr mem _ _).1, h1, hd]
    · rw [(chainBytes_adj_pkthdr mem _ _).2, h2]; omega
    · intro a as ha
      cases ha
      dsimp only
      rw [e]
      have hfp : h.m_flags.M_PKTHDR = m0.m_flags.M_PKTHDR := by rw [hf]
      cases hh : m0.m_flags.M_PKTHDR with
      | false =>
        rw [hh] at hfp
        rw [adj_pkthdr_cons_false _ _ _ hfp]
        refine ⟨h, hs, rfl, hf, ?_, ?_⟩
        · intro hc; cases hc
        · intro _; exact hp
      | true =>
        rw [hh] at hfp
        rw [adj_pkthdr_cons_true _ _ _ hfp]
        refine ⟨_, hs, rfl, hf, fun _ => ?_, ?_⟩
        swap
        · intro hc; cases hc
        show h.m_pkthdr.len - ((k : Int) - ((m_adj_head (m0 :: ms) k).2 : Int)) = _
        rw [h3, hp]
        omega

/-! ## m_adj: trimming at the tail -/

theorem m_last_len_le (m : mbuf) (ms : Chain) : (m_last m ms).m_len ≤ totalLen (m :: ms) := by
  induction ms generalizing m with
  | nil => simp [m_last, totalLen]
  | cons m1 ms ih =>
    have := ih m1
    simp only [m_last, totalLen] at this ⊢
    omega

/-- Shortening the last node by `len`, which it has, removes the last `len`
bytes of the chain. -/
theorem mapLast_shorten (mem : Store) (m : mbuf) (ms : Chain) (len : Nat)
    (h : len ≤ (m_last m ms).m_len) :
    chainBytes mem (mapLast (fun m => { m with m_len := m.m_len - len }) (m :: ms))
        = (chainBytes mem (m :: ms)).take (totalLen (m :: ms) - len) ∧
      totalLen (mapLast (fun m => { m with m_len := m.m_len - len }) (m :: ms))
        = totalLen (m :: ms) - len := by
  induction ms generalizing m with
  | nil =>
    simp only [m_last] at h
    refine ⟨?_, by simp [mapLast, totalLen]⟩
    simp only [mapLast, chainBytes, totalLen, List.append_nil, Nat.add_zero]
    rw [mbytes_take mem m _ (Nat.sub_le _ _)]
    rfl
  | cons m1 ms ih =>
    have h' : len ≤ (m_last m1 ms).m_len := h
    obtain ⟨h1, h2⟩ := ih m1 h'
    have hl := m_last_len_le m1 ms
    have e1 : mapLast (fun m => { m with m_len := m.m_len - len }) (m :: m1 :: ms)
        = m :: mapLast (fun m => { m with m_len := m.m_len - len }) (m1 :: ms) := rfl
    rw [e1]
    generalize mapLast (fun m => { m with m_len := m.m_len - len }) (m1 :: ms) = c1 at h1 h2
    have e2 : totalLen (m :: m1 :: ms) = m.m_len + totalLen (m1 :: ms) := rfl
    have e3 : chainBytes mem (m :: m1 :: ms) = mbytes mem m ++ chainBytes mem (m1 :: ms) := rfl
    have e4 : chainBytes mem (m :: c1) = mbytes mem m ++ chainBytes mem c1 := rfl
    have e5 : totalLen (m :: c1) = m.m_len + totalLen c1 := rfl
    rw [e2, e3, e4, e5, h1, h2]
    generalize totalLen (m1 :: ms) = T at hl ⊢
    generalize (m_last m1 ms).m_len = L at hl h'
    refine ⟨?_, by omega⟩
    rw [List.take_append_eq_append_take, mbytes_length,
      List.take_of_length_le (l := mbytes mem m) (by rw [mbytes_length]; omega)]
    congr 2
    omega

theorem mapLast_first (f : mbuf → mbuf) (m : mbuf) (ms : Chain)
    (hf : (f m).m_flags = m.m_flags ∧ (f m).m_pkthdr = m.m_pkthdr) :
    ∃ h hs, mapLast f (m :: ms) = h :: hs ∧ h.m_flags = m.m_flags ∧
      h.m_pkthdr = m.m_pkthdr := by
  cases ms with
  | nil => exact ⟨f m, [], rfl, hf.1, hf.2⟩
  | cons m1 ms => exact ⟨m, _, rfl, rfl, rfl⟩

/-- The truncating loop keeps the first `count` bytes. -/
theorem m_adj_tail_spec (mem : Store) (c : Chain) (count : Nat) (refs : Refs)
    (log : List Event) (h : count ≤ totalLen c) :
    chainBytes mem (m_adj_tail c count refs log).1 = (chainBytes mem c).take count ∧
      totalLen (m_adj_tail c count refs log).1 = count := by
  induction c generalizing count with
  | nil =>
    simp only [totalLen] at h
    have : count = 0 := by omega
    subst this
    simp [m_adj_tail, chainBytes, totalLen]
  | cons m ms ih =>
    simp only [m_adj_tail]
    split
    · rename_i hge
      refine ⟨?_, by simp [totalLen]⟩
      show rd (storeOf mem m) m.m_data count ++ [] = (mbytes mem m ++ chainBytes mem ms).take _
      rw [List.append_nil, List.take_append_eq_append_take, mbytes_length,
        mbytes_take mem m count hge]
      have : count - m.m_len = 0 := by omega
      rw [this]
      simp
    · rename_i hlt
      simp only [totalLen] at h
      obtain ⟨h1, h2⟩ := ih (count - m.m_len) (by omega)
      refine ⟨?_, ?_⟩
      · show mbytes mem m ++ chainBytes mem (m_adj_tail ms _ refs log).1
          = (mbytes mem m ++ chainBytes mem ms).take count
        rw [h1, List.take_append_eq_append_take, mbytes_length,
          List.take_of_length_le (l := mbytes mem m) (by rw [mbytes_length]; omega)]
      · show m.m_len + totalLen (m_adj_tail ms _ refs log).1 = count
        rw [h2]; omega

theorem m_adj_tail_first (m : mbuf) (ms : Chain) (count : Nat) (refs : Refs)
    (log : List Event) :
    ∃ h hs, (m_adj_tail (m :: ms) count refs log).1 = h :: hs ∧ h.m_flags = m.m_flags ∧
      h.m_pkthdr = m.m_pkthdr := by
  simp only [m_adj_tail]
  split
  · exact ⟨_, _, rfl, rfl, rfl⟩
  · exact ⟨_, _, rfl, rfl, rfl⟩
theorem adj_pkthdr_first (f : Int → Int) (m : mbuf) (ms : Chain) :
    ∃ h, adj_pkthdr f (m :: ms) = h :: ms ∧ h.m_flags = m.m_flags ∧ h.m_len = m.m_len ∧
      (m.m_flags.M_PKTHDR = true → h.m_pkthdr.len = f m.m_pkthdr.len) := by
  cases hh : m.m_flags.M_PKTHDR with
  | false =>
    rw [adj_pkthdr_cons_false f m ms hh]
    refine ⟨m, rfl, rfl, rfl, ?_⟩
    intro hc; cases hc
  | true =>
    rw [adj_pkthdr_cons_true f m ms hh]
    exact ⟨_, rfl, rfl, rfl, fun _ => rfl⟩

theorem int_neg_neg (k n : Nat) (hk : k ≤ n) :
    (if -(-(k : Int)) ≤ (n : Int) then some (-(-(k : Int))) else none) = some (k : Int) := by
  rw [Int.neg_neg, if_pos (Int.ofNat_le.mpr hk)]

theorem int_neg_min (k n : Nat) (hk : n < k) :
    (if -(-(k : Int)) ≤ (n : Int) then some (-(-(k : Int))) else none) = none := by
  rw [Int.neg_neg, if_neg (by omega)]

theorem m_adj_neg (m0 : mbuf) (ms : Chain) (k : Nat) (hk : 0 < k) (hk2 : k < 2147483648)
    (refs : Refs) (log : List Event) :
    m_adj (m0 :: ms) (-(k : Int)) refs log =
      some (if (m_last m0 ms).m_len ≥ k then
        (adj_pkthdr (fun l => l - (k : Int))
          (mapLast (fun m => { m with m_len := m.m_len - k }) (m0 :: ms)), refs, log)
      else
        m_adj_tail (adj_pkthdr (fun _ => ((totalLen (m0 :: ms) - k : Nat) : Int)) (m0 :: ms))
          (totalLen (m0 :: ms) - k) refs log) := by
  have hneg : ¬ ((0 : Int) ≤ -(k : Int)) := by omega
  have hn : int_neg (-(k : Int)) = some (k : Int) :=
    int_neg_neg k 2147483647 (by omega)
  simp only [m_adj, hneg, if_false, hn, Int.toNat_ofNat]
  split <;> rfl

/-- A tail trim by `INT_MIN` of a chain that is not NULL has no defined
outcome: `len = -len` overflows. -/
theorem m_adj_int_min (m0 : mbuf) (ms : Chain) (k : Nat) (hk : 2147483648 ≤ k) (refs : Refs)
    (log : List Event) : m_adj (m0 :: ms) (-(k : Int)) refs log = none := by
  have hneg : ¬ ((0 : Int) ≤ -(k : Int)) := by omega
  have hn : int_neg (-(k : Int)) = none := int_neg_min k 2147483647 (by omega)
  simp only [m_adj, hneg, if_false, hn]

/-- C20 (as amended): for every chain `C` whose header length, if it has a
header, is the sum of its node lengths, and every `k` with `0 < k < 2^31`,
`m_adj(C, -k)` returns, the chain then holds the bytes it held without the last
`min(k, total length)` of them, and the header total length is the new sum of
the node lengths, whether the cut is inside the last node or takes several
trailing nodes. -/
theorem m_adj_tail_trim (mem : Store) (C : Chain) (k : Nat) (refs : Refs) (log : List Event)
    (hk : 0 < k) (hk2 : k < 2147483648)
    (hh : ∀ m0 ms, C = m0 :: ms → m0.m_flags.M_PKTHDR = true →
      m0.m_pkthdr.len = (totalLen C : Int)) :
    ∃ r, m_adj C (-(k : Int)) refs log = some r ∧
      chainBytes mem r.1 = (chainBytes mem C).take (totalLen C - min k (totalLen C)) ∧
      totalLen r.1 = totalLen C - min k (totalLen C) ∧
      ∀ m0 ms, C = m0 :: ms → ∃ h hs, r.1 = h :: hs ∧
        h.m_flags = m0.m_flags ∧
        (m0.m_flags.M_PKTHDR = true → h.m_pkthdr.len = (totalLen r.1 : Int)) := by
  cases C with
  | nil =>
    refine ⟨_, rfl, by simp [chainBytes], by simp [totalLen], ?_⟩
    intro m0 ms hc; cases hc
  | cons m0 ms =>
    have hl := m_last_len_le m0 ms
    rw [m_adj_neg m0 ms k hk hk2 refs log]
    refine ⟨_, rfl, ?_⟩
    split
    · rename_i hge
      obtain ⟨h1, h2⟩ := mapLast_shorten mem m0 ms k hge
      obtain ⟨h, hs, e, hf, hp⟩ := mapLast_first (fun m => { m with m_len := m.m_len - k })
        m0 ms ⟨rfl, rfl⟩
      have hmin : min k (totalLen (m0 :: ms)) = k := Nat.min_eq_left (by omega)
      rw [hmin]
      dsimp only
      refine ⟨by rw [(chainBytes_adj_pkthdr mem _ _).1, h1],
        by rw [(chainBytes_adj_pkthdr mem _ _).2, h2], ?_⟩
      intro a as ha
      cases ha
      rw [(chainBytes_adj_pkthdr mem _ _).2, h2, e]
      obtain ⟨h', e', hf', _, hp'⟩ := adj_pkthdr_first (fun l => l - (k : Int)) h hs
      rw [e']
      refine ⟨h', hs, rfl, hf'.trans hf, fun hc => ?_⟩
      rw [hp' (by rw [hf]; exact hc), hp, hh m0 ms rfl hc]
      omega
    · rename_i hlt
      have hmin : totalLen (m0 :: ms) - min k (totalLen (m0 :: ms))
          = totalLen (m0 :: ms) - k := by omega
      rw [hmin]
      obtain ⟨h0, e0, hf0, hl0, hp0⟩ :=
        adj_pkthdr_first (fun _ => ((totalLen (m0 :: ms) - k : Nat) : Int)) m0 ms
      rw [e0]
      have ht : totalLen (h0 :: ms) = totalLen (m0 :: ms) := by
        simp only [totalLen, hl0]
      have hb : chainBytes mem (h0 :: ms) = chainBytes mem (m0 :: ms) := by
        have := (chainBytes_adj_pkthdr mem
          (fun _ => ((totalLen (m0 :: ms) - k : Nat) : Int)) (m0 :: ms)).1
        rwa [e0] at this
      obtain ⟨h1, h2⟩ := m_adj_tail_spec mem (h0 :: ms) (totalLen (m0 :: ms) - k) refs log
        (by rw [ht]; omega)
      obtain ⟨h, hs, e, hf, hp⟩ := m_adj_tail_first h0 ms (totalLen (m0 :: ms) - k) refs log
      refine ⟨by rw [h1, hb], h2, ?_⟩
      intro a as ha
      cases ha
      rw [h2]
      exact ⟨h, hs, e, hf.trans hf0, fun hc => by rw [hp, hp0 hc]⟩

/-! ## m_getm -/

theorem m_getcl_some (K : Consts) (cl : Nat → Nat) (a : Nat) (d : Store) (p : Pool)
    (type : Nat) (hdr : Bool) :
    m_getcl K cl (some (a, d) :: p) type hdr = (some (clNode K a (cl a) d type hdr), p) := rfl

/-- With enough successful allocations ahead the loop of `m_getm` gets its `n`
cluster nodes, each of length 0. -/
theorem m_getm_loop_ok (K : Consts) (cl : Nat → Nat) (type : Nat) (n : Nat) (pool : Pool)
    (k : Nat) (h : allocOK pool (n + k) = true) :
    ∃ nodes p, m_getm_loop K cl type n pool = (true, nodes, p) ∧ nodes.length = n ∧
      (∀ x, x ∈ nodes → x.m_len = 0 ∧ x.m_flags.M_EXT = true ∧
        x.m_ext.ext_size = K.MCLBYTES ∧ x.m_ext.ref_cnt = none) ∧
      allocOK p k = true := by
  induction n generalizing pool with
  | zero =>
    refine ⟨[], pool, rfl, rfl, ?_, by simpa using h⟩
    intro x hx
    cases hx
  | succ n ih =>
    have h' : allocOK pool ((n + k) + 1) = true := by
      rw [show n + k + 1 = n + 1 + k by omega]; exact h
    obtain ⟨a, d, p, rfl, hp⟩ := allocOK_succ pool (n + k) h'
    obtain ⟨nodes, p1, e, hl, hn, hk⟩ := ih p hp
    refine ⟨{ clNode K a (cl a) d type false with m_len := 0 } :: nodes, p1, ?_, by simp [hl],
      ?_, hk⟩
    · simp only [m_getm_loop, m_getcl_some, e]
    · intro x hx
      rcases List.mem_cons.1 hx with rfl | hx
      · exact ⟨rfl, rfl, rfl, rfl⟩
      · exact hn x hx

/-- The nodes `m_getm` makes of the pool entries `pre`. -/
theorem m_getm_loop_pre (K : Consts) (cl : Nat → Nat) (type : Nat) (n : Nat)
    (pre : List (Nat × Store)) (tail : Pool) (h : n ≤ pre.length) :
    m_getm_loop K cl type n (pre.map some ++ tail) =
      (true, (pre.take n).map (fun x => { clNode K x.1 (cl x.1) x.2 type false with m_len := 0 }),
        (pre.drop n).map some ++ tail) := by
  induction n generalizing pre with
  | zero => simp [m_getm_loop]
  | succ n ih =>
    cases pre with
    | nil => simp at h
    | cons x pre =>
      obtain ⟨a, d⟩ := x
      have := ih pre (by simpa using h)
      simp only [List.map_cons, List.cons_append, m_getm_loop, m_getcl_some, this,
        List.take_succ_cons, List.drop_succ_cons]

/-- The loop of `m_getm` when the pool fails before the loop is done: the nodes
of the allocations that succeeded are what it leaves linked. -/
theorem m_getm_loop_fail (K : Consts) (cl : Nat → Nat) (type : Nat) (n : Nat)
    (pre : List (Nat × Store)) (tail : Pool) (h : pre.length < n)
    (ht : tail = [] ∨ ∃ rest, tail = none :: rest) :
    m_getm_loop K cl type n (pre.map some ++ tail) =
      (false, pre.map (fun x => { clNode K x.1 (cl x.1) x.2 type false with m_len := 0 }),
        tail.tail) := by
  induction n generalizing pre with
  | zero => omega
  | succ n ih =>
    cases pre with
    | nil =>
      rcases ht with rfl | ⟨rest, rfl⟩
      · simp [m_getm_loop, m_getcl]
      · simp [m_getm_loop, m_getcl]
    | cons x pre =>
      obtain ⟨a, d⟩ := x
      have := ih pre (by simpa using h)
      simp only [List.map_cons, List.cons_append, m_getm_loop, m_getcl_some, this]

/-- Freeing fresh packet-zone nodes hands each back to the packet zone and
touches no counter. -/
theorem m_freem_clNodes (K : Consts) (cl : Nat → Nat) (type : Nat)
    (pre : List (Nat × Store)) (refs : Refs) (log : List Event) :
    m_freem (pre.map (fun x => { clNode K x.1 (cl x.1) x.2 type false with m_len := 0 }))
        refs log = (refs, log ++ pre.map (fun x => Event.zfree_pack x.1)) := by
  induction pre generalizing log with
  | nil => simp [m_freem]
  | cons x pre ih =>
    have e : m_free { clNode K x.1 (cl x.1) x.2 type false with m_len := 0 } refs log
        = (refs, log ++ [Event.zfree_pack x.1]) := by
      simp [m_free, mb_free_ext, clNode, newNode]
    simp only [List.map_cons, m_freem, e, ih]
    simp
theorem ceil_div (len M : Nat) (hM : 0 < M) :
    (len + M - 1) / M = len / M + (if len % M > 0 then 1 else 0) := by
  have h1 := Nat.div_add_mod len M
  have h2 := Nat.mod_lt len hM
  have h3 : (len / M + 1) * M = M * (len / M) + M := by
    rw [Nat.add_mul, Nat.one_mul, Nat.mul_comm]
  have h4 : (len / M) * M = M * (len / M) := Nat.mul_comm _ _
  have h5 : (len / M + 1 + 1) * M = M * (len / M) + M + M := by
    rw [Nat.add_mul, Nat.one_mul, h3]
  split
  · apply Nat.div_eq_of_lt_le
    · rw [h3]; omega
    · rw [h5]; omega
  · apply Nat.div_eq_of_lt_le
    · rw [Nat.add_zero, h4]; omega
    · rw [Nat.add_zero, h3]; omega

/-- The successful run of `m_getm`: `len / MCLBYTES` cluster nodes and, when
there is a remainder, one more node, a cluster node when the remainder
exceeds `MINCLSIZE`; every node has length 0. -/
theorem m_getm_ok (K : Consts) (cl : Nat → Nat) (pool : Pool) (m : Chain) (len type : Nat)
    (refs : Refs) (log : List Event) (k : Nat)
    (hok : allocOK pool
      (len / K.MCLBYTES + (if len % K.MCLBYTES > 0 then 1 else 0) + k) = true) :
    ∃ full last p, m_getm K cl pool m len type refs log
        = m_getm_done m (full ++ last) p refs log ∧
      full.length = len / K.MCLBYTES ∧
      last.length = (if len % K.MCLBYTES > 0 then 1 else 0) ∧
      (∀ x, x ∈ full → x.m_len = 0 ∧ x.m_flags.M_EXT = true ∧
        x.m_ext.ext_size = K.MCLBYTES ∧ x.m_ext.ref_cnt = none) ∧
      (∀ x, x ∈ last → x.m_len = 0 ∧
        x.m_flags.M_EXT = decide (len % K.MCLBYTES > K.MINCLSIZE) ∧
        (x.m_flags.M_EXT = true → x.m_ext.ext_size = K.MCLBYTES) ∧
        x.m_ext.ref_cnt = none) ∧
      allocOK p k = true := by
  -- the cluster nodes: the first one and those of the loop
  have hfull : ∃ full p1, full.length = len / K.MCLBYTES ∧
      (∀ x, x ∈ full → x.m_len = 0 ∧ x.m_flags.M_EXT = true ∧
        x.m_ext.ext_size = K.MCLBYTES ∧ x.m_ext.ref_cnt = none) ∧
      allocOK p1 ((if len % K.MCLBYTES > 0 then 1 else 0) + k) = true ∧
      m_getm K cl pool m len type refs log =
        if len % K.MCLBYTES > 0 then
          match (if len % K.MCLBYTES > K.MINCLSIZE then m_getcl K cl p1 type false
                 else m_get p1 type).1 with
          | none => m_getm_failed m full
              (if len % K.MCLBYTES > K.MINCLSIZE then m_getcl K cl p1 type false
                 else m_get p1 type).2 refs log
          | some mb => m_getm_done m (full ++ [{ mb with m_len := 0 }])
              (if len % K.MCLBYTES > K.MINCLSIZE then m_getcl K cl p1 type false
                 else m_get p1 type).2 refs log
        else m_getm_done m full p1 refs log := by
    by_cases hn : len / K.MCLBYTES > 0
    · have h' : allocOK pool ((len / K.MCLBYTES - 1 +
          ((if len % K.MCLBYTES > 0 then 1 else 0) + k)) + 1) = true := by
        rw [show len / K.MCLBYTES - 1 + ((if len % K.MCLBYTES > 0 then 1 else 0) + k) + 1
          = len / K.MCLBYTES + (if len % K.MCLBYTES > 0 then 1 else 0) + k by omega]
        exact hok
      obtain ⟨a, d, p, rfl, hp⟩ := allocOK_succ pool _ h'
      obtain ⟨nodes, p1, e, hl, hx, hk⟩ := m_getm_loop_ok K cl type _ p _ hp
      refine ⟨{ clNode K a (cl a) d type false with m_len := 0 } :: nodes, p1,
        by simp [hl]; omega, ?_, hk, ?_⟩
      · intro x hx1
        rcases List.mem_cons.1 hx1 with rfl | hx1
        · exact ⟨rfl, rfl, rfl, rfl⟩
        · exact hx x hx1
      · simp only [m_getm, hn, if_true, m_getcl_some, e]
        simp
    · have h0 : len / K.MCLBYTES = 0 := Nat.le_zero.1 (Nat.not_lt.1 hn)
      refine ⟨[], pool, h0.symm, (by intro x hx; cases hx), by simpa [h0] using hok, ?_⟩
      simp only [m_getm, h0, m_getm_loop]
      simp
  obtain ⟨full, p1, hl, hx, hp1, e⟩ := hfull
  by_cases hr : len % K.MCLBYTES > 0
  · simp only [hr, if_true] at hp1 e ⊢
    have hp1' : allocOK p1 (k + 1) = true := by rw [Nat.add_comm]; exact hp1
    obtain ⟨a, d, p, rfl, hp⟩ := allocOK_succ p1 k hp1'
    by_cases hc : len % K.MCLBYTES > K.MINCLSIZE
    · refine ⟨full, [{ clNode K a (cl a) d type false with m_len := 0 }], p, ?_, hl, rfl, hx,
        ?_, hp⟩
      · rw [e]; simp only [hc, if_true, m_getcl_some]
      · intro x hx1
        rw [List.mem_singleton] at hx1
        subst hx1
        exact ⟨rfl, by simp [hc, clNode], fun _ => rfl, rfl⟩
    · refine ⟨full, [{ newNode a d type with m_len := 0 }], p, ?_, hl, rfl, hx, ?_, hp⟩
      · rw [e]; simp only [hc, if_false, m_get]
      · intro x hx1
        rw [List.mem_singleton] at hx1
        subst hx1
        refine ⟨rfl, by simp [hc, newNode, flags0], ?_, rfl⟩
        intro h; simp [newNode, flags0] at h
  · simp only [hr, if_false] at hp1 e ⊢
    refine ⟨full, [], p1, by rw [e, List.append_nil], hl, rfl, hx, ?_, by simpa using hp1⟩
    intro x hx1; cases hx1
theorem m_getcl_fail (K : Consts) (cl : Nat → Nat) (tail : Pool) (type : Nat) (hdr : Bool)
    (ht : tail = [] ∨ ∃ rest, tail = none :: rest) :
    m_getcl K cl tail type hdr = (none, tail.tail) := by
  rcases ht with rfl | ⟨rest, rfl⟩ <;> rfl

theorem m_get_fail (tail : Pool) (type : Nat)
    (ht : tail = [] ∨ ∃ rest, tail = none :: rest) :
    m_get tail type = (none, tail.tail) := by
  rcases ht with rfl | ⟨rest, rfl⟩ <;> rfl

/-- The failing run of `m_getm`: it leaves by `failed:` with the nodes of the
allocations that succeeded. -/
theorem m_getm_fails (K : Consts) (cl : Nat → Nat) (pre : List (Nat × Store)) (tail : Pool)
    (m : Chain) (len type : Nat) (refs : Refs) (log : List Event)
    (ht : tail = [] ∨ ∃ rest, tail = none :: rest)
    (hj : pre.length < len / K.MCLBYTES + (if len % K.MCLBYTES > 0 then 1 else 0)) :
    m_getm K cl (pre.map some ++ tail) m len type refs log =
      m_getm_failed m
        (pre.map (fun x => { clNode K x.1 (cl x.1) x.2 type false with m_len := 0 }))
        tail.tail refs log := by
  by_cases hn : len / K.MCLBYTES > 0
  · cases pre with
    | nil =>
      simp only [m_getm, hn, if_true, List.map_nil, List.nil_append, m_getcl_fail K cl tail _ _ ht]
    | cons x pre =>
      obtain ⟨a, d⟩ := x
      by_cases hlp : pre.length < len / K.MCLBYTES - 1
      · have e := m_getm_loop_fail K cl type _ pre tail hlp ht
        simp only [m_getm, hn, if_true, List.map_cons, List.cons_append, m_getcl_some, e]
        simp
      · have hr : len % K.MCLBYTES > 0 := by
          by_contra hc
          simp only [hc, if_false, List.length_cons] at hj
          omega
        have hl : len / K.MCLBYTES - 1 = pre.length := by
          simp only [hr, if_true, List.length_cons] at hj
          omega
        have e := m_getm_loop_pre K cl type pre.length pre tail (Nat.le_refl _)
        rw [List.take_length, List.drop_length, List.map_nil, List.nil_append] at e
        simp only [m_getm, hn, if_true, List.map_cons, List.cons_append, m_getcl_some, hl, e, hr]
        by_cases hc : len % K.MCLBYTES > K.MINCLSIZE
        · simp [hc, m_getcl_fail K cl tail _ _ ht]
        · simp [hc, m_get_fail tail _ ht]
  · have h0 : len / K.MCLBYTES = 0 := Nat.le_zero.1 (Nat.not_lt.1 hn)
    have hr : len % K.MCLBYTES > 0 := by
      by_contra hc
      simp only [hc, if_false, h0] at hj
      omega
    have hp : pre = [] := by
      simp only [hr, if_true, h0] at hj
      exact List.length_eq_zero.1 (by omega)
    subst hp
    simp only [m_getm, h0, m_getm_loop, hr, List.map_nil, List.nil_append]
    by_cases hc : len % K.MCLBYTES > K.MINCLSIZE
    · simp [hc, m_getcl_fail K cl tail _ _ ht]
    · simp [hc, m_get_fail tail _ ht]

theorem totalLen_zero (c : Chain) (h : ∀ x, x ∈ c → x.m_len = 0) : totalLen c = 0 := by
  induction c with
  | nil => rfl
  | cons m ms ih =>
    simp only [totalLen, h m (List.mem_cons_self _ _),
      ih (fun x hx => h x (List.mem_cons_of_mem _ hx))]

/-- C12, as the code has it: for `len > 0`, when the allocations succeed,
`m_getm(NULL, len, how, type)` returns a chain of `ceil(len / MCLBYTES)` nodes,
every one of length 0: `len / MCLBYTES` cluster nodes of capacity `MCLBYTES`
and, when `len mod MCLBYTES > 0`, one node for the remainder, a cluster node
when the remainder exceeds `MINCLSIZE` and a plain node otherwise.  The
lengths sum to 0, not to `len`. -/
theorem m_getm_node_lengths (K : Consts) (cl : Nat → Nat) (pool : Pool) (len type : Nat)
    (refs : Refs) (log : List Event) (hlen : 0 < len) (hK : 0 < K.MCLBYTES)
    (hok : allocOK pool ((len + K.MCLBYTES - 1) / K.MCLBYTES) = true) :
    ∃ full last, (m_getm K cl pool [] len type refs log).top = full ++ last ∧
      (full ++ last).length = (len + K.MCLBYTES - 1) / K.MCLBYTES ∧
      0 < (full ++ last).length ∧
      full.length = len / K.MCLBYTES ∧
      last.length = (if len % K.MCLBYTES > 0 then 1 else 0) ∧
      (∀ x, x ∈ full ++ last → x.m_len = 0) ∧
      totalLen (full ++ last) = 0 ∧
      (∀ x, x ∈ full → x.m_flags.M_EXT = true ∧ x.m_ext.ext_size = K.MCLBYTES) ∧
      (∀ x, x ∈ last → x.m_flags.M_EXT = decide (len % K.MCLBYTES > K.MINCLSIZE) ∧
        (x.m_flags.M_EXT = true → x.m_ext.ext_size = K.MCLBYTES)) := by
  have hc := ceil_div len K.MCLBYTES hK
  rw [hc] at hok
  obtain ⟨full, last, p, e, hl, hl2, hx, hx2, _⟩ :=
    m_getm_ok K cl pool [] len type refs log 0 hok
  have hz : ∀ x, x ∈ full ++ last → x.m_len = 0 := by
    intro x hx1
    rcases List.mem_append.1 hx1 with h | h
    · exact (hx x h).1
    · exact (hx2 x h).1
  have hpos : 0 < len / K.MCLBYTES + (if len % K.MCLBYTES > 0 then 1 else 0) := by
    rw [← hc]
    exact Nat.div_pos (by omega) hK
  refine ⟨full, last, by rw [e]; rfl, by rw [List.length_append, hl, hl2, hc],
    by rw [List.length_append, hl, hl2]; exact hpos, hl, hl2, hz, totalLen_zero _ hz,
    fun x h => ⟨(hx x h).2.1, (hx x h).2.2.1⟩, fun x h => ⟨(hx2 x h).2.1, (hx2 x h).2.2.1⟩⟩

/-- C13: when the `j`-th allocation of `m_getm(m, len, how, type)` fails, the
pool holding `j - 1` nodes `pre` before the failure, `m_getm` returns NULL,
has handed the `j - 1` nodes it had got back to the packet zone, in order,
touching no counter, and leaves the chain at `m` as it was, its last node
not linked to anything. -/
theorem m_getm_failure_atomic (K : Consts) (cl : Nat → Nat) (pre : List (Nat × Store))
    (tail : Pool) (m : Chain) (len type : Nat) (refs : Refs) (log : List Event)
    (ht : tail = [] ∨ ∃ rest, tail = none :: rest)
    (hj : pre.length < len / K.MCLBYTES + (if len % K.MCLBYTES > 0 then 1 else 0)) :
    (m_getm K cl (pre.map some ++ tail) m len type refs log).top = [] ∧
      (m_getm K cl (pre.map some ++ tail) m len type refs log).chain = m ∧
      (m_getm K cl (pre.map some ++ tail) m len type refs log).refs = refs ∧
      (m_getm K cl (pre.map some ++ tail) m len type refs log).log
        = log ++ pre.map (fun x => Event.zfree_pack x.1) ∧
      (m_getm K cl (pre.map some ++ tail) m len type refs log).pool = tail.tail := by
  rw [m_getm_fails K cl pre tail m len type refs log ht hj]
  simp only [m_getm_failed, m_freem_clNodes]
  simp

/-! ## m_copymdata -/

/-- The first loop of `m_copymdata` leaves as many nodes as it found. -/
theorem m_copymdata_sane_length (K : Consts) (cl : Nat → Nat) (m : Chain) (pool : Pool)
    (mem : Store) (refs : Refs) (log : List Event) :
    (m_copymdata_sane K cl m pool mem refs log).2.1.length = m.length := by
  induction m generalizing pool mem refs log with
  | nil => rfl
  | cons z zs ih =>
    simp only [m_copymdata_sane]
    split
    · simp [ih]
    · split
      · rfl
      · split
        · rfl
        · simp [ih]

/-- With `prep = 0`, `m_copymdata` never returns a chain: whatever the
arguments, it fails on the NULL pointer `mm` or returns NULL. -/
theorem m_copymdata_append_never (K : Consts) (cl : Nat → Nat)
    (rest : mbuf → Chain → Chain → Nat → Nat → Pool → Store → Refs → List Event →
      Option CopymdataOut)
    (pool : Pool) (m n : Chain) (off len : Nat) (mem : Store) (refs : Refs) (log : List Event)
    (r : CopymdataOut)
    (h : m_copymdata K cl rest pool m n off len false mem refs log = some r) : r.ret = [] := by
  unfold m_copymdata at h
  by_cases h1 : m.isEmpty = true ∨ n.isEmpty = true
  · rw [if_pos h1] at h; cases h
  · rw [if_neg h1] at h
    dsimp only at h
    by_cases h2 : (m_copymdata_sane K cl m pool mem refs log).1 = false
    · rw [if_pos h2] at h; cases h; rfl
    · rw [if_neg h2] at h
      simp only [Bool.false_eq_true, if_false] at h
      generalize (if len = K.M_COPYALL then totalLen n - off else len) = len1 at h
      by_cases h3 : off + len1 > totalLen n ∨ len1 < 1
      · rw [if_pos h3] at h; cases h; rfl
      · rw [if_neg h3] at h; cases h

/-! ## m_adj: which nodes stay linked -/

/-- The head loop of `m_adj` unlinks nothing. -/
theorem m_adj_head_addrs (c : Chain) (len : Nat) :
    (m_adj_head c len).1.map (fun n => n.addr) = c.map (fun n => n.addr) := by
  induction c generalizing len with
  | nil => rfl
  | cons m ms ih =>
    simp only [m_adj_head]
    split
    · rfl
    · split
      · simp [ih]
      · rfl

theorem adj_pkthdr_addrs (f : Int → Int) (c : Chain) :
    (adj_pkthdr f c).map (fun n => n.addr) = c.map (fun n => n.addr) ∧
      (adj_pkthdr f c).map (fun n => n.m_len) = c.map (fun n => n.m_len) := by
  cases c with
  | nil => exact ⟨rfl, rfl⟩
  | cons m ms =>
    simp only [adj_pkthdr]
    split <;> exact ⟨rfl, rfl⟩

theorem mapLast_addrs (f : mbuf → mbuf) (hf : ∀ m, (f m).addr = m.addr) (c : Chain) :
    (mapLast f c).map (fun n => n.addr) = c.map (fun n => n.addr) := by
  induction c with
  | nil => rfl
  | cons m ms ih =>
    cases ms with
    | nil => simp [mapLast, hf]
    | cons m1 ms1 =>
      have e : mapLast f (m :: m1 :: ms1) = m :: mapLast f (m1 :: ms1) := rfl
      rw [e, List.map_cons, ih]; rfl

/-- The lengths after the last node is shortened: the last one is what is left
of it. -/
theorem mapLast_lens (m : mbuf) (ms : Chain) (len : Nat) :
    ∃ pre, (m :: ms).map (fun n => n.m_len) = pre ++ [(m_last m ms).m_len] ∧
      (mapLast (fun m => { m with m_len := m.m_len - len }) (m :: ms)).map (fun n => n.m_len)
        = pre ++ [(m_last m ms).m_len - len] := by
  induction ms generalizing m with
  | nil => exact ⟨[], rfl, rfl⟩
  | cons m1 ms ih =>
    obtain ⟨pre, h1, h2⟩ := ih m1
    refine ⟨m.m_len :: pre, ?_, ?_⟩
    · rw [List.map_cons, h1]; rfl
    · have e : mapLast (fun m => { m with m_len := m.m_len - len }) (m :: m1 :: ms)
          = m :: mapLast (fun m => { m with m_len := m.m_len - len }) (m1 :: ms) := rfl
      rw [e, List.map_cons, h2]; rfl

/-- The truncating loop of `m_adj` keeps the nodes up to the one, at index `j`,
that reaches `count`, cuts that one to what is left of `count`, and frees the
nodes after it. -/
theorem m_adj_tail_nodes (c : Chain) (count : Nat) (refs : Refs) (log : List Event)
    (hc : c ≠ []) (hle : count ≤ totalLen c) :
    ∃ j, j < c.length ∧
      (m_adj_tail c count refs log).1.map (fun n => n.addr)
        = (c.take (j + 1)).map (fun n => n.addr) ∧
      (m_adj_tail c count refs log).1.map (fun n => n.m_len)
        = (c.take j).map (fun n => n.m_len) ++ [count - totalLen (c.take j)] ∧
      (m_adj_tail c count refs log).2 = m_freem (c.drop (j + 1)) refs log ∧
      (0 < count → totalLen (c.take j) < count) := by
  induction c generalizing count with
  | nil => exact absurd rfl hc
  | cons m ms ih =>
    simp only [m_adj_tail]
    split
    · refine ⟨0, by simp, by simp, by simp [totalLen], rfl, ?_⟩
      intro h; simpa [totalLen] using h
    · rename_i hlt
      have hms : ms ≠ [] := by
        intro e
        subst e
        simp only [totalLen] at hle
        omega
      have hle2 : count - m.m_len ≤ totalLen ms := by
        simp only [totalLen] at hle
        omega
      obtain ⟨j, hj, h1, h2, h3, h4⟩ := ih (count - m.m_len) hms hle2
      refine ⟨j + 1, by simpa using hj, ?_, ?_, ?_, ?_⟩
      · simp only [List.map_cons, h1, List.take_succ_cons]
      · simp only [List.map_cons, h2, List.take_succ_cons, totalLen, List.cons_append,
          Nat.sub_sub]
      · exact h3
      · intro _
        simp only [List.take_succ_cons, totalLen]
        have := h4 (by omega)
        omega
/-- The update of the header length changes the first node only, and neither
its address nor its length. -/
theorem adj_pkthdr_take (f : Int → Int) (c : Chain) (j : Nat) :
    ((adj_pkthdr f c).take j).map (fun n => n.addr) = (c.take j).map (fun n => n.addr) ∧
      ((adj_pkthdr f c).take j).map (fun n => n.m_len) = (c.take j).map (fun n => n.m_len) ∧
      totalLen ((adj_pkthdr f c).take j) = totalLen (c.take j) ∧
      (adj_pkthdr f c).drop (j + 1) = c.drop (j + 1) ∧
      (adj_pkthdr f c).length = c.length ∧ totalLen (adj_pkthdr f c) = totalLen c := by
  cases c with
  | nil => simp [adj_pkthdr]
  | cons m ms =>
    have ht := (chainBytes_adj_pkthdr (fun _ => 0) f (m :: ms)).2
    simp only [adj_pkthdr] at ht ⊢
    split
    · cases j with
      | zero => exact ⟨rfl, rfl, rfl, rfl, rfl, rfl⟩
      | succ j => exact ⟨rfl, rfl, rfl, rfl, rfl, rfl⟩
    · cases j with
      | zero => exact ⟨rfl, rfl, rfl, rfl, rfl, rfl⟩
      | succ j => exact ⟨rfl, rfl, rfl, rfl, rfl, rfl⟩

/-- C21, as the code has it: `m_adj` unlinks nodes only in a tail trim that
reaches past the last node.  A head trim leaves every node linked and frees
nothing, so the leading nodes it empties stay in the chain with length 0.  A
tail trim by `k < 2^31` of at most the length of the last node shortens that
node and leaves it linked, also when nothing is left of it.  A longer tail
trim, by `k < 2^31`, keeps the
nodes up to the one, at index `j`, in which the new end lies, cut to what is
left, and frees the nodes after it; when the trim is shorter than the chain
the cut node keeps at least one byte. -/
theorem m_adj_keeps_emptied_nodes (C : Chain) (k : Nat) (refs : Refs) (log : List Event) :
    (∃ r, m_adj C (k : Int) refs log = some r ∧
      r.1.map (fun n => n.addr) = C.map (fun n => n.addr) ∧ r.2 = (refs, log)) ∧
    (∀ m0 ms, C = m0 :: ms → 0 < k → k < 2147483648 → k ≤ (m_last m0 ms).m_len →
      ∃ r, m_adj C (-(k : Int)) refs log = some r ∧
        r.1.map (fun n => n.addr) = C.map (fun n => n.addr) ∧
        r.2 = (refs, log) ∧
        ∃ pre, C.map (fun n => n.m_len) = pre ++ [(m_last m0 ms).m_len] ∧
          r.1.map (fun n => n.m_len) = pre ++ [(m_last m0 ms).m_len - k]) ∧
    (∀ m0 ms, C = m0 :: ms → k < 2147483648 → (m_last m0 ms).m_len < k →
      ∃ r, m_adj C (-(k : Int)) refs log = some r ∧
      ∃ j, j < C.length ∧
        r.1.map (fun n => n.addr) = (C.take (j + 1)).map (fun n => n.addr) ∧
        r.1.map (fun n => n.m_len)
          = (C.take j).map (fun n => n.m_len) ++ [totalLen C - k - totalLen (C.take j)] ∧
        r.2 = m_freem (C.drop (j + 1)) refs log ∧
        (k < totalLen C → totalLen (C.take j) < totalLen C - k)) := by
  refine ⟨?_, ?_, ?_⟩
  · cases C with
    | nil => exact ⟨_, rfl, rfl, rfl⟩
    | cons m0 ms =>
      have hm : m_adj (m0 :: ms) (k : Int) refs log
          = some (adj_pkthdr (fun l => l - ((k : Int) - ((m_adj_head (m0 :: ms) k).2 : Int)))
              (m_adj_head (m0 :: ms) k).1, refs, log) := by
        simp [m_adj]
      rw [hm]
      exact ⟨_, rfl, by rw [(adj_pkthdr_addrs _ _).1, m_adj_head_addrs], rfl⟩
  · intro m0 ms hC hk hk2 hle
    subst hC
    rw [m_adj_neg m0 ms k hk hk2 refs log, if_pos hle]
    refine ⟨_, rfl, by rw [(adj_pkthdr_addrs _ _).1,
      mapLast_addrs (fun m => { m with m_len := m.m_len - k }) (fun _ => rfl)], rfl, ?_⟩
    obtain ⟨pre, h1, h2⟩ := mapLast_lens m0 ms k
    exact ⟨pre, h1, by rw [(adj_pkthdr_addrs _ _).2, h2]⟩
  · intro m0 ms hC hk2 hlt
    subst hC
    have hk : 0 < k := by omega
    rw [m_adj_neg m0 ms k hk hk2 refs log, if_neg (by omega)]
    refine ⟨_, rfl, ?_⟩
    have hne : adj_pkthdr (fun _ => ((totalLen (m0 :: ms) - k : Nat) : Int)) (m0 :: ms) ≠ [] := by
      intro e
      have := (adj_pkthdr_take (fun _ => ((totalLen (m0 :: ms) - k : Nat) : Int))
        (m0 :: ms) 0).2.2.2.2.1
      rw [e] at this
      simp at this
    obtain ⟨j, hj, h1, h2, h3, h4⟩ := m_adj_tail_nodes _ (totalLen (m0 :: ms) - k) refs log hne
      (by rw [(adj_pkthdr_take _ _ 0).2.2.2.2.2]; omega)
    have ht := adj_pkthdr_take (fun _ => ((totalLen (m0 :: ms) - k : Nat) : Int)) (m0 :: ms)
    refine ⟨j, by rw [← (ht 0).2.2.2.2.1]; exact hj, by rw [h1, (ht (j + 1)).1],
      by rw [h2, (ht j).2.1, (ht j).2.2.1], by rw [h3, (ht j).2.2.2.1], ?_⟩
    intro hkt
    have := h4 (by omega)
    rw [(ht j).2.2.1] at this
    exact this

/-! ## m_sanity -/

/-- The pointer checks of `m_sanity` are the range condition `Fits`. -/
theorem sanity_range_fits (K : Consts) (m : mbuf) (hK : K.MHLEN ≤ K.MLEN)
    (h : sanity_range K m = true) : Fits K m := by
  unfold sanity_range at h
  unfold Fits
  simp only [sanity_a, sanity_b] at h
  cases he : m.m_flags.M_EXT <;> cases hp : m.m_flags.M_PKTHDR <;>
    simp only [he, hp, Bool.false_eq_true, if_false, if_true] at h ⊢ <;>
    (split at h <;> [cases h; (split at h <;> [cases h; (split at h <;> [cases h; skip])])]) <;>
    omega

/-- In strict mode a pass of the loop of `m_sanity` that does not return 0
changes nothing and has found the node in range, and, when it is not the
first, without `m_nextpkt` and without `M_PKTHDR`, and of kind `MT_HEADER`
only with `M_PKTHDR`. -/
theorem m_sanity_node_strict (K : Consts) (pkt : Nat → Chain) (first : Bool) (m : mbuf)
    (refs : Refs) (log : List Event) (r : mbuf × Refs × List Event)
    (h : m_sanity_node K pkt false first m refs log = some r) :
    r = (m, refs, log) ∧ sanity_range K m = true ∧
      (first = false → m.m_nextpkt = 0 ∧ m.m_flags.M_PKTHDR = false) ∧
      (m.m_type = MT_HEADER → m.m_flags.M_PKTHDR = true) := by
  unfold m_sanity_node at h
  cases hr : sanity_range K m
  · simp [hr] at h
  · cases first <;> cases hp : m.m_flags.M_PKTHDR <;>
      by_cases hn : m.m_nextpkt = 0 <;> by_cases ht : m.m_type = MT_HEADER <;>
      by_cases hg : m.m_pkthdr.tags = [] <;>
      simp [hr, sanity_step, hp, hn, ht, hg] at h ⊢ <;> exact h.symm

/-- In strict mode the loop of `m_sanity`, when it runs to the end, has changed
nothing, has added the node lengths to `pktlen` when `m0` has a header, and
has found every node in range, no node of kind `MT_HEADER` without
`M_PKTHDR`, and no node after the first with `m_nextpkt` or `M_PKTHDR`. -/
theorem m_sanity_loop_strict (K : Consts) (pkt : Nat → Chain) (hdr0 first : Bool) (c : Chain)
    (pktlen : Nat) (refs : Refs) (log : List Event)
    (h : (m_sanity_loop K pkt false hdr0 first c pktlen refs log).1 = true) :
    m_sanity_loop K pkt false hdr0 first c pktlen refs log
        = (true, c, pktlen + (if hdr0 then totalLen c else 0), refs, log) ∧
      (∀ m, m ∈ c → sanity_range K m = true ∧
        (m.m_type = MT_HEADER → m.m_flags.M_PKTHDR = true)) ∧
      (∀ m, m ∈ (if first then c.tail else c) →
        m.m_nextpkt = 0 ∧ m.m_flags.M_PKTHDR = false) := by
  induction c generalizing first pktlen with
  | nil =>
    refine ⟨by simp [m_sanity_loop, totalLen], ?_, ?_⟩
    · intro m hm; cases hm
    · intro m hm; cases first <;> cases hm
  | cons m ms ih =>
    simp only [m_sanity_loop] at h ⊢
    cases hn : m_sanity_node K pkt false first m refs log with
    | none => simp [hn] at h
    | some r =>
      obtain ⟨rfl, h1, h2, h3⟩ := m_sanity_node_strict K pkt first m refs log r hn
      simp only [hn] at h ⊢
      obtain ⟨e, h4, h5⟩ := ih false (pktlen + (if hdr0 then m.m_len else 0)) h
      simp only [Bool.false_eq_true, if_false] at h5
      refine ⟨?_, ?_, ?_⟩
      · rw [e]
        cases hdr0 <;> simp [totalLen, Nat.add_assoc]
      · intro x hx
        rcases List.mem_cons.1 hx with rfl | hx
        · exact ⟨h1, h3⟩
        · exact h4 x hx
      · intro x hx
        cases first with
        | true => exact h5 x (by simpa using hx)
        | false =>
          rcases List.mem_cons.1 (by simpa using hx) with rfl | hx
          · exact h2 rfl
          · exact h5 x hx

/-- What a return of 1 from `m_sanity(m0, 0)` establishes: nothing has changed,
every node is in range, no node after the first has `m_nextpkt` or
`M_PKTHDR`, no node is of kind `MT_HEADER` without `M_PKTHDR`, and a header
length equals the sum of the node lengths when that sum is not 0. -/
theorem m_sanity_strict_sound (K : Consts) (pkt : Nat → Chain) (m0 : Chain) (refs : Refs)
    (log : List Event) (hK : K.MHLEN ≤ K.MLEN)
    (h : (m_sanity K pkt m0 false refs log).ret = true) :
    (m_sanity K pkt m0 false refs log).chain = m0 ∧
      (m_sanity K pkt m0 false refs log).refs = refs ∧
      (m_sanity K pkt m0 false refs log).log = log ∧
      ChainFits K m0 ∧
      (∀ m, m ∈ m0.tail → m.m_nextpkt = 0 ∧ m.m_flags.M_PKTHDR = false) ∧
      (∀ m, m ∈ m0 → m.m_type = MT_HEADER → m.m_flags.M_PKTHDR = true) ∧
      (∀ hd t, m0 = hd :: t → hd.m_flags.M_PKTHDR = true → totalLen m0 ≠ 0 →
        hd.m_pkthdr.len = (totalLen m0 : Int)) := by
  unfold m_sanity at h ⊢
  dsimp only at h ⊢
  generalize hh : (match m0 with
    | [] => false
    | hd :: _ => hd.m_flags.M_PKTHDR) = hdr0 at h ⊢
  cases hl : (m_sanity_loop K pkt false hdr0 true m0 0 refs log).1 with
  | false => simp [hl] at h
  | true =>
    obtain ⟨e, h1, h2⟩ := m_sanity_loop_strict K pkt hdr0 true m0 0 refs log hl
    simp only [if_true] at h2
    have hfit : ChainFits K m0 := by
      clear e h hl hh h2
      induction m0 with
      | nil => trivial
      | cons m ms ih =>
        exact ⟨sanity_range_fits K m hK (h1 m (List.mem_cons_self _ _)).1,
          ih (fun x hx => h1 x (List.mem_cons_of_mem _ hx))⟩
    rw [e] at h ⊢
    cases m0 with
    | nil =>
      refine ⟨rfl, rfl, rfl, hfit, h2, fun m hm => (h1 m hm).2, ?_⟩
      intro hd t hc; cases hc
    | cons hd t =>
      simp only at hh
      subst hh
      simp only [Bool.false_eq_true, if_false, Nat.zero_add] at h ⊢
      by_cases hc : (if hd.m_flags.M_PKTHDR = true then totalLen (hd :: t) else 0) ≠ 0 ∧
          (((if hd.m_flags.M_PKTHDR = true then totalLen (hd :: t) else 0 : Nat) : Int))
            ≠ hd.m_pkthdr.len
      · rw [if_pos hc] at h
        cases h
      · rw [if_neg hc]
        refine ⟨rfl, rfl, rfl, hfit, h2, fun m hm => (h1 m hm).2, ?_⟩
        intro hd' t' e' hp hne
        cases e'
        simp only [hp, if_true] at hc
        by_contra hcon
        exact hc ⟨hne, fun e2 => hcon e2.symm⟩

/-- In repair mode a pass of the loop of `m_sanity` returns 0 only on the
pointer checks; otherwise it leaves the node repaired and has freed the packet
linked at the `m_nextpkt` of a node after the first. -/
theorem m_sanity_node_repair (K : Consts) (pkt : Nat → Chain) (first : Bool) (m : mbuf)
    (refs : Refs) (log : List Event) :
    m_sanity_node K pkt true first m refs log =
      if sanity_range K m = true then
        some (sanity_fix first m,
          if first = false ∧ m.m_nextpkt ≠ 0 then m_freem (pkt m.m_nextpkt) refs log
          else (refs, log))
      else none := by
  unfold m_sanity_node sanity_fix
  cases hr : sanity_range K m
  · simp
  · cases first <;> cases hp : m.m_flags.M_PKTHDR <;>
      by_cases hn : m.m_nextpkt = 0 <;> by_cases ht : m.m_type = MT_HEADER <;>
      by_cases hg : m.m_pkthdr.tags = [] <;>
      simp [sanity_step, hp, hn, ht, hg]

/-- The repairs leave the address, the data pointer, the length and the storage
of a node alone. -/
theorem sanity_fix_same (first : Bool) (m : mbuf) :
    (sanity_fix first m).addr = m.addr ∧ (sanity_fix first m).m_data = m.m_data ∧
      (sanity_fix first m).m_len = m.m_len ∧ (sanity_fix first m).m_ext = m.m_ext ∧
      (sanity_fix first m).m_dat = m.m_dat ∧
      (sanity_fix first m).m_flags.M_EXT = m.m_flags.M_EXT := by
  unfold sanity_fix
  dsimp only
  split <;> split <;> split <;> exact ⟨rfl, rfl, rfl, rfl, rfl, rfl⟩

/-- The repairs on the first node: only a kind `MT_HEADER` without `M_PKTHDR`
changes, to `MT_DATA`. -/
theorem sanity_fix_first (m : mbuf) :
    (sanity_fix true m).m_flags = m.m_flags ∧ (sanity_fix true m).m_pkthdr = m.m_pkthdr ∧
      (sanity_fix true m).m_nextpkt = m.m_nextpkt ∧
      ((sanity_fix true m).m_type = MT_HEADER → m.m_flags.M_PKTHDR = true) := by
  unfold sanity_fix
  have hne : ¬ (MT_DATA = MT_HEADER) := by decide
  by_cases ht : m.m_type = MT_HEADER <;> cases hp : m.m_flags.M_PKTHDR <;>
    simp [ht, hp, hne]

/-- The repairs on a node after the first: `M_PKTHDR` is off, with a zeroed
header block when it was on, and a set `m_nextpkt` is `0xDEADC0DE`. -/
theorem sanity_fix_rest (m : mbuf) :
    (sanity_fix false m).m_flags.M_PKTHDR = false ∧
      (m.m_flags.M_PKTHDR = true → (sanity_fix false m).m_pkthdr = pkthdr0) ∧
      (m.m_nextpkt = 0 → (sanity_fix false m).m_nextpkt = 0) ∧
      (m.m_nextpkt ≠ 0 → (sanity_fix false m).m_nextpkt = DEADC0DE) ∧
      ((sanity_fix false m).m_type = MT_HEADER ↔
        (m.m_type = MT_HEADER ∧ m.m_flags.M_PKTHDR = true)) := by
  unfold sanity_fix
  have hne : ¬ (MT_DATA = MT_HEADER) := by decide
  by_cases ht : m.m_type = MT_HEADER <;> cases hp : m.m_flags.M_PKTHDR <;>
    by_cases hn : m.m_nextpkt = 0 <;>
    simp [ht, hp, hn, hne]

/-- The pointer checks of `m_sanity` in one statement. -/
theorem sanity_range_iff (K : Consts) (m : mbuf) :
    sanity_range K m = true ↔
      sanity_a K m ≤ m.m_data ∧ m.m_data + m.m_len ≤ sanity_b K m ∧
      (m.m_flags.M_PKTHDR = true → m.m_pkthdr.header ≠ 0 →
        sanity_a K m ≤ m.m_pkthdr.header ∧ m.m_pkthdr.header ≤ sanity_b K m) := by
  unfold sanity_range
  generalize sanity_a K m = a
  generalize sanity_b K m = b
  constructor
  · intro h
    split at h
    · cases h
    · split at h
      · cases h
      · split at h
        · cases h
        · split at h
          · cases h
          · rename_i h1 h2 h3 h4
            refine ⟨by omega, by omega, fun hp hh => ?_⟩
            by_contra hc
            exact h4 ⟨hp, hh, by omega⟩
  · rintro ⟨h1, h2, h3⟩
    rw [if_neg (by omega), if_neg (by omega), if_neg (by omega), if_neg]
    rintro ⟨hp, hh, hc⟩
    have := h3 hp hh
    omega

/-- A node in range is still in range when repaired. -/
theorem sanity_fix_range (K : Consts) (first : Bool) (m : mbuf) (hK : K.MHLEN ≤ K.MLEN)
    (h : sanity_range K m = true) : sanity_range K (sanity_fix first m) = true := by
  obtain ⟨_, h2, h3, h4, _, h6⟩ := sanity_fix_same first m
  rw [sanity_range_iff] at h ⊢
  cases first with
  | true =>
    obtain ⟨g1, g2, _, _⟩ := sanity_fix_first m
    have ea : sanity_a K (sanity_fix true m) = sanity_a K m := by
      simp only [sanity_a, g1, h4]
    have eb : sanity_b K (sanity_fix true m) = sanity_b K m := by
      simp only [sanity_b, ea, g1, h4]
    rw [ea, eb, g1, g2, h2, h3]
    exact h
  | false =>
    obtain ⟨g1, _, _, _, _⟩ := sanity_fix_rest m
    obtain ⟨k1, k2, _⟩ := h
    rw [h2, h3]
    refine ⟨?_, ?_, fun hp => by rw [g1] at hp; cases hp⟩
    · simp only [sanity_a, g1, h6, h4] at k1 ⊢
      split at k1 <;> simp_all
    · simp only [sanity_b, sanity_a, g1, h6, h4] at k2 ⊢
      cases he : m.m_flags.M_EXT <;> cases hp : m.m_flags.M_PKTHDR <;>
        simp only [he, hp, Bool.false_eq_true, if_false, if_true] at k2 ⊢ <;> omega
/-- A pass of the loop of `m_sanity` in strict mode, in one statement. -/
theorem m_sanity_node_strict_iff (K : Consts) (pkt : Nat → Chain) (first : Bool) (m : mbuf)
    (refs : Refs) (log : List Event) :
    m_sanity_node K pkt false first m refs log =
      if sanity_range K m = true ∧
          (first = false → m.m_nextpkt = 0 ∧ m.m_flags.M_PKTHDR = false) ∧
          (m.m_type = MT_HEADER → m.m_flags.M_PKTHDR = true) then
        some (m, refs, log)
      else none := by
  unfold m_sanity_node
  cases hr : sanity_range K m
  · simp
  · cases first <;> cases hp : m.m_flags.M_PKTHDR <;>
      by_cases hn : m.m_nextpkt = 0 <;> by_cases ht : m.m_type = MT_HEADER <;>
      by_cases hg : m.m_pkthdr.tags = [] <;>
      simp [sanity_step, hp, hn, ht, hg]

/-- In repair mode the loop of `m_sanity`, when it runs to the end, leaves
every node repaired, and has found every node in range. -/
theorem m_sanity_loop_repair (K : Consts) (pkt : Nat → Chain) (hdr0 : Bool) (c : Chain)
    (pktlen : Nat) (refs : Refs) (log : List Event)
    (h : (m_sanity_loop K pkt true hdr0 false c pktlen refs log).1 = true) :
    (m_sanity_loop K pkt true hdr0 false c pktlen refs log).2.1 = c.map (sanity_fix false) ∧
      (m_sanity_loop K pkt true hdr0 false c pktlen refs log).2.2.1
        = pktlen + (if hdr0 then totalLen c else 0) ∧
      ∀ m, m ∈ c → sanity_range K m = true := by
  induction c generalizing pktlen refs log with
  | nil =>
    refine ⟨rfl, by simp [m_sanity_loop, totalLen], ?_⟩
    intro m hm; cases hm
  | cons m ms ih =>
    simp only [m_sanity_loop, m_sanity_node_repair] at h ⊢
    cases hr : sanity_range K m
    · simp [hr] at h
    · simp only [hr, if_true] at h ⊢
      obtain ⟨h1, h2, h3⟩ := ih _ _ _ h
      refine ⟨by rw [h1]; rfl, ?_, ?_⟩
      · rw [h2]
        cases hdr0 <;> simp [totalLen, Nat.add_assoc]
      · intro x hx
        rcases List.mem_cons.1 hx with rfl | hx
        · exact hr
        · exact h3 x hx

/-- The strict loop over repaired nodes runs to the end exactly when no node
had `m_nextpkt` set and none was of kind `MT_HEADER` with `M_PKTHDR`. -/
theorem m_sanity_loop_strict_fixed (K : Consts) (pkt : Nat → Chain) (hdr0 : Bool) (t : Chain)
    (pktlen : Nat) (refs : Refs) (log : List Event) (hK : K.MHLEN ≤ K.MLEN)
    (hr : ∀ m, m ∈ t → sanity_range K m = true) :
    (m_sanity_loop K pkt false hdr0 false (t.map (sanity_fix false)) pktlen refs log).1 = true ↔
      ∀ m, m ∈ t → m.m_nextpkt = 0 ∧ ¬ (m.m_type = MT_HEADER ∧ m.m_flags.M_PKTHDR = true) := by
  induction t generalizing pktlen with
  | nil => simp [m_sanity_loop]
  | cons m ms ih =>
    obtain ⟨g1, _, g3, g4, g5⟩ := sanity_fix_rest m
    have hrm := sanity_fix_range K false m hK (hr m (List.mem_cons_self _ _))
    have hne : ¬ (DEADC0DE = 0) := by decide
    simp only [List.map_cons, m_sanity_loop, m_sanity_node_strict_iff, hrm, g1, true_and]
    by_cases hc : m.m_nextpkt = 0 ∧ ¬ (m.m_type = MT_HEADER ∧ m.m_flags.M_PKTHDR = true)
    · have hcond : ((false = false → (sanity_fix false m).m_nextpkt = 0 ∧ True) ∧
          ((sanity_fix false m).m_type = MT_HEADER → False)) := by
        refine ⟨fun _ => ⟨g3 hc.1, trivial⟩, fun ht => hc.2 (g5.1 ht)⟩
      simp only [Bool.false_eq_true] at hcond ⊢
      rw [if_pos hcond]
      simp only
      rw [ih _ (fun x hx => hr x (List.mem_cons_of_mem _ hx))]
      constructor
      · intro h x hx
        rcases List.mem_cons.1 hx with rfl | hx
        · exact hc
        · exact h x hx
      · intro h x hx
        exact h x (List.mem_cons_of_mem _ hx)
    · have hcond : ¬ ((false = false → (sanity_fix false m).m_nextpkt = 0 ∧ True) ∧
          ((sanity_fix false m).m_type = MT_HEADER → False)) := by
        rintro ⟨h1, h2⟩
        apply hc
        refine ⟨?_, fun ht => h2 (g5.2 ht)⟩
        by_contra hn
        have := (h1 rfl).1
        rw [g4 hn] at this
        exact hne this
      simp only [Bool.false_eq_true] at hcond ⊢
      rw [if_neg hcond]
      simp only [Bool.false_eq_true, false_iff]
      intro h
      exact hc (h m (List.mem_cons_self _ _))
theorem mbuf_pkthdr_eta (x : mbuf) (p : pkthdr) (h : x.m_pkthdr = p) :
    { x with m_pkthdr := p } = x := by
  subst h
  rfl

/-- The chain `m_sanity(m0, 1)` leaves when it returns 1: every node repaired,
and a header length that differs from a sum of node lengths other than 0 set
to 0. -/
theorem m_sanity_repair_chain (K : Consts) (pkt : Nat → Chain) (hd : mbuf) (t : Chain)
    (refs : Refs) (log : List Event)
    (h : (m_sanity K pkt (hd :: t) true refs log).ret = true) :
    sanity_range K hd = true ∧ (∀ m, m ∈ t → sanity_range K m = true) ∧
      (m_sanity K pkt (hd :: t) true refs log).chain =
        { sanity_fix true hd with
          m_pkthdr := { (sanity_fix true hd).m_pkthdr with
            len := if hd.m_flags.M_PKTHDR = true ∧ totalLen (hd :: t) ≠ 0 ∧
                      ((totalLen (hd :: t) : Nat) : Int) ≠ hd.m_pkthdr.len then 0
                   else hd.m_pkthdr.len } } :: t.map (sanity_fix false) := by
  obtain ⟨g1, g2, _, _⟩ := sanity_fix_first hd
  unfold m_sanity at h ⊢
  simp only [m_sanity_loop, m_sanity_node_repair] at h ⊢
  cases hr : sanity_range K hd
  · simp [hr] at h
  · simp only [hr, if_true] at h ⊢
    generalize hq : m_sanity_loop K pkt true hd.m_flags.M_PKTHDR false t
      (0 + if hd.m_flags.M_PKTHDR = true then hd.m_len else 0) _ _ = q at h ⊢
    cases hq1 : q.1
    · simp [hq1] at h
    · have hq1' := hq1
      rw [← hq] at hq1'
      obtain ⟨h1, h2, h3⟩ := m_sanity_loop_repair K pkt _ t _ _ _ hq1'
      rw [hq] at h1 h2
      refine ⟨?_, h3, ?_⟩
      · first | rfl | trivial
      simp only [hq1, Bool.true_eq_false, if_false, h1, h2]
      have hp : (0 + (if hd.m_flags.M_PKTHDR = true then hd.m_len else 0) +
          if hd.m_flags.M_PKTHDR = true then totalLen t else 0)
          = if hd.m_flags.M_PKTHDR = true then totalLen (hd :: t) else 0 := by
        cases hd.m_flags.M_PKTHDR <;> simp [totalLen]
      rw [hp, g2]
      cases hph : hd.m_flags.M_PKTHDR
      · simp only [Bool.false_eq_true, false_and, if_false, ne_eq, not_true_eq_false]
        exact congrArg (fun x => x :: List.map (sanity_fix false) t)
          (mbuf_pkthdr_eta _ _ g2).symm
      · simp only [if_true, true_and]
        split
        · rfl
        · exact congrArg (fun x => x :: List.map (sanity_fix false) t)
            (mbuf_pkthdr_eta _ _ g2).symm
theorem totalLen_map_sanity_fix (first : Bool) (t : Chain) :
    totalLen (t.map (sanity_fix first)) = totalLen t := by
  induction t with
  | nil => rfl
  | cons m ms ih =>
    simp only [List.map_cons, totalLen, ih, (sanity_fix_same first m).2.2.1]

/-- Whether `m_sanity(m0, 0)` accepts the chain that `m_sanity(m0, 1)` has
left: it does exactly when no node after the first had `m_nextpkt` set or
was of kind `MT_HEADER` with `M_PKTHDR`, and the header length was right
wherever it is checked. -/
theorem m_sanity_strict_after_repair (K : Consts) (pkt pkt1 : Nat → Chain) (hd : mbuf)
    (t : Chain) (refs refs1 : Refs) (log log1 : List Event) (hK : K.MHLEN ≤ K.MLEN)
    (h : (m_sanity K pkt (hd :: t) true refs log).ret = true) :
    (m_sanity K pkt1 (m_sanity K pkt (hd :: t) true refs log).chain false refs1 log1).ret
        = true ↔
      (∀ m, m ∈ t → m.m_nextpkt = 0 ∧ ¬ (m.m_type = MT_HEADER ∧ m.m_flags.M_PKTHDR = true)) ∧
      (hd.m_flags.M_PKTHDR = true → totalLen (hd :: t) ≠ 0 →
        hd.m_pkthdr.len = (totalLen (hd :: t) : Int)) := by
  obtain ⟨hr, hrt, hc⟩ := m_sanity_repair_chain K pkt hd t refs log h
  obtain ⟨g1, g2, _, g4⟩ := sanity_fix_first hd
  rw [hc]
  generalize hL : (if hd.m_flags.M_PKTHDR = true ∧ totalLen (hd :: t) ≠ 0 ∧
      ((totalLen (hd :: t) : Nat) : Int) ≠ hd.m_pkthdr.len then (0 : Int)
      else hd.m_pkthdr.len) = L
  generalize hx : ({ sanity_fix true hd with
      m_pkthdr := { (sanity_fix true hd).m_pkthdr with len := L } } : mbuf) = x
  have hxf : x.m_flags = hd.m_flags := by rw [← hx]; exact g1
  have hxl : x.m_len = hd.m_len := by rw [← hx]; exact (sanity_fix_same true hd).2.2.1
  have hxp : x.m_pkthdr.len = L := by rw [← hx]
  have hx_range : sanity_range K x = true := by
    rw [← hx]
    exact sanity_fix_range K true hd hK hr
  have hx_type : x.m_type = MT_HEADER → x.m_flags.M_PKTHDR = true := by
    intro ht
    rw [hxf]
    apply g4
    rw [← hx] at ht
    exact ht
  have hnode : m_sanity_node K pkt1 false true x refs1 log1 = some (x, refs1, log1) := by
    rw [m_sanity_node_strict_iff, if_pos ⟨hx_range, (by intro hc; cases hc), hx_type⟩]
  have hT : totalLen (x :: t.map (sanity_fix false)) = totalLen (hd :: t) := by
    simp only [totalLen, hxl, totalLen_map_sanity_fix]
  have hfix := m_sanity_loop_strict_fixed K pkt1 hd.m_flags.M_PKTHDR t
    (0 + if hd.m_flags.M_PKTHDR = true then x.m_len else 0) refs1 log1 hK hrt
  have hR1 : (m_sanity_loop K pkt1 false hd.m_flags.M_PKTHDR true
      (x :: t.map (sanity_fix false)) 0 refs1 log1).1
      = (m_sanity_loop K pkt1 false hd.m_flags.M_PKTHDR false (t.map (sanity_fix false))
          (0 + if hd.m_flags.M_PKTHDR = true then x.m_len else 0) refs1 log1).1 := by
    simp only [m_sanity_loop, hnode]
  unfold m_sanity
  simp only [hxf]
  by_cases hcond : ∀ m, m ∈ t →
      m.m_nextpkt = 0 ∧ ¬ (m.m_type = MT_HEADER ∧ m.m_flags.M_PKTHDR = true)
  · have h1 := hR1.trans (hfix.2 hcond)
    obtain ⟨e, _, _⟩ := m_sanity_loop_strict K pkt1 hd.m_flags.M_PKTHDR true _ 0 refs1 log1 h1
    rw [e, hT, and_iff_right hcond]
    simp only [Bool.true_eq_false, if_false, hxp, Nat.zero_add]
    cases hp : hd.m_flags.M_PKTHDR
    · simp
    · simp only [hp, true_and, if_true] at hL ⊢
      by_cases hT0 : totalLen (hd :: t) = 0
      · simp [hT0]
      · simp only [hT0, not_false_eq_true, true_and, ne_eq] at hL ⊢
        by_cases hlen : ((totalLen (hd :: t) : Nat) : Int) = hd.m_pkthdr.len
        · rw [if_neg (by simpa using hlen)] at hL
          rw [if_neg]
          · simp [hlen.symm]
          · rw [← hL]; simpa using hlen
        · rw [if_pos hlen] at hL
          have hne : ¬ (((totalLen (hd :: t) : Nat) : Int) = L) := by
            rw [← hL]
            intro hc0
            exact hT0 (by exact_mod_cast hc0)
          rw [if_pos hne]
          simp only [Bool.false_eq_true, if_false, false_iff]
          intro h2
          exact hlen (h2 trivial trivial).symm
  · have h1 : (m_sanity_loop K pkt1 false hd.m_flags.M_PKTHDR true
        (x :: t.map (sanity_fix false)) 0 refs1 log1).1 = false := by
      rw [hR1]
      cases hv : (m_sanity_loop K pkt1 false hd.m_flags.M_PKTHDR false
        (t.map (sanity_fix false))
        (0 + if hd.m_flags.M_PKTHDR = true then x.m_len else 0) refs1 log1).1
      · rfl
      · exact absurd (hfix.1 hv) hcond
    simp only [h1, if_true]
    constructor
    · intro hh; cases hh
    · rintro ⟨h2, _⟩
      exact absurd h2 hcond
/-- The chain `m_sanity(m0, 1)` leaves when it returns 1, node by node, and
whether `m_sanity(m0, 0)` then accepts it. -/
theorem m_sanity_repair_spec (K : Consts) (pkt pkt1 : Nat → Chain) (m0 : Chain)
    (refs refs1 : Refs) (log log1 : List Event) (hK : K.MHLEN ≤ K.MLEN)
    (h : (m_sanity K pkt m0 true refs log).ret = true) :
    (m_sanity K pkt m0 true refs log).chain.map (fun n => (n.addr, n.m_data, n.m_len))
        = m0.map (fun n => (n.addr, n.m_data, n.m_len)) ∧
      (m_sanity K pkt m0 true refs log).chain.tail = m0.tail.map (sanity_fix false) ∧
      (∀ m, m ∈ (m_sanity K pkt m0 true refs log).chain.tail → m.m_flags.M_PKTHDR = false) ∧
      (∀ m, m ∈ m0.tail →
        (m.m_flags.M_PKTHDR = true → (sanity_fix false m).m_pkthdr = pkthdr0) ∧
        (m.m_nextpkt = 0 → (sanity_fix false m).m_nextpkt = 0) ∧
        (m.m_nextpkt ≠ 0 → (sanity_fix false m).m_nextpkt = DEADC0DE)) ∧
      (∀ hd t, m0 = hd :: t → ∃ x xs, (m_sanity K pkt m0 true refs log).chain = x :: xs ∧
        x.m_flags = hd.m_flags ∧
        x.m_pkthdr.len = (if hd.m_flags.M_PKTHDR = true ∧ totalLen m0 ≠ 0 ∧
            ((totalLen m0 : Nat) : Int) ≠ hd.m_pkthdr.len then 0 else hd.m_pkthdr.len)) ∧
      ((m_sanity K pkt1 (m_sanity K pkt m0 true refs log).chain false refs1 log1).ret = true ↔
        (∀ m, m ∈ m0.tail →
          m.m_nextpkt = 0 ∧ ¬ (m.m_type = MT_HEADER ∧ m.m_flags.M_PKTHDR = true)) ∧
        (∀ hd t, m0 = hd :: t → hd.m_flags.M_PKTHDR = true → totalLen m0 ≠ 0 →
          hd.m_pkthdr.len = (totalLen m0 : Int))) := by
  cases m0 with
  | nil =>
    refine ⟨rfl, rfl, ?_, ?_, ?_, ?_⟩
    · intro m hm; cases hm
    · intro m hm; cases hm
    · intro hd t hc; cases hc
    · constructor
      · intro _
        refine ⟨?_, ?_⟩
        · intro m hm; cases hm
        · intro hd t hc; cases hc
      · intro _; rfl
  | cons hd t =>
    obtain ⟨_, _, hc⟩ := m_sanity_repair_chain K pkt hd t refs log h
    have hiff := m_sanity_strict_after_repair K pkt pkt1 hd t refs refs1 log log1 hK h
    refine ⟨?_, ?_, ?_, ?_, ?_, ?_⟩
    · rw [hc]
      simp only [List.map_cons, List.map_map]
      congr 1
      · rw [(sanity_fix_same true hd).1, (sanity_fix_same true hd).2.1,
          (sanity_fix_same true hd).2.2.1]
      · apply List.map_congr_left
        intro m _
        simp only [Function.comp]
        rw [(sanity_fix_same false m).1, (sanity_fix_same false m).2.1,
          (sanity_fix_same false m).2.2.1]
    · rw [hc]; rfl
    · rw [hc]
      intro m hm
      obtain ⟨m1, _, rfl⟩ := List.mem_map.1 hm
      exact (sanity_fix_rest m1).1
    · intro m _
      exact ⟨(sanity_fix_rest m).2.1, (sanity_fix_rest m).2.2.1, (sanity_fix_rest m).2.2.2.1⟩
    · intro hd1 t1 e
      cases e
      exact ⟨_, _, hc, (sanity_fix_first hd).1, rfl⟩
    · rw [hiff]
      constructor
      · rintro ⟨h1, h2⟩
        refine ⟨h1, ?_⟩
        intro hd1 t1 e
        cases e
        exact h2
      · rintro ⟨h1, h2⟩
        exact ⟨h1, h2 hd t rfl⟩

/-- In repair mode the loop of `m_sanity` runs to the end exactly when every
node passes the pointer checks. -/
theorem m_sanity_loop_repair_ret (K : Consts) (pkt : Nat → Chain) (hdr0 first : Bool)
    (c : Chain) (pktlen : Nat) (refs : Refs) (log : List Event) :
    (m_sanity_loop K pkt true hdr0 first c pktlen refs log).1 = true ↔
      ∀ m, m ∈ c → sanity_range K m = true := by
  induction c generalizing first pktlen refs log with
  | nil =>
    refine ⟨fun _ m hm => (by cases hm), fun _ => rfl⟩
  | cons m ms ih =>
    simp only [m_sanity_loop, m_sanity_node_repair]
    cases hr : sanity_range K m
    · simp only [Bool.false_eq_true, if_false]
      constructor
      · intro h; cases h
      · intro h
        have := h m (List.mem_cons_self _ _)
        rw [hr] at this
        cases this
    · simp only [if_true]
      rw [ih]
      constructor
      · intro h x hx
        rcases List.mem_cons.1 hx with rfl | hx
        · exact hr
        · exact h x hx
      · intro h x hx
        exact h x (List.mem_cons_of_mem _ hx)

/-- In repair mode `m_sanity` returns 1 exactly when every node passes the
pointer checks. -/
theorem m_sanity_repair_ret (K : Consts) (pkt : Nat → Chain) (m0 : Chain) (refs : Refs)
    (log : List Event) :
    (m_sanity K pkt m0 true refs log).ret = true ↔ ∀ m, m ∈ m0 → sanity_range K m = true := by
  cases m0 with
  | nil =>
    refine ⟨fun _ m hm => (by cases hm), fun _ => rfl⟩
  | cons hd t =>
    rw [← m_sanity_loop_repair_ret K pkt hd.m_flags.M_PKTHDR true (hd :: t) 0 refs log]
    unfold m_sanity
    dsimp only
    generalize m_sanity_loop K pkt true hd.m_flags.M_PKTHDR true (hd :: t) 0 refs log = q
    obtain ⟨q1, q2, q3, q4, q5⟩ := q
    cases q1
    · simp
    · cases q2 with
      | nil => simp
      | cons h t1 =>
        simp only [Bool.true_eq_false, if_false, if_true]
        split <;> simp

/-- C29, as the code has it.  In repair mode `m_sanity(m0, 1)` returns 1 exactly
when every node passes the pointer checks, the one kind of violation it does
not repair.  When it does, the chain has the same nodes with the same data;
every node after the first is without `M_PKTHDR`, with a zeroed header block
(so without tags) if it had one, and has `m_nextpkt` NULL if it was NULL and
`0xDEADC0DE`, not NULL, if it was set; the first node keeps its flags, and on
a chain that holds at least one byte its header length is set to 0, not to
the sum of the node lengths, when it has a header whose length differs from
that sum.  A following `m_sanity(m0, 0)` on a chain that holds at least one
byte returns 1 exactly when no node after the first had `m_nextpkt` set or was
of kind `MT_HEADER` with `M_PKTHDR`, and the header length was already the sum
of the node lengths. -/
theorem m_sanity_repair (K : Consts) (pkt pkt1 : Nat → Chain) (m0 : Chain)
    (refs refs1 : Refs) (log log1 : List Event) (hK : K.MHLEN ≤ K.MLEN) :
    ((m_sanity K pkt m0 true refs log).ret = true ↔
      ∀ m, m ∈ m0 → sanity_range K m = true) ∧
    ((∀ m, m ∈ m0 → sanity_range K m = true) →
      (m_sanity K pkt m0 true refs log).chain.map (fun n => (n.addr, n.m_data, n.m_len))
        = m0.map (fun n => (n.addr, n.m_data, n.m_len)) ∧
      (m_sanity K pkt m0 true refs log).chain.tail = m0.tail.map (sanity_fix false) ∧
      (∀ m, m ∈ (m_sanity K pkt m0 true refs log).chain.tail → m.m_flags.M_PKTHDR = false) ∧
      (∀ m, m ∈ m0.tail →
        (m.m_flags.M_PKTHDR = true → (sanity_fix false m).m_pkthdr = pkthdr0) ∧
        (m.m_nextpkt = 0 → (sanity_fix false m).m_nextpkt = 0) ∧
        (m.m_nextpkt ≠ 0 → (sanity_fix false m).m_nextpkt = DEADC0DE)) ∧
      (∀ hd t, m0 = hd :: t → ∃ x xs, (m_sanity K pkt m0 true refs log).chain = x :: xs ∧
        x.m_flags = hd.m_flags ∧
        (totalLen m0 ≠ 0 →
          x.m_pkthdr.len = (if hd.m_flags.M_PKTHDR = true ∧
            ((totalLen m0 : Nat) : Int) ≠ hd.m_pkthdr.len then 0 else hd.m_pkthdr.len))) ∧
      (totalLen m0 ≠ 0 →
        ((m_sanity K pkt1 (m_sanity K pkt m0 true refs log).chain false refs1 log1).ret = true ↔
          (∀ m, m ∈ m0.tail →
            m.m_nextpkt = 0 ∧ ¬ (m.m_type = MT_HEADER ∧ m.m_flags.M_PKTHDR = true)) ∧
          (∀ hd t, m0 = hd :: t → hd.m_flags.M_PKTHDR = true →
            hd.m_pkthdr.len = (totalLen m0 : Int))))) := by
  refine ⟨m_sanity_repair_ret K pkt m0 refs log, fun hr => ?_⟩
  have h := (m_sanity_repair_ret K pkt m0 refs log).2 hr
  obtain ⟨g1, g2, g3, g4, g5, g6⟩ :=
    m_sanity_repair_spec K pkt pkt1 m0 refs refs1 log log1 hK h
  refine ⟨g1, g2, g3, g4, ?_, ?_⟩
  · intro hd t e
    obtain ⟨x, xs, e1, e2, e3⟩ := g5 hd t e
    refine ⟨x, xs, e1, e2, fun hne => ?_⟩
    rw [e3]
    simp only [hne, ne_eq, not_false_eq_true, true_and]
  · intro hne
    rw [g6]
    constructor
    · rintro ⟨h1, h2⟩
      exact ⟨h1, fun hd t e hp => h2 hd t e hp hne⟩
    · rintro ⟨h1, h2⟩
      exact ⟨h1, fun hd t e hp _ => h2 hd t e hp⟩

/-! ## m_apply -/

/-- The second loop of `m_apply` on a reading function: the spans it is called
on lie each within the data of one node, taken in chain order, and make up
the bytes from `off` for `len`; the chain and the memory are left alone. -/
theorem m_apply_loop_calls (mem : Store) (c : Chain) (off len : Nat)
    (hoff : off = 0 ∨ ∃ m ms, c = m :: ms ∧ off < m.m_len)
    (h : off + len ≤ totalLen c) :
    ∃ calls : List (mbuf × Nat × Nat),
      (calls.map (fun x => rd (storeOf mem x.1) x.2.1 x.2.2)).flatten
        = ((chainBytes mem c).drop off).take len ∧
      (∀ x, x ∈ calls → x.1.m_data ≤ x.2.1 ∧ x.2.1 + x.2.2 ≤ x.1.m_data + x.1.m_len) ∧
      List.Sublist (calls.map (fun x => x.1)) c ∧
      ∀ (σ : Type) (g : Reader σ) (s : σ),
        m_apply_loop (readOnly g) c off len s mem
          = some ((runCalls g mem calls s).1, (runCalls g mem calls s).2, c, mem) := by
  induction c generalizing off len with
  | nil =>
    have : len = 0 := by simp only [totalLen] at h; omega
    subst this
    refine ⟨[], by simp, ?_, List.Sublist.slnil, ?_⟩
    · intro x hx; cases hx
    · intro σ g s; rfl
  | cons m ms ih =>
    cases len with
    | zero =>
      refine ⟨[], by simp, ?_, List.nil_sublist _, ?_⟩
      · intro x hx; cases hx
      · intro σ g s; rfl
    | succ k =>
      have hle : off ≤ m.m_len := by
        rcases hoff with h0 | ⟨m1, ms1, he, hlt⟩
        · omega
        · cases he; omega
      simp only [totalLen] at h
      obtain ⟨calls, h1, h2, h3, h4⟩ :=
        ih 0 (k + 1 - min (m.m_len - off) (k + 1)) (Or.inl rfl) (by omega)
      refine ⟨(m, m.m_data + off, min (m.m_len - off) (k + 1)) :: calls, ?_, ?_, ?_, ?_⟩
      · simp only [List.map_cons, List.flatten_cons, h1, List.drop_zero]
        rw [take_drop_cons_bytes mem m ms off (k + 1) hle]
        by_cases hc : m.m_len - off ≤ k + 1
        · rw [Nat.min_eq_left hc, Nat.min_eq_right hc]
        · have hc' : k + 1 ≤ m.m_len - off := by omega
          rw [Nat.min_eq_right hc', Nat.min_eq_left hc', Nat.sub_self,
            show k + 1 - (m.m_len - off) = 0 by omega]
      · intro x hx
        rcases List.mem_cons.1 hx with rfl | hx
        · exact ⟨Nat.le_add_right _ _, by
            have := Nat.min_le_left (m.m_len - off) (k + 1)
            show m.m_data + off + min (m.m_len - off) (k + 1) ≤ m.m_data + m.m_len
            omega⟩
        · exact h2 x hx
      · simp only [List.map_cons]
        exact List.Sublist.cons₂ m h3
      · intro σ g s
        simp only [m_apply_loop, readOnly, runCalls]
        by_cases hv : (g s m (m.m_data + off) (min (m.m_len - off) (k + 1)) mem).1 = 0
        · have h5 := h4 σ g (g s m (m.m_data + off) (min (m.m_len - off) (k + 1)) mem).2
          simp only [readOnly] at h5
          simp only [hv, ne_eq, not_true_eq_false, if_false, h5]
        · simp only [hv, ne_eq, not_false_eq_true, if_true]

/-- `m_apply` on a reading function, for a range within the chain. -/
theorem m_apply_calls (mem : Store) (c : Chain) (off len : Nat) (h : off + len ≤ totalLen c) :
    ∃ calls : List (mbuf × Nat × Nat),
      (calls.map (fun x => rd (storeOf mem x.1) x.2.1 x.2.2)).flatten
        = ((chainBytes mem c).drop off).take len ∧
      (∀ x, x ∈ calls → x.1.m_data ≤ x.2.1 ∧ x.2.1 + x.2.2 ≤ x.1.m_data + x.1.m_len) ∧
      List.Sublist (calls.map (fun x => x.1)) c ∧
      ∀ (σ : Type) (g : Reader σ) (s : σ),
        m_apply (readOnly g) c off len s mem
          = some ((runCalls g mem calls s).1, (runCalls g mem calls s).2, c, mem) := by
  induction c generalizing off with
  | nil =>
    have h0 : off = 0 := by simp only [totalLen] at h; omega
    subst h0
    obtain ⟨calls, h1, h2, h3, h4⟩ := m_apply_loop_calls mem [] 0 len (Or.inl rfl) h
    exact ⟨calls, h1, h2, h3, fun σ g s => by rw [← h4 σ g s]; rfl⟩
  | cons m ms ih =>
    cases off with
    | zero =>
      obtain ⟨calls, h1, h2, h3, h4⟩ := m_apply_loop_calls mem (m :: ms) 0 len (Or.inl rfl) h
      exact ⟨calls, h1, h2, h3, fun σ g s => by rw [← h4 σ g s]; rfl⟩
    | succ k =>
      by_cases hk : k + 1 < m.m_len
      · obtain ⟨calls, h1, h2, h3, h4⟩ :=
          m_apply_loop_calls mem (m :: ms) (k + 1) len (Or.inr ⟨m, ms, rfl, hk⟩) h
        exact ⟨calls, h1, h2, h3, fun σ g s => by rw [← h4 σ g s]; simp [m_apply, hk]⟩
      · simp only [totalLen] at h
        obtain ⟨calls, h1, h2, h3, h4⟩ := ih (k + 1 - m.m_len) (by omega)
        refine ⟨calls, ?_, h2, List.Sublist.cons m h3, ?_⟩
        · rw [h1]
          have hm : (mbytes mem m).drop (k + 1) = [] :=
            List.drop_eq_nil_of_le (by rw [mbytes_length]; omega)
          simp only [chainBytes]
          rw [List.drop_append_eq_append_drop, hm, mbytes_length, List.nil_append]
        · intro σ g s
          simp only [m_apply, hk, if_false, h4 σ g s]

/-- The second loop of `m_apply` on any function: the spans it is called on
are fixed by the chain, `off` and `len`; they lie each within the data of one
node, on consecutive nodes from the first on, and make up the bytes from `off`
for `len`.  The chain afterwards has the nodes called on as the calls left
them. -/
theorem m_apply_loop_visits (mem : Store) (c : Chain) (off len : Nat)
    (hoff : off = 0 ∨ ∃ m ms, c = m :: ms ∧ off < m.m_len)
    (h : off + len ≤ totalLen c) :
    ∃ (calls : List (mbuf × Nat × Nat)) (rest : Chain),
      c = calls.map (fun x => x.1) ++ rest ∧
      (calls.map (fun x => rd (storeOf mem x.1) x.2.1 x.2.2)).flatten
        = ((chainBytes mem c).drop off).take len ∧
      (∀ x, x ∈ calls → x.1.m_data ≤ x.2.1 ∧ x.2.1 + x.2.2 ≤ x.1.m_data + x.1.m_len) ∧
      ∀ (σ : Type) (f : Visitor σ) (s : σ) (mem1 : Store),
        m_apply_loop f c off len s mem1
          = some ((runVisits f calls s mem1).1, (runVisits f calls s mem1).2.1,
              (runVisits f calls s mem1).2.2.1
                ++ (calls.map (fun x => x.1)).drop (runVisits f calls s mem1).2.2.1.length
                ++ rest,
              (runVisits f calls s mem1).2.2.2) := by
  induction c generalizing off len with
  | nil =>
    have : len = 0 := by simp only [totalLen] at h; omega
    subst this
    refine ⟨[], [], rfl, by simp, ?_, ?_⟩
    · intro x hx; cases hx
    · intro σ f s mem1; rfl
  | cons m ms ih =>
    cases len with
    | zero =>
      refine ⟨[], m :: ms, rfl, by simp, ?_, ?_⟩
      · intro x hx; cases hx
      · intro σ f s mem1; rfl
    | succ k =>
      have hle : off ≤ m.m_len := by
        rcases hoff with h0 | ⟨m1, ms1, he, hlt⟩
        · omega
        · cases he; omega
      simp only [totalLen] at h
      obtain ⟨calls, rest, h0, h1, h2, h4⟩ :=
        ih 0 (k + 1 - min (m.m_len - off) (k + 1)) (Or.inl rfl) (by omega)
      refine ⟨(m, m.m_data + off, min (m.m_len - off) (k + 1)) :: calls, rest, ?_, ?_, ?_, ?_⟩
      · simp only [List.map_cons, List.cons_append, ← h0]
      · simp only [List.map_cons, List.flatten_cons, h1, List.drop_zero]
        rw [take_drop_cons_bytes mem m ms off (k + 1) hle]
        by_cases hc : m.m_len - off ≤ k + 1
        · rw [Nat.min_eq_left hc, Nat.min_eq_right hc]
        · have hc' : k + 1 ≤ m.m_len - off := by omega
          rw [Nat.min_eq_right hc', Nat.min_eq_left hc', Nat.sub_self,
            show k + 1 - (m.m_len - off) = 0 by omega]
      · intro x hx
        rcases List.mem_cons.1 hx with rfl | hx
        · exact ⟨Nat.le_add_right _ _, by
            have := Nat.min_le_left (m.m_len - off) (k + 1)
            show m.m_data + off + min (m.m_len - off) (k + 1) ≤ m.m_data + m.m_len
            omega⟩
        · exact h2 x hx
      · intro σ f s mem1
        simp only [m_apply_loop, runVisits]
        by_cases hv : (f s m (m.m_data + off) (min (m.m_len - off) (k + 1)) mem1).1 = 0
        · have h5 := h4 σ f (f s m (m.m_data + off) (min (m.m_len - off) (k + 1)) mem1).2.1
            (f s m (m.m_data + off) (min (m.m_len - off) (k + 1)) mem1).2.2.2
          simp only [hv, ne_eq, not_true_eq_false, if_false, h5, List.length_cons,
            List.map_cons, List.drop_succ_cons, List.cons_append]
        · simp only [hv, ne_eq, not_false_eq_true, if_true, List.length_cons, List.length_nil,
            List.map_cons, List.drop_succ_cons, List.drop_zero, List.cons_append,
            List.nil_append, Nat.zero_add, ← h0]

/-- `m_apply` on any function, for a range within the chain: `pre` are the
nodes the first loop skips. -/
theorem m_apply_visits (mem : Store) (c : Chain) (off len : Nat) (h : off + len ≤ totalLen c) :
    ∃ (pre : Chain) (calls : List (mbuf × Nat × Nat)) (rest : Chain),
      c = pre ++ calls.map (fun x => x.1) ++ rest ∧
      (calls.map (fun x => rd (storeOf mem x.1) x.2.1 x.2.2)).flatten
        = ((chainBytes mem c).drop off).take len ∧
      (∀ x, x ∈ calls → x.1.m_data ≤ x.2.1 ∧ x.2.1 + x.2.2 ≤ x.1.m_data + x.1.m_len) ∧
      ∀ (σ : Type) (f : Visitor σ) (s : σ) (mem1 : Store),
        m_apply f c off len s mem1
          = some ((runVisits f calls s mem1).1, (runVisits f calls s mem1).2.1,
              pre ++ (runVisits f calls s mem1).2.2.1
                ++ (calls.map (fun x => x.1)).drop (runVisits f calls s mem1).2.2.1.length
                ++ rest,
              (runVisits f calls s mem1).2.2.2) := by
  induction c generalizing off with
  | nil =>
    have h0 : off = 0 := by simp only [totalLen] at h; omega
    subst h0
    obtain ⟨calls, rest, h0, h1, h2, h4⟩ := m_apply_loop_visits mem [] 0 len (Or.inl rfl) h
    exact ⟨[], calls, rest, by simpa using h0, h1, h2,
      fun σ f s mem1 => by rw [List.nil_append, ← h4 σ f s mem1]; rfl⟩
  | cons m ms ih =>
    cases off with
    | zero =>
      obtain ⟨calls, rest, h0, h1, h2, h4⟩ :=
        m_apply_loop_visits mem (m :: ms) 0 len (Or.inl rfl) h
      exact ⟨[], calls, rest, by simpa using h0, h1, h2,
        fun σ f s mem1 => by rw [List.nil_append, ← h4 σ f s mem1]; rfl⟩
    | succ k =>
      by_cases hk : k + 1 < m.m_len
      · obtain ⟨calls, rest, h0, h1, h2, h4⟩ :=
          m_apply_loop_visits mem (m :: ms) (k + 1) len (Or.inr ⟨m, ms, rfl, hk⟩) h
        exact ⟨[], calls, rest, by simpa using h0, h1, h2,
          fun σ f s mem1 => by rw [List.nil_append, ← h4 σ f s mem1]; simp [m_apply, hk]⟩
      · simp only [totalLen] at h
        obtain ⟨pre, calls, rest, h0, h1, h2, h4⟩ := ih (k + 1 - m.m_len) (by omega)
        refine ⟨m :: pre, calls, rest, by simp only [List.cons_append, ← h0], ?_, h2, ?_⟩
        · rw [h1]
          have hm : (mbytes mem m).drop (k + 1) = [] :=
            List.drop_eq_nil_of_le (by rw [mbytes_length]; omega)
          simp only [chainBytes]
          rw [List.drop_append_eq_append_drop, hm, mbytes_length, List.nil_append]
        · intro σ f s mem1
          simp only [m_apply, hk, if_false, h4 σ f s mem1, List.cons_append]

/-- The calls of a function that only reads leave nodes and memory alone. -/
theorem runVisits_readOnly {σ : Type} (g : Reader σ) (mem : Store)
    (calls : List (mbuf × Nat × Nat)) (s : σ) :
    (runVisits (readOnly g) calls s mem).1 = (runCalls g mem calls s).1 ∧
      (runVisits (readOnly g) calls s mem).2.1 = (runCalls g mem calls s).2 ∧
      (runVisits (readOnly g) calls s mem).2.2.1
          ++ (calls.map (fun x => x.1)).drop (runVisits (readOnly g) calls s mem).2.2.1.length
        = calls.map (fun x => x.1) ∧
      (runVisits (readOnly g) calls s mem).2.2.2 = mem := by
  induction calls generalizing s with
  | nil => exact ⟨rfl, rfl, rfl, rfl⟩
  | cons x rest ih =>
    have e : readOnly g s x.1 x.2.1 x.2.2 mem
        = ((g s x.1 x.2.1 x.2.2 mem).1, (g s x.1 x.2.1 x.2.2 mem).2, x.1, mem) := rfl
    simp only [runVisits, runCalls, e]
    by_cases hv : (g s x.1 x.2.1 x.2.2 mem).1 = 0
    · obtain ⟨i1, i2, i3, i4⟩ := ih (g s x.1 x.2.1 x.2.2 mem).2
      simp only [hv, ne_eq, not_true_eq_false, if_false, i1, i2, i4, List.length_cons,
        List.map_cons, List.drop_succ_cons, List.cons_append, i3, and_self]
    · simp only [hv, ne_eq, not_false_eq_true, if_true, List.length_cons, List.length_nil,
        List.map_cons, List.drop_succ_cons, List.drop_zero, List.cons_append,
        List.nil_append, Nat.zero_add, and_self]

/-- C24 (as amended): for every chain `C`, every `off`, `len` with `off + len`
within the total length and every function `f`, `m_apply` returns.  The spans
it calls `f` on are fixed by `C`, `off` and `len`: after the nodes `pre` that
lie before byte `off`, one span in each of the consecutive nodes
`calls.map (·.1)`, in chain order, each within the data of its node, the spans
put together in call order being the bytes `[off, off + len)` of `C`.  The
calls are made one after the other, each in the memory the calls before it
have left, and stop at the first that returns a value other than 0, which
`m_apply` returns; when every call returns 0 it returns 0.  `m_apply` itself
writes nothing: the chain afterwards is `C` with the nodes called on as `f`
left them, and the memory is as the calls left it; with a function that only
reads, chain and memory are as before. -/
theorem m_apply_visits_range (mem : Store) (C : Chain) (off len : Nat)
    (h : off + len ≤ totalLen C) :
    ∃ (pre : Chain) (calls : List (mbuf × Nat × Nat)) (rest : Chain),
      C = pre ++ calls.map (fun x => x.1) ++ rest ∧
      (calls.map (fun x => rd (storeOf mem x.1) x.2.1 x.2.2)).flatten
        = ((chainBytes mem C).drop off).take len ∧
      (∀ x, x ∈ calls →
        x.1 ∈ C ∧ x.1.m_data ≤ x.2.1 ∧ x.2.1 + x.2.2 ≤ x.1.m_data + x.1.m_len) ∧
      (∀ (σ : Type) (f : Visitor σ) (s : σ) (mem1 : Store),
        m_apply f C off len s mem1
          = some ((runVisits f calls s mem1).1, (runVisits f calls s mem1).2.1,
              pre ++ (runVisits f calls s mem1).2.2.1
                ++ (calls.map (fun x => x.1)).drop (runVisits f calls s mem1).2.2.1.length
                ++ rest,
              (runVisits f calls s mem1).2.2.2)) ∧
      ∀ (σ : Type) (g : Reader σ) (s : σ),
        m_apply (readOnly g) C off len s mem
          = some ((runCalls g mem calls s).1, (runCalls g mem calls s).2, C, mem) := by
  obtain ⟨pre, calls, rest, h0, h1, h2, h4⟩ := m_apply_visits mem C off len h
  refine ⟨pre, calls, rest, h0, h1, ?_, h4, ?_⟩
  · intro x hx
    refine ⟨?_, h2 x hx⟩
    rw [h0]
    exact List.mem_append_left _ (List.mem_append_right _ (List.mem_map_of_mem (fun x => x.1) hx))
  · intro σ g s
    obtain ⟨i1, i2, i3, i4⟩ := runVisits_readOnly g mem calls s
    rw [h4 σ (readOnly g) s mem, i1, i2, i4, List.append_assoc pre, i3, ← h0]

/-! ## m_pullup -/

theorem released_append (a b : List Event) : released (a ++ b) = released a ++ released b := by
  induction a with
  | nil => rfl
  | cons e l ih => cases e <;> simp [released, ih]

theorem m_free_log_prefix (m : mbuf) (refs : Refs) (log : List Event) :
    ∃ ev, (m_free m refs log).2 = log ++ ev := by
  unfold m_free mb_free_ext
  dsimp only
  cases hr : m.m_ext.ref_cnt <;> split_ifs <;>
    first
    | exact ⟨_, rfl⟩
    | exact ⟨_, List.append_assoc _ _ _⟩
    | exact ⟨_, (List.append_assoc _ _ _).trans (congrArg _ (List.append_assoc _ _ _))⟩
    | exact ⟨_, by simp only [List.append_assoc]⟩
    | (simp only [List.append_assoc]; exact ⟨_, rfl⟩)

theorem m_free_released_log (m : mbuf) (refs : Refs) (log : List Event) :
    released (m_free m refs log).2 = released log ++ [m.addr] := by
  unfold m_free mb_free_ext
  dsimp only
  cases hr : m.m_ext.ref_cnt <;> split_ifs <;> simp [released_append, released]

/-- Whatever the counters, `m_free` hands the node back, once. -/
theorem m_free_released (m : mbuf) (refs : Refs) (log : List Event) :
    ∃ ev, (m_free m refs log).2 = log ++ ev ∧ released ev = [m.addr] := by
  obtain ⟨ev, h⟩ := m_free_log_prefix m refs log
  refine ⟨ev, h, ?_⟩
  have h2 := m_free_released_log m refs log
  rw [h, released_append] at h2
  exact List.append_cancel_left h2

/-- Whatever the counters, `m_freem` hands every node of the chain back, once,
in chain order. -/
theorem m_freem_released (c : Chain) (refs : Refs) (log : List Event) :
    ∃ ev, (m_freem c refs log).2 = log ++ ev ∧ released ev = c.map (fun n => n.addr) := by
  induction c generalizing refs log with
  | nil => exact ⟨[], by simp [m_freem], rfl⟩
  | cons m ms ih =>
    obtain ⟨e1, h1, h2⟩ := m_free_released m refs log
    obtain ⟨e2, h3, h4⟩ := ih (m_free m refs log).1 (m_free m refs log).2
    refine ⟨e1 ++ e2, ?_, ?_⟩
    · simp only [m_freem]
      rw [h3, h1, List.append_assoc]
    · rw [released_append, h2, h4]; rfl
/-- The loop of `m_pullup` when the chain `n` holds the `len` bytes wanted and
`m` has room for them: it ends with `len` used up, the bytes of `m` and `n`
together are what they were, and `m` has grown by at least `len`. -/
theorem m_pullup_loop_ok (K : Consts) (mem : Store) (m : mbuf) (n : Chain)
    (len space : Nat) (refs : Refs) (log : List Event) (hm : m.m_flags.M_EXT = false)
    (hsp : len ≤ space) (hlen : len ≤ totalLen n) :
    ∃ m1 n1 refs1 log1, m_pullup_loop K mem m n len space refs log
        = some (m1, n1, 0, refs1, log1) ∧
      mbytes mem m1 ++ chainBytes mem n1 = mbytes mem m ++ chainBytes mem n ∧
      m.m_len + len ≤ m1.m_len ∧ m1.m_flags = m.m_flags ∧ m1.m_pkthdr = m.m_pkthdr ∧
      m1.addr = m.addr ∧ m1.m_data = m.m_data := by
  induction n generalizing m len space refs log with
  | nil =>
    have : len = 0 := by simp only [totalLen] at hlen; omega
    subst this
    exact ⟨m, [], refs, log, rfl, rfl, Nat.le_refl _, rfl, rfl, rfl, rfl⟩
  | cons n0 ns ih =>
    simp only [totalLen] at hlen
    have hcount : min (min (max len K.max_protohdr) space) n0.m_len ≤ n0.m_len :=
      Nat.min_le_right _ _
    have hge : n0.m_len ≤ min (max len K.max_protohdr) space ∨
        len ≤ min (min (max len K.max_protohdr) space) n0.m_len := by
      by_cases hc : n0.m_len ≤ min (max len K.max_protohdr) space
      · exact Or.inl hc
      · right
        rw [Nat.min_eq_left (by omega)]
        exact Nat.le_min.2 ⟨Nat.le_max_left _ _, hsp⟩
    generalize hcnt : min (min (max len K.max_protohdr) space) n0.m_len = count at hcount hge
    have hcs : count ≤ space := by
      rw [← hcnt]
      exact Nat.le_trans (Nat.min_le_left _ _) (Nat.min_le_right _ _)
    have hmb : mbytes mem
        { m with m_dat := wr m.m_dat (m.m_data + m.m_len) (rd (storeOf mem n0) n0.m_data count),
                 m_len := m.m_len + count }
        = mbytes mem m ++ rd (storeOf mem n0) n0.m_data count := by
      simp only [mbytes, storeOf, hm, Bool.false_eq_true, if_false]
      have := rd_wr_after m.m_dat m.m_data m.m_len (rd (storeOf mem n0) n0.m_data count)
      rw [rd_length] at this
      exact this
    simp only [m_pullup_loop, hcnt]
    by_cases hd : n0.m_len - count ≠ 0
    · have hl0 : len - count = 0 := by
        rcases hge with h1 | h1
        · rw [← hcnt, Nat.min_eq_right h1] at hd
          omega
        · omega
      rw [if_pos hd, hl0, if_neg (by omega)]
      refine ⟨_, _, refs, log, rfl, ?_, by show m.m_len + len ≤ m.m_len + count; omega,
        rfl, rfl, rfl, rfl⟩
      rw [hmb]
      simp only [chainBytes, mbytes, List.append_assoc]
      congr 1
      rw [← List.append_assoc]
      congr 1
      have := rd_add (storeOf mem n0) n0.m_data count (n0.m_len - count)
      rw [show count + (n0.m_len - count) = n0.m_len by omega] at this
      exact this.symm
    · have hce : count = n0.m_len := by omega
      rw [if_neg hd]
      have hb : mbytes mem
          { m with
            m_dat := wr m.m_dat (m.m_data + m.m_len) (rd (storeOf mem n0) n0.m_data count),
            m_len := m.m_len + count } ++ chainBytes mem ns
          = mbytes mem m ++ chainBytes mem (n0 :: ns) := by
        rw [hmb, hce]
        simp only [chainBytes, mbytes, List.append_assoc]
      by_cases hl : len - count > 0
      · rw [if_pos hl]
        obtain ⟨m1, n1, refs1, log1, e, h1, h2, h3, h4, h5, h6⟩ :=
          ih { m with
            m_dat := wr m.m_dat (m.m_data + m.m_len) (rd (storeOf mem n0) n0.m_data count),
            m_len := m.m_len + count } (len - count) (space - count)
            (m_free n0 refs log).1 (m_free n0 refs log).2 hm (by omega) (by omega)
        refine ⟨m1, n1, refs1, log1, e, by rw [h1, hb], ?_, h3, h4, h5, h6⟩
        have : m.m_len + count + (len - count) ≤ m1.m_len := h2
        omega
      · rw [if_neg hl]
        have hl0 : len - count = 0 := by omega
        rw [hl0]
        exact ⟨_, _, _, _, rfl, hb, by show m.m_len + len ≤ m.m_len + count; omega,
          rfl, rfl, rfl, rfl⟩
/-- The loop of `m_pullup` when the chain `n` holds less than `len` bytes and
`m` has room for `len`: every node of `n` is emptied into `m` and freed, and
the loop ends at the end of the chain with `len > 0` left. -/
theorem m_pullup_loop_short (K : Consts) (mem : Store) (m : mbuf) (n : Chain)
    (len space : Nat) (refs : Refs) (log : List Event)
    (hsp : len ≤ space) (hlen : totalLen n < len) :
    ∃ m1, m_pullup_loop K mem m n len space refs log
        = some (m1, [], len - totalLen n, (m_freem n refs log).1, (m_freem n refs log).2) ∧
      m1.addr = m.addr := by
  induction n generalizing m len space refs log with
  | nil => exact ⟨m, rfl, rfl⟩
  | cons n0 ns ih =>
    simp only [totalLen] at hlen
    have hcnt : min (min (max len K.max_protohdr) space) n0.m_len = n0.m_len := by
      apply Nat.min_eq_right
      exact Nat.le_min.2 ⟨Nat.le_trans (by omega) (Nat.le_max_left len _), by omega⟩
    simp only [m_pullup_loop, hcnt, Nat.sub_self, ne_eq, not_true_eq_false, if_false]
    rw [if_pos (by omega)]
    obtain ⟨m1, e, h1⟩ := ih
      { m with m_dat := wr m.m_dat (m.m_data + m.m_len) (rd (storeOf mem n0) n0.m_data n0.m_len),
               m_len := m.m_len + n0.m_len } (len - n0.m_len) (space - n0.m_len)
      (m_free n0 refs log).1 (m_free n0 refs log).2 (by omega) (by omega)
    refine ⟨m1, ?_, h1⟩
    rw [e]
    simp only [m_freem, totalLen, Nat.sub_sub]

/-- C22, as the code has it: for every chain `C` and every `len` up to its total
length, when the node allocation succeeds and either `len` is at most `MHLEN`
or the first node has no cluster, has a successor and lets `len` bytes end
before the end of its array, `m_pullup(C, len)` returns a chain whose first
node holds at least `len` bytes and whose bytes are those of `C`. -/
theorem m_pullup_success (K : Consts) (mem : Store) (pool : Pool) (n0 : mbuf) (ns : Chain)
    (len : Nat) (refs : Refs) (log : List Event) (hK : K.MHLEN ≤ K.MLEN)
    (hlen : len ≤ totalLen (n0 :: ns)) (hpool : allocOK pool 1 = true)
    (hcap : len ≤ K.MHLEN ∨
      (n0.m_flags.M_EXT = false ∧ n0.m_data + len < K.MLEN ∧ ns ≠ [])) :
    ∃ r h t, m_pullup K mem pool (n0 :: ns) len refs log = some r ∧ r.ret = h :: t ∧
      len ≤ h.m_len ∧ chainBytes mem r.ret = chainBytes mem (n0 :: ns) := by
  simp only [m_pullup]
  by_cases hin : n0.m_flags.M_EXT = false ∧ n0.m_data + len < K.MLEN ∧ ns.isEmpty = false
  · rw [if_pos hin]
    by_cases hge : n0.m_len ≥ len
    · rw [if_pos hge]
      exact ⟨_, n0, ns, rfl, rfl, hge, rfl⟩
    · rw [if_neg hge]
      simp only [totalLen] at hlen
      obtain ⟨m1, n1, refs1, log1, e, h1, h2, _⟩ := m_pullup_loop_ok K mem n0 ns
        (len - n0.m_len) (K.MLEN - (n0.m_data + n0.m_len)) refs log hin.1
        (by omega) (by omega)
      rw [e]
      refine ⟨{ ret := m1 :: n1, pool := pool, refs := refs1, log := log1 }, m1, n1,
        by simp [m_pullup_fin], rfl, by omega, ?_⟩
      show mbytes mem m1 ++ chainBytes mem n1 = _
      rw [h1]; rfl
  · rw [if_neg hin]
    have hle : len ≤ K.MHLEN := by
      rcases hcap with h | ⟨h1, h2, h3⟩
      · exact h
      · exact absurd ⟨h1, h2, by simpa using h3⟩ hin
    rw [if_neg (by omega)]
    obtain ⟨a, d, p, rfl, _⟩ := allocOK_succ pool 0 hpool
    simp only [m_get]
    cases hp : n0.m_flags.M_PKTHDR
    · simp only [Bool.false_eq_true, if_false]
      obtain ⟨m1, n1, refs1, log1, e, h1, h2, _⟩ := m_pullup_loop_ok K mem
        { newNode a d n0.m_type with m_len := 0 } (n0 :: ns) len
        (K.MLEN - (0 + 0)) refs log rfl (by omega) hlen
      have e' : m_pullup_loop K mem { newNode a d n0.m_type with m_len := 0 } (n0 :: ns) len
          (K.MLEN - ((newNode a d n0.m_type).m_data + 0)) refs log
          = some (m1, n1, 0, refs1, log1) := e
      rw [e']
      refine ⟨{ ret := m1 :: n1, pool := p, refs := refs1, log := log1 }, m1, n1,
        by simp [m_pullup_fin], rfl, by
        have : 0 + len ≤ m1.m_len := h2
        omega, ?_⟩
      show mbytes mem m1 ++ chainBytes mem n1 = _
      rw [h1]
      simp [mbytes, rd]
    · simp only [if_true]
      have hmv1 : (m_move_pkthdr K { newNode a d n0.m_type with m_len := 0 } n0).1.m_flags.M_EXT
          = false := rfl
      have hmv2 : (m_move_pkthdr K { newNode a d n0.m_type with m_len := 0 } n0).1.m_len = 0 :=
        rfl
      have hmv3 : (m_move_pkthdr K { newNode a d n0.m_type with m_len := 0 } n0).1.m_data
          = K.MLEN - K.MHLEN := by
        simp [m_move_pkthdr, newNode, flags0]
      have hmv4 : chainBytes mem
          ((m_move_pkthdr K { newNode a d n0.m_type with m_len := 0 } n0).2 :: ns)
          = chainBytes mem (n0 :: ns) := rfl
      have hmv5 : totalLen
          ((m_move_pkthdr K { newNode a d n0.m_type with m_len := 0 } n0).2 :: ns)
          = totalLen (n0 :: ns) := rfl
      obtain ⟨m1, n1, refs1, log1, e, h1, h2, _⟩ := m_pullup_loop_ok K mem
        (m_move_pkthdr K { newNode a d n0.m_type with m_len := 0 } n0).1
        ((m_move_pkthdr K { newNode a d n0.m_type with m_len := 0 } n0).2 :: ns) len
        (K.MLEN - ((m_move_pkthdr K { newNode a d n0.m_type with m_len := 0 } n0).1.m_data
          + (m_move_pkthdr K { newNode a d n0.m_type with m_len := 0 } n0).1.m_len))
        refs log hmv1 (by rw [hmv2, hmv3]; omega) (by rw [hmv5]; exact hlen)
      rw [e]
      refine ⟨{ ret := m1 :: n1, pool := p, refs := refs1, log := log1 }, m1, n1,
        by simp [m_pullup_fin], rfl, by rw [hmv2] at h2; omega, ?_⟩
      show mbytes mem m1 ++ chainBytes mem n1 = _
      rw [h1, hmv4]
      simp [mbytes, rd, hmv2]
/-- The end of `m_pullup` after a loop that ran out of chain: `m` is freed too
and NULL is returned. -/
theorem m_pullup_fin_short (m1 : mbuf) (len : Nat) (refs : Refs) (log : List Event)
    (pool : Pool) (hl : 0 < len) :
    m_pullup_fin (some (m1, [], len, refs, log)) pool
      = some { ret := [], pool := pool, refs := (m_free m1 refs log).1,
               log := (m_free m1 refs log).2 } := by
  simp [m_pullup_fin, hl, m_pullup_bad, m_freem]

/-- C23: `m_pullup(C, len)` returns NULL with every node of `C`, and every node
the call took from the pool, handed back once each, when `len` exceeds the
total length of `C`, and also, on the path that allocates a node, when `len`
exceeds `MHLEN` or the allocation fails.  `used` is the stretch of the pool
the call went through, so `poolAddrs used` are the nodes allocated in the
call: the log grows by events whose released addresses are, in some order,
exactly the addresses of the nodes of `C` and of those nodes. -/
theorem m_pullup_failure_releases (K : Consts) (mem : Store) (pool : Pool) (n0 : mbuf)
    (ns : Chain) (len : Nat) (refs : Refs) (log : List Event) (hK : K.MHLEN ≤ K.MLEN)
    (hfail : totalLen (n0 :: ns) < len ∨
      (¬ (n0.m_flags.M_EXT = false ∧ n0.m_data + len < K.MLEN ∧ ns ≠ []) ∧
        (K.MHLEN < len ∨ allocOK pool 1 = false))) :
    ∃ r ev used, m_pullup K mem pool (n0 :: ns) len refs log = some r ∧ r.ret = [] ∧
      r.log = log ++ ev ∧ pool = used ++ r.pool ∧
      List.Perm (released ev) ((n0 :: ns).map (fun n => n.addr) ++ poolAddrs used) := by
  simp only [m_pullup]
  by_cases hin : n0.m_flags.M_EXT = false ∧ n0.m_data + len < K.MLEN ∧ ns.isEmpty = false
  · have hin' : n0.m_flags.M_EXT = false ∧ n0.m_data + len < K.MLEN ∧ ns ≠ [] :=
      ⟨hin.1, hin.2.1, by simpa using hin.2.2⟩
    have hlt : totalLen (n0 :: ns) < len := by
      rcases hfail with h | ⟨h, _⟩
      · exact h
      · exact absurd hin' h
    simp only [totalLen] at hlt
    rw [if_pos hin, if_neg (by omega)]
    obtain ⟨m1, e, h1⟩ := m_pullup_loop_short K mem n0 ns (len - n0.m_len)
      (K.MLEN - (n0.m_data + n0.m_len)) refs log (by omega) (by omega)
    rw [e, m_pullup_fin_short _ _ _ _ _ (by omega)]
    obtain ⟨e1, g1, g2⟩ := m_freem_released ns refs log
    obtain ⟨e2, g3, g4⟩ := m_free_released m1 (m_freem ns refs log).1 (m_freem ns refs log).2
    refine ⟨_, e1 ++ e2, [], rfl, rfl, ?_, rfl, ?_⟩
    · show (m_free m1 _ _).2 = _
      rw [g3, g1, List.append_assoc]
    · rw [released_append, g2, g4, h1]
      simp only [poolAddrs, List.append_nil]
      exact List.perm_append_comm
  · rw [if_neg hin]
    by_cases hbig : len > K.MHLEN
    · rw [if_pos hbig]
      obtain ⟨e1, g1, g2⟩ := m_freem_released (n0 :: ns) refs log
      exact ⟨_, e1, [], rfl, rfl, g1, rfl, by rw [g2]; simp [poolAddrs]⟩
    · rw [if_neg hbig]
      cases pool with
      | nil =>
        obtain ⟨e1, g1, g2⟩ := m_freem_released (n0 :: ns) refs log
        exact ⟨_, e1, [], rfl, rfl, g1, rfl, by rw [g2]; simp [poolAddrs]⟩
      | cons x p =>
        cases x with
        | none =>
          obtain ⟨e1, g1, g2⟩ := m_freem_released (n0 :: ns) refs log
          exact ⟨_, e1, [none], rfl, rfl, g1, rfl, by rw [g2]; simp [poolAddrs]⟩
        | some ad =>
          obtain ⟨a, d⟩ := ad
          have hlt : totalLen (n0 :: ns) < len := by
            rcases hfail with h | ⟨_, h | h⟩
            · exact h
            · omega
            · simp [allocOK] at h
          simp only [m_get]
          have key : ∀ mv : mbuf × mbuf, mv.1.addr = a → mv.1.m_len = 0 →
              mv.1.m_data ≤ K.MLEN - K.MHLEN → mv.2.addr = n0.addr → mv.2.m_len = n0.m_len →
              ∃ r ev used, m_pullup_fin (m_pullup_loop K mem mv.1 (mv.2 :: ns) len
                  (K.MLEN - (mv.1.m_data + mv.1.m_len)) refs log) p = some r ∧ r.ret = [] ∧
                r.log = log ++ ev ∧ some (a, d) :: p = used ++ r.pool ∧
                List.Perm (released ev)
                  ((n0 :: ns).map (fun n => n.addr) ++ poolAddrs used) := by
            intro mv k1 k2 k3 k4 k5
            have ht : totalLen (mv.2 :: ns) < len := by
              simp only [totalLen, k5] at hlt ⊢
              exact hlt
            obtain ⟨m1, e, h1⟩ := m_pullup_loop_short K mem mv.1 (mv.2 :: ns) len
              (K.MLEN - (mv.1.m_data + mv.1.m_len)) refs log (by rw [k2]; omega) ht
            rw [e, m_pullup_fin_short _ _ _ _ _ (by omega)]
            obtain ⟨e1, g1, g2⟩ := m_freem_released (mv.2 :: ns) refs log
            obtain ⟨e2, g3, g4⟩ := m_free_released m1 (m_freem (mv.2 :: ns) refs log).1
              (m_freem (mv.2 :: ns) refs log).2
            refine ⟨_, e1 ++ e2, [some (a, d)], rfl, rfl, ?_, rfl, ?_⟩
            · show (m_free m1 _ _).2 = _
              rw [g3, g1, List.append_assoc]
            · rw [released_append, g2, g4, h1, k1]
              simp only [List.map_cons, k4, poolAddrs]
              exact List.Perm.refl _
          cases hp : n0.m_flags.M_PKTHDR
          · simp only [Bool.false_eq_true, if_false]
            exact key ({ newNode a d n0.m_type with m_len := 0 }, n0) rfl rfl
              (Nat.zero_le _) rfl rfl
          · simp only [if_true]
            exact key (m_move_pkthdr K { newNode a d n0.m_type with m_len := 0 } n0) rfl rfl
              (by simp [m_move_pkthdr, newNode, flags0]) rfl rfl

/-! ## m_defrag -/

theorem rd_wr_apart (s : Store) (q : Nat) (bs : List Byte) (p l : Nat)
    (h : p + l ≤ q ∨ q + bs.length ≤ p) : rd (wr s q bs) p l = rd s p l := by
  simp only [rd]
  apply List.map_congr_left
  intro i hi
  have hi' : i < l := List.mem_range.1 hi
  simp only [wr]
  rw [if_neg]
  omega

theorem covered_cons (b : Nat × Nat) (busy : List (Nat × Nat)) (c : Chain)
    (h : Covered busy c) : Covered (b :: busy) c := by
  intro m hm he
  obtain ⟨x, hx, h1⟩ := h m hm he
  exact ⟨x, List.mem_cons_of_mem _ hx, h1⟩

theorem covered_extRanges (c : Chain) : Covered (extRanges c) c := by
  induction c with
  | nil => intro m hm; cases hm
  | cons x xs ih =>
    intro m hm he
    rcases List.mem_cons.1 hm with rfl | hm
    · exact ⟨(m.m_data, m.m_len), by simp [extRanges, he], Nat.le_refl _, Nat.le_refl _⟩
    · obtain ⟨b, hb, h1⟩ := ih m hm he
      refine ⟨b, ?_, h1⟩
      simp only [extRanges]
      split
      · exact List.mem_cons_of_mem _ hb
      · exact hb

theorem covered_append (busy : List (Nat × Nat)) (a b : Chain) :
    Covered busy (a ++ b) ↔ Covered busy a ∧ Covered busy b := by
  constructor
  · intro h
    exact ⟨fun m hm => h m (List.mem_append_left _ hm),
      fun m hm => h m (List.mem_append_right _ hm)⟩
  · rintro ⟨h1, h2⟩ m hm
    rcases List.mem_append.1 hm with hm | hm
    · exact h1 m hm
    · exact h2 m hm

/-- A store into cluster memory apart from the ranges that cover a chain leaves
the bytes of the chain as they were. -/
theorem chainBytes_wr_apart (mem : Store) (s L : Nat) (bs : List Byte)
    (busy : List (Nat × Nat)) (c : Chain) (ha : Apart s L busy) (hl : bs.length ≤ L)
    (hc : Covered busy c) : chainBytes (wr mem s bs) c = chainBytes mem c := by
  induction c with
  | nil => rfl
  | cons m ms ih =>
    simp only [chainBytes]
    rw [ih (fun x hx => hc x (List.mem_cons_of_mem _ hx))]
    congr 1
    simp only [mbytes, storeOf]
    cases he : m.m_flags.M_EXT
    · rfl
    · simp only [if_true]
      obtain ⟨b, hb, h1, h2⟩ := hc m (List.mem_cons_self _ _) he
      apply rd_wr_apart
      rcases ha b hb with h3 | h3
      · right; omega
      · left; omega

/-- `m_cat` links the chain `[n]` after a chain that ends in a cluster node. -/
theorem m_cat_link (K : Consts) (mem : Store) (pre : Chain) (l n : mbuf) (refs : Refs)
    (log : List Event) (hl : l.m_flags.M_EXT = true) :
    m_cat K mem (pre ++ [l]) [n] refs log = some (pre ++ [l] ++ [n], refs, log) := by
  induction pre with
  | nil => simp [m_cat, m_cat_loop, hl]
  | cons x xs ih =>
    cases hx : xs ++ [l] with
    | nil => simp at hx
    | cons y ys =>
      rw [hx] at ih
      simp only [List.cons_append, hx, m_cat, ih]

theorem passes_step (x M : Nat) (hM : 0 < M) (hx : 0 < x) :
    (x + M - 1) / M = (x - min x M + M - 1) / M + 1 := by
  by_cases h : x ≤ M
  · rw [Nat.min_eq_left h, Nat.sub_self, Nat.zero_add,
      Nat.div_eq_of_lt (by omega : M - 1 < M)]
    apply Nat.div_eq_of_lt_le <;> omega
  · rw [Nat.min_eq_right (by omega), ← Nat.add_div_right _ hM]
    congr 1
    omega
/-- The fill of a new node in `m_defrag` within the chain: the node holds the
`length` bytes from `progress` on. -/
theorem m_defrag_fill_spec (mem : Store) (C : Chain) (progress length : Nat) (n0 : mbuf)
    (h : progress + length ≤ totalLen C) :
    ∃ n mem1, m_defrag_fill mem C progress length n0 = some (n, mem1) ∧
      mbytes mem1 n = ((chainBytes mem C).drop progress).take length ∧
      n.m_len = length ∧ n.m_flags = n0.m_flags ∧ n.m_data = n0.m_data ∧ n.addr = n0.addr ∧
      n.m_pkthdr = n0.m_pkthdr ∧ n.m_ext = n0.m_ext ∧
      (n0.m_flags.M_EXT = true →
        mem1 = wr mem n0.m_data (((chainBytes mem C).drop progress).take length)) ∧
      (n0.m_flags.M_EXT = false → mem1 = mem) := by
  have hbl : (((chainBytes mem C).drop progress).take length).length = length := by
    rw [List.length_take, List.length_drop, chainBytes_length]
    omega
  cases he : n0.m_flags.M_EXT
  · simp only [m_defrag_fill, m_copydata_eq mem C progress length h, he, Bool.false_eq_true,
      if_false]
    refine ⟨_, _, rfl, ?_, rfl, rfl, rfl, rfl, rfl, rfl, ?_, ?_⟩
    · simp only [mbytes, storeOf, he, Bool.false_eq_true, if_false]
      have := rd_wr_self n0.m_dat n0.m_data (((chainBytes mem C).drop progress).take length)
      rw [hbl] at this
      exact this
    · intro hc; cases hc
    · intro _; rfl
  · simp only [m_defrag_fill, m_copydata_eq mem C progress length h, he, if_true]
    refine ⟨_, _, rfl, ?_, rfl, rfl, rfl, rfl, rfl, rfl, ?_, ?_⟩
    · simp only [mbytes, storeOf, he, if_true]
      have := rd_wr_self mem n0.m_data (((chainBytes mem C).drop progress).take length)
      rw [hbl] at this
      exact this
    · intro _; rfl
    · intro hc; cases hc

/-- One pass of the loop of `m_defrag` with a node at hand in the pool: the new
node takes the next `length` bytes and is linked after `m_final`. -/
theorem m_defrag_pass (K : Consts) (cl : Nat → Nat)
    (self : Nat → Chain → Store → Refs → List Event → Option DefragOut)
    (a : Nat) (d : Store) (p : Pool) (C : Chain) (progress : Nat) (m_final : Chain)
    (mem : Store) (refs : Refs) (log : List Event)
    (hlt : progress < totalLen C)
    (hlast : ∃ pre l, m_final = pre ++ [l] ∧ l.m_flags.M_EXT = true) :
    ∃ n mem1,
      m_defrag_body K cl self (some (a, d) :: p) C (totalLen C) progress m_final mem refs log =
        self (progress + min (totalLen C - progress) K.MCLBYTES) (m_final ++ [n]) mem1 refs log ∧
      mbytes mem1 n =
        ((chainBytes mem C).drop progress).take (min (totalLen C - progress) K.MCLBYTES) ∧
      n.m_len = min (totalLen C - progress) K.MCLBYTES ∧ n.addr = a ∧
      n.m_flags.M_PKTHDR = false ∧
      (K.MLEN < min (totalLen C - progress) K.MCLBYTES →
        n.m_flags.M_EXT = true ∧ n.m_data = cl a ∧ n.m_ext.ext_buf = cl a ∧
        n.m_ext.ext_size = K.MCLBYTES ∧
        mem1 = wr mem (cl a)
          (((chainBytes mem C).drop progress).take (min (totalLen C - progress) K.MCLBYTES))) ∧
      (min (totalLen C - progress) K.MCLBYTES ≤ K.MLEN →
        n.m_flags.M_EXT = false ∧ n.m_data = 0 ∧ mem1 = mem) ∧
      n.m_ext.ref_cnt = none := by
  obtain ⟨pre, l, hf, hl⟩ := hlast
  have hle : progress + min (totalLen C - progress) K.MCLBYTES ≤ totalLen C := by
    have := Nat.min_le_left (totalLen C - progress) K.MCLBYTES
    omega
  by_cases hbig : K.MLEN < min (totalLen C - progress) K.MCLBYTES
  · obtain ⟨n, mem1, hfill, hb, hlen, hfl, hdat, haddr, hpk, hext, hm1, _⟩ :=
      m_defrag_fill_spec mem C progress (min (totalLen C - progress) K.MCLBYTES)
        (clNode K a (cl a) d MT_DATA false) hle
    refine ⟨n, mem1, ?_, hb, hlen, ?_, ?_, ?_, ?_, by rw [hext]; rfl⟩
    · have hg : (if min (totalLen C - progress) K.MCLBYTES > K.MLEN
          then m_getcl K cl (some (a, d) :: p) MT_DATA false
          else m_get (some (a, d) :: p) MT_DATA) =
          (some (clNode K a (cl a) d MT_DATA false), p) := by
        rw [if_pos hbig]; rfl
      simp only [m_defrag_body, if_pos hlt, hg, hfill, hf, m_cat_link K mem1 pre l n refs log hl]
    · rw [haddr]; rfl
    · rw [hfl]; rfl
    · intro _
      refine ⟨by rw [hfl]; rfl, by rw [hdat]; rfl, by rw [hext]; rfl, by rw [hext]; rfl, ?_⟩
      exact hm1 rfl
    · intro h; omega
  · obtain ⟨n, mem1, hfill, hb, hlen, hfl, hdat, haddr, hpk, hext, _, hm1⟩ :=
      m_defrag_fill_spec mem C progress (min (totalLen C - progress) K.MCLBYTES)
        (newNode a d MT_DATA) hle
    refine ⟨n, mem1, ?_, hb, hlen, ?_, ?_, ?_, ?_, by rw [hext]; rfl⟩
    · have hg : (if min (totalLen C - progress) K.MCLBYTES > K.MLEN
          then m_getcl K cl (some (a, d) :: p) MT_DATA false
          else m_get (some (a, d) :: p) MT_DATA) =
          (some (newNode a d MT_DATA), p) := by
        rw [if_neg hbig]; rfl
      simp only [m_defrag_body, if_pos hlt, hg, hfill, hf, m_cat_link K mem1 pre l n refs log hl]
    · rw [haddr]; rfl
    · rw [hfl]; rfl
    · intro h; exact absurd h hbig
    · intro _
      exact ⟨by rw [hfl]; rfl, by rw [hdat]; rfl, hm1 rfl⟩

theorem passes_zero (M : Nat) (hM : 0 < M) : (0 + M - 1) / M = 0 := by
  apply Nat.div_eq_of_lt
  omega

/-- The loop of `m_defrag` from any of its states: it ends, leaves the nodes of
the source chain and their bytes as they are, and either every allocation
succeeds and the new chain holds the bytes of the source in
`ceil((total - progress) / MCLBYTES)` further nodes, the source being freed, or
one fails and the nodes allocated so far are freed. -/
theorem m_defrag_loop_spec (K : Consts) (cl : Nat → Nat) (C : Chain) (mem : Store)
    (hM : 0 < K.MCLBYTES) (hK2 : K.MLEN < K.MCLBYTES)
    (pool : Pool) (progress : Nat) (m_final : Chain) (mem1 : Store)
    (busy : List (Nat × Nat)) (refs : Refs) (log : List Event)
    (hp : progress ≤ totalLen C)
    (hbytes : chainBytes mem1 m_final = (chainBytes mem C).take progress)
    (hC : chainBytes mem1 C = chainBytes mem C)
    (hcovC : Covered busy C) (hcovF : Covered busy m_final)
    (hfresh : FreshPool K cl busy pool)
    (hlast : progress < totalLen C →
      ∃ pre l, m_final = pre ++ [l] ∧ l.m_flags.M_EXT = true) :
    ∃ r used tl,
      m_defrag_loop K cl C (totalLen C) pool progress m_final mem1 refs log = some r ∧
      pool = used ++ r.pool ∧ poolAddrs used = tl.map (fun n => n.addr) ∧
      (∀ n, n ∈ tl → n.m_ext.ref_cnt = none) ∧
      r.src = C ∧ chainBytes r.mem C = chainBytes mem C ∧
      (allocOK pool ((totalLen C - progress + K.MCLBYTES - 1) / K.MCLBYTES) = true →
        r.ret = m_final ++ tl ∧
        tl.length = (totalLen C - progress + K.MCLBYTES - 1) / K.MCLBYTES ∧
        chainBytes r.mem r.ret = chainBytes mem C ∧
        r.refs = (m_freem C refs log).1 ∧ r.log = (m_freem C refs log).2) ∧
      (allocOK pool ((totalLen C - progress + K.MCLBYTES - 1) / K.MCLBYTES) = false →
        r.ret = [] ∧ r.refs = (m_freem (m_final ++ tl) refs log).1 ∧
        r.log = (m_freem (m_final ++ tl) refs log).2) := by
  induction pool generalizing progress m_final mem1 busy with
  | nil =>
    by_cases hlt : progress < totalLen C
    · refine ⟨m_defrag_nospace C m_final mem1 [] refs log, [], [], ?_, rfl, rfl,
        (by intro n hn; cases hn), rfl, hC, ?_, ?_⟩
      · simp only [m_defrag_loop, m_defrag_body, if_pos hlt]
        split_ifs <;> rfl
      · intro h
        rw [passes_step _ _ hM (by omega)] at h
        simp [allocOK] at h
      · intro _
        simp [m_defrag_nospace]
    · have he : totalLen C - progress = 0 := by omega
      refine ⟨{ ret := m_final, src := C, mem := mem1, pool := [],
                refs := (m_freem C refs log).1, log := (m_freem C refs log).2 },
        [], [], ?_, rfl, rfl, (by intro n hn; cases hn), rfl, hC, ?_, ?_⟩
      · simp only [m_defrag_loop, m_defrag_body, if_neg hlt]
      · intro _
        refine ⟨by simp, ?_, ?_, rfl, rfl⟩
        · rw [he, passes_zero _ hM]; rfl
        · simp only [List.append_nil]
          rw [hbytes, List.take_of_length_le]
          rw [chainBytes_length]; omega
      · intro h
        rw [he, passes_zero _ hM] at h
        simp [allocOK] at h
  | cons x p ih =>
    by_cases hlt : progress < totalLen C
    · have hps := passes_step (totalLen C - progress) K.MCLBYTES hM (by omega)
      cases x with
      | none =>
        refine ⟨m_defrag_nospace C m_final mem1 p refs log, [none], [], ?_, rfl, rfl,
          (by intro n hn; cases hn), rfl, hC, ?_, ?_⟩
        · simp only [m_defrag_loop, m_defrag_body, if_pos hlt]
          split_ifs <;> rfl
        · intro h
          rw [hps] at h
          simp [allocOK] at h
        · intro _
          simp [m_defrag_nospace]
      | some x =>
        obtain ⟨a, d⟩ := x
        obtain ⟨n, mem2, hpass, hb, hlen, haddr, hpk, hbig, hsmall, hrc⟩ :=
          m_defrag_pass K cl (m_defrag_loop K cl C (totalLen C) p) a d p C progress m_final
            mem1 refs log hlt (hlast hlt)
        have hle : progress + min (totalLen C - progress) K.MCLBYTES ≤ totalLen C := by
          have := Nat.min_le_left (totalLen C - progress) K.MCLBYTES
          omega
        have hbl : (((chainBytes mem1 C).drop progress).take
            (min (totalLen C - progress) K.MCLBYTES)).length ≤ K.MCLBYTES := by
          rw [List.length_take]
          exact Nat.le_trans (Nat.min_le_left _ _) (Nat.min_le_right _ _)
        have hfr : Apart (cl a) K.MCLBYTES busy ∧
            FreshPool K cl ((cl a, K.MCLBYTES) :: busy) p := hfresh
        have hmem : ∀ c, Covered busy c → chainBytes mem2 c = chainBytes mem1 c := by
          intro c hc
          by_cases hbg : K.MLEN < min (totalLen C - progress) K.MCLBYTES
          · rw [(hbig hbg).2.2.2.2]
            exact chainBytes_wr_apart mem1 (cl a) K.MCLBYTES _ busy c hfr.1 hbl hc
          · rw [(hsmall (by omega)).2.2]
        have hcovN : Covered ((cl a, K.MCLBYTES) :: busy) [n] := by
          intro m hm he
          rw [List.mem_singleton] at hm
          subst hm
          by_cases hbg : K.MLEN < min (totalLen C - progress) K.MCLBYTES
          · refine ⟨(cl a, K.MCLBYTES), List.mem_cons_self _ _, ?_, ?_⟩
            · rw [(hbig hbg).2.1]
            · rw [(hbig hbg).2.1, hlen]
              exact Nat.add_le_add_left (Nat.min_le_right _ _) _
          · rw [(hsmall (by omega)).1] at he
            cases he
        obtain ⟨r, used, tl, hr, hpool, hused, hrcs, hsrc, hCr, hok, hbad⟩ :=
          ih (progress + min (totalLen C - progress) K.MCLBYTES) (m_final ++ [n]) mem2
            ((cl a, K.MCLBYTES) :: busy) hle
            (by
              rw [chainBytes_append, hmem m_final hcovF, hbytes]
              simp only [chainBytes, List.append_nil]
              rw [hb, hC, List.take_add])
            (by rw [hmem C hcovC, hC])
            (covered_cons _ _ _ hcovC)
            ((covered_append _ _ _).2 ⟨covered_cons _ _ _ hcovF, hcovN⟩)
            hfr.2
            (by
              intro h2
              refine ⟨m_final, n, rfl, ?_⟩
              apply (hbig ?_).1
              have h3 : min (totalLen C - progress) K.MCLBYTES = K.MCLBYTES := by
                apply Nat.min_eq_right
                by_contra hc
                rw [Nat.min_eq_left (by omega)] at h2
                omega
              rw [h3]
              exact hK2)
        have hsub : totalLen C - (progress + min (totalLen C - progress) K.MCLBYTES) =
            totalLen C - progress - min (totalLen C - progress) K.MCLBYTES := by
          rw [Nat.sub_sub]
        rw [hsub] at hok hbad
        refine ⟨r, some (a, d) :: used, n :: tl, ?_, ?_, ?_, ?_, hsrc, hCr, ?_, ?_⟩
        · rw [← hr, ← hpass]
          rfl
        · rw [List.cons_append, ← hpool]
        · simp only [poolAddrs, List.map_cons, hused, haddr]
        · intro x hx
          rcases List.mem_cons.1 hx with rfl | hx
          · exact hrc
          · exact hrcs x hx
        · intro h
          rw [hps] at h ⊢
          obtain ⟨h1, h2, h3, h4, h5⟩ := hok (by simpa [allocOK] using h)
          refine ⟨?_, ?_, h3, h4, h5⟩
          · rw [h1, List.append_assoc]; rfl
          · rw [List.length_cons, h2]
        · intro h
          rw [hps] at h
          obtain ⟨h1, h2, h3⟩ := hbad (by simpa [allocOK] using h)
          refine ⟨h1, ?_, ?_⟩
          · rw [h2, List.append_assoc]; rfl
          · rw [h3, List.append_assoc]; rfl
    · have he : totalLen C - progress = 0 := by omega
      refine ⟨{ ret := m_final, src := C, mem := mem1, pool := x :: p,
                refs := (m_freem C refs log).1, log := (m_freem C refs log).2 },
        [], [], ?_, rfl, rfl, (by intro n hn; cases hn), rfl, hC, ?_, ?_⟩
      · simp only [m_defrag_loop, m_defrag_body, if_neg hlt]
      · intro _
        refine ⟨by simp, ?_, ?_, rfl, rfl⟩
        · rw [he, passes_zero _ hM]; rfl
        · simp only [List.append_nil]
          rw [hbytes, List.take_of_length_le]
          rw [chainBytes_length]; omega
      · intro h
        rw [he, passes_zero _ hM] at h
        simp [allocOK] at h

/-- The first pass of `m_defrag` when the first allocation and the copy of the
tags succeed: the loop goes on with one node that holds the first
`min total MCLBYTES` bytes and the packet header of the source. -/
theorem m_defrag_first (K : Consts) (cl : Nat → Nat) (a : Nat) (d : Store) (p : Pool)
    (h : mbuf) (t : Chain) (mem : Store) (refs : Refs) (log : List Event)
    (hh : h.m_flags.M_PKTHDR = true) :
    ∃ n mem1,
      m_defrag K cl true (some (a, d) :: p) (h :: t) mem refs log =
        m_defrag_loop K cl (set_pkthdr_len h (totalLen (h :: t)) :: t) (totalLen (h :: t)) p
          (min (totalLen (h :: t)) K.MCLBYTES) [n] mem1 refs log ∧
      mbytes mem1 n = (chainBytes mem (h :: t)).take (min (totalLen (h :: t)) K.MCLBYTES) ∧
      n.m_len = min (totalLen (h :: t)) K.MCLBYTES ∧ n.addr = a ∧
      n.m_flags.M_PKTHDR = true ∧
      n.m_pkthdr = { h.m_pkthdr with len := (totalLen (h :: t) : Int) } ∧
      (K.MHLEN < totalLen (h :: t) →
        n.m_flags.M_EXT = true ∧ n.m_data = cl a ∧
        mem1 = wr mem (cl a)
          ((chainBytes mem (h :: t)).take (min (totalLen (h :: t)) K.MCLBYTES))) ∧
      (totalLen (h :: t) ≤ K.MHLEN → n.m_flags.M_EXT = false ∧ mem1 = mem) ∧
      n.m_ext.ref_cnt = none := by
  have hC1 : totalLen (set_pkthdr_len h (totalLen (h :: t)) :: t) = totalLen (h :: t) := rfl
  have hB1 : chainBytes mem (set_pkthdr_len h (totalLen (h :: t)) :: t) =
      chainBytes mem (h :: t) := rfl
  have hfix : (m_fixhdr (h :: t)).2 = totalLen (h :: t) := rfl
  have hlen1 : (set_pkthdr_len h (totalLen (h :: t))).m_pkthdr.len =
      ((totalLen (h :: t) : Nat) : Int) := rfl
  have hne : ¬ (h.m_flags.M_PKTHDR = false) := by rw [hh]; decide
  by_cases hbig : K.MHLEN < totalLen (h :: t)
  · have hpos : 0 < totalLen (h :: t) := by omega
    have hcmp : ((totalLen (h :: t) : Nat) : Int) > (K.MHLEN : Int) := by
      exact_mod_cast hbig
    obtain ⟨n, mem1, hfill, hb, hl, hfl, hdat, haddr, hpk, hext, hm1, _⟩ :=
      m_defrag_fill_spec mem (set_pkthdr_len h (totalLen (h :: t)) :: t) 0
        (min (totalLen (h :: t)) K.MCLBYTES)
        (m_dup_pkthdr K (clNode K a (cl a) d MT_DATA true)
          (set_pkthdr_len h (totalLen (h :: t))) true).1
        (by rw [hC1, Nat.zero_add]; exact Nat.min_le_left _ _)
    rw [hB1, List.drop_zero] at hb hm1
    refine ⟨n, mem1, ?_, hb, hl, by rw [haddr]; rfl, ?_, by rw [hpk]; rfl, ?_, ?_,
        by rw [hext]; rfl⟩
    · simp only [m_defrag, if_neg hne, hfix, hlen1, if_pos hcmp, m_getcl, Int.toNat_ofNat,
        if_pos hpos, hfill]
      simp [m_dup_pkthdr]
    · rw [hfl]; simp [m_dup_pkthdr, copyflags, hh, set_pkthdr_len]
    · intro _
      refine ⟨by rw [hfl]; rfl, by rw [hdat]; rfl, hm1 rfl⟩
    · intro hc; omega
  · have hcmp : ¬ (((totalLen (h :: t) : Nat) : Int) > (K.MHLEN : Int)) := by
      intro hc
      exact hbig (by exact_mod_cast hc)
    by_cases hpos : 0 < totalLen (h :: t)
    · obtain ⟨n, mem1, hfill, hb, hl, hfl, hdat, haddr, hpk, hext, _, hm1⟩ :=
        m_defrag_fill_spec mem (set_pkthdr_len h (totalLen (h :: t)) :: t) 0
          (min (totalLen (h :: t)) K.MCLBYTES)
          (m_dup_pkthdr K (newHdrNode K a d MT_DATA)
            (set_pkthdr_len h (totalLen (h :: t))) true).1
          (by rw [hC1, Nat.zero_add]; exact Nat.min_le_left _ _)
      rw [hB1, List.drop_zero] at hb
      refine ⟨n, mem1, ?_, hb, hl, by rw [haddr]; rfl, ?_, by rw [hpk]; rfl, ?_, ?_,
        by rw [hext]; rfl⟩
      · simp only [m_defrag, if_neg hne, hfix, hlen1, if_neg hcmp, m_gethdr, Int.toNat_ofNat,
          if_pos hpos, hfill]
        simp [m_dup_pkthdr]
      · rw [hfl]; simp [m_dup_pkthdr, copyflags, hh, set_pkthdr_len]
      · intro hc; exact absurd hc hbig
      · intro _
        exact ⟨by rw [hfl]; rfl, hm1 rfl⟩
    · have hz : totalLen (h :: t) = 0 := by omega
      refine ⟨(m_dup_pkthdr K (newHdrNode K a d MT_DATA)
            (set_pkthdr_len h (totalLen (h :: t))) true).1, mem, ?_, ?_, ?_, rfl, ?_, rfl, ?_, ?_,
        rfl⟩
      · simp only [m_defrag, if_neg hne, hfix, hlen1, if_neg hcmp, m_gethdr, Int.toNat_ofNat,
          if_neg hpos]
        rw [hz]
        simp [m_dup_pkthdr]
      · rw [hz]; simp [mbytes, rd, m_dup_pkthdr, newHdrNode, newNode]
      · rw [hz, Nat.zero_min]; rfl
      · simp [m_dup_pkthdr, copyflags, hh, set_pkthdr_len]
      · intro hc; exact absurd hc hbig
      · intro _; exact ⟨rfl, rfl⟩

theorem passes_first (T M : Nat) (hM : 0 < M) :
    max 1 ((T + M - 1) / M) = (T - min T M + M - 1) / M + 1 := by
  by_cases hT : 0 < T
  · rw [passes_step T M hM hT]
    exact Nat.max_eq_right (Nat.le_add_left 1 _)
  · have hz : T = 0 := by omega
    subst hz
    rw [passes_zero M hM, Nat.zero_min, Nat.sub_zero, passes_zero M hM]
    rfl

/-- `m_defrag` on a chain with a packet header, whatever the pool: the call
returns, the nodes of the source keep their bytes and all but the header length
of the first, which is now the sum of the node lengths; when the copy of the
tags and `max 1 ceil(total / MCLBYTES)` allocations succeed the result is a
chain of that many new nodes with the bytes and the packet header of the source,
which has been freed; otherwise the result is NULL and the new nodes have been
freed. -/
theorem m_defrag_spec (K : Consts) (cl : Nat → Nat) (tags_ok : Bool) (pool : Pool)
    (h : mbuf) (t : Chain) (mem : Store) (refs : Refs) (log : List Event)
    (hM : 0 < K.MCLBYTES) (hK : K.MHLEN ≤ K.MLEN) (hK2 : K.MLEN < K.MCLBYTES)
    (hh : h.m_flags.M_PKTHDR = true)
    (hfresh : FreshPool K cl (extRanges (h :: t)) pool) :
    ∃ r used new,
      m_defrag K cl tags_ok pool (h :: t) mem refs log = some r ∧
      pool = used ++ r.pool ∧ poolAddrs used = new.map (fun n => n.addr) ∧
      (∀ n, n ∈ new → n.m_ext.ref_cnt = none) ∧
      r.src = set_pkthdr_len h (totalLen (h :: t)) :: t ∧
      chainBytes r.mem (h :: t) = chainBytes mem (h :: t) ∧
      ((tags_ok = true ∧
          allocOK pool (max 1 ((totalLen (h :: t) + K.MCLBYTES - 1) / K.MCLBYTES)) = true) →
        r.ret = new ∧
        new.length = max 1 ((totalLen (h :: t) + K.MCLBYTES - 1) / K.MCLBYTES) ∧
        chainBytes r.mem r.ret = chainBytes mem (h :: t) ∧
        (∃ f rest, new = f :: rest ∧ f.m_flags.M_PKTHDR = true ∧
          f.m_pkthdr = { h.m_pkthdr with len := (totalLen (h :: t) : Int) }) ∧
        r.refs = (m_freem (h :: t) refs log).1 ∧ r.log = (m_freem (h :: t) refs log).2) ∧
      (¬ (tags_ok = true ∧
          allocOK pool (max 1 ((totalLen (h :: t) + K.MCLBYTES - 1) / K.MCLBYTES)) = true) →
        r.ret = [] ∧ r.refs = (m_freem new refs log).1 ∧
        r.log = (m_freem new refs log).2) := by
  have hfix : (m_fixhdr (h :: t)).2 = totalLen (h :: t) := rfl
  have hne : ¬ (h.m_flags.M_PKTHDR = false) := by rw [hh]; decide
  have hpf := passes_first (totalLen (h :: t)) K.MCLBYTES hM
  have hfail : ∀ (p : Pool) (x : Option mbuf),
      (if (set_pkthdr_len h (totalLen (h :: t))).m_pkthdr.len > (K.MHLEN : Int)
        then ((none : Option mbuf), p) else (none, p)) = (none, p) := by
    intro p _; split_ifs <;> rfl
  match pool, hfresh with
  | [], _ =>
    refine ⟨m_defrag_nospace (set_pkthdr_len h (totalLen (h :: t)) :: t) [] mem [] refs log,
      [], [], ?_, rfl, rfl, (by intro n hn; cases hn), rfl, rfl, ?_, ?_⟩
    · simp only [m_defrag, if_neg hne, hfix, m_getcl, m_gethdr, hfail [] none]
    · rintro ⟨_, h2⟩
      rw [hpf] at h2
      simp [allocOK] at h2
    · intro _; exact ⟨rfl, rfl, rfl⟩
  | none :: p, _ =>
    refine ⟨m_defrag_nospace (set_pkthdr_len h (totalLen (h :: t)) :: t) [] mem p refs log,
      [none], [], ?_, rfl, rfl, (by intro n hn; cases hn), rfl, rfl, ?_, ?_⟩
    · simp only [m_defrag, if_neg hne, hfix, m_getcl, m_gethdr, hfail p none]
    · rintro ⟨_, h2⟩
      rw [hpf] at h2
      simp [allocOK] at h2
    · intro _; exact ⟨rfl, rfl, rfl⟩
  | some (a, d) :: p, hfresh =>
    cases tags_ok with
    | false =>
      have hsome : ∀ (x y : mbuf),
          ∃ mf, (if (set_pkthdr_len h (totalLen (h :: t))).m_pkthdr.len > (K.MHLEN : Int)
            then (some (clNode K a (cl a) d MT_DATA true), p)
            else (some (newHdrNode K a d MT_DATA), p)) = (some mf, p) ∧ mf.addr = a ∧
            mf.m_ext.ref_cnt = none := by
        intro _ _; split_ifs
        · exact ⟨_, rfl, rfl, rfl⟩
        · exact ⟨_, rfl, rfl, rfl⟩
      obtain ⟨mf, hmf, hmfa, hmfr⟩ := hsome h h
      refine ⟨m_defrag_nospace (set_pkthdr_len h (totalLen (h :: t)) :: t)
          [(m_dup_pkthdr K mf (set_pkthdr_len h (totalLen (h :: t))) false).1] mem p refs log,
        [some (a, d)], [(m_dup_pkthdr K mf (set_pkthdr_len h (totalLen (h :: t))) false).1],
        ?_, rfl, ?_, ?_, rfl, rfl, ?_, ?_⟩
      · simp only [m_defrag, if_neg hne, hfix, m_getcl, m_gethdr, hmf]
        simp [m_dup_pkthdr]
      · simp [poolAddrs, m_dup_pkthdr, hmfa]
      · intro x hx
        rw [List.mem_singleton] at hx
        subst hx
        simpa [m_dup_pkthdr] using hmfr
      · rintro ⟨h1, _⟩; cases h1
      · intro _; exact ⟨rfl, rfl, rfl⟩
    | true =>
      obtain ⟨n, mem1, hrun, hb, hlen, haddr, hpk, hhdr, hbig, hsmall, hrc⟩ :=
        m_defrag_first K cl a d p h t mem refs log hh
      have hfr : Apart (cl a) K.MCLBYTES (extRanges (h :: t)) ∧
          FreshPool K cl ((cl a, K.MCLBYTES) :: extRanges (h :: t)) p := hfresh
      have hcov1 : Covered (extRanges (h :: t)) (set_pkthdr_len h (totalLen (h :: t)) :: t) :=
        covered_extRanges (set_pkthdr_len h (totalLen (h :: t)) :: t)
      have hmin : min (totalLen (h :: t)) K.MCLBYTES ≤ K.MCLBYTES := Nat.min_le_right _ _
      have hmem : chainBytes mem1 (set_pkthdr_len h (totalLen (h :: t)) :: t) =
          chainBytes mem (set_pkthdr_len h (totalLen (h :: t)) :: t) := by
        by_cases hc : K.MHLEN < totalLen (h :: t)
        · rw [(hbig hc).2.2]
          refine chainBytes_wr_apart mem (cl a) K.MCLBYTES _ _ _ hfr.1 ?_ hcov1
          rw [List.length_take]
          exact Nat.le_trans (Nat.min_le_left _ _) hmin
        · rw [(hsmall (by omega)).2]
      have hcovN : Covered ((cl a, K.MCLBYTES) :: extRanges (h :: t)) [n] := by
        intro m hm he
        rw [List.mem_singleton] at hm
        subst hm
        by_cases hc : K.MHLEN < totalLen (h :: t)
        · refine ⟨(cl a, K.MCLBYTES), List.mem_cons_self _ _, ?_, ?_⟩
          · rw [(hbig hc).2.1]
          · rw [(hbig hc).2.1, hlen]
            exact Nat.add_le_add_left hmin _
        · rw [(hsmall (by omega)).1] at he
          cases he
      obtain ⟨r, used, tl, hr, hpool, hused, hrcs, hsrc, hCr, hok, hbad⟩ :=
        m_defrag_loop_spec K cl (set_pkthdr_len h (totalLen (h :: t)) :: t) mem hM hK2 p
          (min (totalLen (h :: t)) K.MCLBYTES) [n] mem1
          ((cl a, K.MCLBYTES) :: extRanges (h :: t)) refs log
          (Nat.min_le_left _ _)
          (by simp only [chainBytes, List.append_nil]; exact hb)
          hmem (covered_cons _ _ _ hcov1) hcovN hfr.2
          (by
            intro h2
            refine ⟨[], n, rfl, (hbig ?_).1⟩
            have h3 : totalLen (set_pkthdr_len h (totalLen (h :: t)) :: t) =
                totalLen (h :: t) := rfl
            rw [h3] at h2
            have h4 : min (totalLen (h :: t)) K.MCLBYTES = K.MCLBYTES := by
              apply Nat.min_eq_right
              by_contra hc
              rw [Nat.min_eq_left (by omega)] at h2
              omega
            omega)
      have h3 : totalLen (set_pkthdr_len h (totalLen (h :: t)) :: t) = totalLen (h :: t) := rfl
      have h4 : chainBytes mem (set_pkthdr_len h (totalLen (h :: t)) :: t) =
          chainBytes mem (h :: t) := rfl
      have h5 : chainBytes r.mem (set_pkthdr_len h (totalLen (h :: t)) :: t) =
          chainBytes r.mem (h :: t) := rfl
      have h6 : m_freem (set_pkthdr_len h (totalLen (h :: t)) :: t) refs log =
          m_freem (h :: t) refs log := rfl
      rw [h3] at hok hbad hr
      rw [h4, h5] at hCr
      rw [h4, h6] at hok
      refine ⟨r, some (a, d) :: used, n :: tl, ?_, ?_, ?_, ?_, hsrc, hCr, ?_, ?_⟩
      · rw [hrun, hr]
      · rw [List.cons_append, ← hpool]
      · simp only [poolAddrs, List.map_cons, hused, haddr]
      · intro x hx
        rcases List.mem_cons.1 hx with rfl | hx
        · exact hrc
        · exact hrcs x hx
      · rintro ⟨_, h2⟩
        rw [hpf] at h2 ⊢
        obtain ⟨e1, e2, e3, e4, e5⟩ := hok (by simpa [allocOK] using h2)
        refine ⟨e1, by rw [List.length_cons, e2], e3, ⟨n, tl, rfl, hpk, hhdr⟩, e4, e5⟩
      · intro h2
        have h7 : allocOK (some (a, d) :: p)
            (max 1 ((totalLen (h :: t) + K.MCLBYTES - 1) / K.MCLBYTES)) = false := by
          cases hc : allocOK (some (a, d) :: p)
            (max 1 ((totalLen (h :: t) + K.MCLBYTES - 1) / K.MCLBYTES))
          · rfl
          · exact absurd ⟨rfl, hc⟩ h2
        rw [hpf] at h7
        exact hbad (by simpa [allocOK] using h7)

theorem m_free_refs_none (m : mbuf) (refs : Refs) (log : List Event)
    (h : m.m_ext.ref_cnt = none) : (m_free m refs log).1 = refs := by
  unfold m_free mb_free_ext
  simp only [h]
  split_ifs <;> rfl

theorem m_freem_refs_none (c : Chain) (refs : Refs) (log : List Event)
    (h : ∀ n, n ∈ c → n.m_ext.ref_cnt = none) : (m_freem c refs log).1 = refs := by
  induction c generalizing refs log with
  | nil => rfl
  | cons m ms ih =>
    simp only [m_freem]
    rw [ih _ _ (fun n hn => h n (List.mem_cons_of_mem _ hn)),
      m_free_refs_none m refs log (h m (List.mem_cons_self _ _))]

theorem set_pkthdr_len_same (h : mbuf) (n : Nat) (hl : h.m_pkthdr.len = (n : Int)) :
    set_pkthdr_len h n = h := by
  unfold set_pkthdr_len
  apply mbuf_pkthdr_eta
  rw [← hl]

theorem totalLen_le_length_mul (M : Nat) (c : Chain) (h : ∀ m, m ∈ c → m.m_len ≤ M) :
    totalLen c ≤ c.length * M := by
  induction c with
  | nil => simp [totalLen]
  | cons x xs ih =>
    have h1 := h x (List.mem_cons_self _ _)
    have h2 := ih (fun m hm => h m (List.mem_cons_of_mem _ hm))
    simp only [totalLen, List.length_cons, Nat.add_mul, Nat.one_mul]
    omega

/-- C25: `m_defrag` on a chain `h :: t` with nodes and clusters at hand (the
clusters being apart from the data of the chain).  With a packet header, and
the tags copied, the call returns a chain whose bytes are those of `h :: t`,
whose first node has a packet header, and whose header length is the sum of
the node lengths of `h :: t` and of the result.  Without a packet header the
chain is returned as it is and nothing else changes. -/
theorem m_defrag_preserves (K : Consts) (cl : Nat → Nat) (tags_ok : Bool) (pool : Pool)
    (h : mbuf) (t : Chain) (mem : Store) (refs : Refs) (log : List Event)
    (hM : 0 < K.MCLBYTES) (hK : K.MHLEN ≤ K.MLEN) (hK2 : K.MLEN < K.MCLBYTES)
    (hfresh : FreshPool K cl (extRanges (h :: t)) pool)
    (hok : allocOK pool (max 1 ((totalLen (h :: t) + K.MCLBYTES - 1) / K.MCLBYTES)) = true) :
    (h.m_flags.M_PKTHDR = true →
      ∃ r f rest, m_defrag K cl true pool (h :: t) mem refs log = some r ∧
        r.ret = f :: rest ∧ chainBytes r.mem r.ret = chainBytes mem (h :: t) ∧
        f.m_flags.M_PKTHDR = true ∧
        f.m_pkthdr.len = (totalLen (h :: t) : Int) ∧
        f.m_pkthdr.len = (totalLen r.ret : Int)) ∧
    (h.m_flags.M_PKTHDR = false →
      m_defrag K cl tags_ok pool (h :: t) mem refs log =
        some { ret := h :: t, src := h :: t, mem := mem, pool := pool, refs := refs,
               log := log }) := by
  constructor
  · intro hh
    obtain ⟨r, used, new, hr, _, _, _, _, _, hgood, _⟩ :=
      m_defrag_spec K cl true pool h t mem refs log hM hK hK2 hh hfresh
    obtain ⟨e1, _, e3, ⟨f, rest, e4, e5, e6⟩, _, _⟩ := hgood ⟨rfl, hok⟩
    have e7 : totalLen r.ret = totalLen (h :: t) := by
      rw [← chainBytes_length r.mem r.ret, e3, chainBytes_length]
    refine ⟨r, f, rest, hr, by rw [e1, e4], e3, e5, by rw [e6], by rw [e6, e7]⟩
  · intro hh
    simp only [m_defrag, hh, if_true]

/-- C26, amended: when no node of the chain `h :: t` holds more than `MCLBYTES`
bytes, the chain `m_defrag` returns has `max 1 ceil(total / MCLBYTES)` nodes,
which is at most the number of nodes of `h :: t`. -/
theorem m_defrag_node_count (K : Consts) (cl : Nat → Nat) (pool : Pool)
    (h : mbuf) (t : Chain) (mem : Store) (refs : Refs) (log : List Event)
    (hM : 0 < K.MCLBYTES) (hK : K.MHLEN ≤ K.MLEN) (hK2 : K.MLEN < K.MCLBYTES)
    (hh : h.m_flags.M_PKTHDR = true)
    (hfresh : FreshPool K cl (extRanges (h :: t)) pool)
    (hok : allocOK pool (max 1 ((totalLen (h :: t) + K.MCLBYTES - 1) / K.MCLBYTES)) = true)
    (hsmall : ∀ m, m ∈ h :: t → m.m_len ≤ K.MCLBYTES) :
    ∃ r, m_defrag K cl true pool (h :: t) mem refs log = some r ∧
      r.ret.length = max 1 ((totalLen (h :: t) + K.MCLBYTES - 1) / K.MCLBYTES) ∧
      r.ret.length ≤ (h :: t).length := by
  obtain ⟨r, used, new, hr, _, _, _, _, _, hgood, _⟩ :=
    m_defrag_spec K cl true pool h t mem refs log hM hK hK2 hh hfresh
  obtain ⟨e1, e2, _⟩ := hgood ⟨rfl, hok⟩
  refine ⟨r, hr, by rw [e1, e2], ?_⟩
  rw [e1, e2]
  have h1 := totalLen_le_length_mul K.MCLBYTES (h :: t) hsmall
  have h2 : (totalLen (h :: t) + K.MCLBYTES - 1) / K.MCLBYTES ≤ (h :: t).length := by
    apply Nat.le_of_lt_succ
    rw [Nat.div_lt_iff_lt_mul hM, Nat.succ_mul]
    omega
  have h3 : 1 ≤ (h :: t).length := by simp
  exact Nat.max_le.2 ⟨h3, h2⟩

/-- C27: when the copy of the tags or one of the `max 1 ceil(total / MCLBYTES)`
allocations of `m_defrag` fails, the call returns NULL, the nodes it has
allocated are handed back, and the chain `h :: t` keeps its nodes, its bytes
and its counters; but `m_fixhdr` has run before the first allocation, so the
header length of the first node is now the sum of the node lengths: the chain
is as before when the header length was that sum and is not as before when it
was not, against the comment at the head of `m_defrag`, "the passed in chain
will be unchanged". -/
theorem m_defrag_all_or_nothing (K : Consts) (cl : Nat → Nat) (tags_ok : Bool) (pool : Pool)
    (h : mbuf) (t : Chain) (mem : Store) (refs : Refs) (log : List Event)
    (hM : 0 < K.MCLBYTES) (hK : K.MHLEN ≤ K.MLEN) (hK2 : K.MLEN < K.MCLBYTES)
    (hh : h.m_flags.M_PKTHDR = true)
    (hfresh : FreshPool K cl (extRanges (h :: t)) pool)
    (hfail : tags_ok = false ∨
      allocOK pool (max 1 ((totalLen (h :: t) + K.MCLBYTES - 1) / K.MCLBYTES)) = false) :
    ∃ r used ev, m_defrag K cl tags_ok pool (h :: t) mem refs log = some r ∧
      r.ret = [] ∧
      pool = used ++ r.pool ∧ r.log = log ++ ev ∧ released ev = poolAddrs used ∧
      r.src = set_pkthdr_len h (totalLen (h :: t)) :: t ∧
      (h.m_pkthdr.len = (totalLen (h :: t) : Int) → r.src = h :: t) ∧
      (h.m_pkthdr.len ≠ (totalLen (h :: t) : Int) → r.src ≠ h :: t) ∧
      chainBytes r.mem (h :: t) = chainBytes mem (h :: t) ∧ r.refs = refs := by
  obtain ⟨r, used, new, hr, hpool, hused, hrc, hsrc, hC, _, hbad⟩ :=
    m_defrag_spec K cl tags_ok pool h t mem refs log hM hK hK2 hh hfresh
  have hno : ¬ (tags_ok = true ∧
      allocOK pool (max 1 ((totalLen (h :: t) + K.MCLBYTES - 1) / K.MCLBYTES)) = true) := by
    rintro ⟨h1, h2⟩
    rcases hfail with h3 | h3
    · rw [h3] at h1; cases h1
    · rw [h3] at h2; cases h2
  obtain ⟨e1, e2, e3⟩ := hbad hno
  obtain ⟨ev, g1, g2⟩ := m_freem_released new refs log
  refine ⟨r, used, ev, hr, e1, hpool, by rw [e3, g1], by rw [g2, hused], hsrc, ?_, ?_, hC, ?_⟩
  · intro hl
    rw [hsrc, set_pkthdr_len_same h _ hl]
  · intro hl hc
    apply hl
    rw [hsrc] at hc
    have hc1 := (List.cons.inj hc).1
    have hc2 := congrArg (fun m => m.m_pkthdr.len) hc1
    exact hc2.symm
  · rw [e2, m_freem_refs_none new refs log hrc]

/-! ## m_uiotombuf -/

theorem m_uiotombuf_loop_done (K : Consts) (cl : Nat → Nat) (total : Nat) (pool : Pool)
    (m_final : Chain) (mem : Store) (uio : Uio) (refs : Refs) (log : List Event) :
    m_uiotombuf_loop K cl total pool total m_final mem uio refs log =
      some { ret := (m_fixhdr m_final).1, mem := mem, uio := uio, pool := pool, refs := refs,
             log := log } := by
  cases pool <;> simp [m_uiotombuf_loop, m_uiotombuf_body]

/-- C30: with `0 < align < MHLEN` and `MCLBYTES - align < total <= MCLBYTES`
bytes to move, `m_uiotombuf` returns one cluster node whose data starts `align`
bytes into the cluster and holds `total` bytes: the data ends `total + align -
MCLBYTES` bytes after the end of the cluster, and the node does not pass the
range checks of `m_sanity`. -/
theorem m_uiotombuf_overruns_cluster (K : Consts) (cl : Nat → Nat) (a : Nat) (d : Store)
    (p : Pool) (mem : Store) (uio : Uio) (len : Int) (align : Nat) (refs : Refs)
    (log : List Event) (hK : K.MHLEN ≤ K.MCLBYTES)
    (halign : align < K.MHLEN)
    (hover : K.MCLBYTES < m_uiotombuf_total uio len + align)
    (hone : m_uiotombuf_total uio len ≤ K.MCLBYTES)
    (herr : uio.errs = []) :
    ∃ r f, m_uiotombuf K cl (some (a, d) :: p) mem uio len align refs log = some r ∧
      r.ret = [f] ∧ f.m_flags.M_EXT = true ∧ f.m_flags.M_PKTHDR = true ∧
      f.m_ext.ext_buf = cl a ∧ f.m_ext.ext_size = K.MCLBYTES ∧
      f.m_data = cl a + align ∧ f.m_len = m_uiotombuf_total uio len ∧
      f.m_pkthdr.len = (m_uiotombuf_total uio len : Int) ∧
      f.m_ext.ext_buf + f.m_ext.ext_size < f.m_data + f.m_len ∧ ¬ Fits K f := by
  have h1 : ¬ (align ≥ K.MHLEN) := by omega
  have h2 : m_uiotombuf_total uio len + align > K.MHLEN := by omega
  have h3 : 0 < m_uiotombuf_total uio len := by omega
  have h4 : min (m_uiotombuf_total uio len) K.MCLBYTES = m_uiotombuf_total uio len :=
    Nat.min_eq_left hone
  have hrun : ∃ mem1 u, m_uiotombuf K cl (some (a, d) :: p) mem uio len align refs log =
      some { ret := [set_pkthdr_len
                      { clNode K a (cl a) d MT_DATA true with
                        m_data := cl a + align, m_len := m_uiotombuf_total uio len }
                      (m_uiotombuf_total uio len)],
             mem := mem1, uio := u, pool := p, refs := refs, log := log } := by
    simp only [m_uiotombuf, if_neg h1, if_pos h2, m_getcl, if_pos h3, h4, m_uiotombuf_move,
      uiomove, herr, clNode, if_true, m_uiotombuf_loop_done, m_fixhdr, m_length, totalLen,
      Nat.add_zero]
    exact ⟨_, _, rfl⟩
  obtain ⟨mem1, u, hrun⟩ := hrun
  refine ⟨_, _, hrun, rfl, rfl, rfl, rfl, rfl, rfl, rfl, rfl, ?_, ?_⟩
  · simp only [set_pkthdr_len, clNode]
    omega
  · simp only [Fits, set_pkthdr_len, clNode, if_true]
    omega

theorem uio2048_total : m_uiotombuf_total uio2048 0 = 2048 := by
  simp only [m_uiotombuf_total, uio2048, List.length_replicate]
  rfl

/-- C37: when the first `uiomove` of `m_uiotombuf` fails, `m_new` is still
`m_final`: at `nospace:` the node is freed by `m_free(m_new)` and again by
`m_freem(m_final)`, so the one node allocated in the call is handed back
twice. -/
theorem m_uiotombuf_first_move_fails (K : Consts) (cl : Nat → Nat) (a : Nat) (d : Store)
    (p : Pool) (mem : Store) (uio : Uio) (e : List Bool) (len : Int) (align : Nat)
    (refs : Refs) (log : List Event)
    (halign : align < K.MHLEN) (htotal : 0 < m_uiotombuf_total uio len)
    (herr : uio.errs = true :: e) :
    ∃ r ev, m_uiotombuf K cl (some (a, d) :: p) mem uio len align refs log = some r ∧
      r.ret = [] ∧ r.pool = p ∧ r.log = log ++ ev ∧ released ev = [a, a] := by
  have h1 : ¬ (align ≥ K.MHLEN) := by omega
  have hrun : ∃ mf : mbuf, mf.addr = a ∧
      m_uiotombuf K cl (some (a, d) :: p) mem uio len align refs log =
        some (m_uiotombuf_nospace (some mf) [mf] mem { uio with errs := e } p refs log) := by
    by_cases hc : m_uiotombuf_total uio len + align > K.MHLEN
    · refine ⟨{ clNode K a (cl a) d MT_DATA true with m_data := cl a + align }, rfl, ?_⟩
      simp only [m_uiotombuf, if_neg h1, if_pos hc, m_getcl, if_pos htotal, m_uiotombuf_move,
        uiomove, herr, clNode]
    · refine ⟨{ newHdrNode K a d MT_DATA with m_data := K.MLEN - K.MHLEN + align }, rfl, ?_⟩
      simp only [m_uiotombuf, if_neg h1, if_neg hc, m_gethdr, if_pos htotal, m_uiotombuf_move,
        uiomove, herr, newHdrNode, newNode]
  obtain ⟨mf, hmf, hrun⟩ := hrun
  obtain ⟨e1, g1, g2⟩ := m_free_released mf refs log
  obtain ⟨e2, g3, g4⟩ := m_free_released mf (m_free mf refs log).1 (m_free mf refs log).2
  refine ⟨_, e1 ++ e2, hrun, rfl, rfl, ?_, ?_⟩
  · simp only [m_uiotombuf_nospace, m_freem]
    rw [g3, g1, List.append_assoc]
  · rw [released_append, g2, g4, hmf]
    rfl

/-! ## m_cat and the header -/

/-- The second loop of `m_cat` leaves, after the last node of the first chain,
a final stretch of the second chain, and that last node with its flags, its
header block and its `m_nextpkt`. -/
theorem m_cat_loop_suffix (K : Consts) (mem : Store) (m : mbuf) (ns : Chain) (refs : Refs)
    (log : List Event) :
    ∃ h hs, (m_cat_loop K mem m ns refs log).1 = h :: hs ∧ h.m_flags = m.m_flags ∧
      h.m_nextpkt = m.m_nextpkt ∧ h.m_pkthdr = m.m_pkthdr ∧ List.IsSuffix hs ns ∧
      (hs = ns ∨ ∃ n0 ns0, ns = n0 :: ns0 ∧ List.IsSuffix hs ns0) := by
  induction ns generalizing m refs log with
  | nil => exact ⟨m, [], rfl, rfl, rfl, rfl, List.suffix_refl _, Or.inl rfl⟩
  | cons n ns ih =>
    simp only [m_cat_loop]
    split
    · exact ⟨m, n :: ns, rfl, rfl, rfl, rfl, List.suffix_refl _, Or.inl rfl⟩
    · obtain ⟨h, hs, e, h1, h2, h3, h4, _⟩ := ih
        { m with m_dat := wr m.m_dat (m.m_data + m.m_len) (mbytes mem n),
                 m_len := m.m_len + n.m_len } (m_free n refs log).1 (m_free n refs log).2
      exact ⟨h, hs, e, h1, h2, h3, List.IsSuffix.trans h4 (List.suffix_cons _ _),
        Or.inr ⟨n, ns, rfl, h4⟩⟩

/-- `m_cat(a, b)` leaves the nodes of `a` with their flags, header blocks and
`m_nextpkt`, followed by a final stretch of `b`: all of `b` when its first node
is linked, less when its first node is copied and freed. -/
theorem m_cat_suffix (K : Consts) (mem : Store) (a0 : mbuf) (as b : Chain) (refs : Refs)
    (log : List Event) :
    ∃ r hs tl, m_cat K mem (a0 :: as) b refs log = some r ∧ r.1 = hs ++ tl ∧
      hs.map (fun x => (x.m_flags, x.m_nextpkt, x.m_pkthdr))
        = (a0 :: as).map (fun x => (x.m_flags, x.m_nextpkt, x.m_pkthdr)) ∧
      List.IsSuffix tl b ∧
      (tl = b ∨ ∃ n0 ns0, b = n0 :: ns0 ∧ List.IsSuffix tl ns0) := by
  induction as generalizing a0 with
  | nil =>
    obtain ⟨h, hs, e, h1, h2, h3, h4, h5⟩ := m_cat_loop_suffix K mem a0 b refs log
    refine ⟨_, [h], hs, rfl, e, ?_, h4, h5⟩
    simp only [List.map_cons, List.map_nil, h1, h2, h3]
  | cons a1 as1 ih =>
    obtain ⟨r, hs, tl, hr, e, h1, h3, h4⟩ := ih a1
    refine ⟨(a0 :: r.1, r.2), a0 :: hs, tl, ?_, ?_, ?_, h3, h4⟩
    · have e2 : m_cat K mem (a0 :: a1 :: as1) b refs log =
          (match m_cat K mem (a1 :: as1) b refs log with
            | none => none
            | some r => some (a0 :: r.1, r.2)) := rfl
      rw [e2, hr]
    · show a0 :: r.1 = a0 :: hs ++ tl
      rw [e]; rfl
    · rw [List.map_cons, h1]; rfl

theorem InChain_congr (x y : mbuf)
    (h : (x.m_flags, x.m_nextpkt, x.m_pkthdr) = (y.m_flags, y.m_nextpkt, y.m_pkthdr))
    (hy : InChain y) : InChain x := by
  simp only [Prod.mk.injEq] at h
  obtain ⟨h1, h2, h3⟩ := h
  unfold InChain at hy ⊢
  rw [h1, h2, h3]
  exact hy

/-- The first loop of `m_cat` aside, the last node of `a` decides: when it has
a cluster, or no room for the first node of `b`, the chain `b` is linked as it
is. -/
theorem m_cat_links (K : Consts) (mem : Store) (pre : Chain) (l b0 : mbuf) (bs : Chain)
    (refs : Refs) (log : List Event)
    (hl : l.m_flags.M_EXT = true ∨ l.m_data + l.m_len + b0.m_len ≥ K.MLEN) :
    m_cat K mem (pre ++ [l]) (b0 :: bs) refs log
      = some (pre ++ [l] ++ b0 :: bs, refs, log) := by
  induction pre with
  | nil => simp [m_cat, m_cat_loop, hl]
  | cons x xs ih =>
    cases hx : xs ++ [l] with
    | nil => simp at hx
    | cons y ys =>
      rw [hx] at ih
      simp only [List.cons_append, hx, m_cat, ih]

/-- C34, as the code has it: `m_cat(a, b)` keeps the flags, header blocks and
`m_nextpkt` of the nodes of `a` and strips nothing from the nodes of `b` it
links.  When the nodes of `a` after its first and all nodes of `b`, its first
included, have no `M_PKTHDR`, no `m_nextpkt` and no tags, so have the nodes
after the first of the chain `m_cat` leaves.  When only the first node of `b`
has one of them, the only node after the first that can have it afterwards is
that node, and it does whenever the last node of `a` has a cluster or no room
for it: `b` is then linked as it is. -/
theorem m_cat_header_invariant (K : Consts) (mem : Store) (a0 : mbuf) (as b : Chain)
    (refs : Refs) (log : List Event)
    (ha : ∀ x, x ∈ as → InChain x) (hb : ∀ x, x ∈ b.tail → InChain x) :
    ∃ r h hs, m_cat K mem (a0 :: as) b refs log = some r ∧ r.1 = h :: hs ∧
      h.m_flags = a0.m_flags ∧
      ((∀ x, x ∈ b → InChain x) → ∀ x, x ∈ hs → InChain x) ∧
      (∀ x, x ∈ hs → InChain x ∨ b.head? = some x) ∧
      (∀ pre l b0 bs, a0 :: as = pre ++ [l] → b = b0 :: bs →
        (l.m_flags.M_EXT = true ∨ l.m_data + l.m_len + b0.m_len ≥ K.MLEN) →
        r.1 = a0 :: as ++ b) := by
  obtain ⟨r, hs, tl, hr, e, h1, h3, h4⟩ := m_cat_suffix K mem a0 as b refs log
  cases hs with
  | nil => simp at h1
  | cons h hs =>
    simp only [List.map_cons, List.cons.injEq, Prod.mk.injEq] at h1
    obtain ⟨⟨g1, _, _⟩, g2⟩ := h1
    have has : ∀ x, x ∈ hs → InChain x := by
      intro x hx
      obtain ⟨i, hi, rfl⟩ := List.getElem_of_mem hx
      have hlen : hs.length = as.length := by
        have := congrArg List.length g2
        simpa using this
      have hi2 : i < as.length := by omega
      have e1 := congrArg (fun l => l[i]?) g2
      simp only [List.getElem?_map, List.getElem?_eq_getElem hi, List.getElem?_eq_getElem hi2,
        Option.map_some', Option.some.injEq] at e1
      exact InChain_congr _ _ e1 (ha _ (List.getElem_mem hi2))
    refine ⟨r, h, hs ++ tl, hr, by rw [e]; rfl, g1, ?_, ?_, ?_⟩
    · intro hall x hx
      rcases List.mem_append.1 hx with hx | hx
      · exact has x hx
      · exact hall x (h3.subset hx)
    · intro x hx
      rcases List.mem_append.1 hx with hx | hx
      · exact Or.inl (has x hx)
      · rcases h4 with rfl | ⟨n0, ns0, rfl, hsuf⟩
        · cases tl with
          | nil => cases hx
          | cons t0 ts =>
            rcases List.mem_cons.1 hx with rfl | hx
            · exact Or.inr rfl
            · exact Or.inl (hb x hx)
        · exact Or.inl (hb x (hsuf.subset hx))
    · intro pre l b0 bs hpre hbb hl
      rw [hpre, hbb, m_cat_links K mem pre l b0 bs refs log hl] at hr
      cases hr
      rw [hpre, hbb]

/-! ## m_getm: shape and append -/

theorem m_getm_loop_nohdr (K : Consts) (cl : Nat → Nat) (type : Nat) (n : Nat) (pool : Pool) :
    ∀ x, x ∈ (m_getm_loop K cl type n pool).2.1 → x.m_flags.M_PKTHDR = false := by
  induction n generalizing pool with
  | zero => intro x hx; cases hx
  | succ n ih =>
    intro x hx
    match pool, hx with
    | [], hx => cases hx
    | none :: p, hx => cases hx
    | some (a, d) :: p, hx =>
      simp only [m_getm_loop, m_getcl_some] at hx
      rcases List.mem_cons.1 hx with rfl | hx
      · rfl
      · exact ih p x hx

/-- No node that `m_getm` returns has `M_PKTHDR`. -/
theorem m_getm_top_nohdr (K : Consts) (cl : Nat → Nat) (pool : Pool) (m : Chain)
    (len type : Nat) (refs : Refs) (log : List Event) :
    ∀ x, x ∈ (m_getm K cl pool m len type refs log).top → x.m_flags.M_PKTHDR = false := by
  intro x hx
  have hloop := m_getm_loop_nohdr K cl type
  have hcl : ∀ (p : Pool) (y : mbuf), (m_getcl K cl p type false).1 = some y →
      y.m_flags.M_PKTHDR = false := by
    intro p y hy
    match p, hy with
    | some (a, d) :: p, hy =>
      simp only [m_getcl_some, Option.some.injEq] at hy
      subst hy; rfl
  have hget : ∀ (p : Pool) (y : mbuf), (m_get p type).1 = some y →
      y.m_flags.M_PKTHDR = false := by
    intro p y hy
    match p, hy with
    | some (a, d) :: p, hy =>
      simp only [m_get, Option.some.injEq] at hy
      subst hy; rfl
  have hrem : ∀ (c : Prop) [Decidable c] (p : Pool) (y : mbuf),
      (if c then m_getcl K cl p type false else m_get p type).1 = some y →
      y.m_flags.M_PKTHDR = false := by
    intro c _ p y hy
    by_cases hc : c
    · rw [if_pos hc] at hy; exact hcl p y hy
    · rw [if_neg hc] at hy; exact hget p y hy
  have hfin : ∀ (top : Chain) (p : Pool), (∀ y, y ∈ top → y.m_flags.M_PKTHDR = false) →
      x ∈ (if len % K.MCLBYTES > 0 then
            match (if len % K.MCLBYTES > K.MINCLSIZE then m_getcl K cl p type false
                   else m_get p type).1 with
            | none => m_getm_failed m top
                (if len % K.MCLBYTES > K.MINCLSIZE then m_getcl K cl p type false
                   else m_get p type).2 refs log
            | some mb => m_getm_done m (top ++ [{ mb with m_len := 0 }])
                (if len % K.MCLBYTES > K.MINCLSIZE then m_getcl K cl p type false
                   else m_get p type).2 refs log
          else m_getm_done m top p refs log).top →
      x.m_flags.M_PKTHDR = false := by
    intro top p htop hx
    by_cases hr : len % K.MCLBYTES > 0
    · rw [if_pos hr] at hx
      cases hmb : (if len % K.MCLBYTES > K.MINCLSIZE then m_getcl K cl p type false
                   else m_get p type).1 with
      | none =>
        simp only [hmb, m_getm_failed] at hx
        cases hx
      | some mb =>
        simp only [hmb, m_getm_done, List.mem_append, List.mem_singleton] at hx
        rcases hx with hx | rfl
        · exact htop x hx
        · exact hrem _ _ mb hmb
    · rw [if_neg hr] at hx
      exact htop x hx
  by_cases hn : len / K.MCLBYTES > 0
  · cases hg : m_getcl K cl pool type false with
    | mk g1 g2 =>
      cases g1 with
      | none =>
        simp only [m_getm, if_pos hn, hg, m_getm_failed] at hx
        simp at hx
      | some t =>
        have ht := hcl pool t (by rw [hg])
        simp only [m_getm, if_pos hn, hg, Bool.true_eq_false, if_false] at hx
        by_cases hl : (m_getm_loop K cl type (len / K.MCLBYTES - 1) g2).1 = false
        · rw [if_pos hl] at hx
          cases hx
        · rw [if_neg hl] at hx
          refine hfin _ _ ?_ hx
          intro y hy
          rcases List.mem_append.1 hy with hy | hy
          · rw [List.mem_singleton] at hy
            subst hy
            exact ht
          · exact hloop _ _ y hy
  · simp only [m_getm, if_neg hn, Bool.true_eq_false, if_false] at hx
    by_cases hl : (m_getm_loop K cl type (len / K.MCLBYTES - 1) pool).1 = false
    · rw [if_pos hl] at hx
      cases hx
    · rw [if_neg hl] at hx
      refine hfin _ _ ?_ hx
      intro y hy
      rw [List.nil_append] at hy
      exact hloop _ _ y hy

theorem m_capacity_eq (K : Consts) (m : mbuf) :
    m_capacity K m = (if m.m_flags.M_EXT then m.m_ext.ext_size
      else if m.m_flags.M_PKTHDR then K.MHLEN else K.MLEN) := by
  unfold m_capacity sanity_b
  exact Nat.add_sub_cancel_left _ _

theorem sum_capacity_const (K : Consts) (M : Nat) (l : Chain)
    (h : ∀ x, x ∈ l → m_capacity K x = M) : (l.map (m_capacity K)).sum = l.length * M := by
  induction l with
  | nil => simp
  | cons x xs ih =>
    rw [List.map_cons, List.sum_cons, h x (List.mem_cons_self _ _),
      ih (fun y hy => h y (List.mem_cons_of_mem _ hy)), List.length_cons, Nat.succ_mul,
      Nat.add_comm]

/-- C35: for every `len`, when the allocations succeed, `m_getm(m, len, how, type)`
returns a chain of `ceil(len / MCLBYTES)` new nodes: `len / MCLBYTES` cluster
nodes of capacity `MCLBYTES` and, when `len mod MCLBYTES > 0`, one more node,
a cluster node exactly when the remainder exceeds `MINCLSIZE`.  The capacities
of the new nodes sum to at least `len`.  When `m` is not NULL the chain at `m`
is `m` with its nodes as they were, followed by the new nodes. -/
theorem m_getm_shape_append (K : Consts) (cl : Nat → Nat) (pool : Pool) (m : Chain)
    (len type : Nat) (refs : Refs) (log : List Event)
    (hM : 0 < K.MCLBYTES) (hK : K.MINCLSIZE ≤ K.MLEN)
    (hok : allocOK pool ((len + K.MCLBYTES - 1) / K.MCLBYTES) = true) :
    ∃ full last, (m_getm K cl pool m len type refs log).top = full ++ last ∧
      (full ++ last).length = (len + K.MCLBYTES - 1) / K.MCLBYTES ∧
      full.length = len / K.MCLBYTES ∧
      last.length = (if len % K.MCLBYTES > 0 then 1 else 0) ∧
      (∀ x, x ∈ full → x.m_flags.M_EXT = true ∧ m_capacity K x = K.MCLBYTES) ∧
      (∀ x, x ∈ last → (x.m_flags.M_EXT = true ↔ len % K.MCLBYTES > K.MINCLSIZE) ∧
        m_capacity K x = (if len % K.MCLBYTES > K.MINCLSIZE then K.MCLBYTES else K.MLEN)) ∧
      len ≤ ((full ++ last).map (m_capacity K)).sum ∧
      (m ≠ [] → (m_getm K cl pool m len type refs log).chain = m ++ (full ++ last)) ∧
      (m = [] → (m_getm K cl pool m len type refs log).chain = []) := by
  have hc := ceil_div len K.MCLBYTES hM
  rw [hc] at hok ⊢
  obtain ⟨full, last, p, e, hl, hl2, hx, hx2, _⟩ :=
    m_getm_ok K cl pool m len type refs log 0 hok
  have htop : (m_getm K cl pool m len type refs log).top = full ++ last := by rw [e]; rfl
  have hnohdr := m_getm_top_nohdr K cl pool m len type refs log
  rw [htop] at hnohdr
  have hcf : ∀ x, x ∈ full → m_capacity K x = K.MCLBYTES := by
    intro x hx1
    rw [m_capacity_eq, (hx x hx1).2.1, if_pos rfl, (hx x hx1).2.2.1]
  have hcl : ∀ x, x ∈ last →
      m_capacity K x = (if len % K.MCLBYTES > K.MINCLSIZE then K.MCLBYTES else K.MLEN) := by
    intro x hx1
    rw [m_capacity_eq]
    by_cases hcc : len % K.MCLBYTES > K.MINCLSIZE
    · have h1 : x.m_flags.M_EXT = true := by rw [(hx2 x hx1).2.1]; simpa using hcc
      rw [h1, if_pos rfl, if_pos hcc, (hx2 x hx1).2.2.1 h1]
    · have h1 : x.m_flags.M_EXT = false := by rw [(hx2 x hx1).2.1]; simpa using hcc
      rw [h1, if_neg (by decide), if_neg hcc,
        hnohdr x (List.mem_append_right _ hx1), if_neg (by decide)]
  refine ⟨full, last, htop, by rw [List.length_append, hl, hl2], hl, hl2, ?_, ?_, ?_, ?_, ?_⟩
  · intro x hx1
    exact ⟨(hx x hx1).2.1, hcf x hx1⟩
  · intro x hx1
    refine ⟨?_, hcl x hx1⟩
    rw [(hx2 x hx1).2.1]
    simp
  · rw [List.map_append, List.sum_append, sum_capacity_const K K.MCLBYTES full hcf, hl]
    have h1 := Nat.div_add_mod len K.MCLBYTES
    have h2 := Nat.mod_lt len hM
    have h3 : len / K.MCLBYTES * K.MCLBYTES = K.MCLBYTES * (len / K.MCLBYTES) :=
      Nat.mul_comm _ _
    by_cases hr : len % K.MCLBYTES > 0
    · rw [if_pos hr] at hl2
      match last, hl2, hcl with
      | [y], _, hcl =>
        have h4 := hcl y (List.mem_singleton.2 rfl)
        simp only [List.map_cons, List.map_nil, List.sum_cons, List.sum_nil, Nat.add_zero, h4]
        split_ifs <;> omega
    · have h5 : len % K.MCLBYTES = 0 := by omega
      omega
  · intro hm
    rw [e]
    cases m with
    | nil => exact absurd rfl hm
    | cons m0 ms => rfl
  · intro hm
    rw [e, hm]
    rfl

/-! ## m_pullup: what a chain it returns is like -/

/-- What the loop of `m_pullup` leaves when it ends: `m` has grown by at most
`space` bytes and kept its flags, header block and data pointer, and the nodes
left of `n` are nodes of `n` with their flags. -/
theorem m_pullup_loop_shape (K : Consts) (mem : Store) (m : mbuf) (n : Chain)
    (len space : Nat) (refs : Refs) (log : List Event)
    (m1 : mbuf) (n1 : Chain) (l1 : Nat) (refs1 : Refs) (log1 : List Event)
    (h : m_pullup_loop K mem m n len space refs log = some (m1, n1, l1, refs1, log1)) :
    m1.m_len ≤ m.m_len + space ∧ m1.m_flags = m.m_flags ∧ m1.m_data = m.m_data ∧
      m1.m_pkthdr = m.m_pkthdr ∧
      ∀ x, x ∈ n1 → ∃ y, y ∈ n ∧ x.m_flags = y.m_flags := by
  induction n generalizing m len space refs log with
  | nil =>
    simp only [m_pullup_loop, Option.some.injEq, Prod.mk.injEq] at h
    obtain ⟨rfl, rfl, _⟩ := h
    exact ⟨Nat.le_add_right _ _, rfl, rfl, rfl, fun x hx => by cases hx⟩
  | cons n0 ns ih =>
    have hcs : min (min (max len K.max_protohdr) space) n0.m_len ≤ space :=
      Nat.le_trans (Nat.min_le_left _ _) (Nat.min_le_right _ _)
    simp only [m_pullup_loop] at h
    generalize min (min (max len K.max_protohdr) space) n0.m_len = count at h hcs
    by_cases hd : n0.m_len - count ≠ 0
    · rw [if_pos hd] at h
      by_cases hl : len - count > 0
      · rw [if_pos hl] at h
        cases h
      · rw [if_neg hl] at h
        simp only [Option.some.injEq, Prod.mk.injEq] at h
        obtain ⟨rfl, rfl, _⟩ := h
        refine ⟨Nat.add_le_add_left hcs _, rfl, rfl, rfl, ?_⟩
        intro x hx
        rcases List.mem_cons.1 hx with rfl | hx
        · exact ⟨n0, List.mem_cons_self _ _, rfl⟩
        · exact ⟨x, List.mem_cons_of_mem _ hx, rfl⟩
    · rw [if_neg hd] at h
      by_cases hl : len - count > 0
      · rw [if_pos hl] at h
        obtain ⟨g1, g2, g3, g4, g5⟩ := ih _ _ _ _ _ h
        refine ⟨?_, g2, g3, g4, ?_⟩
        · have : m1.m_len ≤ m.m_len + count + (space - count) := g1
          omega
        · intro x hx
          obtain ⟨y, hy, e⟩ := g5 x hx
          exact ⟨y, List.mem_cons_of_mem _ hy, e⟩
      · rw [if_neg hl] at h
        simp only [Option.some.injEq, Prod.mk.injEq] at h
        obtain ⟨rfl, rfl, _⟩ := h
        refine ⟨Nat.add_le_add_left hcs _, rfl, rfl, rfl, ?_⟩
        intro x hx
        exact ⟨x, List.mem_cons_of_mem _ hx, rfl⟩

/-- The end of `m_pullup` after a loop that used up `len`. -/
theorem m_pullup_fin_done (m1 : mbuf) (n1 : Chain) (refs : Refs) (log : List Event)
    (pool : Pool) :
    m_pullup_fin (some (m1, n1, 0, refs, log)) pool
      = some { ret := m1 :: n1, pool := pool, refs := refs, log := log } := by
  simp [m_pullup_fin]

/-- The loop of `m_pullup` and what follows it, for a node `m` without cluster
and with room for `len` bytes: when a chain is returned its first node is `m`
grown by at least `len` and at most `space` bytes, and the bytes are kept. -/
theorem m_pullup_run (K : Consts) (mem : Store) (m : mbuf) (n : Chain) (len space : Nat)
    (refs : Refs) (log : List Event) (pool : Pool) (r : PullupOut)
    (hm : m.m_flags.M_EXT = false) (hsp : len ≤ space)
    (hr : m_pullup_fin (m_pullup_loop K mem m n len space refs log) pool = some r)
    (hne : r.ret ≠ []) :
    ∃ h t, r.ret = h :: t ∧ m.m_len + len ≤ h.m_len ∧ h.m_len ≤ m.m_len + space ∧
      h.m_flags = m.m_flags ∧ h.m_data = m.m_data ∧ h.m_pkthdr = m.m_pkthdr ∧
      chainBytes mem r.ret = mbytes mem m ++ chainBytes mem n ∧
      ∀ x, x ∈ t → ∃ y, y ∈ n ∧ x.m_flags = y.m_flags := by
  by_cases hl : len ≤ totalLen n
  · obtain ⟨m1, n1, refs1, log1, e, h1, h2, _⟩ :=
      m_pullup_loop_ok K mem m n len space refs log hm hsp hl
    obtain ⟨g1, g2, g3, g4, g5⟩ := m_pullup_loop_shape K mem m n len space refs log _ _ _ _ _ e
    rw [e, m_pullup_fin_done] at hr
    simp only [Option.some.injEq] at hr
    subst hr
    exact ⟨m1, n1, rfl, h2, g1, g2, g3, g4, h1, g5⟩
  · obtain ⟨m1, e, _⟩ := m_pullup_loop_short K mem m n len space refs log hsp (by omega)
    rw [e, m_pullup_fin_short _ _ _ _ _ (by omega)] at hr
    simp only [Option.some.injEq] at hr
    subst hr
    exact absurd rfl hne

/-- C33: whenever `m_pullup(C, len)` returns a chain, for a chain `C` whose
first node is in range and whose other nodes have no `M_PKTHDR`: the first
node of the chain returned holds at least `len` bytes, has no cluster and lies
within its own array; the bytes of the chain are those of `C`; the first node
has `M_PKTHDR` exactly when the first node of `C` had, with the same header
block; and no other node has `M_PKTHDR`. -/
theorem m_pullup_partial (K : Consts) (mem : Store) (pool : Pool) (n0 : mbuf) (ns : Chain)
    (len : Nat) (refs : Refs) (log : List Event) (hK : K.MHLEN ≤ K.MLEN)
    (hfit : Fits K n0) (hhdr : ∀ x, x ∈ ns → x.m_flags.M_PKTHDR = false) :
    ∀ r, m_pullup K mem pool (n0 :: ns) len refs log = some r → r.ret ≠ [] →
      ∃ h t, r.ret = h :: t ∧ len ≤ h.m_len ∧ h.m_flags.M_EXT = false ∧ Fits K h ∧
        h.m_data + h.m_len ≤ K.MLEN ∧
        chainBytes mem r.ret = chainBytes mem (n0 :: ns) ∧
        h.m_flags.M_PKTHDR = n0.m_flags.M_PKTHDR ∧
        (n0.m_flags.M_PKTHDR = true → h.m_pkthdr = n0.m_pkthdr) ∧
        ∀ x, x ∈ t → x.m_flags.M_PKTHDR = false := by
  intro r hr hne
  simp only [m_pullup] at hr
  by_cases hin : n0.m_flags.M_EXT = false ∧ n0.m_data + len < K.MLEN ∧ ns.isEmpty = false
  · rw [if_pos hin] at hr
    have hf0 : n0.m_data + n0.m_len ≤ K.MLEN := by
      have := hfit
      simp only [Fits, hin.1, Bool.false_eq_true, if_false] at this
      split_ifs at this
      · exact this.2
      · exact this
    by_cases hge : n0.m_len ≥ len
    · rw [if_pos hge] at hr
      simp only [Option.some.injEq] at hr
      subst hr
      exact ⟨n0, ns, rfl, hge, hin.1, hfit, hf0, rfl, rfl, fun _ => rfl, hhdr⟩
    · rw [if_neg hge] at hr
      obtain ⟨h, t, e, g1, g2, g3, g4, g5, g6, g7⟩ := m_pullup_run K mem n0 ns
        (len - n0.m_len) (K.MLEN - (n0.m_data + n0.m_len)) refs log pool r hin.1
        (by omega) hr hne
      have hfh : h.m_data + h.m_len ≤ K.MLEN := by rw [g4]; omega
      refine ⟨h, t, e, by omega, by rw [g3]; exact hin.1, ?_, hfh, g6, by rw [g3],
        fun _ => g5, ?_⟩
      · have := hfit
        simp only [Fits, hin.1, Bool.false_eq_true, if_false] at this
        simp only [Fits, g3, hin.1, Bool.false_eq_true, if_false]
        split_ifs at this ⊢
        · exact ⟨by rw [g4]; exact this.1, hfh⟩
        · exact hfh
      · intro x hx
        obtain ⟨y, hy, e2⟩ := g7 x hx
        rw [e2]
        exact hhdr y hy
  · rw [if_neg hin] at hr
    by_cases hbig : len > K.MHLEN
    · rw [if_pos hbig] at hr
      simp only [Option.some.injEq] at hr
      subst hr
      exact absurd rfl hne
    · rw [if_neg hbig] at hr
      match pool, hr with
      | [], hr =>
        simp only [m_get, Option.some.injEq] at hr
        subst hr
        exact absurd rfl hne
      | none :: p, hr =>
        simp only [m_get, Option.some.injEq] at hr
        subst hr
        exact absurd rfl hne
      | some (a, d) :: p, hr =>
        simp only [m_get] at hr
        cases hp : n0.m_flags.M_PKTHDR
        · simp only [hp, Bool.false_eq_true, if_false] at hr
          obtain ⟨h, t, e, g1, g2, g3, g4, g5, g6, g7⟩ := m_pullup_run K mem
            { newNode a d n0.m_type with m_len := 0 } (n0 :: ns) len
            (K.MLEN - ((newNode a d n0.m_type).m_data + 0)) refs log p r rfl
            (by show len ≤ K.MLEN - (0 + 0); omega) hr hne
          have g2' : h.m_len ≤ 0 + (K.MLEN - (0 + 0)) := g2
          have g1' : 0 + len ≤ h.m_len := g1
          have g4' : h.m_data = 0 := g4
          have hfh : h.m_data + h.m_len ≤ K.MLEN := by omega
          have hfl : h.m_flags = flags0 := g3
          refine ⟨h, t, e, by omega, by rw [hfl]; rfl, ?_, hfh, ?_, by rw [hfl]; rfl,
            (by intro hc; cases hc), ?_⟩
          · simp only [Fits, hfl, flags0, Bool.false_eq_true, if_false]
            exact hfh
          · rw [g6]
            simp [mbytes, rd]
          · intro x hx
            obtain ⟨y, hy, e2⟩ := g7 x hx
            rw [e2]
            rcases List.mem_cons.1 hy with rfl | hy
            · exact hp
            · exact hhdr y hy
        · simp only [hp, if_true] at hr
          have hmv1 : (m_move_pkthdr K { newNode a d n0.m_type with m_len := 0 } n0).1.m_flags.M_EXT
              = false := rfl
          have hmv2 : (m_move_pkthdr K { newNode a d n0.m_type with m_len := 0 } n0).1.m_len
              = 0 := rfl
          have hmv3 : (m_move_pkthdr K { newNode a d n0.m_type with m_len := 0 } n0).1.m_data
              = K.MLEN - K.MHLEN := by
            simp [m_move_pkthdr, newNode, flags0]
          have hmv4 : chainBytes mem
              ((m_move_pkthdr K { newNode a d n0.m_type with m_len := 0 } n0).2 :: ns)
              = chainBytes mem (n0 :: ns) := rfl
          have hmv6 : (m_move_pkthdr K { newNode a d n0.m_type with m_len := 0 } n0).1.m_flags.M_PKTHDR
              = true := by
            simp [m_move_pkthdr, copyflags, hp]
          have hmv7 : (m_move_pkthdr K { newNode a d n0.m_type with m_len := 0 } n0).1.m_pkthdr
              = n0.m_pkthdr := rfl
          have hmv8 : (m_move_pkthdr K { newNode a d n0.m_type with m_len := 0 } n0).2.m_flags.M_PKTHDR
              = false := rfl
          obtain ⟨h, t, e, g1, g2, g3, g4, g5, g6, g7⟩ := m_pullup_run K mem
            (m_move_pkthdr K { newNode a d n0.m_type with m_len := 0 } n0).1
            ((m_move_pkthdr K { newNode a d n0.m_type with m_len := 0 } n0).2 :: ns) len
            (K.MLEN - ((m_move_pkthdr K { newNode a d n0.m_type with m_len := 0 } n0).1.m_data
              + (m_move_pkthdr K { newNode a d n0.m_type with m_len := 0 } n0).1.m_len))
            refs log p r hmv1 (by rw [hmv2, hmv3]; omega) hr hne
          rw [hmv2, hmv3] at g2
          rw [hmv2] at g1
          rw [hmv3] at g4
          have hfh : h.m_data + h.m_len ≤ K.MLEN := by omega
          have hext : h.m_flags.M_EXT = false := by rw [g3]; exact hmv1
          have hpk : h.m_flags.M_PKTHDR = true := by rw [g3]; exact hmv6
          refine ⟨h, t, e, by omega, hext, ?_, hfh, ?_, hpk, fun _ => by rw [g5, hmv7], ?_⟩
          · simp only [Fits, hext, hpk, Bool.false_eq_true, if_false, if_true]
            exact ⟨by omega, hfh⟩
          · rw [g6, hmv4]
            simp [mbytes, rd, hmv2]
          · intro x hx
            obtain ⟨y, hy, e2⟩ := g7 x hx
            rw [e2]
            rcases List.mem_cons.1 hy with rfl | hy
            · exact hmv8
            · exact hhdr y hy

/-! ## m_copypacket and m_copym -/

theorem m_freem_append (a b : Chain) (refs : Refs) (log : List Event) :
    m_freem (a ++ b) refs log = m_freem b (m_freem a refs log).1 (m_freem a refs log).2 := by
  induction a generalizing refs log with
  | nil => rfl
  | cons x xs ih => exact ih (m_free x refs log).1 (m_free x refs log).2

theorem m_free_congr (a b : mbuf) (h1 : a.m_flags.M_EXT = b.m_flags.M_EXT)
    (h2 : a.m_ext = b.m_ext) (h3 : a.addr = b.addr) (refs : Refs) (log : List Event) :
    m_free a refs log = m_free b refs log := by
  unfold m_free mb_free_ext
  rw [h1, h2, h3]

/-- After the first node `m_copypacket` fills a new node as `m_copym` does with
`off = 0` and `len = M_COPYALL`, for a source node of at most `M_COPYALL`
bytes. -/
theorem m_copypacket_fill_eq (K : Consts) (find : Nat → Nat) (m n : mbuf) (refs : Refs)
    (h : m.m_len ≤ K.M_COPYALL) :
    m_copypacket_fill K find m n false refs = m_copym_fill K find m n 0 K.M_COPYALL refs := by
  simp only [m_copypacket_fill, m_copym_fill, Nat.sub_zero, Nat.add_zero, Nat.min_eq_right h,
    Bool.false_eq_true, if_false]

/-- The loops of `m_copypacket` and of `m_copym(m, 0, M_COPYALL)` over the same
source nodes, with chains built so far that are freed alike: both return, with
the same source nodes, counters, pool and log, and either both have freed
their chain or both have added the same new nodes to it. -/
theorem m_copypacket_loop_agrees (K : Consts) (find : Nat → Nat) (tags_ok : Bool)
    (hpos : 0 < K.M_COPYALL) (ms : Chain) (top top' done : Chain) (refs : Refs) (pool : Pool)
    (log : List Event)
    (hfit : ChainFits K ms) (hmax : ∀ x, x ∈ ms → x.m_len ≤ K.M_COPYALL)
    (hfre : ∀ refs log, m_freem top refs log = m_freem top' refs log) :
    ∃ r r', m_copypacket_loop K find ms top done refs pool log = some r ∧
      m_copym_loop K find tags_ok 0 ms 0 K.M_COPYALL false top' done refs pool log = some r' ∧
      r.src = r'.src ∧ r.refs = r'.refs ∧ r.pool = r'.pool ∧ r.log = r'.log ∧
      ((r.top = [] ∧ r'.top = []) ∨ ∃ x, r.top = top ++ x ∧ r'.top = top' ++ x) := by
  induction ms generalizing top top' done refs pool log with
  | nil =>
    refine ⟨{ top := top, src := done, refs := refs, pool := pool, log := log },
      { top := top', src := done, refs := refs, pool := pool, log := log }, rfl, ?_, rfl, rfl,
      rfl, rfl, Or.inr ⟨[], by simp, by simp⟩⟩
    simp only [m_copym_loop, or_true, if_true]
  | cons m ms ih =>
    have hne : ¬ (K.M_COPYALL = 0) := by omega
    have hm := hmax m (List.mem_cons_self _ _)
    simp only [m_copypacket_loop, m_copym_loop, if_neg hne, Bool.false_eq_true, if_false,
      m_copypacket_fill_eq K find m _ refs hm, ne_eq, not_true_eq_false]
    cases hg : (m_get pool m.m_type).1 with
    | none =>
      refine ⟨_, _, rfl, rfl, rfl, ?_, rfl, ?_, Or.inl ⟨rfl, rfl⟩⟩
      · simp only [m_copypacket_nospace, m_copym_nospace, hfre]
      · simp only [m_copypacket_nospace, m_copym_nospace, hfre]
    | some n =>
      simp only
      have hn : n.m_data = 0 ∧ n.m_flags.M_EXT = false := by
        match pool, hg with
        | some (a, d) :: p, hg =>
          simp only [m_get, Option.some.injEq] at hg
          subst hg
          exact ⟨rfl, rfl⟩
      have hfm : m.m_flags.M_EXT = false → m.m_len ≤ K.MLEN := by
        intro he
        have := hfit.1
        simp only [Fits, he, Bool.false_eq_true, if_false] at this
        split_ifs at this <;> omega
      cases hf : m_copym_fill K find m n 0 K.M_COPYALL refs with
      | none =>
        exfalso
        simp only [m_copym_fill, Nat.sub_zero, Nat.min_eq_right hm] at hf
        by_cases he : m.m_flags.M_EXT = true
        · simp [he] at hf
        · have he' : m.m_flags.M_EXT = false := by
            cases h : m.m_flags.M_EXT
            · rfl
            · exact absurd h he
          have := hfm he'
          simp [he', hn.1] at hf
          omega
      | some x =>
        obtain ⟨n2, m1, refs1⟩ := x
        simp only
        obtain ⟨r, r', e1, e2, g1, g2, g3, g4, g5⟩ := ih (top ++ [n2]) (top' ++ [n2])
          (done ++ [m1]) refs1 (m_get pool m.m_type).2 log hfit.2
          (fun y hy => hmax y (List.mem_cons_of_mem _ hy))
          (by intro refs log; rw [m_freem_append, m_freem_append, hfre])
        refine ⟨r, r', e1, e2, g1, g2, g3, g4, ?_⟩
        rcases g5 with g5 | ⟨x, h1, h2⟩
        · exact Or.inl g5
        · exact Or.inr ⟨n2 :: x, by rw [h1]; simp, by rw [h2]; simp⟩

theorem m_dup_pkthdr_newHdrNode (K : Consts) (a : Nat) (d : Store) (t : Nat) (m : mbuf)
    (tags_ok : Bool) :
    m_dup_pkthdr K (newHdrNode K a d t) m tags_ok = m_dup_pkthdr K (newNode a d t) m tags_ok := by
  cases tags_ok <;> rfl

/-- The first pass of `m_copym(m, 0, M_COPYALL)` on a chain with a packet
header, with a node at hand and the tags copied. -/
theorem m_copym_first (K : Consts) (find : Nat → Nat) (m0 : mbuf) (ms : Chain) (a : Nat)
    (d : Store) (p : Pool) (refs : Refs) (log : List Event)
    (hh : m0.m_flags.M_PKTHDR = true) (hpos : 0 < K.M_COPYALL) :
    m_copym K find true (m0 :: ms) 0 K.M_COPYALL refs (some (a, d) :: p) log =
      match m_copym_fill K find m0 (m_dup_pkthdr K (newNode a d m0.m_type) m0 true).1 0
          K.M_COPYALL refs with
      | none => none
      | some (n2, m1, refs1) =>
          m_copym_loop K find true 0 ms 0 K.M_COPYALL false [n2] [m1] refs1 p log := by
  have hne : ¬ (K.M_COPYALL = 0) := by omega
  have hd : (m_dup_pkthdr K (newNode a d m0.m_type) m0 true).2 = true := rfl
  have heta : ({ (m_dup_pkthdr K (newNode a d m0.m_type) m0 true).1 with
      m_pkthdr := { (m_dup_pkthdr K (newNode a d m0.m_type) m0 true).1.m_pkthdr with
        len := (m_dup_pkthdr K (newNode a d m0.m_type) m0 true).1.m_pkthdr.len - ((0 : Nat) : Int) } }
        : mbuf)
      = (m_dup_pkthdr K (newNode a d m0.m_type) m0 true).1 := by
    rw [Nat.cast_zero, Int.sub_zero]
  simp only [m_copym, seek_zero, m_copym_copyhdr, hh, decide_True, Bool.and_self, m_copym_loop,
    if_neg hne, if_true, m_gethdr, m_dup_pkthdr_newHdrNode, hd, Bool.true_eq_false, if_false,
    heta, Nat.sub_self, List.take_zero, List.nil_append, ne_eq, not_true_eq_false]

/-- C31: for every chain `m` whose first node has a packet header and is in
range, whose nodes are in range and hold at most `M_COPYALL` bytes each, and
for every behaviour of the allocator and of the tag copy, `m_copypacket(m)` and
`m_copym(m, 0, M_COPYALL)` both return, leave the same source nodes, counters,
pool and log, and either both return NULL or return chains that differ in the
data pointer and array of their first node only: the same nodes after the
first, and first nodes of the same length, flags, header block and external
storage holding the same bytes.  The first node of `m_copypacket` has its data
at the same place as the first node of `m`. -/
theorem m_copypacket_agrees (K : Consts) (find : Nat → Nat) (tags_ok : Bool) (m0 : mbuf)
    (ms : Chain) (refs : Refs) (pool : Pool) (log : List Event)
    (hh : m0.m_flags.M_PKTHDR = true) (hfit : ChainFits K (m0 :: ms))
    (hpos : 0 < K.M_COPYALL) (hmax : ∀ x, x ∈ m0 :: ms → x.m_len ≤ K.M_COPYALL) :
    ∃ r r', m_copypacket K find tags_ok (m0 :: ms) refs pool log = some r ∧
      m_copym K find tags_ok (m0 :: ms) 0 K.M_COPYALL refs pool log = some r' ∧
      r.src = r'.src ∧ r.refs = r'.refs ∧ r.pool = r'.pool ∧ r.log = r'.log ∧
      ((r.top = [] ∧ r'.top = []) ∨
        ∃ n n' x, r.top = n :: x ∧ r'.top = n' :: x ∧
          n.m_len = n'.m_len ∧ n.m_flags = n'.m_flags ∧ n.m_pkthdr = n'.m_pkthdr ∧
          n.m_ext = n'.m_ext ∧ n.addr = n'.addr ∧
          (∀ mem, chainBytes mem r.top = chainBytes mem r'.top) ∧
          n.m_data = m0.m_data ∧ n.m_flags.M_EXT = m0.m_flags.M_EXT ∧
          n.m_flags.M_PKTHDR = true) := by
  have hne : ¬ (K.M_COPYALL = 0) := by omega
  have hm0 := hmax m0 (List.mem_cons_self _ _)
  match pool with
  | [] =>
    refine ⟨_, _, rfl, ?_, rfl, rfl, rfl, rfl, Or.inl ⟨rfl, rfl⟩⟩
    simp only [m_copym, seek_zero, m_copym_copyhdr, hh, decide_True, Bool.and_self, m_copym_loop,
      if_neg hne, if_true, m_gethdr, Nat.sub_self, List.take_zero, List.nil_append]
    rfl
  | none :: p =>
    refine ⟨_, _, rfl, ?_, rfl, rfl, rfl, rfl, Or.inl ⟨rfl, rfl⟩⟩
    simp only [m_copym, seek_zero, m_copym_copyhdr, hh, decide_True, Bool.and_self, m_copym_loop,
      if_neg hne, if_true, m_gethdr, Nat.sub_self, List.take_zero, List.nil_append]
    rfl
  | some (a, d) :: p =>
    cases tags_ok with
    | false =>
      refine ⟨_, _, rfl, ?_, rfl, rfl, rfl, rfl, Or.inl ⟨rfl, rfl⟩⟩
      simp only [m_copym, seek_zero, m_copym_copyhdr, hh, decide_True, Bool.and_self,
        m_copym_loop, if_neg hne, if_true, m_gethdr, m_dup_pkthdr_newHdrNode, Nat.sub_self,
        List.take_zero, List.nil_append]
      rfl
    | true =>
      rw [m_copym_first K find m0 ms a d p refs log hh hpos]
      have hrun : m_copypacket K find true (m0 :: ms) refs (some (a, d) :: p) log =
          match m_copypacket_fill K find m0 (m_dup_pkthdr K (newNode a d m0.m_type) m0 true).1
              true refs with
          | none => none
          | some (n2, m1, refs1) => m_copypacket_loop K find ms [n2] [m1] refs1 p log := by
        have hd : (m_dup_pkthdr K (newNode a d m0.m_type) m0 true).2 = true := rfl
        simp only [m_copypacket, m_get, hd, Bool.true_eq_false, if_false]
      rw [hrun]
      obtain ⟨_, hX1, hX2, hX3, hX4⟩ := m_dup_pkthdr_ok K (newNode a d m0.m_type) m0 rfl
      rw [hh] at hX2
      generalize (m_dup_pkthdr K (newNode a d m0.m_type) m0 true).1 = X at hX1 hX2 hX3 hX4 ⊢
      have hms : ∀ x, x ∈ ms → x.m_len ≤ K.M_COPYALL :=
        fun y hy => hmax y (List.mem_cons_of_mem _ hy)
      cases he : m0.m_flags.M_EXT with
      | true =>
        have hf1 : m_copypacket_fill K find m0 X true refs = m_copym_fill K find m0 X 0
            K.M_COPYALL refs := by
          simp only [m_copypacket_fill, m_copym_fill, he, if_true, Nat.sub_zero,
            Nat.min_eq_right hm0, Nat.add_zero]
        rw [hf1]
        have hf2 : ∃ n2, m_copym_fill K find m0 X 0 K.M_COPYALL refs =
            some (n2, (MEXT_ADD_REF find m0 refs).1, (MEXT_ADD_REF find m0 refs).2) ∧
            n2.m_data = m0.m_data ∧ n2.m_flags.M_EXT = true ∧ n2.m_flags.M_PKTHDR = true := by
          refine ⟨{ X with
              m_len := m0.m_len, m_data := m0.m_data,
              m_flags := { X.m_flags with M_EXT := true },
              m_ext := { m0.m_ext with
                ref_cnt := (MEXT_ADD_REF find m0 refs).1.m_ext.ref_cnt } }, ?_, rfl, rfl, hX2⟩
          simp only [m_copym_fill, he, if_true, Nat.sub_zero, Nat.min_eq_right hm0,
            Nat.add_zero]
        obtain ⟨n2, hf2, k1, k2, k3⟩ := hf2
        rw [hf2]
        obtain ⟨r, r', e1, e2, g1, g2, g3, g4, g5⟩ := m_copypacket_loop_agrees K find true hpos
          ms [n2] [n2] [(MEXT_ADD_REF find m0 refs).1] (MEXT_ADD_REF find m0 refs).2 p log
          hfit.2 hms (fun _ _ => rfl)
        refine ⟨r, r', e1, e2, g1, g2, g3, g4, ?_⟩
        rcases g5 with g5 | ⟨x, h1, h2⟩
        · exact Or.inl g5
        · refine Or.inr ⟨n2, n2, x, h1, h2, rfl, rfl, rfl, rfl, rfl, ?_, k1, k2, k3⟩
          intro mem
          rw [h1, h2]
      | false =>
        have hf0 := hfit.1
        simp only [Fits, he, hh, Bool.false_eq_true, if_false, if_true] at hf0
        have hd2 : K.MLEN - K.MHLEN + m0.m_data - (K.MLEN - K.MHLEN) = m0.m_data :=
          Nat.add_sub_cancel_left _ _
        have hf1 : m_copypacket_fill K find m0 X true refs =
            some ({ X with m_len := m0.m_len, m_data := m0.m_data,
                           m_dat := wr X.m_dat m0.m_data (rd m0.m_dat m0.m_data m0.m_len) },
              m0, refs) := by
          simp only [m_copypacket_fill, he, Bool.false_eq_true, if_false, if_true, hd2]
          rw [if_pos hf0.2]
        have hf2 : m_copym_fill K find m0 X 0 K.M_COPYALL refs =
            some ({ X with m_len := m0.m_len,
                           m_dat := wr X.m_dat X.m_data (rd m0.m_dat m0.m_data m0.m_len) },
              m0, refs) := by
          simp only [m_copym_fill, he, Bool.false_eq_true, if_false, Nat.sub_zero,
            Nat.min_eq_right hm0, Nat.add_zero]
          rw [if_pos (by rw [hX3]; omega)]
        rw [hf1, hf2]
        obtain ⟨r, r', e1, e2, g1, g2, g3, g4, g5⟩ := m_copypacket_loop_agrees K find true hpos
          ms
          [{ X with m_len := m0.m_len, m_data := m0.m_data,
                    m_dat := wr X.m_dat m0.m_data (rd m0.m_dat m0.m_data m0.m_len) }]
          [{ X with m_len := m0.m_len,
                    m_dat := wr X.m_dat X.m_data (rd m0.m_dat m0.m_data m0.m_len) }]
          [m0] refs p log hfit.2 hms
          (by
            intro refs log
            have hc := m_free_congr
              { X with m_len := m0.m_len, m_data := m0.m_data,
                       m_dat := wr X.m_dat m0.m_data (rd m0.m_dat m0.m_data m0.m_len) }
              { X with m_len := m0.m_len,
                       m_dat := wr X.m_dat X.m_data (rd m0.m_dat m0.m_data m0.m_len) }
              rfl rfl rfl refs log
            simp only [m_freem, hc])
        refine ⟨r, r', e1, e2, g1, g2, g3, g4, ?_⟩
        rcases g5 with g5 | ⟨x, h1, h2⟩
        · exact Or.inl g5
        · refine Or.inr ⟨_, _, x, h1, h2, rfl, rfl, rfl, rfl, rfl, ?_, rfl, ?_, hX2⟩
          · intro mem
            rw [h1, h2]
            simp only [List.cons_append, List.nil_append, chainBytes, mbytes, storeOf, hX1,
              Bool.false_eq_true, if_false]
            have b1 := rd_wr_self X.m_dat m0.m_data (rd m0.m_dat m0.m_data m0.m_len)
            have b2 := rd_wr_self X.m_dat X.m_data (rd m0.m_dat m0.m_data m0.m_len)
            rw [rd_length] at b1 b2
            rw [b1, b2]
          · exact hX1

/-! ## Concurrent mb_free_ext -/

theorem sum_map_set (f : FreeThread → Nat) (ts : List FreeThread) (i : Nat)
    (t t' : FreeThread) (h : ts[i]? = some t) :
    ((ts.set i t').map f).sum + f t = (ts.map f).sum + f t' := by
  induction ts generalizing i with
  | nil => simp at h
  | cons x xs ih =>
    cases i with
    | zero =>
      simp only [List.getElem?_cons_zero, Option.some.injEq] at h
      subst h
      simp only [List.set_cons_zero, List.map_cons, List.sum_cons]
      omega
    | succ j =>
      simp only [List.getElem?_cons_succ] at h
      have := ih j h
      simp only [List.set_cons_succ, List.map_cons, List.sum_cons]
      omega

theorem sum_map_ge (f : FreeThread → Nat) (ts : List FreeThread) (i : Nat) (t : FreeThread)
    (h : ts[i]? = some t) : f t ≤ (ts.map f).sum := by
  induction ts generalizing i with
  | nil => simp at h
  | cons x xs ih =>
    cases i with
    | zero =>
      simp only [List.getElem?_cons_zero, Option.some.injEq] at h
      subst h
      simp only [List.map_cons, List.sum_cons]
      omega
    | succ j =>
      simp only [List.getElem?_cons_succ] at h
      have := ih j h
      simp only [List.map_cons, List.sum_cons]
      omega

theorem sum_pending_le (ts : List FreeThread) : (ts.map pendingOf).sum ≤ ts.length := by
  induction ts with
  | nil => simp
  | cons x xs ih =>
    have h1 : pendingOf x ≤ 1 := by
      unfold pendingOf
      split <;> omega
    simp only [List.map_cons, List.sum_cons, List.length_cons]
    omega

theorem weight_shift (c c' : Nat) (ts : List FreeThread) :
    (ts.map (weightOf c')).sum ≤ (ts.map (weightOf c)).sum + 2 * ts.length := by
  induction ts with
  | nil => simp
  | cons x xs ih =>
    have h1 : weightOf c' x ≤ weightOf c x + 2 := by
      unfold weightOf
      split <;> try omega
      split_ifs <;> omega
    simp only [List.map_cons, List.sum_cons, List.length_cons]
    omega

/-- The part of `mb_free_ext` after the loop runs the storage teardown once
when `dofree` is set and not at all otherwise. -/
theorem mb_free_ext_exit_teardowns (m : mbuf) (dofree : Bool) (log : List Event) :
    teardowns (mb_free_ext_exit m dofree log) = teardowns log + (if dofree then 1 else 0) := by
  unfold mb_free_ext_exit
  cases dofree
  · simp [teardowns_append, teardowns, Event.isTeardown]
  · cases hr : m.m_ext.ref_cnt <;> simp only [if_true] <;> split_ifs <;>
      simp [teardowns_append, teardowns, Event.isTeardown]

/-- A call of `mb_free_ext` that runs on its own, its steps one after another,
does what `mb_free_ext` run on its own does. -/
theorem mb_free_ext_alone (m : mbuf) (refs : Refs) (log : List Event) :
    ∃ sch s, sys_run sch { threads := [mb_free_ext_enter m], refs := refs, log := log } = some s ∧
      s.threads.map (fun t => t.pc) = [FreePc.done] ∧
      s.refs = (mb_free_ext m refs log).1 ∧ s.log = (mb_free_ext m refs log).2 := by
  cases hr : m.m_ext.ref_cnt with
  | none =>
    refine ⟨[0],
      { threads := [{ m := m, pc := FreePc.done }],
        refs := (mb_free_ext m refs log).1, log := (mb_free_ext m refs log).2 }, ?_, rfl, rfl, rfl⟩
    simp only [sys_run, sys_step, mb_free_ext_enter, hr, Option.isNone_none, if_true,
      List.getElem?_cons_zero, mb_free_ext_step, List.set_cons_zero, mb_free_ext,
      mb_free_ext_exit]
    split_ifs <;> rfl
  | some r =>
    refine ⟨[0, 0, 0],
      { threads := [{ m := m, pc := FreePc.done }],
        refs := (mb_free_ext m refs log).1, log := (mb_free_ext m refs log).2 }, ?_, rfl, rfl, rfl⟩
    simp only [sys_run, sys_step, mb_free_ext_enter, hr, Option.isNone_some,
      Bool.false_eq_true, if_false, List.getElem?_cons_zero, mb_free_ext_step, List.set_cons_zero,
      if_true, mb_free_ext, mb_free_ext_exit]
    split_ifs <;> rfl

theorem u_int_dec_succ (k : Nat) (h : k + 1 < 4294967296) : u_int_dec (k + 1) = k := by
  unfold u_int_dec
  have : k + 1 + 4294967296 - 1 = k + 4294967296 := by omega
  rw [this, Nat.add_mod_right, Nat.mod_eq_of_lt (by omega)]

/-- One step of one call keeps what holds of the calls, leaves the nodes as
they are and brings the calls closer to their end. -/
theorem sys_step_inv (r N : Nat) (hN : N < 4294967296) (i : Nat) (s s1 : FreeSys)
    (hinv : FreeInv r N s) (hstep : sys_step i s = some s1) :
    FreeInv r N s1 ∧ sys_measure r s1 + 1 ≤ sys_measure r s ∧
      s1.threads.map (fun t => t.m) = s.threads.map (fun t => t.m) := by
  obtain ⟨hlen, hrc, hcnt, htd⟩ := hinv
  unfold sys_step at hstep
  cases hti : s.threads[i]? with
  | none => rw [hti] at hstep; cases hstep
  | some t =>
    rw [hti] at hstep
    have htmem : t ∈ s.threads := List.mem_iff_getElem?.2 ⟨i, hti⟩
    have hi : i < s.threads.length := (List.getElem?_eq_some.1 hti).1
    have htr := hrc t htmem
    have hmem : ∀ (t' : FreeThread), t'.m = t.m → ∀ x, x ∈ s.threads.set i t' →
        x.m.m_ext.ref_cnt = some r := by
      intro t' ht' x hx
      rcases List.mem_or_eq_of_mem_set hx with h | h
      · exact hrc x h
      · rw [h, ht']; exact htr
    have hnodes : ∀ (t' : FreeThread), t'.m = t.m →
        (s.threads.set i t').map (fun t => t.m) = s.threads.map (fun t => t.m) := by
      intro t' ht'
      apply List.ext_getElem?
      intro j
      simp only [List.getElem?_map, List.getElem?_set]
      by_cases hj : i = j
      · subst hj
        rw [if_pos rfl, if_pos hi, hti]
        simp [ht']
      · rw [if_neg hj]
    have hp := fun t' => sum_map_set pendingOf s.threads i t t' hti
    have hf := fun t' => sum_map_set freeingOf s.threads i t t' hti
    have hw := fun c t' => sum_map_set (weightOf c) s.threads i t t' hti
    cases hpc : t.pc with
    | loop =>
      simp only [mb_free_ext_step, hpc, htr, Option.some.injEq] at hstep
      subst hstep
      have h1 := hp { t with pc := FreePc.cmpset (s.refs r) }
      have h2 := hf { t with pc := FreePc.cmpset (s.refs r) }
      have h3 := hw (s.refs r) { t with pc := FreePc.cmpset (s.refs r) }
      simp only [pendingOf, freeingOf, weightOf, hpc, if_true] at h1 h2 h3
      refine ⟨⟨by simp [hlen], hmem _ rfl, ?_, ?_⟩, ?_, hnodes _ rfl⟩
      · show s.refs r = (List.map pendingOf (s.threads.set i _)).sum
        omega
      · show (List.map freeingOf (s.threads.set i _)).sum + teardowns s.log
          = (if s.refs r = 0 then 1 else 0)
        omega
      · simp only [sys_measure, List.length_set]
        omega
    | cmpset cnt =>
      simp only [mb_free_ext_step, hpc, htr] at hstep
      by_cases hc : s.refs r = cnt
      · rw [if_pos hc] at hstep
        simp only [Option.some.injEq] at hstep
        subst hc
        generalize hb : decide (s.refs r = 1) = b at hstep
        subst hstep
        have h1 := hp { t with pc := FreePc.free b }
        have h2 := hf { t with pc := FreePc.free b }
        have h3 := hw (s.refs r) { t with pc := FreePc.free b }
        have h4 := sum_map_ge pendingOf s.threads i t hti
        have h5 := sum_pending_le s.threads
        simp only [pendingOf, weightOf, hpc, eq_self_iff_true, if_true] at h1 h3 h4
        obtain ⟨k, hk⟩ : ∃ k, s.refs r = k + 1 := ⟨s.refs r - 1, by omega⟩
        have hdec : u_int_dec (s.refs r) = k := by
          rw [hk]
          exact u_int_dec_succ k (by omega)
        have hnew : setRef s.refs r (u_int_dec (s.refs r)) r = k := by
          simp [setRef, hdec]
        have h6 := weight_shift (s.refs r) k
          (s.threads.set i { t with pc := FreePc.free b })
        rw [List.length_set] at h6
        have hne0 : ¬ (s.refs r = 0) := by omega
        rw [if_neg hne0] at htd
        refine ⟨⟨by simp [hlen], hmem _ rfl, ?_, ?_⟩, ?_, hnodes _ rfl⟩
        · show setRef s.refs r (u_int_dec (s.refs r)) r
            = (List.map pendingOf (s.threads.set i _)).sum
          rw [hnew]
          omega
        · show (List.map freeingOf (s.threads.set i _)).sum + teardowns s.log
            = (if setRef s.refs r (u_int_dec (s.refs r)) r = 0 then 1 else 0)
          rw [hnew]
          by_cases hk0 : k = 0
          · have hd : b = true := by
              rw [← hb, hk, hk0]; rfl
            subst hd
            simp only [freeingOf, hpc] at h2
            rw [if_pos hk0]
            omega
          · have hd : b = false := by
              rw [← hb, hk]; simp [hk0]
            subst hd
            simp only [freeingOf, hpc] at h2
            rw [if_neg hk0]
            omega
        · show (2 * (s.threads.set i _).length + 1) * setRef s.refs r (u_int_dec (s.refs r)) r +
            (List.map (weightOf (setRef s.refs r (u_int_dec (s.refs r)) r))
              (s.threads.set i _)).sum + 1 ≤
            (2 * s.threads.length + 1) * s.refs r + (List.map (weightOf (s.refs r)) s.threads).sum
          rw [hnew, List.length_set]
          have hmul : (2 * s.threads.length + 1) * s.refs r
              = (2 * s.threads.length + 1) * k + (2 * s.threads.length + 1) := by
            rw [hk, Nat.mul_succ]
          rw [hmul]
          omega
      · rw [if_neg hc] at hstep
        simp only [Option.some.injEq] at hstep
        subst hstep
        have h1 := hp { t with pc := FreePc.loop }
        have h2 := hf { t with pc := FreePc.loop }
        have h3 := hw (s.refs r) { t with pc := FreePc.loop }
        have hc' : ¬ (cnt = s.refs r) := fun h => hc h.symm
        simp only [pendingOf, freeingOf, weightOf, hpc, if_neg hc'] at h1 h2 h3
        refine ⟨⟨by simp [hlen], hmem _ rfl, ?_, ?_⟩, ?_, hnodes _ rfl⟩
        · show s.refs r = (List.map pendingOf (s.threads.set i _)).sum
          omega
        · show (List.map freeingOf (s.threads.set i _)).sum + teardowns s.log
            = (if s.refs r = 0 then 1 else 0)
          omega
        · simp only [sys_measure, List.length_set]
          omega
    | free dofree =>
      simp only [mb_free_ext_step, hpc, Option.some.injEq] at hstep
      subst hstep
      have h1 := hp { t with pc := FreePc.done }
      have h2 := hf { t with pc := FreePc.done }
      have h3 := hw (s.refs r) { t with pc := FreePc.done }
      have h4 := mb_free_ext_exit_teardowns t.m dofree s.log
      simp only [pendingOf, weightOf, hpc] at h1 h3
      refine ⟨⟨by simp [hlen], hmem _ rfl, ?_, ?_⟩, ?_, hnodes _ rfl⟩
      · show s.refs r = (List.map pendingOf (s.threads.set i _)).sum
        omega
      · show (List.map freeingOf (s.threads.set i _)).sum
          + teardowns (mb_free_ext_exit t.m dofree s.log) = (if s.refs r = 0 then 1 else 0)
        rw [h4]
        cases dofree
        · simp only [freeingOf, hpc] at h2
          simp only [Bool.false_eq_true, if_false]
          omega
        · simp only [freeingOf, hpc] at h2
          simp only [if_true]
          omega
      · simp only [sys_measure, List.length_set]
        omega
    | done =>
      simp only [mb_free_ext_step, hpc] at hstep
      cases hstep

/-- Steps of the calls in any order keep what holds of them, leave the nodes as
they are, and are fewer than the bound on the steps yet to take. -/
theorem sys_run_inv (r N : Nat) (hN : N < 4294967296) (sch : List Nat) (s s1 : FreeSys)
    (hinv : FreeInv r N s) (hrun : sys_run sch s = some s1) :
    FreeInv r N s1 ∧ sys_measure r s1 + sch.length ≤ sys_measure r s ∧
      s1.threads.map (fun t => t.m) = s.threads.map (fun t => t.m) := by
  induction sch generalizing s with
  | nil =>
    simp only [sys_run, Option.some.injEq] at hrun
    subst hrun
    exact ⟨hinv, Nat.le_refl _, rfl⟩
  | cons i sch ih =>
    simp only [sys_run] at hrun
    cases hs : sys_step i s with
    | none => rw [hs] at hrun; cases hrun
    | some s2 =>
      rw [hs] at hrun
      obtain ⟨h1, h2, h3⟩ := sys_step_inv r N hN i s s2 hinv hs
      obtain ⟨g1, g2, g3⟩ := ih s2 h1 hrun
      refine ⟨g1, ?_, by rw [g3, h3]⟩
      simp only [List.length_cons]
      omega

/-- The calls just entered, for nodes that share the counter at `r`. -/
theorem sys_init_sums (r c : Nat) (nodes : List mbuf)
    (hn : ∀ n, n ∈ nodes → n.m_ext.ref_cnt = some r) :
    ((nodes.map mb_free_ext_enter).map pendingOf).sum = nodes.length ∧
      ((nodes.map mb_free_ext_enter).map freeingOf).sum = 0 ∧
      ((nodes.map mb_free_ext_enter).map (weightOf c)).sum = 2 * nodes.length ∧
      (∀ t, t ∈ nodes.map mb_free_ext_enter → t.m.m_ext.ref_cnt = some r) ∧
      (nodes.map mb_free_ext_enter).map (fun t => t.m) = nodes := by
  induction nodes with
  | nil => exact ⟨rfl, rfl, rfl, (by intro t ht; cases ht), rfl⟩
  | cons x xs ih =>
    obtain ⟨h1, h2, h3, h4, h5⟩ := ih (fun n hn' => hn n (List.mem_cons_of_mem _ hn'))
    have hx := hn x (List.mem_cons_self _ _)
    have he : mb_free_ext_enter x = { m := x, pc := FreePc.loop } := by
      simp [mb_free_ext_enter, hx]
    simp only [List.map_cons, List.sum_cons, List.length_cons, he, pendingOf, freeingOf,
      weightOf, h1, h2, h3, h5]
    refine ⟨by omega, trivial, by omega, ?_, trivial⟩
    intro t ht
    rcases List.mem_cons.1 ht with rfl | ht
    · exact hx
    · exact h4 t ht

theorem sys_done_sums (ts : List FreeThread) (h : ∀ t, t ∈ ts → t.pc = FreePc.done) :
    (ts.map pendingOf).sum = 0 ∧ (ts.map freeingOf).sum = 0 := by
  induction ts with
  | nil => exact ⟨rfl, rfl⟩
  | cons x xs ih =>
    obtain ⟨h1, h2⟩ := ih (fun t ht => h t (List.mem_cons_of_mem _ ht))
    have hx := h x (List.mem_cons_self _ _)
    simp only [List.map_cons, List.sum_cons, pendingOf, freeingOf, hx, h1, h2]
    exact ⟨trivial, trivial⟩

/-- C32: `k >= 1` calls of `mb_free_ext` on nodes that share one external
buffer through one counter holding `k` take the steps of their
compare-and-swap loops in any order.  At every moment of every interleaving
the storage teardown has run at most once; when every call has returned it
has run exactly once; a call that has not returned can always take a step;
and no interleaving has more than `2 k^2 + 3 k` steps, so the loops end. -/
theorem mb_free_ext_concurrent_once (nodes : List mbuf) (refs : Refs) (r : Nat)
    (hk : 1 ≤ nodes.length) (hn : ∀ n, n ∈ nodes → n.m_ext.ref_cnt = some r)
    (hc : refs r = nodes.length) (hb : nodes.length < 4294967296) :
    ∀ sch s, sys_run sch (sys_init nodes refs) = some s →
      teardowns s.log ≤ 1 ∧
      ((∀ t, t ∈ s.threads → t.pc = FreePc.done) → teardowns s.log = 1) ∧
      ((∃ t, t ∈ s.threads ∧ t.pc ≠ FreePc.done) → ∃ i s1, sys_step i s = some s1) ∧
      sch.length ≤ 2 * nodes.length * nodes.length + 3 * nodes.length ∧
      s.threads.map (fun t => t.m) = nodes := by
  intro sch s hrun
  obtain ⟨i1, i2, i3, i4, i5⟩ := sys_init_sums r (refs r) nodes hn
  have hinit : FreeInv r nodes.length (sys_init nodes refs) := by
    refine ⟨by simp [sys_init], i4, ?_, ?_⟩
    · show refs r = _
      rw [hc]; exact i1.symm
    · show ((nodes.map mb_free_ext_enter).map freeingOf).sum + teardowns [] =
        (if refs r = 0 then 1 else 0)
      rw [i2, if_neg (by omega)]
      rfl
  have hm0 : sys_measure r (sys_init nodes refs)
      = 2 * nodes.length * nodes.length + 3 * nodes.length := by
    show (2 * (nodes.map mb_free_ext_enter).length + 1) * refs r +
      ((nodes.map mb_free_ext_enter).map (weightOf (refs r))).sum = _
    rw [i3, hc, List.length_map]
    ring
  obtain ⟨⟨_, g2, g3, g4⟩, g5, g6⟩ :=
    sys_run_inv r nodes.length hb sch (sys_init nodes refs) s hinit hrun
  refine ⟨?_, ?_, ?_, by omega, by rw [g6]; exact i5⟩
  · split_ifs at g4 <;> omega
  · intro hall
    obtain ⟨d1, d2⟩ := sys_done_sums s.threads hall
    rw [d1] at g3
    rw [g3, d2] at g4
    simpa using g4
  · rintro ⟨t, ht, hpc⟩
    obtain ⟨i, hi⟩ := List.mem_iff_getElem?.1 ht
    have htr := g2 t ht
    cases hp : t.pc with
    | loop =>
      refine ⟨i, ?_⟩
      simp only [sys_step, hi, mb_free_ext_step, hp, htr]
      exact ⟨_, rfl⟩
    | cmpset cnt =>
      refine ⟨i, ?_⟩
      by_cases hcc : s.refs r = cnt
      · simp only [sys_step, hi, mb_free_ext_step, hp, htr, if_pos hcc]
        exact ⟨_, rfl⟩
      · simp only [sys_step, hi, mb_free_ext_step, hp, htr, if_neg hcc]
        exact ⟨_, rfl⟩
    | free b =>
      refine ⟨i, ?_⟩
      simp only [sys_step, hi, mb_free_ext_step, hp]
      exact ⟨_, rfl⟩
    | done => exact absurd hp hpc

/-! ## m_devget -/

theorem m_devget_loop_done (K : Consts) (cl : Nat → Nat) (buf : List Byte) (ifp : Nat)
    (refs : Refs) (log : List Event) (pool : Pool) (off : Int) (pos : Nat) (top : Chain)
    (mem : Store) :
    m_devget_loop K cl buf ifp refs log pool 0 off pos top mem =
      some { ret := top, mem := mem, pool := pool, refs := refs, log := log } := by
  cases pool <;> simp [m_devget_loop, m_devget_body]

/-- The smaller of a length and a negative number, both taken as `u_int`, is
the length. -/
theorem u_int_min_neg (a b : Int) (ha : 0 ≤ a) (hb : b < 0) (hab : a ≤ b + 4294967296) :
    u_int_min a b = a := by
  unfold u_int_min
  have h1 : a % 4294967296 = a := Int.emod_eq_of_lt ha (by omega)
  have h2 : b % 4294967296 = b + 4294967296 := by
    rw [← Int.add_emod_self]
    exact Int.emod_eq_of_lt (by omega) (by omega)
  rw [h1, h2]
  exact min_eq_left hab

/-- C36: for a small packet (`totlen + off < MINCLSIZE`) that is to be placed
`max_linkhdr` bytes into its header node (`totlen + off + max_linkhdr <= MLEN`)
with `0 < off <= MHLEN` and `max_linkhdr + off > MHLEN`, `m_devget` returns one
header node whose data pointer is `max_linkhdr + off` bytes into a data area of
`MHLEN` bytes, past the end of the node, with `totlen` bytes stored there. -/
theorem m_devget_overruns_node (K : Consts) (cl : Nat → Nat) (a : Nat) (d : Store) (p : Pool)
    (mem : Store) (buf : List Byte) (totlen off : Int) (ifp : Nat) (refs : Refs)
    (log : List Event)
    (htot : 0 < totlen) (hoff0 : 0 < off) (hoff : off ≤ (K.MHLEN : Int))
    (hsmall : totlen + off < (K.MINCLSIZE : Int))
    (hlink : totlen + off + (K.max_linkhdr : Int) ≤ (K.MLEN : Int))
    (hover : (K.MHLEN : Int) < (K.max_linkhdr : Int) + off)
    (hK : K.MHLEN ≤ K.MLEN) (hK2 : K.MLEN < 4294967296) :
    ∃ r f, m_devget K cl (some (a, d) :: p) mem buf totlen off ifp refs log = some r ∧
      r.ret = [f] ∧ f.m_flags.M_PKTHDR = true ∧ f.m_flags.M_EXT = false ∧
      f.m_data = K.MLEN - K.MHLEN + K.max_linkhdr + off.toNat ∧ f.m_len = totlen.toNat ∧
      f.m_pkthdr.len = totlen ∧ K.MLEN < f.m_data ∧ ¬ Fits K f := by
  have h1 : ¬ (off < 0 ∨ off > (K.MHLEN : Int)) := by omega
  have h2 : ¬ (totlen + off ≥ (K.MINCLSIZE : Int)) := by omega
  have h3 : ¬ (off = 0) := by omega
  have hmin : u_int_min totlen ((K.MHLEN : Int) - (K.max_linkhdr : Int) - off) = totlen :=
    u_int_min_neg _ _ (by omega) (by omega) (by omega)
  have hrun : ∃ mem1, m_devget K cl (some (a, d) :: p) mem buf totlen off ifp refs log =
      some { ret := [{ newHdrNode K a d MT_DATA with
                        m_data := K.MLEN - K.MHLEN + K.max_linkhdr + off.toNat,
                        m_pkthdr := { pkthdr0 with rcvif := ifp, len := totlen },
                        m_len := totlen.toNat,
                        m_dat := wr d (K.MLEN - K.MHLEN + K.max_linkhdr + off.toNat)
                          ((buf.drop 0).take totlen.toNat) }],
             mem := mem1, pool := p, refs := refs, log := log } := by
    refine ⟨mem, ?_⟩
    simp only [m_devget, if_neg h1, m_devget_loop, m_devget_body, if_pos htot, List.isEmpty_nil,
      m_devget_alloc, if_true, if_neg h2, m_gethdr, if_pos hlink, ne_eq, h3, not_false_eq_true,
      hmin, sub_self, m_devget_loop_done, newHdrNode, newNode, flags0, Bool.false_eq_true,
      if_false, List.nil_append, Nat.zero_add]
  obtain ⟨mem1, hrun⟩ := hrun
  have hpos : 0 ≤ off := by omega
  have hcast : ((off.toNat : Nat) : Int) = off := Int.toNat_of_nonneg hpos
  refine ⟨_, _, hrun, rfl, rfl, rfl, rfl, rfl, rfl, ?_, ?_⟩
  · show K.MLEN < K.MLEN - K.MHLEN + K.max_linkhdr + off.toNat
    omega
  · simp only [Fits, newHdrNode, newNode, flags0, Bool.false_eq_true, if_false, if_true]
    omega

/-! ## Instances and counterexamples -/

/-- Instance of C1 on a header node followed by an external node. -/
theorem m_copydata_reads_range_witness :
    2 + 4 ≤ totalLen [hd0, ex0] ∧
    m_copydata mem0 [hd0, ex0] 2 4 =
      some (((chainBytes mem0 [hd0, ex0]).drop 2).take 4) :=
  ⟨by decide, m_copydata_reads_range mem0 [hd0, ex0] 2 4 (by decide)⟩

/-- Instance of C2 on a header node followed by an external node. -/
theorem m_copyback_after_m_copydata_witness :
    2 + 4 ≤ totalLen [hd0, ex0] ∧
    ∃ buf, m_copydata mem0 [hd0, ex0] 2 4 = some buf ∧
      (m_copyback K0 [hd0, ex0] mem0 pool0 2 4 buf).2.1 = mem0 ∧
      (m_copyback K0 [hd0, ex0] mem0 pool0 2 4 buf).2.2 = pool0 ∧
      chainBytes mem0 (m_copyback K0 [hd0, ex0] mem0 pool0 2 4 buf).1 =
        chainBytes mem0 [hd0, ex0] ∧
      (m_copyback K0 [hd0, ex0] mem0 pool0 2 4 buf).1.map (fun m => m.m_len) =
        [hd0, ex0].map (fun m => m.m_len) ∧
      (m_copyback K0 [hd0, ex0] mem0 pool0 2 4 buf).1.length = [hd0, ex0].length :=
  ⟨by decide, m_copyback_after_m_copydata K0 mem0 pool0 [hd0, ex0] 2 4 (by decide)⟩

/-- C3 at the failing input: a one-node packet of 4 bytes with header length 4,
written at offset 6 with len = 0.  The call appends a zeroed node of 2 bytes, so
the node lengths sum to 6, and leaves the header length at 4, not at
max(4, 6 + 0) = 6.  With len = 3 at the same offset the header length becomes
9 = max(4, 6 + 3). -/
theorem m_copyback_len0_past_end :
    hd0.m_flags.M_PKTHDR = true ∧ hd0.m_pkthdr.len = (totalLen [hd0] : Int) ∧
    (m_copyback K0 [hd0] mem0 pool0 6 0 []).1.map (fun m => m.m_len) = [4, 2] ∧
    (m_copyback K0 [hd0] mem0 pool0 6 0 []).1.map (fun m => m.m_pkthdr.len) = [4, 0] ∧
    max hd0.m_pkthdr.len ((6 + 0 : Nat) : Int) = 6 ∧
    (m_copyback K0 [hd0] mem0 pool0 6 3 [1, 2, 3]).1.map (fun m => m.m_len) = [4, 5] ∧
    (m_copyback K0 [hd0] mem0 pool0 6 3 [1, 2, 3]).1.map (fun m => m.m_pkthdr.len) = [9, 0] := by
  decide

/-- C4 as stated fails: a header node with one byte whose header length says 5,
copied with off = 0 and len = M_COPYALL, gives a chain of one node of length 1
whose header length is 5. -/
theorem m_copym_copyall_header_counterexample :
    ∃ r, m_copym K0 find0 true [hd1] 0 K0.M_COPYALL refs0 pool0 [] = some r ∧
      r.top.map (fun n => (n.m_flags.M_PKTHDR, n.m_pkthdr.len)) = [(true, 5)] ∧
      totalLen r.top = 1 := by
  refine ⟨_, rfl, ?_, ?_⟩ <;> decide

/-- Instance of the amended C4: two bytes from offset 3 of a header node
followed by an external node. -/
theorem m_copym_content_witness :
    (ChainFits K0 [hd0, ex0] ∧ totalLen [hd0, ex0] < K0.M_COPYALL ∧
      allocOK pool0 [hd0, ex0].length = true ∧ 3 + 2 ≤ totalLen [hd0, ex0]) ∧
    ∃ r, m_copym K0 find0 true [hd0, ex0] 3 2 refs0 pool0 [] = some r ∧
      chainBytes mem0 r.top =
        (if 2 = K0.M_COPYALL then (chainBytes mem0 [hd0, ex0]).drop 3
         else ((chainBytes mem0 [hd0, ex0]).drop 3).take 2) ∧
      chainBytes mem0 r.src = chainBytes mem0 [hd0, ex0] ∧
      r.src.map (fun m => m.m_len) = [hd0, ex0].map (fun m => m.m_len) ∧
      (3 = 0 → ∀ m0 ms, [hd0, ex0] = m0 :: ms → m0.m_flags.M_PKTHDR = true →
        (2 = K0.M_COPYALL → m0.m_pkthdr.len = (totalLen [hd0, ex0] : Int)) →
        ∃ n ns, r.top = n :: ns ∧ n.m_flags.M_PKTHDR = true ∧
          n.m_pkthdr.len = (totalLen r.top : Int)) :=
  ⟨by decide, m_copym_content K0 find0 mem0 [hd0, ex0] 3 2 refs0 pool0 []
    (List.cons_ne_nil _ _) (by decide) (by decide) (by decide) (by decide)
    (Or.inr (by decide))⟩



/-- Instance of C5: the copy of bytes 3 .. 5 of a header node followed by an
external node, which takes the last byte of the first and the first byte of
the second. -/
theorem m_copym_refcounts_witness :
    (ChainFits K0 [hd0, ex0] ∧ totalLen [hd0, ex0] < K0.M_COPYALL ∧
      LazyUnshared find0 [hd0, ex0] ∧ allocOK pool0 [hd0, ex0].length = true ∧
      3 + 2 ≤ totalLen [hd0, ex0]) ∧
    ∃ r, m_copym K0 find0 true [hd0, ex0] 3 2 refs0 pool0 [] = some r ∧
      totalLen r.top = (if 2 = K0.M_COPYALL then totalLen [hd0, ex0] - 3 else 2) ∧
      (3 < totalLen [hd0, ex0] → r.top ≠ []) ∧
      ∃ pre cov rest, [hd0, ex0] = pre ++ cov ++ rest ∧ totalLen pre ≤ 3 ∧
        Pieces (3 - totalLen pre) cov r.top ∧
        SharesAll find0 (3 - totalLen pre) cov r.top ∧
        ∀ a, r.refs a = effRef find0 cov refs0 a + extCount find0 a r.top :=
  ⟨⟨by decide, by decide, by decide, by decide, by decide⟩,
    m_copym_refcounts K0 find0 [hd0, ex0] 3 2 refs0 pool0 []
      (List.cons_ne_nil _ _) (by decide) (by decide) (by decide) (by decide) (by decide)
      (Or.inr (by decide))⟩

/-- The copy of C5's instance, evaluated: two nodes of one byte each, the
second sharing the buffer of the external node through the counter at 7,
which goes from 1 to 2. -/
theorem m_copym_refcounts_values :
    (m_copym K0 find0 true [hd0, ex0] 3 2 refs0 pool0 []).map
        (fun r => r.top.map (fun n => (n.m_len, n.m_flags.M_EXT, n.m_data)))
      = some [(1, false, 0), (1, true, 1000)] ∧
    (m_copym K0 find0 true [hd0, ex0] 3 2 refs0 pool0 []).map
        (fun r => r.top.map (fun n => (n.m_ext.ext_buf, n.m_ext.ref_cnt)))
      = some [(0, none), (1000, some 7)] ∧
    (m_copym K0 find0 true [hd0, ex0] 3 2 refs0 pool0 []).map
        (fun r => (r.refs 7, r.refs 8)) = some (2, 1) := by
  decide

/-- Instance of C6 on the scenario of the specification: A and its copy A2
share the counter at 7, which holds 2. -/
theorem mb_free_ext_teardown_once_witness :
    (1 ≤ scenPair.1.length ∧ (∀ n, n ∈ scenPair.1 → n.m_ext.ref_cnt = some 7) ∧
      scenPair.2 7 = scenPair.1.length ∧ scenPair.1.length < 4294967296) ∧
    ((∀ j, j < scenPair.1.length →
        teardowns (mb_free_ext_seq (scenPair.1.take j) scenPair.2 []).2 = 0) ∧
      teardowns (mb_free_ext_seq scenPair.1 scenPair.2 []).2 = 1) :=
  ⟨⟨by decide, by decide, by decide, by decide⟩,
    mb_free_ext_teardown_once scenPair.1 scenPair.2 7 (by decide) (by decide) (by decide)
      (by decide)⟩

/-- C7 as stated fails: a cluster node as the packet zone hands it out, its
counter not assigned yet, holding 3 bytes, followed by an external node.  The
copy of the first node assigns the counter embedded with the cluster, the
second allocation fails, and the call returns NULL with the one node it got
freed; the first node of the source now names the counter, which it did not
before the call. -/
theorem m_copym_failure_atomic_counterexample :
    [cl3, ex0].map (fun m => m.m_ext.ref_cnt) = [none, some 7] ∧
    (m_copym K0 find0 true [cl3, ex0] 0 6 refs0 [some (200, fun _ => 7), none] []).map
        (fun r => (r.top.length, r.log, r.src.map (fun m => m.m_ext.ref_cnt)))
      = some (0, [Event.zfree_mbuf 200], [some (find0 cl3.m_ext.ext_buf), some 7]) := by
  decide

/-- Instance of the amended C7: the copy of a cluster node without counter
followed by an external node when the second allocation fails. -/
theorem m_copym_failure_atomic_witness :
    (ChainFits K0 [cl3, ex0] ∧ LazyUnshared find0 [cl3, ex0] ∧
      (∀ a, refs0 a + [cl3, ex0].length + 1 < 4294967296) ∧ 0 + 6 ≤ totalLen [cl3, ex0]) ∧
    ∃ r used,
      m_copym K0 find0 true [cl3, ex0] 0 6 refs0 [some (200, fun _ => 7), none] [] = some r ∧
      [some (200, fun _ => 7), none] = used ++ r.pool ∧
      (r.top ≠ [] → used.all Option.isSome = true ∧
        (m_copym_copyhdr [cl3, ex0] 0 = true → true = true)) ∧
      List.Forall₂ (fun m m' => m' = m ∨ (isLazy m = true ∧
        m' = { m with m_ext := { m.m_ext with ref_cnt := some (find0 m.m_ext.ext_buf) } }))
        [cl3, ex0] r.src ∧
      (r.top = [] →
        r.log = [] ++ (poolAddrs used).map Event.zfree_mbuf ∧
        teardowns r.log = teardowns [] ∧
        ∀ a, r.refs a = refs0 a ∨
          (r.refs a = 1 ∧ ∃ m, m ∈ [cl3, ex0] ∧ isLazy m = true ∧ find0 m.m_ext.ext_buf = a)) ∧
      ((∀ m, m ∈ [cl3, ex0] → isLazy m = false) →
        r.src = [cl3, ex0] ∧ (r.top = [] → ∀ a, r.refs a = refs0 a)) :=
  ⟨⟨by decide, by decide, fun _ => (by decide : (1 : Nat) + 2 + 1 < 4294967296), by decide⟩,
    m_copym_failure_atomic K0 find0 true [cl3, ex0] 0 6 refs0 [some (200, fun _ => 7), none] []
      (List.cons_ne_nil _ _) (by decide) (by decide) (fun _ _ _ _ _ => Nat.le_refl 1)
      (fun _ => (by decide : (1 : Nat) + 2 + 1 < 4294967296)) (Or.inr (by decide))⟩


/-- C9 at the failing input: a packet of an inline header node (4 bytes) and an
inline node of 200 bytes, header length 204, split at 14 when the first
allocation succeeds and the second (made by the recursive call, since 190 bytes
of a non-external node lie after the split point and MHLEN is 176) fails.  The
call returns NULL and frees the node it allocated, the nodes keep their
lengths, but the header length of the chain is left at 14 instead of 204. -/
theorem m_split_failure_header :
    ChainFits K0 [hd204, big0] ∧ hd204.m_pkthdr.len = (totalLen [hd204, big0] : Int) ∧
    (m_split K0 find0 [some (200, fun _ => 7), none] [hd204, big0] 14 refs0 []).map
        (fun r => (r.tail.length, r.head.map (fun m => m.m_len),
          r.head.map (fun m => m.m_pkthdr.len), r.log)) =
      some (0, [4, 200], [14, 0], [Event.zfree_mbuf 200]) := by
  decide

/-- Instance of C8: the packet of 204 bytes split at 14, which takes the
recursive path. -/
theorem m_split_partitions_witness :
    (K0.MHLEN ≤ K0.MLEN ∧ hd204.m_flags.M_PKTHDR = true ∧ ChainFits K0 [hd204, big0] ∧
      hd204.m_pkthdr.len = (totalLen [hd204, big0] : Int) ∧ 14 ≤ totalLen [hd204, big0] ∧
      allocOK pool0 2 = true) ∧
    ∃ r h hs t ts, m_split K0 find0 pool0 [hd204, big0] 14 refs0 [] = some r ∧
      r.head = h :: hs ∧ r.tail = t :: ts ∧
      chainBytes mem0 r.head = (chainBytes mem0 [hd204, big0]).take 14 ∧
      chainBytes mem0 r.tail = (chainBytes mem0 [hd204, big0]).drop 14 ∧
      h.m_flags.M_PKTHDR = true ∧ h.m_pkthdr.len = ((14 : Nat) : Int) ∧
      h.m_pkthdr.len = (totalLen r.head : Int) ∧
      t.m_flags.M_PKTHDR = true ∧ t.m_pkthdr.len = hd204.m_pkthdr.len - ((14 : Nat) : Int) ∧
      t.m_pkthdr.len = (totalLen r.tail : Int) ∧
      t.m_pkthdr.rcvif = hd204.m_pkthdr.rcvif :=
  ⟨by decide, m_split_partitions K0 find0 mem0 pool0 hd204 [big0] 14 refs0 []
    (by decide) (by decide) (by decide) (by decide) (by decide) (by decide)⟩

/-- Instance of C10: the packet of 204 bytes split at 14 and joined again. -/
theorem m_split_then_m_cat_witness :
    (K0.MHLEN ≤ K0.MLEN ∧ ChainFits K0 [hd204, big0]) ∧
    ∃ r, m_split K0 find0 pool0 [hd204, big0] 14 refs0 [] = some r ∧
      (r.tail ≠ [] →
        totalLen r.head + totalLen r.tail = totalLen [hd204, big0] ∧
        ∃ r2, m_cat K0 mem0 r.head r.tail r.refs r.log = some r2 ∧
          chainBytes mem0 r2.1 = chainBytes mem0 [hd204, big0] ∧
          totalLen r2.1 = totalLen [hd204, big0]) :=
  ⟨by decide, m_split_then_m_cat K0 find0 mem0 pool0 [hd204, big0] 14 refs0 []
    (by decide) (by decide)⟩

/-- The transfer of the header of `hd0` to a fresh node. -/
theorem m_move_pkthdr_transfers_witness :
    hd0.m_flags.M_PKTHDR = true ∧
      (m_move_pkthdr K0 (newNode 200 (fun _ => 7) 1) hd0).1.m_pkthdr = hd0.m_pkthdr ∧
      (m_move_pkthdr K0 (newNode 200 (fun _ => 7) 1) hd0).2.m_flags.M_PKTHDR = false ∧
      mbytes mem0 (m_move_pkthdr K0 (newNode 200 (fun _ => 7) 1) hd0).2 = mbytes mem0 hd0 :=
  ⟨by decide,
   (m_move_pkthdr_transfers K0 mem0 (newNode 200 (fun _ => 7) 1) hd0 (by decide)).1,
   (m_move_pkthdr_transfers K0 mem0 (newNode 200 (fun _ => 7) 1) hd0 (by decide)).2.2.2.1,
   (m_move_pkthdr_transfers K0 mem0 (newNode 200 (fun _ => 7) 1) hd0
      (by decide)).2.2.2.2.2.2.2.2.2⟩

/-- C16 fails for the header node `hd0` and a fresh node `to`: the copy of the
tags fails, `m_dup_pkthdr` returns 0, and `to` has `M_PKTHDR` set. -/
theorem m_dup_pkthdr_failure_counterexample :
    hd0.m_flags.M_PKTHDR = true ∧
      (m_dup_pkthdr K0 (newNode 200 (fun _ => 7) 1) hd0 false).2 = false ∧
      ¬ ((m_dup_pkthdr K0 (newNode 200 (fun _ => 7) 1) hd0 false).1.m_flags.M_PKTHDR
          = false) := by
  decide

/-- The failed duplication of the header of `hd0` into a fresh node. -/
theorem m_dup_pkthdr_failure_witness :
    hd0.m_flags.M_PKTHDR = true ∧
      (m_dup_pkthdr K0 (newNode 200 (fun _ => 7) 1) hd0 false).2 = false ∧
      (m_dup_pkthdr K0 (newNode 200 (fun _ => 7) 1) hd0 false).1.m_flags.M_PKTHDR = true :=
  ⟨by decide,
   (m_dup_pkthdr_failure K0 (newNode 200 (fun _ => 7) 1) hd0 (by decide)).1,
   (m_dup_pkthdr_failure K0 (newNode 200 (fun _ => 7) 1) hd0 (by decide)).2.1⟩

/-- C12 fails for `len = 5000` with `MCLBYTES = 2048`: the three nodes `m_getm`
returns have length 0 each, not 2048, 2048 and 904, and their lengths sum to
0, not to 5000. -/
theorem m_getm_node_lengths_counterexample :
    allocOK pool0 3 = true ∧
      (m_getm K0 cl0 pool0 [] 5000 1 refs0 []).top.map (fun n => n.m_len) = [0, 0, 0] ∧
      ¬ ((m_getm K0 cl0 pool0 [] 5000 1 refs0 []).top.map (fun n => n.m_len)
          = [2048, 2048, 904]) ∧
      ¬ (totalLen (m_getm K0 cl0 pool0 [] 5000 1 refs0 []).top = 5000) := by
  decide

/-- The chain `m_getm` builds for `len = 5000`. -/
theorem m_getm_node_lengths_witness :
    0 < 5000 ∧ 0 < K0.MCLBYTES ∧
      allocOK pool0 ((5000 + K0.MCLBYTES - 1) / K0.MCLBYTES) = true ∧
      ∃ full last, (m_getm K0 cl0 pool0 [] 5000 1 refs0 []).top = full ++ last ∧
        (full ++ last).length = (5000 + K0.MCLBYTES - 1) / K0.MCLBYTES ∧
        totalLen (full ++ last) = 0 :=
  ⟨by decide, by decide, by decide,
   match m_getm_node_lengths K0 cl0 pool0 5000 1 refs0 [] (by decide) (by decide)
      (by decide) with
   | ⟨full, last, h1, h2, _, _, _, _, h7, _⟩ => ⟨full, last, h1, h2, h7⟩⟩

/-- The third allocation of `m_getm(m, 5000)` fails: the two nodes got before
go back to the packet zone and the chain `[hd0]` is as it was. -/
theorem m_getm_failure_atomic_witness :
    ([none] = ([] : Pool) ∨ ∃ rest, [none] = (none : Option (Nat × Store)) :: rest) ∧
      [((200 : Nat), (fun _ => 7 : Store)), (300, fun _ => 8)].length
        < 5000 / K0.MCLBYTES + (if 5000 % K0.MCLBYTES > 0 then 1 else 0) ∧
      (m_getm K0 cl0 ([((200 : Nat), (fun _ => 7 : Store)), (300, fun _ => 8)].map some ++ [none])
          [hd0] 5000 1 refs0 []).top = [] ∧
      (m_getm K0 cl0 ([((200 : Nat), (fun _ => 7 : Store)), (300, fun _ => 8)].map some ++ [none])
          [hd0] 5000 1 refs0 []).chain = [hd0] ∧
      (m_getm K0 cl0 ([((200 : Nat), (fun _ => 7 : Store)), (300, fun _ => 8)].map some ++ [none])
          [hd0] 5000 1 refs0 []).log
        = [] ++ [((200 : Nat), (fun _ => 7 : Store)), (300, fun _ => 8)].map
            (fun x => Event.zfree_pack x.1) :=
  ⟨Or.inr ⟨[], rfl⟩, by decide,
   (m_getm_failure_atomic K0 cl0 [(200, fun _ => 7), (300, fun _ => 8)] [none] [hd0] 5000 1
      refs0 [] (Or.inr ⟨[], rfl⟩) (by decide)).1,
   (m_getm_failure_atomic K0 cl0 [(200, fun _ => 7), (300, fun _ => 8)] [none] [hd0] 5000 1
      refs0 [] (Or.inr ⟨[], rfl⟩) (by decide)).2.1,
   (m_getm_failure_atomic K0 cl0 [(200, fun _ => 7), (300, fun _ => 8)] [none] [hd0] 5000 1
      refs0 [] (Or.inr ⟨[], rfl⟩) (by decide)).2.2.2.1⟩

/-- Attaching a driver buffer to a fresh node: without a counter the node stays
without `M_EXT`, with the counter at 77 it gets `M_EXT`. -/
theorem m_extadd_sets_ext_iff_counter_witness :
    (m_extadd find0 none refs0 (newNode 200 (fun _ => 7) 1) 1000 100 77 0 flags0
        EXT_NET_DRV).1.m_flags.M_EXT = false ∧
      ∃ r, (m_extadd find0 (some 77) refs0 (newNode 200 (fun _ => 7) 1) 1000 100 77 0 flags0
          EXT_NET_DRV).1.m_ext.ref_cnt = some r ∧
        (m_extadd find0 (some 77) refs0 (newNode 200 (fun _ => 7) 1) 1000 100 77 0 flags0
          EXT_NET_DRV).2 r = 1 :=
  ⟨((m_extadd_sets_ext_iff_counter find0 none refs0 (newNode 200 (fun _ => 7) 1) 1000 100 77 0
      flags0 EXT_NET_DRV).1 (by decide) (by decide) rfl).2.2.2 rfl,
   match (m_extadd_sets_ext_iff_counter find0 (some 77) refs0 (newNode 200 (fun _ => 7) 1)
      1000 100 77 0 flags0 EXT_NET_DRV).2 (Or.inr (Or.inr rfl)) with
   | ⟨r, h1, h2, _⟩ => ⟨r, h1, h2⟩⟩

/-- C20 as stated fails at `k = 2^31`: the trim amount `-k` is `INT_MIN`, an
`int`, and `len = -len` overflows, so the call has no defined outcome (as
compiled it leaves the last node with a negative length and frees nothing),
while the trim by `2^31 - 1` empties the chain as the claim says. -/
theorem m_adj_tail_trim_counterexample :
    (chain50.map (fun n => (n.m_flags.M_PKTHDR, n.m_len, n.m_pkthdr.len))
        = [(true, 20, 50), (false, 24, 0), (false, 6, 0)]) ∧
      (m_adj chain50 (-2147483648) refs0 []).isNone = true ∧
      (m_adj chain50 (-2147483647) refs0 []).map
          (fun r => r.1.map (fun n => (n.m_len, n.m_pkthdr.len))) = some [(0, 0)] := by
  decide

/-- Instance of the amended C20, the scenario of the specification: the chain
of 20 + 24 + 6 bytes trimmed by -10, a cut across the last two nodes. -/
theorem m_adj_tail_trim_witness :
    (0 < 10 ∧ 10 < 2147483648 ∧ totalLen chain50 = 50) ∧
    ∃ r, m_adj chain50 (-((10 : Nat) : Int)) refs0 [] = some r ∧
      chainBytes mem0 r.1
        = (chainBytes mem0 chain50).take (totalLen chain50 - min 10 (totalLen chain50)) ∧
      totalLen r.1 = totalLen chain50 - min 10 (totalLen chain50) ∧
      ∀ m0 ms, chain50 = m0 :: ms → ∃ h hs, r.1 = h :: hs ∧
        h.m_flags = m0.m_flags ∧
        (m0.m_flags.M_PKTHDR = true → h.m_pkthdr.len = (totalLen r.1 : Int)) :=
  ⟨by decide,
   m_adj_tail_trim mem0 chain50 10 refs0 [] (by decide) (by decide)
      (fun _ _ e _ => by cases e; rfl)⟩

set_option maxRecDepth 100000 in
/-- C17 at the chain `[hdfull, empty0]`, a header node whose 176 bytes make the
header length, followed by a node without data: the one new node is full when
the data ends, the inner loop of `m_dup` stops on the empty node, and the
assertion `(remain > 0 && m != NULL) || (remain == 0 && m == NULL)` fails with
`remain = 0` and `m` not NULL.  Without the empty node `m_dup` returns the
copy.  `m_adj(chain186, -10)` makes such a chain: it empties the last node and
leaves it linked. -/
theorem m_dup_trailing_empty_node :
    ChainFits K0 [hdfull, empty0] ∧
      hdfull.m_pkthdr.len = (totalLen [hdfull, empty0] : Int) ∧
      allocOK pool0 3 = true ∧
      (m_dup K0 cl0 true pool0 [hdfull, empty0] mem0 refs0 []).isNone = true ∧
      (m_dup_fill K0.MHLEN [hdfull, empty0] 0
          { (m_dup_pkthdr K0 (newNode 200 (fun _ => 7) 1) hdfull true).1 with m_len := 0 }
          mem0 176).2.2.2.2 = 0 ∧
      ((m_dup_fill K0.MHLEN [hdfull, empty0] 0
          { (m_dup_pkthdr K0 (newNode 200 (fun _ => 7) 1) hdfull true).1 with m_len := 0 }
          mem0 176).2.2.1.map (fun n => n.addr)) = [110] ∧
      (m_dup K0 cl0 true pool0 [hdfull] mem0 refs0 []).map
          (fun r => (chainBytes r.mem r.top, r.top.map (fun n => n.m_pkthdr.len)))
        = some (chainBytes mem0 [hdfull], [176]) ∧
      (m_adj chain186 (-10) refs0 []).map
          (fun r => r.1.map (fun n => (n.m_len, n.m_pkthdr.len)))
        = some [(176, 176), (0, 0)] ∧
      (m_adj chain186 (-10) refs0 []).map
          (fun r => (m_dup K0 cl0 true pool0 r.1 mem0 refs0 []).isNone)
        = some true := by
  decide

/-- C18 at a destination of one writable header node and the source `[src8]`,
`off = 1`, `len = 2`.  Appending to `[hd0]`, which has room for the two bytes:
the first loop ends with `z == NULL`, `mm = prep ? m : z` is NULL, and
`M_TRAILINGSPACE(mm)` uses it.  Prepending to `[hdlead]`, which has 20 bytes of
leading space: `m_bcopyxxx(arg, t, len)` copies from `arg`, the destination,
to the source chain, so the result starts with the bytes 108, 109 that were
in the leading space, not with the bytes 101, 102 of the source, and the
source now holds 108, 109 in their place. -/
theorem m_copymdata_shortcuts_fail :
    (∀ rest, (m_copymdata K0 cl0 rest pool0 [hd0] [src8] 1 2 false mem0 refs0 []).isNone
        = true) ∧
      M_WRITABLE refs0 hd0 = true ∧ M_TRAILINGSPACE K0 refs0 hd0 = 172 ∧
      M_WRITABLE refs0 hdlead = true ∧ M_LEADINGSPACE K0 refs0 hdlead = 20 ∧
      ((chainBytes mem0 [src8]).drop 1).take 2 ++ chainBytes mem0 [hdlead]
        = [101, 102, 110, 111, 112, 113] ∧
      (∀ rest, (m_copymdata K0 cl0 rest pool0 [hdlead] [src8] 1 2 true mem0 refs0 []).map
          (fun r => (chainBytes r.mem r.ret, chainBytes r.mem r.src,
            r.ret.map (fun x => x.m_pkthdr.len)))
        = some ([108, 109, 110, 111, 112, 113], [100, 108, 109, 103, 104, 105, 106, 107],
            [6])) := by
  refine ⟨fun rest => ?_, by decide, by decide, by decide, by decide, by decide, fun rest => ?_⟩
  · rfl
  · rfl

/-- C21 fails for the chain of lengths 20, 20, 10, none of them 0: trimmed by
-10 it still has three nodes, the last one of length 0, and trimmed by 20 at
the head it keeps its first node, of length 0. -/
theorem m_adj_keeps_emptied_nodes_counterexample :
    (∀ n ∈ chain2010, n.m_len ≠ 0) ∧
      (m_adj chain2010 (-10) refs0 []).map (fun r => r.1.map (fun n => n.m_len))
        = some [20, 20, 0] ∧
      ¬ ((m_adj chain2010 (-10) refs0 []).map (fun r => r.1.length) = some 2) ∧
      (m_adj chain2010 20 refs0 []).map (fun r => r.1.map (fun n => n.m_len))
        = some [0, 20, 10] := by
  decide

/-- The trim of `chain2010` by -10, the length of its last node: the three
nodes stay linked. -/
theorem m_adj_keeps_emptied_nodes_witness :
    (∃ r, m_adj chain2010 (-((10 : Nat) : Int)) refs0 [] = some r ∧
        r.1.map (fun n => n.addr) = chain2010.map (fun n => n.addr) ∧
        r.2 = (refs0, [])) ∧
      (∃ r, m_adj chain2010 ((10 : Nat) : Int) refs0 [] = some r ∧
        r.1.map (fun n => n.addr) = chain2010.map (fun n => n.addr) ∧ r.2 = (refs0, [])) :=
  ⟨(((m_adj_keeps_emptied_nodes chain2010 10 refs0 []).2.1 _ _ rfl (by decide) (by decide)
      (by decide)).imp fun _ h => ⟨h.1, h.2.1, h.2.2.1⟩),
   (m_adj_keeps_emptied_nodes chain2010 10 refs0 []).1⟩

/-- C28 at the chain `[hdempty]`, one header node without data whose header
length is 4: the node lengths sum to 0, so `pktlen` is 0, the test
`pktlen && pktlen != m0->m_pkthdr.len` is false, and `m_sanity(m0, 0)` returns
1 although the header length is not the sum of the node lengths.  With one
byte of data and header length 5 the same test rejects the chain. -/
theorem m_sanity_strict_empty_chain :
    hdempty.m_flags.M_PKTHDR = true ∧ hdempty.m_pkthdr.len = 4 ∧ totalLen [hdempty] = 0 ∧
      (m_sanity K0 pkt0 [hdempty] false refs0 []).ret = true ∧
      hd1.m_pkthdr.len = 5 ∧ totalLen [hd1] = 1 ∧
      (m_sanity K0 pkt0 [hd1] false refs0 []).ret = false := by
  decide

/-- C29 fails for the chain `[hd1, nextpkt0]`, whose header length is 5 for 3
bytes and whose second node has `m_nextpkt` set: `m_sanity(m0, 1)` returns 1
and leaves the header length 0, not 3, and `m_nextpkt = 0xDEADC0DE`, not NULL,
and `m_sanity(m0, 0)` then returns 0.  It fails too for a chain with the right
header length whose second node is of kind `MT_HEADER` with `M_PKTHDR`: the
repair removes the flag after the kind has been checked. -/
theorem m_sanity_repair_counterexample :
    (m_sanity K0 pkt0 [hd1, nextpkt0] true refs0 []).ret = true ∧
      totalLen [hd1, nextpkt0] = 3 ∧
      (m_sanity K0 pkt0 [hd1, nextpkt0] true refs0 []).chain.map
          (fun n => (n.m_pkthdr.len, n.m_nextpkt)) = [(0, 0), (0, 3735929054)] ∧
      (m_sanity K0 pkt0 (m_sanity K0 pkt0 [hd1, nextpkt0] true refs0 []).chain false
          refs0 []).ret = false ∧
      (m_sanity K0 pkt0 [{ hd0 with m_pkthdr := { hd0.m_pkthdr with len := 7 } }, hdkind]
          true refs0 []).ret = true ∧
      (m_sanity K0 pkt0
          (m_sanity K0 pkt0 [{ hd0 with m_pkthdr := { hd0.m_pkthdr with len := 7 } }, hdkind]
            true refs0 []).chain false refs0 []).ret = false := by
  decide

/-- Instance of C29 as the code has it, on the chain `[hd1, nextpkt0]`, whose
nodes pass the pointer checks: the repair returns 1 and leaves the second node
repaired. -/
theorem m_sanity_repair_witness :
    (K0.MHLEN ≤ K0.MLEN ∧ ∀ m, m ∈ [hd1, nextpkt0] → sanity_range K0 m = true) ∧
      (m_sanity K0 pkt0 [hd1, nextpkt0] true refs0 []).ret = true ∧
      (m_sanity K0 pkt0 [hd1, nextpkt0] true refs0 []).chain.tail
        = [hd1, nextpkt0].tail.map (sanity_fix false) :=
  ⟨by decide,
   (m_sanity_repair K0 pkt0 pkt0 [hd1, nextpkt0] refs0 refs0 [] [] (by decide)).1.2
      (by decide),
   ((m_sanity_repair K0 pkt0 pkt0 [hd1, nextpkt0] refs0 refs0 [] [] (by decide)).2
      (by decide)).2.1⟩

/-- C24 as stated fails: `m_bcopyxxx`, the function this file hands to
`m_apply`, called with a source that holds the byte 9, over bytes 1 and 2 of
the chain `[src8]`: `m_apply` returns 0 and the chain holds 9, 9 in place of
101, 102. -/
theorem m_apply_visits_range_counterexample :
    chainBytes mem0 [src8] = [100, 101, 102, 103, 104, 105, 106, 107] ∧
      (m_apply (m_bcopyxxx false (fun _ => 9) 0) [src8] 1 2 () mem0).map
          (fun r => (r.1, chainBytes r.2.2.2 r.2.2.1))
        = some (0, [100, 9, 9, 103, 104, 105, 106, 107]) := by
  decide

/-- Instance of the amended C24: the bytes 15 to 35 of `chain50`, which lie in
its first two nodes. -/
theorem m_apply_visits_range_witness :
    15 + 20 ≤ totalLen chain50 ∧
      ∃ (pre : Chain) (calls : List (mbuf × Nat × Nat)) (rest : Chain),
        chain50 = pre ++ calls.map (fun x => x.1) ++ rest ∧
        (calls.map (fun x => rd (storeOf mem0 x.1) x.2.1 x.2.2)).flatten
          = ((chainBytes mem0 chain50).drop 15).take 20 ∧
        ∀ (σ : Type) (f : Visitor σ) (s : σ) (mem1 : Store),
          m_apply f chain50 15 20 s mem1
            = some ((runVisits f calls s mem1).1, (runVisits f calls s mem1).2.1,
                pre ++ (runVisits f calls s mem1).2.2.1
                  ++ (calls.map (fun x => x.1)).drop (runVisits f calls s mem1).2.2.1.length
                  ++ rest,
                (runVisits f calls s mem1).2.2.2) :=
  ⟨by decide,
   match m_apply_visits_range mem0 chain50 15 20 (by decide) with
   | ⟨pre, calls, rest, h0, h1, _, h4, _⟩ => ⟨pre, calls, rest, h0, h1, h4⟩⟩

/-- A function that counts its calls and returns 7 at the second: over the
bytes 15 to 47 of `chain50`, which lie in three nodes, `m_apply` returns 7
after two calls, of 5 and of 24 bytes. -/
theorem m_apply_stops_at_nonzero :
    (m_apply (readOnly (fun (s : List Nat) _ _ c _ =>
        ((if s.length = 1 then 7 else 0 : Int), s ++ [c]))) chain50 15 32 [] mem0).map
      (fun r => (r.1, r.2.1)) = some (7, [5, 24]) := by
  decide

/-- C22 fails for the chain `[big0]`, one node without cluster holding 200
bytes, and `len = 190`: the node has no successor, so `m_pullup` goes to
allocate a node, finds `len > MHLEN`, frees the chain and returns NULL,
although the pool has a node to give. -/
theorem m_pullup_success_counterexample :
    totalLen [big0] = 200 ∧ allocOK pool0 1 = true ∧ K0.MHLEN = 176 ∧
      (m_pullup K0 mem0 pool0 [big0] 190 refs0 []).map
          (fun r => (r.ret.length, released r.log)) = some (0, [600]) := by
  decide

/-- Pulling up 10 bytes of the 4 + 8 bytes of `[hd0, src8]`. -/
theorem m_pullup_success_witness :
    K0.MHLEN ≤ K0.MLEN ∧ 10 ≤ totalLen (hd0 :: [src8]) ∧ allocOK pool0 1 = true ∧
      ∃ r h t, m_pullup K0 mem0 pool0 (hd0 :: [src8]) 10 refs0 [] = some r ∧ r.ret = h :: t ∧
        10 ≤ h.m_len ∧ chainBytes mem0 r.ret = chainBytes mem0 (hd0 :: [src8]) :=
  ⟨by decide, by decide, by decide,
   m_pullup_success K0 mem0 pool0 hd0 [src8] 10 refs0 [] (by decide) (by decide) (by decide)
     (Or.inl (by decide))⟩

/-- Pulling up 13 bytes of the 8 bytes of `[src8]`, a chain of one node: the
call takes the path that allocates, gets the node at 200 from the pool, runs
out of chain and frees the node of the chain and the node it got. -/
theorem m_pullup_failure_releases_witness :
    (K0.MHLEN ≤ K0.MLEN ∧ totalLen (src8 :: []) < 13 ∧
      (m_pullup K0 mem0 pool0 (src8 :: []) 13 refs0 []).map
          (fun r => (r.ret.length, released r.log, r.pool.length))
        = some (0, [src8.addr, 200], 2)) ∧
      ∃ r ev used, m_pullup K0 mem0 pool0 (src8 :: []) 13 refs0 [] = some r ∧ r.ret = [] ∧
        r.log = [] ++ ev ∧ pool0 = used ++ r.pool ∧
        List.Perm (released ev) ((src8 :: []).map (fun n => n.addr) ++ poolAddrs used) :=
  ⟨by decide,
   m_pullup_failure_releases K0 mem0 pool0 src8 [] 13 refs0 [] (by decide)
      (Or.inl (by decide))⟩

/-- Defragmenting the 4 + 8 bytes of `[hd0, src8]`, whose header length says 4. -/
theorem m_defrag_preserves_witness :
    FreshPool K0 cl0 (extRanges (hd0 :: [src8])) pool0 ∧
      allocOK pool0
        (max 1 ((totalLen (hd0 :: [src8]) + K0.MCLBYTES - 1) / K0.MCLBYTES)) = true ∧
      ∃ r f rest, m_defrag K0 cl0 true pool0 (hd0 :: [src8]) mem0 refs0 [] = some r ∧
        r.ret = f :: rest ∧ chainBytes r.mem r.ret = chainBytes mem0 (hd0 :: [src8]) ∧
        f.m_flags.M_PKTHDR = true ∧
        f.m_pkthdr.len = (totalLen (hd0 :: [src8]) : Int) ∧
        f.m_pkthdr.len = (totalLen r.ret : Int) :=
  ⟨by decide, by decide,
   (m_defrag_preserves K0 cl0 true pool0 hd0 [src8] mem0 refs0 [] (by decide) (by decide)
     (by decide) (by decide) (by decide)).1 (by decide)⟩

/-- One node with 2049 bytes in an external buffer of 4096 bytes becomes a
cluster node with 2048 bytes and a node with one byte: two nodes for one. -/
theorem m_defrag_node_count_counterexample :
    ∃ r, m_defrag K0 cl0 true pool0 (jumbo :: []) mem0 refs0 [] = some r ∧
      r.ret.length = 2 ∧ ¬ (r.ret.length ≤ (jumbo :: []).length) := by
  obtain ⟨r, used, new, hr, _, _, _, _, _, hgood, _⟩ :=
    m_defrag_spec K0 cl0 true pool0 jumbo [] mem0 refs0 [] (by decide) (by decide) (by decide)
      (by decide) (by decide)
  obtain ⟨e1, e2, _⟩ := hgood ⟨rfl, by decide⟩
  have e3 : max 1 ((totalLen (jumbo :: []) + K0.MCLBYTES - 1) / K0.MCLBYTES) = 2 := by decide
  rw [e3] at e2
  refine ⟨r, hr, by rw [e1, e2], ?_⟩
  rw [e1, e2]
  decide

/-- The two nodes of `[hd0, src8]` become one. -/
theorem m_defrag_node_count_witness :
    FreshPool K0 cl0 (extRanges (hd0 :: [src8])) pool0 ∧
      (∀ m, m ∈ hd0 :: [src8] → m.m_len ≤ K0.MCLBYTES) ∧
      ∃ r, m_defrag K0 cl0 true pool0 (hd0 :: [src8]) mem0 refs0 [] = some r ∧
        r.ret.length =
          max 1 ((totalLen (hd0 :: [src8]) + K0.MCLBYTES - 1) / K0.MCLBYTES) ∧
        r.ret.length ≤ (hd0 :: [src8]).length :=
  ⟨by decide, by decide,
   m_defrag_node_count K0 cl0 pool0 hd0 [src8] mem0 refs0 [] (by decide) (by decide)
     (by decide) (by decide) (by decide) (by decide) (by decide)⟩

/-- The chain `[hd1]` holds one byte and its header length says 5; the first
allocation fails, and the header length is 1 afterwards. -/
theorem m_defrag_failure_header_length :
    ∃ r, m_defrag K0 cl0 true [none] (hd1 :: []) mem0 refs0 [] = some r ∧ r.ret.length = 0 ∧
      r.src.map (fun m => m.m_pkthdr.len) = [1] ∧
      (hd1 :: []).map (fun m => m.m_pkthdr.len) = [5] :=
  ⟨_, rfl, by decide, by decide, by decide⟩

/-- C27 at the failing input: `[hd1]`, one byte under a header length of 5, and
a first allocation that fails.  The call returns NULL having taken nothing
from the pool, and the chain it leaves is not the chain it was given. -/
theorem m_defrag_all_or_nothing_witness :
    (hd1.m_flags.M_PKTHDR = true ∧ hd1.m_pkthdr.len = 5 ∧ totalLen (hd1 :: []) = 1) ∧
      ∃ r used ev, m_defrag K0 cl0 true [none] (hd1 :: []) mem0 refs0 [] = some r ∧
        r.ret = [] ∧ [none] = used ++ r.pool ∧ r.log = [] ++ ev ∧
        released ev = poolAddrs used ∧
        r.src = set_pkthdr_len hd1 (totalLen (hd1 :: [])) :: [] ∧
        r.src ≠ hd1 :: [] ∧
        chainBytes r.mem (hd1 :: []) = chainBytes mem0 (hd1 :: []) ∧ r.refs = refs0 :=
  ⟨by decide,
   match m_defrag_all_or_nothing K0 cl0 true [none] hd1 [] mem0 refs0 [] (by decide)
      (by decide) (by decide) (by decide) (by decide) (Or.inr (by decide)) with
   | ⟨r, used, ev, h1, h2, h3, h4, h5, h6, _, h8, h9, h10⟩ =>
     ⟨r, used, ev, h1, h2, h3, h4, h5, h6, h8 (by decide), h9, h10⟩⟩

/-- Moving 2048 bytes with `align = 2`: the cluster node holds 2048 bytes from
the third byte of its cluster of 2048 bytes on. -/
theorem m_uiotombuf_overruns_cluster_witness :
    (2 : Nat) < K0.MHLEN ∧ K0.MCLBYTES < m_uiotombuf_total uio2048 0 + 2 ∧
      m_uiotombuf_total uio2048 0 ≤ K0.MCLBYTES ∧
      ∃ r f, m_uiotombuf K0 cl0 pool0 mem0 uio2048 0 2 refs0 [] = some r ∧ r.ret = [f] ∧
        f.m_data = f.m_ext.ext_buf + 2 ∧ f.m_len = 2048 ∧
        f.m_ext.ext_size = 2048 ∧ ¬ Fits K0 f :=
  ⟨by decide, by simp only [uio2048_total]; decide, by simp only [uio2048_total]; decide,
   match m_uiotombuf_overruns_cluster K0 cl0 200 (fun _ => 7)
      [some (300, fun _ => 8), some (400, fun _ => 9)] mem0 uio2048 0 2 refs0 []
      (by decide) (by decide) (by simp only [uio2048_total]; decide)
      (by simp only [uio2048_total]; decide) rfl with
   | ⟨r, f, h1, h2, _, _, h5, h6, h7, h8, _, _, h11⟩ =>
     ⟨r, f, h1, h2, by rw [h7, h5], by rw [h8, uio2048_total], h6, h11⟩⟩

/-- Three bytes to move and a first `uiomove` that fails: the header node at
200 is handed back twice. -/
theorem m_uiotombuf_first_move_fails_witness :
    (0 : Nat) < K0.MHLEN ∧ 0 < m_uiotombuf_total uiofail 0 ∧
      (∃ r ev, m_uiotombuf K0 cl0 pool0 mem0 uiofail 0 0 refs0 [] = some r ∧
        r.ret = [] ∧ r.log = [] ++ ev ∧ released ev = [200, 200]) ∧
      (m_uiotombuf K0 cl0 pool0 mem0 uiofail 0 0 refs0 []).map (fun r => r.log)
        = some [Event.zfree_mbuf 200, Event.zfree_mbuf 200] :=
  ⟨by decide, by decide,
   match m_uiotombuf_first_move_fails K0 cl0 200 (fun _ => 7)
      [some (300, fun _ => 8), some (400, fun _ => 9)] mem0 uiofail [] 0 0 refs0 []
      (by decide) (by decide) rfl with
   | ⟨r, ev, h1, h2, _, h4, h5⟩ => ⟨r, ev, h1, h2, h4, h5⟩,
   by decide⟩

/-- C34 fails for `a = [ex0]`, a node with a cluster, and `b = [hd0]`, a header
node: `m_cat` links `hd0` after `ex0`, and the second node of the chain has
`M_PKTHDR`. -/
theorem m_cat_header_invariant_counterexample :
    (∀ x, x ∈ [ex0].tail → InChain x) ∧ (∀ x, x ∈ [hd0].tail → InChain x) ∧
      hd0.m_flags.M_PKTHDR = true ∧
      (m_cat K0 mem0 [ex0] [hd0] refs0 []).map
          (fun r => r.1.map (fun x => x.m_flags.M_PKTHDR)) = some [false, true] ∧
      (m_cat K0 mem0 [ex0] [hd0] refs0 []).map
          (fun r => r.1.map (fun x => decide (InChain x))) = some [true, false] := by
  decide

/-- The chain `[hd0]` followed by `[src8]`, a node without header. -/
theorem m_cat_header_invariant_witness :
    (∀ x, x ∈ ([] : Chain) → InChain x) ∧ (∀ x, x ∈ [src8].tail → InChain x) ∧
      ∃ r h hs, m_cat K0 mem0 (hd0 :: []) [src8] refs0 [] = some r ∧ r.1 = h :: hs ∧
        h.m_flags = hd0.m_flags ∧ ∀ x, x ∈ hs → InChain x :=
  ⟨by decide, by decide,
   match m_cat_header_invariant K0 mem0 hd0 [] [src8] refs0 [] (by decide) (by decide) with
   | ⟨r, h, hs, h1, h2, h3, h4, _, _⟩ => ⟨r, h, hs, h1, h2, h3, h4 (by decide)⟩⟩

/-- The nodes `m_getm` appends to `[hd0]` for `len = 2100`: a cluster node and
a plain node for the 52 bytes left. -/
theorem m_getm_shape_append_witness :
    0 < K0.MCLBYTES ∧ K0.MINCLSIZE ≤ K0.MLEN ∧
      allocOK pool0 ((2100 + K0.MCLBYTES - 1) / K0.MCLBYTES) = true ∧
      ∃ full last, (m_getm K0 cl0 pool0 [hd0] 2100 1 refs0 []).top = full ++ last ∧
        (full ++ last).length = (2100 + K0.MCLBYTES - 1) / K0.MCLBYTES ∧
        full.length = 2100 / K0.MCLBYTES ∧
        2100 ≤ ((full ++ last).map (m_capacity K0)).sum ∧
        (m_getm K0 cl0 pool0 [hd0] 2100 1 refs0 []).chain = [hd0] ++ (full ++ last) :=
  ⟨by decide, by decide, by decide,
   match m_getm_shape_append K0 cl0 pool0 [hd0] 2100 1 refs0 [] (by decide) (by decide)
      (by decide) with
   | ⟨full, last, h1, h2, h3, _, _, _, h7, h8, _⟩ =>
     ⟨full, last, h1, h2, h3, h7, h8 (List.cons_ne_nil _ _)⟩⟩

/-- Pulling up 10 bytes of the 4 + 8 bytes of `[hd0, src8]` returns one node. -/
theorem m_pullup_partial_witness :
    K0.MHLEN ≤ K0.MLEN ∧ Fits K0 hd0 ∧ (∀ x, x ∈ [src8] → x.m_flags.M_PKTHDR = false) ∧
      (m_pullup K0 mem0 pool0 (hd0 :: [src8]) 10 refs0 []).map (fun r => r.ret.length)
        = some 1 ∧
      ∀ r, m_pullup K0 mem0 pool0 (hd0 :: [src8]) 10 refs0 [] = some r → r.ret ≠ [] →
        ∃ h t, r.ret = h :: t ∧ 10 ≤ h.m_len ∧ h.m_flags.M_EXT = false ∧ Fits K0 h ∧
          h.m_data + h.m_len ≤ K0.MLEN ∧
          chainBytes mem0 r.ret = chainBytes mem0 (hd0 :: [src8]) ∧
          h.m_flags.M_PKTHDR = hd0.m_flags.M_PKTHDR ∧
          (hd0.m_flags.M_PKTHDR = true → h.m_pkthdr = hd0.m_pkthdr) ∧
          ∀ x, x ∈ t → x.m_flags.M_PKTHDR = false :=
  ⟨by decide, by decide, by decide, by decide,
   m_pullup_partial K0 mem0 pool0 hd0 [src8] 10 refs0 [] (by decide) (by decide)
     (by decide)⟩

/-- The copies of `[hdlead, ex0]`, a header node whose data starts 20 bytes
into its data area followed by a node with a cluster: `m_copypacket` keeps the
20 bytes of leading space, `m_copym` does not, and nothing else differs. -/
theorem m_copypacket_agrees_witness :
    hdlead.m_flags.M_PKTHDR = true ∧ ChainFits K0 (hdlead :: [ex0]) ∧ 0 < K0.M_COPYALL ∧
      (∀ x, x ∈ hdlead :: [ex0] → x.m_len ≤ K0.M_COPYALL) ∧
      (∃ r r', m_copypacket K0 find0 true (hdlead :: [ex0]) refs0 pool0 [] = some r ∧
        m_copym K0 find0 true (hdlead :: [ex0]) 0 K0.M_COPYALL refs0 pool0 [] = some r' ∧
        r.src = r'.src ∧ r.refs = r'.refs ∧ r.pool = r'.pool ∧ r.log = r'.log ∧
        ((r.top = [] ∧ r'.top = []) ∨
          ∃ n n' x, r.top = n :: x ∧ r'.top = n' :: x ∧
            (∀ mem, chainBytes mem r.top = chainBytes mem r'.top) ∧
            n.m_data = hdlead.m_data)) ∧
      (m_copypacket K0 find0 true (hdlead :: [ex0]) refs0 pool0 []).map
          (fun r => r.top.map (fun n => (n.m_data, n.m_len))) = some [(60, 4), (1000, 3)] ∧
      (m_copym K0 find0 true (hdlead :: [ex0]) 0 K0.M_COPYALL refs0 pool0 []).map
          (fun r => r.top.map (fun n => (n.m_data, n.m_len))) = some [(40, 4), (1000, 3)] :=
  ⟨by decide, by decide, by decide, by decide,
   match m_copypacket_agrees K0 find0 true hdlead [ex0] refs0 pool0 [] (by decide) (by decide)
      (by decide) (by decide) with
   | ⟨r, r', h1, h2, h3, h4, h5, h6, h7⟩ =>
     ⟨r, r', h1, h2, h3, h4, h5, h6,
      match h7 with
      | Or.inl h => Or.inl h
      | Or.inr ⟨n, n', x, g1, g2, _, _, _, _, _, g8, g9, _, _⟩ =>
        Or.inr ⟨n, n', x, g1, g2, g8, g9⟩⟩,
   by decide, by decide⟩

/-- C36 at `totlen = 5`, `off = 170` and `max_linkhdr = 16`: the packet is
small, `totlen + off + max_linkhdr <= MLEN`, so the data pointer of the header
node is moved by `max_linkhdr` and then by `off`, 186 bytes into a data area
of `MHLEN = 176` bytes; `len` is -10, which `min` takes for a large number, so
the node gets the 5 bytes at offsets 226 to 230 of an array of `MLEN = 216`
bytes.  With `off = 0` the same call is in range. -/
theorem m_devget_data_past_node :
    (0 : Int) ≤ 170 ∧ (170 : Int) ≤ (K0.MHLEN : Int) ∧ K0.max_linkhdr = 16 ∧
      (m_devget K0 cl0 pool0 mem0 buf5 5 170 9 refs0 []).map
          (fun r => r.ret.map
            (fun n => (n.m_data, n.m_len, n.m_pkthdr.len, decide (Fits K0 n))))
        = some [(226, 5, 5, false)] ∧
      (m_devget K0 cl0 pool0 mem0 buf5 5 0 9 refs0 []).map
          (fun r => r.ret.map
            (fun n => (n.m_data, n.m_len, n.m_pkthdr.len, decide (Fits K0 n))))
        = some [(56, 5, 5, true)] := by
  decide

/-- The scenario of the specification, A and its copy A2 sharing the counter
at 7, released by two calls at the same time.  In the interleaving shown both
calls read 2, the first decrements, the compare-and-swap of the second fails
and it goes round its loop, reads 1 and decrements to 0: the teardown runs
once, by the second call. -/
theorem mb_free_ext_concurrent_once_witness :
    (1 ≤ scenPair.1.length ∧ (∀ n, n ∈ scenPair.1 → n.m_ext.ref_cnt = some 7) ∧
      scenPair.2 7 = scenPair.1.length ∧ scenPair.1.length < 4294967296) ∧
    (sys_run [0, 1, 0, 1, 1, 1, 0, 1] (sys_init scenPair.1 scenPair.2)).map
        (fun s => (teardowns s.log, s.refs 7, s.threads.map (fun t => t.pc)))
      = some (1, 0, [FreePc.done, FreePc.done]) ∧
    (sys_run [0, 1, 0, 1] (sys_init scenPair.1 scenPair.2)).map
        (fun s => (teardowns s.log, s.refs 7, s.threads.map (fun t => t.pc)))
      = some (0, 1, [FreePc.free false, FreePc.loop]) ∧
    ∀ sch s, sys_run sch (sys_init scenPair.1 scenPair.2) = some s →
      teardowns s.log ≤ 1 ∧
      ((∀ t, t ∈ s.threads → t.pc = FreePc.done) → teardowns s.log = 1) ∧
      ((∃ t, t ∈ s.threads ∧ t.pc ≠ FreePc.done) → ∃ i s1, sys_step i s = some s1) ∧
      sch.length ≤ 2 * scenPair.1.length * scenPair.1.length + 3 * scenPair.1.length ∧
      s.threads.map (fun t => t.m) = scenPair.1 :=
  ⟨⟨by decide, by decide, by decide, by decide⟩, by decide, by decide,
   mb_free_ext_concurrent_once scenPair.1 scenPair.2 7 (by decide) (by decide) (by decide)
     (by decide)⟩

/-- Five bytes at `off = 170` with `max_linkhdr = 16`: the data of the header
node starts at offset 226 of its array of 216 bytes. -/
theorem m_devget_overruns_node_witness :
    (0 : Int) < 5 ∧ (0 : Int) < 170 ∧ (170 : Int) ≤ (K0.MHLEN : Int) ∧
      (5 : Int) + 170 < (K0.MINCLSIZE : Int) ∧
      (5 : Int) + 170 + (K0.max_linkhdr : Int) ≤ (K0.MLEN : Int) ∧
      (K0.MHLEN : Int) < (K0.max_linkhdr : Int) + 170 ∧
      ∃ r f, m_devget K0 cl0 pool0 mem0 buf5 5 170 9 refs0 [] = some r ∧ r.ret = [f] ∧
        f.m_data = 226 ∧ f.m_len = 5 ∧ K0.MLEN < f.m_data ∧ ¬ Fits K0 f :=
  ⟨by decide, by decide, by decide, by decide, by decide, by decide,
   match m_devget_overruns_node K0 cl0 200 (fun _ => 7)
      [some (300, fun _ => 8), some (400, fun _ => 9)] mem0 buf5 5 170 9 refs0 []
      (by decide) (by decide) (by decide) (by decide) (by decide) (by decide) (by decide)
      (by decide) with
   | ⟨r, f, h1, h2, _, _, h5, h6, _, h8, h9⟩ =>
     ⟨r, f, h1, h2, by rw [h5]; decide, by rw [h6]; decide, h8, h9⟩⟩

end UipcMbuf
